import Mathlib

/-!
# AbortablePromise: a shallow embedding and its verified properties

The program under study is `src/AbortablePromise.mjs`: a subclass of the host
`Promise` that owns (or is handed) an `AbortController` and rejects itself with
an `AbortError` when the controller's signal fires.

The heap of the running program is an explicit `State`:

* promises live in `State.promises`, each with its settlement state, its
  pending reactions and, for an `AbortablePromise`, its `#controller`;
* every pair of resolving functions handed out by the host is a `Resolver`
  (the promise it settles and its shared `alreadyResolved` flag);
* abort controllers live in `State.ctrls` (aborted flag, reason, listeners);
* the microtask queue is `State.jobs`.

The host primitives (`Promise`, `AbortController`) follow the ECMAScript and DOM
algorithms: resolving functions, adoption of a promise passed to `resolve`
(`NewPromiseResolveThenableJob`), reaction jobs, species-derived promises,
the group combinators, and synchronous listener dispatch on `abort`.
User callbacks are pure functions from a value to a result or a thrown value;
user abort handlers are known by identity and their invocations are logged.
-/

namespace JS

/-! ## Values -/

/-- JavaScript values that the program manipulates. `object id t` is a plain
object that is not a promise; `t` tells whether it has a truthy, non-callable
`then` property. `promise id` is a reference to a promise on the heap.
`abortError reason signal` is an `AbortError` built from `reason` and the abort
event dispatched at the signal of controller `signal`. `domAbortError` is the
`DOMException` the host uses as reason when `controller.abort()` gets none.
Arrays are `arrNil`/`arrCons`. -/
inductive Val where
  | undefined
  | null
  | bool (b : Bool)
  | num (n : Int)
  | str (s : String)
  | object (id : Nat) (thenProp : Bool)
  | promise (id : Nat)
  | abortError (reason : Val) (signal : Nat)
  | typeError
  | domAbortError
  | arrNil
  | arrCons (head tail : Val)
  | settledFulfilled (value : Val)
  | settledRejected (reason : Val)
  | aggregateError (errors : Val)
  deriving DecidableEq, Repr

/-- The array value holding the elements of a list. -/
def Val.ofList : List Val → Val
  | [] => .arrNil
  | v :: vs => .arrCons v (Val.ofList vs)

/-- Whether a value is a reference to a promise (the only thenables of the model). -/
def Val.isPromise : Val → Bool
  | .promise _ => true
  | _ => false

/-- The operator `a ?? b`: `b` when `a` is `null` or `undefined`, else `a`. -/
def nullish (a b : Val) : Val :=
  match a with
  | .undefined => b
  | .null => b
  | v => v

/-- Truthiness of `x?.then`: promises inherit the callable `then`; a plain
object has a truthy `then` only when flagged so; `null`, `undefined` and
primitives give `undefined`. -/
def thenTruthy : Val → Bool
  | .promise _ => true
  | .object _ t => t
  | _ => false

/-- JavaScript `String(v)` for the values of the model. -/
def Val.toJsString : Val → String
  | .undefined => "undefined"
  | .null => "null"
  | .bool true => "true"
  | .bool false => "false"
  | .num n => toString n
  | .str s => s
  | .object _ _ => "[object Object]"
  | .promise _ => "[object Promise]"
  | .abortError r _ => "AbortError: " ++ Val.toJsString r
  | .typeError => "TypeError"
  | .domAbortError => "AbortError: signal is aborted without reason"
  | .arrNil => ""
  | .arrCons _ _ => "[array]"
  | .settledFulfilled _ => "[object Object]"
  | .settledRejected _ => "[object Object]"
  | .aggregateError _ => "AggregateError"

/-- Modelled from the spec: `CustomError.mjs` (the `AbortError` class) is not
among the sources. The spec gives `name = "AbortError"` as a fixed literal. -/
def AbortError.name : String := "AbortError"

/-- Modelled from the spec: `CustomError.mjs` (the `AbortError` class) is not
among the sources. The spec gives `message` as the stringified abort reason. -/
def AbortError.message (reason : Val) : String := reason.toJsString

/-- The `message` property of an error value (only `AbortError`s carry one here). -/
def Val.message : Val → Option String
  | .abortError r _ => some (AbortError.message r)
  | _ => none

/-! ## Heap objects -/

/-- Settlement state of a promise. -/
inductive PState where
  | pending
  | fulfilled (v : Val)
  | rejected (e : Val)
  deriving DecidableEq, Repr

/-- A user callback passed to `then`/`catch`/`finally`: it returns a value
(`.ok`) or throws one (`.error`). -/
abbrev Fn := Val → Except Val Val

/-- Function values that the host stores as reaction handlers.
`resolveFn k`/`rejectFn k` are the resolving functions of resolver pair `k`;
`thenFinally`/`catchFinally` are the closures built by `finally` for species
constructor `abortable`; `valueThunk`/`thrower` are their inner closures; the
last four are the element functions of `all`, `allSettled` and `any`. -/
inductive Cb where
  | none
  | user (f : Fn)
  | resolveFn (k : Nat)
  | rejectFn (k : Nat)
  | thenFinally (f : Fn) (abortable : Bool)
  | catchFinally (f : Fn) (abortable : Bool)
  | valueThunk (v : Val)
  | thrower (e : Val)
  | allResolve (a i : Nat)
  | settledResolve (a i : Nat)
  | settledReject (a i : Nat)
  | anyReject (a i : Nat)

/-- A promise reaction: the capability (resolver pair) of the derived promise
and the two handlers. -/
structure Reaction where
  cap : Nat
  onFulfilled : Cb
  onRejected : Cb

/-- Microtasks: a reaction job, or the job that adopts promise `y` into `p`. -/
inductive Job where
  | reaction (r : Reaction) (fulfilled : Bool) (arg : Val)
  | thenable (p y : Nat)

/-- Abort listeners on a signal: a caller's handler (by identity), or the
listener installed by the `AbortablePromise` constructor, which calls the
`reject` of resolver pair `k`. -/
inductive Listener where
  | user (h : Nat)
  | reject (k : Nat)
  deriving DecidableEq, Repr

/-- A promise object. `ctrl` is the private `#controller` of an
`AbortablePromise`, and `none` for a plain `Promise`. -/
structure PromiseRec where
  state : PState
  reactions : List Reaction
  ctrl : Option Nat

/-- A pair of resolving functions with its shared `alreadyResolved` flag. -/
structure Resolver where
  promise : Nat
  alreadyResolved : Bool
  deriving DecidableEq, Repr

/-- An `AbortController` with its signal. -/
structure Controller where
  aborted : Bool
  reason : Val
  listeners : List Listener
  deriving DecidableEq, Repr

/-- Shared record of one call of `all`, `allSettled` or `any`. -/
structure Agg where
  cap : Nat
  values : List Val
  remaining : Nat
  called : List Bool

/-- The heap, the microtask queue and the log of invoked user abort handlers. -/
structure State where
  promises : Nat → PromiseRec
  nextPromise : Nat
  resolvers : Nat → Resolver
  nextResolver : Nat
  ctrls : Nat → Controller
  nextCtrl : Nat
  aggs : Nat → Agg
  nextAgg : Nat
  jobs : List Job
  log : List Nat

/-- Point update of a finite map. -/
def set {α : Type} (m : Nat → α) (i : Nat) (a : α) : Nat → α :=
  fun j => if j = i then a else m j

/-- The empty heap. -/
def State.init : State where
  promises := fun _ => ⟨.pending, [], none⟩
  nextPromise := 0
  resolvers := fun _ => ⟨0, true⟩
  nextResolver := 0
  ctrls := fun _ => ⟨false, .undefined, []⟩
  nextCtrl := 0
  aggs := fun _ => ⟨0, [], 0, []⟩
  nextAgg := 0
  jobs := []
  log := []

/-! ## Host: promise settlement -/

/-- The jobs that deliver a settlement to the pending reactions. -/
def reactionJobs (rs : List Reaction) (fulfilled : Bool) (arg : Val) : List Job :=
  rs.map (fun r => Job.reaction r fulfilled arg)

/-- The host operation `FulfillPromise`. The standard asserts that the promise
is pending; the assertion is kept as a guard. -/
def fulfillPromise (s : State) (p : Nat) (v : Val) : State :=
  match (s.promises p).state with
  | .pending =>
    { s with
      promises := set s.promises p { (s.promises p) with state := .fulfilled v, reactions := [] }
      jobs := s.jobs ++ reactionJobs (s.promises p).reactions true v }
  | _ => s

/-- The host operation `RejectPromise`, guarded like `fulfillPromise`. -/
def rejectPromise (s : State) (p : Nat) (e : Val) : State :=
  match (s.promises p).state with
  | .pending =>
    { s with
      promises := set s.promises p { (s.promises p) with state := .rejected e, reactions := [] }
      jobs := s.jobs ++ reactionJobs (s.promises p).reactions false e }
  | _ => s

/-- Marks resolver pair `k` as already resolved. -/
def markResolved (s : State) (k : Nat) : State :=
  { s with resolvers := set s.resolvers k { (s.resolvers k) with alreadyResolved := true } }

/-- The `reject` function of resolver pair `k`. -/
def rejectFn (s : State) (k : Nat) (e : Val) : State :=
  if (s.resolvers k).alreadyResolved then s
  else rejectPromise (markResolved s k) (s.resolvers k).promise e

/-- The `resolve` function of resolver pair `k`: a promise passed as
resolution is adopted through a microtask, the promise itself is a
`TypeError`, anything else fulfils. -/
def resolveFn (s : State) (k : Nat) (v : Val) : State :=
  if (s.resolvers k).alreadyResolved then s
  else
    let p := (s.resolvers k).promise
    let s1 := markResolved s k
    match v with
    | .promise y =>
      if y = p then rejectPromise s1 p .typeError
      else { s1 with jobs := s1.jobs ++ [Job.thenable p y] }
    | _ => fulfillPromise s1 p v

/-! ## Host: abort controllers -/

/-- The expression `new AbortController()`. -/
def newController (s : State) : State × Nat :=
  ({ s with
     ctrls := set s.ctrls s.nextCtrl ⟨false, .undefined, []⟩
     nextCtrl := s.nextCtrl + 1 }, s.nextCtrl)

/-- The call `signal.addEventListener('abort', l)`: a listener that is already
registered is not added a second time. -/
def addEventListener (s : State) (c : Nat) (l : Listener) : State :=
  if l ∈ (s.ctrls c).listeners then s
  else
    let r : Controller := { (s.ctrls c) with listeners := (s.ctrls c).listeners ++ [l] }
    { s with ctrls := set s.ctrls c r }

/-- The reason a signal stores for `controller.abort(reason)`: the host's
`DOMException` when `reason` is `undefined`. -/
def abortReason (reason : Val) : Val :=
  match reason with
  | .undefined => .domAbortError
  | v => v

/-- Invocation of one abort listener during dispatch at the signal of `c`.
The constructor's listener is
`event => reject(new AbortError(signal.reason, event))`. -/
def runListener (c : Nat) (s : State) (l : Listener) : State :=
  match l with
  | .user h => { s with log := s.log ++ [h] }
  | .reject k => rejectFn s k (.abortError (s.ctrls c).reason c)

/-- The call `controller.abort(reason)`: nothing when the signal is already
aborted; otherwise the signal becomes aborted with the reason (a
`DOMException` when none is given) and the listeners registered at that
moment run synchronously, in registration order. -/
def signalAbort (s : State) (c : Nat) (reason : Val) : State :=
  if (s.ctrls c).aborted then s
  else
    let cr : Controller := { (s.ctrls c) with aborted := true, reason := abortReason reason }
    let s1 := { s with ctrls := set s.ctrls c cr }
    (s.ctrls c).listeners.foldl (runListener c) s1

/-! ## Host: promise construction -/

/-- Allocation of a pending promise together with its resolving functions;
returns the state, the promise and the resolver pair. -/
def newPromise (s : State) : State × Nat × Nat :=
  ({ s with
     promises := set s.promises s.nextPromise ⟨.pending, [], none⟩
     nextPromise := s.nextPromise + 1
     resolvers := set s.resolvers s.nextResolver ⟨s.nextPromise, false⟩
     nextResolver := s.nextResolver + 1 }, s.nextPromise, s.nextResolver)

/-- An executor: given its resolver pair (its `resolve` and `reject`) it acts
on the heap and either returns or throws. -/
abbrev Exec := Nat → State → State × Option Val

/-- The host's handling of the executor's completion: a thrown value is passed
to `reject`. -/
def finishExecutor (k : Nat) (r : State × Option Val) : State :=
  match r.2 with
  | none => r.1
  | some e => rejectFn r.1 k e

/-- The expression `new Promise(executor)`; returns the state, the promise and
its resolver pair. -/
def Promise.constructCap (s : State) (executor : Exec) : State × Nat × Nat :=
  let a := newPromise s
  (finishExecutor a.2.2 (executor a.2.2 a.1), a.2.1, a.2.2)

/-- The expression `new Promise(executor)`. -/
def Promise.construct (s : State) (executor : Exec) : State × Nat :=
  let r := Promise.constructCap s executor
  (r.1, r.2.1)

/-- The executor the host passes to a species constructor in
`NewPromiseCapability`: it only records `resolve` and `reject`. -/
def capabilityExecutor : Exec := fun _ s => (s, none)

/-! ## The class `AbortablePromise` (src/AbortablePromise.mjs) -/

namespace AbortablePromise

/-- The constructor, `new AbortablePromise(executor, controller)`, with
`controller = none` for an omitted argument. In source order: the default
`new AbortController()`; `super(...)` allocates the promise and its resolving
functions; the abort listener is registered on the signal; the executor runs
(a throw is turned into `reject` by the host); at last
`this.#controller = controller`. Returns the state, the promise and its
resolver pair. -/
def constructCap (s : State) (executor : Exec) (controller : Option Nat) :
    State × Nat × Nat :=
  let a := match controller with
    | some c => (s, c)
    | none => newController s
  let b := newPromise a.1
  let s2 := addEventListener b.1 a.2 (.reject b.2.2)
  let s3 := finishExecutor b.2.2 (executor b.2.2 s2)
  let rec3 : PromiseRec := { (s3.promises b.2.1) with ctrl := some a.2 }
  ({ s3 with promises := set s3.promises b.2.1 rec3 }, b.2.1, b.2.2)

/-- The constructor, returning the state and the new promise. -/
def construct (s : State) (executor : Exec) (controller : Option Nat) : State × Nat :=
  let r := constructCap s executor controller
  (r.1, r.2.1)

/-- The getter `signal`: the signal of `#controller` (a signal is identified
with its controller). -/
def signal (s : State) (p : Nat) : Option Nat := (s.promises p).ctrl

/-- The method `onabort(abortHandler)`. A receiver without `#controller` is
not an `AbortablePromise`; the call has no effect on the heap. -/
def onabort (s : State) (p : Nat) (abortHandler : Nat) : State :=
  match (s.promises p).ctrl with
  | some c => addEventListener s c (.user abortHandler)
  | none => s

/-- The method `abort(reason)`, that is
`this.#controller.abort(reason ?? 'aborted')`; `reason = undefined` is the
call without argument. -/
def abort (s : State) (p : Nat) (reason : Val) : State :=
  match (s.promises p).ctrl with
  | some c => signalAbort s c (nullish reason (.str "aborted"))
  | none => s

end AbortablePromise

/-- The test `x instanceof AbortablePromise`. -/
def instanceOfAbortable (s : State) (x : Val) : Bool :=
  match x with
  | .promise p => (s.promises p).ctrl.isSome
  | _ => false

/-! ## Host: derivation (`then`, `catch`, `finally`) and microtasks -/

/-- The host operation `NewPromiseCapability(C)` for `C = AbortablePromise`
(`abortable = true`) or `C = Promise`: the constructor is called with the
capability executor and, for `AbortablePromise`, no controller. -/
def newCapability (s : State) (abortable : Bool) : State × Nat × Nat :=
  if abortable then AbortablePromise.constructCap s capabilityExecutor none
  else Promise.constructCap s capabilityExecutor

/-- The method `p.then(onFulfilled, onRejected)`: the derived promise is built
by the species constructor of `p` (the class of `p` itself); the reaction is
stored while `p` is pending and queued as a job once `p` is settled. -/
def thenOp (s : State) (p : Nat) (onFulfilled onRejected : Cb) : State × Nat :=
  let c := newCapability s (s.promises p).ctrl.isSome
  let r : Reaction := ⟨c.2.2, onFulfilled, onRejected⟩
  match (c.1.promises p).state with
  | .pending =>
    let rec1 : PromiseRec :=
      { (c.1.promises p) with reactions := (c.1.promises p).reactions ++ [r] }
    ({ c.1 with promises := set c.1.promises p rec1 }, c.2.1)
  | .fulfilled v => ({ c.1 with jobs := c.1.jobs ++ [Job.reaction r true v] }, c.2.1)
  | .rejected e => ({ c.1 with jobs := c.1.jobs ++ [Job.reaction r false e] }, c.2.1)

/-- The method `p.catch(onRejected)`, that is `p.then(undefined, onRejected)`. -/
def catchOp (s : State) (p : Nat) (onRejected : Cb) : State × Nat :=
  thenOp s p .none onRejected

/-- The method `p.finally(onFinally)`; `none` is a non-callable argument. -/
def finallyOp (s : State) (p : Nat) (onFinally : Option Fn) : State × Nat :=
  match onFinally with
  | none => thenOp s p .none .none
  | some f =>
    thenOp s p (.thenFinally f (s.promises p).ctrl.isSome)
      (.catchFinally f (s.promises p).ctrl.isSome)

/-- The host operation `PromiseResolve(C, x)`: a promise of class `C` is
returned as it is; any other value is resolved into a new promise of class `C`. -/
def promiseResolve (s : State) (abortable : Bool) (x : Val) : State × Nat :=
  let c := newCapability s abortable
  match x with
  | .promise y =>
    if (s.promises y).ctrl.isSome = abortable then (s, y)
    else (resolveFn c.1 c.2.2 x, c.2.1)
  | _ => (resolveFn c.1 c.2.2 x, c.2.1)

/-- Records the result of element `i` of aggregate `a`, unless that element
was already recorded; returns the state and whether all elements are in. -/
def recordElement (s : State) (a i : Nat) (v : Val) : State × Bool :=
  if (s.aggs a).called.getD i false then (s, false)
  else
    let g : Agg :=
      { (s.aggs a) with
        called := (s.aggs a).called.set i true
        values := (s.aggs a).values.set i v
        remaining := (s.aggs a).remaining - 1 }
    ({ s with aggs := set s.aggs a g }, decide (g.remaining = 0))

/-- Call of a stored function value with one argument; `fulfilled` tells which
kind of reaction an absent handler stands for (pass the value on, or rethrow). -/
def invoke (s : State) (cb : Cb) (fulfilled : Bool) (arg : Val) : State × Except Val Val :=
  match cb with
  | .none => (s, if fulfilled then .ok arg else .error arg)
  | .user f => (s, f arg)
  | .resolveFn k => (resolveFn s k arg, .ok .undefined)
  | .rejectFn k => (rejectFn s k arg, .ok .undefined)
  | .valueThunk v => (s, .ok v)
  | .thrower e => (s, .error e)
  | .thenFinally f ab =>
    match f .undefined with
    | .error e => (s, .error e)
    | .ok r =>
      let q := promiseResolve s ab r
      let d := thenOp q.1 q.2 (.valueThunk arg) .none
      (d.1, .ok (.promise d.2))
  | .catchFinally f ab =>
    match f .undefined with
    | .error e => (s, .error e)
    | .ok r =>
      let q := promiseResolve s ab r
      let d := thenOp q.1 q.2 (.thrower arg) .none
      (d.1, .ok (.promise d.2))
  | .allResolve a i =>
    let r := recordElement s a i arg
    if r.2 then (resolveFn r.1 (s.aggs a).cap (Val.ofList (r.1.aggs a).values), .ok .undefined)
    else (r.1, .ok .undefined)
  | .settledResolve a i =>
    let r := recordElement s a i (.settledFulfilled arg)
    if r.2 then (resolveFn r.1 (s.aggs a).cap (Val.ofList (r.1.aggs a).values), .ok .undefined)
    else (r.1, .ok .undefined)
  | .settledReject a i =>
    let r := recordElement s a i (.settledRejected arg)
    if r.2 then (resolveFn r.1 (s.aggs a).cap (Val.ofList (r.1.aggs a).values), .ok .undefined)
    else (r.1, .ok .undefined)
  | .anyReject a i =>
    let r := recordElement s a i arg
    if r.2 then
      (rejectFn r.1 (s.aggs a).cap (.aggregateError (Val.ofList (r.1.aggs a).values)),
        .ok .undefined)
    else (r.1, .ok .undefined)

/-- Settles the capability of a reaction with the handler's completion. -/
def settleCapability (cap : Nat) (r : State × Except Val Val) : State :=
  match r.2 with
  | .ok v => resolveFn r.1 cap v
  | .error e => rejectFn r.1 cap e

/-- Runs the first microtask of the queue, if any. A reaction job calls the
handler and settles the derived promise with its completion; a thenable job
creates fresh resolving functions for `p` and calls `y.then` with them. -/
def runJob (s : State) : State :=
  match s.jobs with
  | [] => s
  | .reaction r fulfilled arg :: rest =>
    settleCapability r.cap
      (invoke { s with jobs := rest } (if fulfilled then r.onFulfilled else r.onRejected)
        fulfilled arg)
  | .thenable p y :: rest =>
    let s1 : State :=
      { s with
        jobs := rest
        resolvers := set s.resolvers s.nextResolver ⟨p, false⟩
        nextResolver := s.nextResolver + 1 }
    (thenOp s1 y (.resolveFn s.nextResolver) (.rejectFn s.nextResolver)).1

/-- Runs `n` microtasks. -/
def runJobs : Nat → State → State
  | 0, s => s
  | n + 1, s => runJobs n (runJob s)

/-! ## The static method `from` (src/AbortablePromise.mjs) -/

namespace AbortablePromise

/-- The executor `(resolve, reject) => promise.then(resolve).catch(reject)`
of `from`. Calling `then` on a value without a callable `then` throws a
`TypeError`. -/
def fromExecutor (x : Val) : Exec := fun k s =>
  match x with
  | .promise y =>
    let a := thenOp s y (.resolveFn k) .none
    let b := catchOp a.1 a.2 (.rejectFn k)
    (b.1, none)
  | _ => (s, some .typeError)

/-- The static method `from(promise)`:
`promise?.then && promise instanceof AbortablePromise ? promise : new AbortablePromise(...)`. -/
def fromValue (s : State) (x : Val) : State × Val :=
  if thenTruthy x && instanceOfAbortable s x then (s, x)
  else
    let r := construct s (fromExecutor x) none
    (r.1, .promise r.2)

end AbortablePromise

/-! ## Host: group combinators, called on the class `AbortablePromise` -/

/-- The four group combinators. -/
inductive Combinator where
  | all
  | allSettled
  | any
  | race
  deriving DecidableEq, Repr

/-- The handlers that a combinator passes to `then` for input number `i`. -/
def Combinator.handlers (kind : Combinator) (a kg i : Nat) : Cb × Cb :=
  match kind with
  | .all => (.allResolve a i, .rejectFn kg)
  | .allSettled => (.settledResolve a i, .settledReject a i)
  | .any => (.resolveFn kg, .anyReject a i)
  | .race => (.resolveFn kg, .rejectFn kg)

/-- Appends the slot of the next input to aggregate `a` (`race` keeps none). -/
def openSlot (kind : Combinator) (a : Nat) (s : State) : State :=
  match kind with
  | .race => s
  | _ =>
    let g : Agg :=
      { (s.aggs a) with
        values := (s.aggs a).values ++ [.undefined]
        called := (s.aggs a).called ++ [false] }
    { s with aggs := set s.aggs a g }

/-- Raises the count of remaining elements of aggregate `a` (`race` keeps none). -/
def countUp (kind : Combinator) (a : Nat) (s : State) : State :=
  match kind with
  | .race => s
  | _ =>
    let g : Agg := { (s.aggs a) with remaining := (s.aggs a).remaining + 1 }
    { s with aggs := set s.aggs a g }

/-- One turn of the combinator loop for input `x`: a slot is appended to the
aggregate, `AbortablePromise.resolve(x)` gives the next promise, the count of
remaining elements goes up, and `then` is called on the next promise. -/
def combinatorStep (kind : Combinator) (a kg : Nat) (acc : State × Nat) (x : Val) :
    State × Nat :=
  let r := promiseResolve (openSlot kind a acc.1) true x
  let t := thenOp (countUp kind a r.1) r.2 (kind.handlers a kg acc.2).1
    (kind.handlers a kg acc.2).2
  (t.1, acc.2 + 1)

/-- The end of the combinator loop: the count of remaining elements goes down
by one, and at zero `all`/`allSettled` resolve with the values and `any`
rejects with an `AggregateError`; `race` keeps no count. -/
def combinatorFinish (kind : Combinator) (a kg : Nat) (s : State) : State :=
  let g : Agg := { (s.aggs a) with remaining := (s.aggs a).remaining - 1 }
  let s1 : State := { s with aggs := set s.aggs a g }
  match kind with
  | .race => s
  | .any =>
    if g.remaining = 0 then rejectFn s1 kg (.aggregateError (Val.ofList g.values)) else s1
  | _ => if g.remaining = 0 then resolveFn s1 kg (Val.ofList g.values) else s1

/-- Allocates the aggregate record of a combinator call, with a count of one
(`race` keeps none). -/
def openAggregate (kind : Combinator) (kg : Nat) (s : State) : State :=
  match kind with
  | .race => s
  | _ => { s with aggs := set s.aggs s.nextAgg ⟨kg, [], 1, []⟩, nextAgg := s.nextAgg + 1 }

/-- The static calls `AbortablePromise.all(inputs)`, `.allSettled`, `.any` and
`.race`: the result is a new capability of the class, the aggregate starts
with a count of one, and every input goes through `combinatorStep`. -/
def combinator (kind : Combinator) (s : State) (inputs : List Val) : State × Nat :=
  let c := newCapability s true
  let r := inputs.foldl (combinatorStep kind c.1.nextAgg c.2.2)
    (openAggregate kind c.2.2 c.1, 0)
  (combinatorFinish kind c.1.nextAgg c.2.2 r.1, c.2.1)

/-! ## Executors as scripts -/

/-- The synchronous actions of an executor: calls of its `resolve` and
`reject`, `abort` on a controller in its scope, and a final `throw`. -/
inductive ExecAct where
  | resolve (v : Val)
  | reject (e : Val)
  | abort (c : Nat) (reason : Val)
  | throw (e : Val)
  deriving DecidableEq, Repr

/-- Runs the actions of an executor in order; `throw` ends the executor. -/
def runScript : List ExecAct → Exec
  | [], _, s => (s, none)
  | .resolve v :: rest, k, s => runScript rest k (resolveFn s k v)
  | .reject e :: rest, k, s => runScript rest k (rejectFn s k e)
  | .abort c r :: rest, k, s => runScript rest k (signalAbort s c r)
  | .throw e :: _, _, s => (s, some e)

/-! ## Predicates used in the statements -/

/-- Promise `p` was built by the `AbortablePromise` constructor with controller
`c`: `c` is its `#controller`, and the constructor's listener, which calls the
`reject` of the promise's own resolver pair `k`, is registered on the signal. -/
def Wired (s : State) (p c k : Nat) : Prop :=
  (s.promises p).ctrl = some c ∧ Listener.reject k ∈ (s.ctrls c).listeners
    ∧ (s.resolvers k).promise = p

/-- Promise `p` is not yet resolved through resolver pair `k`: it is pending
and neither `resolve` nor `reject` of the pair has been called. -/
def Unresolved (s : State) (p k : Nat) : Prop :=
  (s.promises p).state = .pending ∧ (s.resolvers k).alreadyResolved = false

/-- The state of promise `p` is the rejection by the abort of controller `c`. -/
def AbortDone (c p : Nat) (s : State) : Prop :=
  (s.promises p).state = .rejected (.abortError (s.ctrls c).reason c)

/-- Promise `p` can still be rejected through resolver pair `k`. -/
def AbortReady (p k : Nat) (s : State) : Prop :=
  (s.promises p).state = .pending ∧ (s.resolvers k).alreadyResolved = false
    ∧ (s.resolvers k).promise = p

/-! ## Concrete heaps used as witnesses and counterexamples -/

/-- The heap after `new AbortablePromise(() => {})`: promise 0, resolver pair 0,
controller 0. -/
def fresh : State := (AbortablePromise.construct State.init (runScript []) none).1

/-- The heap after `inner = new Promise(() => {})` (promise 0) and
`new AbortablePromise(resolve => resolve(inner))` (promise 1, resolver pair 1,
controller 0): the `AbortablePromise` is pending and locked in to `inner`. -/
def lockedIn : State :=
  (AbortablePromise.construct (Promise.construct State.init (runScript [])).1
    (runScript [.resolve (.promise 0)]) none).1

/-- The heap after `new AbortablePromise(resolve => resolve(1))`: promise 0 is
fulfilled with 1. -/
def fulfilledOne : State :=
  (AbortablePromise.construct State.init (runScript [.resolve (.num 1)]) none).1

/-! ## Scenario helpers -/

/-- The user handlers among the listeners of a signal, in registration order. -/
def userHandlers (ls : List Listener) : List Nat :=
  ls.filterMap (fun l => match l with
    | .user h => some h
    | .reject _ => none)

/-- The calls `p.onabort(h)` for the handlers of a list, in order. -/
def onabortAll (s : State) (p : Nat) (hs : List Nat) : State :=
  hs.foldl (fun st h => AbortablePromise.onabort st p h) s

/-- The calls `p.abort(r)` for the reasons of a list, in order. -/
def abortAll (s : State) (p : Nat) (rs : List Val) : State :=
  rs.foldl (fun st r => AbortablePromise.abort st p r) s

/-! ## Settlement calls -/

/-- A call of one of the two resolving functions of a promise. -/
inductive Settle where
  | resolve (v : Val)
  | reject (e : Val)
  deriving DecidableEq, Repr

/-- The call of `resolve` or `reject` of resolver pair `k`. -/
def applySettle (k : Nat) (s : State) : Settle → State
  | .resolve v => resolveFn s k v
  | .reject e => rejectFn s k e

/-- A sequence of calls of the resolving functions of pair `k`, for example by
timers to which the executor handed them. -/
def applySettles (k : Nat) (s : State) (calls : List Settle) : State :=
  calls.foldl (applySettle k) s

/-- Whether an action of an executor is an `abort` of a controller. -/
def ExecAct.isAbort : ExecAct → Bool
  | .abort _ _ => true
  | _ => false

/-- The settlement attempts that an executor makes synchronously: its calls of
`resolve` and `reject` in order; a `throw` counts as a rejection and ends the
executor. -/
def settleCalls : List ExecAct → List Settle
  | [] => []
  | .resolve v :: rest => .resolve v :: settleCalls rest
  | .reject e :: rest => .reject e :: settleCalls rest
  | .abort _ _ :: rest => settleCalls rest
  | .throw e :: _ => [.reject e]

/-- The outcome the spec gives for a sequence of settlement attempts:
fulfilled with `v` when `resolve(v)` comes first, rejected with `e` when
`reject(e)` (or a throw of `e`) comes first, pending when there is none. -/
def firstSettlement : List Settle → PState
  | [] => .pending
  | .resolve v :: _ => .fulfilled v
  | .reject e :: _ => .rejected e

/-- The state in which the first call of a resolving function leaves promise
`p`: a promise passed to `resolve` is adopted later (the promise stays
pending), and `p` itself is a `TypeError`. -/
def settleOutcome (p : Nat) : List Settle → PState
  | [] => .pending
  | .resolve (.promise y) :: _ => if y = p then .rejected .typeError else .pending
  | .resolve v :: _ => .fulfilled v
  | .reject e :: _ => .rejected e

/-- The resolving functions of pair `k` have received the calls `cs` and
nothing else has touched promise `p`: the promise is in the state the first
call left it in, and the pair is marked once a call was made. -/
def Cell (s : State) (p k : Nat) (cs : List Settle) : Prop :=
  (s.resolvers k).promise = p ∧ (s.promises p).state = settleOutcome p cs
    ∧ (s.resolvers k).alreadyResolved = !cs.isEmpty

/-! ## Derivation calls and closed forms of heaps -/

/-- The three derivation methods with their arguments. -/
inductive Derivation where
  | thenCall (onFulfilled onRejected : Cb)
  | catchCall (onRejected : Cb)
  | finallyCall (onFinally : Option Fn)

/-- The call of a derivation method on promise `f`. -/
def derive (s : State) (f : Nat) : Derivation → State × Nat
  | .thenCall onFulfilled onRejected => thenOp s f onFulfilled onRejected
  | .catchCall onRejected => catchOp s f onRejected
  | .finallyCall onFinally => finallyOp s f onFinally

/-- The heap after the allocation of an `AbortablePromise` capability: a
pending promise, its resolver pair, and a new controller that carries the
constructor's listener. -/
def capState (s : State) : State :=
  { s with
    promises := set s.promises s.nextPromise ⟨.pending, [], some s.nextCtrl⟩
    nextPromise := s.nextPromise + 1
    resolvers := set s.resolvers s.nextResolver ⟨s.nextPromise, false⟩
    nextResolver := s.nextResolver + 1
    ctrls := set s.ctrls s.nextCtrl ⟨false, .undefined, [.reject s.nextResolver]⟩
    nextCtrl := s.nextCtrl + 1 }

/-- The heap after the reaction `r` was attached to promise `f` (stored while `f`
is pending, queued as a job once `f` is settled). -/
def attachReaction (s : State) (f : Nat) (r : Reaction) : State :=
  match (s.promises f).state with
  | .pending =>
    let rec1 : PromiseRec :=
      { (s.promises f) with reactions := (s.promises f).reactions ++ [r] }
    { s with promises := set s.promises f rec1 }
  | .fulfilled v => { s with jobs := s.jobs ++ [Job.reaction r true v] }
  | .rejected e => { s with jobs := s.jobs ++ [Job.reaction r false e] }

/-- The heap after an abort with reason `reason` of the not yet aborted
controller `c`, when the only rejecting listener on its signal is the
constructor's listener of the pending, unresolved promise `p` with resolver
pair `k`: the signal is aborted, the resolver pair is spent, the promise is
rejected with the `AbortError`, its reactions are queued as jobs, and the user
handlers on the signal are logged. -/
def abortedState (s : State) (p c k : Nat) (reason : Val) : State :=
  let cr : Controller := { (s.ctrls c) with aborted := true, reason := reason }
  let pr : PromiseRec :=
    { (s.promises p) with state := .rejected (.abortError reason c), reactions := [] }
  { s with
    ctrls := set s.ctrls c cr
    resolvers := set s.resolvers k ⟨p, true⟩
    promises := set s.promises p pr
    jobs := s.jobs ++ reactionJobs (s.promises p).reactions false (.abortError reason c)
    log := s.log ++ userHandlers (s.ctrls c).listeners }

/-- The call `finally(() => {})`. -/
def sampleFinally : Derivation := .finallyCall (some fun _ => .ok .undefined)

/-- A handler that returns the string `'bad'`. -/
def returnsBad : Fn := fun _ => .ok (.str "bad")

/-- The heap after `p = new Promise(resolve => resolve(1))`: promise 0 is
fulfilled with 1. -/
def plainFulfilled : State := (Promise.construct State.init (runScript [.resolve (.num 1)])).1

/-- The heap after `p = new Promise(() => {})`: promise 0 is pending. -/
def plainPending : State := (Promise.construct State.init (runScript [])).1

/-- Heap `t` extends heap `s` and leaves alone promise `g`, resolver pair `kg`
and every controller that `s` had allocated. -/
def Extends (s t : State) (g kg : Nat) : Prop :=
  s.nextPromise ≤ t.nextPromise ∧ s.nextResolver ≤ t.nextResolver ∧ s.nextCtrl ≤ t.nextCtrl
    ∧ t.promises g = s.promises g ∧ t.resolvers kg = s.resolvers kg
    ∧ ∀ c, c < s.nextCtrl → t.ctrls c = s.ctrls c

/-- The heap after `a = new AbortablePromise(() => {})` (promise 0, controller 0)
and `b = new Promise(resolve => resolve(100))` (promise 1). -/
def twoInputs : State :=
  (Promise.construct fresh (runScript [.resolve (.num 100)])).1

/-- The actions of the executor `(resolve, reject) => { reject(2); resolve(1) }`. -/
def sampleActs : List ExecAct := [.reject (.num 2), .resolve (.num 1)]

/-! ## Histories -/

/-- What the environment can do to the heap: construct promises and
controllers, call resolving functions that executors handed out, call the
methods of `AbortablePromise` and of the host, and let a microtask run. -/
inductive Event where
  | construct (acts : List ExecAct) (controller : Option Nat)
  | constructPlain (acts : List ExecAct)
  | newController
  | resolve (k : Nat) (v : Val)
  | reject (k : Nat) (e : Val)
  | abort (p : Nat) (reason : Val)
  | controllerAbort (c : Nat) (reason : Val)
  | onabort (p : Nat) (h : Nat)
  | thenCall (p : Nat) (onFulfilled onRejected : Cb)
  | finallyCall (p : Nat) (onFinally : Option Fn)
  | fromCall (x : Val)
  | combinatorCall (kind : Combinator) (inputs : List Val)
  | runJob

/-- The effect of one event on the heap. -/
def step (s : State) : Event → State
  | .construct acts controller => (AbortablePromise.construct s (runScript acts) controller).1
  | .constructPlain acts => (Promise.construct s (runScript acts)).1
  | .newController => (newController s).1
  | .resolve k v => resolveFn s k v
  | .reject k e => rejectFn s k e
  | .abort p reason => AbortablePromise.abort s p reason
  | .controllerAbort c reason => signalAbort s c reason
  | .onabort p h => AbortablePromise.onabort s p h
  | .thenCall p onFulfilled onRejected => (thenOp s p onFulfilled onRejected).1
  | .finallyCall p onFinally => (finallyOp s p onFinally).1
  | .fromCall x => (AbortablePromise.fromValue s x).1
  | .combinatorCall kind inputs => (combinator kind s inputs).1
  | .runJob => runJob s

/-- The heap after a history of events. -/
def run (s : State) (events : List Event) : State := events.foldl step s

/-- Heap `t` comes after heap `s` without allocation: nothing that `s` fixed
has changed. The `#controller` of a promise and the promise of a resolver pair
are as before, no listener was removed, a settled promise has kept its state, a
spent resolver pair is still spent, and an aborted signal is still aborted with
the same reason. -/
structure Steady (s t : State) : Prop where
  promiseCount : t.nextPromise = s.nextPromise
  resolverCount : t.nextResolver = s.nextResolver
  ctrlCount : t.nextCtrl = s.nextCtrl
  ctrlField : ∀ p, (t.promises p).ctrl = (s.promises p).ctrl
  resolverPromise : ∀ k, (t.resolvers k).promise = (s.resolvers k).promise
  listeners : ∀ c l, l ∈ (s.ctrls c).listeners → l ∈ (t.ctrls c).listeners
  settled : ∀ p, (s.promises p).state ≠ .pending → (t.promises p).state = (s.promises p).state
  spent : ∀ k, (s.resolvers k).alreadyResolved = true → (t.resolvers k).alreadyResolved = true
  aborted : ∀ c, (s.ctrls c).aborted = true →
    (t.ctrls c).aborted = true ∧ (t.ctrls c).reason = (s.ctrls c).reason

/-- Heap `t` comes after heap `s`, possibly with new objects: the same as
`Steady`, for the objects that `s` had allocated. -/
structure Grows (s t : State) : Prop where
  promiseCount : s.nextPromise ≤ t.nextPromise
  resolverCount : s.nextResolver ≤ t.nextResolver
  ctrlCount : s.nextCtrl ≤ t.nextCtrl
  ctrlField : ∀ p, p < s.nextPromise → (t.promises p).ctrl = (s.promises p).ctrl
  resolverPromise : ∀ k, k < s.nextResolver →
    (t.resolvers k).promise = (s.resolvers k).promise
  listeners : ∀ c, c < s.nextCtrl → ∀ l, l ∈ (s.ctrls c).listeners →
    l ∈ (t.ctrls c).listeners
  settled : ∀ p, p < s.nextPromise → (s.promises p).state ≠ .pending →
    (t.promises p).state = (s.promises p).state
  spent : ∀ k, k < s.nextResolver → (s.resolvers k).alreadyResolved = true →
    (t.resolvers k).alreadyResolved = true
  aborted : ∀ c, c < s.nextCtrl → (s.ctrls c).aborted = true →
    (t.ctrls c).aborted = true ∧ (t.ctrls c).reason = (s.ctrls c).reason

/-- The controller that `new AbortablePromise(executor, controller)` uses in
heap `s`: the argument, or the controller that `new AbortController()` creates. -/
def controllerOf (s : State) (controller : Option Nat) : Nat :=
  match controller with
  | some c => c
  | none => s.nextCtrl

/-- The heap after `new AbortablePromise(executor, controller)` in heap `s`, for
an executor with the actions `acts`, followed by a history of events. The new
promise is `s.nextPromise` and its resolver pair is `s.nextResolver`. -/
def afterConstruct (s : State) (acts : List ExecAct) (controller : Option Nat)
    (events : List Event) : State :=
  run (AbortablePromise.constructCap s (runScript acts) controller).1 events

/-- A history for the promise 0 of a fresh heap: `p.onabort(h)` for handler 7,
`p.then()`, and one microtask. -/
def sampleHistory : List Event := [.onabort 0 7, .thenCall 0 .none .none, .runJob]

/-- The heap after `new AbortController()`: controller 0. -/
def oneController : State := (newController State.init).1

/-- A later history for promise 0: `p.abort('again')`, a call of its `resolve`
with 1, and a microtask. -/
def laterHistory : List Event := [.abort 0 (.str "again"), .resolve 0 (.num 1), .runJob]

/-! ## The scenarios of `src/AbortablePromise.test.js` as histories -/

/-- The state of promise `p`. -/
def stateOf (s : State) (p : Nat) : PState := (s.promises p).state

/-- Test `should abort then value`: the executor hands `resolve` and `reject`
to timers; `p.catch(() => 'bad').then(v => v)`; the abort comes first, the
timers fire later. -/
def abortThenValue : List Event :=
  [.construct [] none, .thenCall 0 .none (.user returnsBad),
    .thenCall 1 (.user fun v => .ok v) .none, .abort 0 (.str "aborted by test"),
    .runJob, .runJob, .runJob, .reject 0 (.str "faster"), .resolve 0 (.str "too late"),
    .runJob]

/-- Test `should handle abort event`: two handlers, `abort()`, later the timer
calls `resolve('abc')`. -/
def handleAbortEvent : List Event :=
  [.construct [] none, .onabort 0 1, .onabort 0 2, .abort 0 .undefined,
    .resolve 0 (.str "abc"), .runJob]

/-- Test `can be created from existing promise`: `from(promise)`, then
`from(myPromise)`, the abort, and later the timer of the plain promise. -/
def fromExisting : List Event :=
  [.constructPlain [], .fromCall (.promise 0), .fromCall (.promise 1),
    .abort 1 (.str "aborted by test"), .resolve 0 (.str "something"),
    .runJob, .runJob, .runJob]

/-- Test `promise.then`: a chain of four derived promises. -/
def thenChain : List Event :=
  [.construct [] none, .thenCall 0 (.user fun _ => .ok (.num 2)) .none,
    .thenCall 1 (.user fun _ => .ok (.num 3)) .none,
    .thenCall 2 (.user fun _ => .ok (.num 2)) .none,
    .thenCall 3 (.user fun _ => .ok (.num 3)) .none, .resolve 0 (.num 1),
    .runJob, .runJob, .runJob, .runJob, .runJob]

/-- Test `promise.catch`: handlers that throw 1, 2 and 3 in turn. -/
def catchChain : List Event :=
  [.construct [] none, .thenCall 0 .none (.user fun _ => .error (.num 1)),
    .thenCall 1 (.user fun _ => .ok (.str "xxx")) .none,
    .thenCall 2 .none (.user fun _ => .error (.num 2)),
    .thenCall 3 .none (.user fun _ => .error (.num 3)), .reject 0 (.str "throw an error"),
    .runJob, .runJob, .runJob, .runJob, .runJob]

/-- Tests `Promise.all`, `Promise.any`, `Promise.race`, first half: a pending
`AbortablePromise` and `Promise.resolve(100)`; the microtasks run, then the
timer calls `resolve(500)`. -/
def groupSettles (kind : Combinator) : List Event :=
  [.construct [] none, .constructPlain [.resolve (.num 100)],
    .combinatorCall kind [.promise 0, .promise 1],
    .runJob, .runJob, .runJob, .runJob, .runJob, .resolve 0 (.num 500),
    .runJob, .runJob, .runJob, .runJob, .runJob, .runJob, .runJob]

/-- Test `Promise.allSettled`, first half: a pending `AbortablePromise` and
`Promise.reject('a reason')`. -/
def groupAllSettled : List Event :=
  [.construct [] none, .constructPlain [.reject (.str "a reason")],
    .combinatorCall .allSettled [.promise 0, .promise 1],
    .runJob, .runJob, .runJob, .runJob, .runJob, .resolve 0 (.num 500),
    .runJob, .runJob, .runJob, .runJob, .runJob, .runJob, .runJob]

/-- Tests `Promise.all` and `Promise.allSettled`, second half: a pending
`AbortablePromise` and `Promise.resolve(100)`; the result is aborted before the
timer of the first input fires. -/
def groupAbortedMixed (kind : Combinator) : List Event :=
  [.construct [] none, .constructPlain [.resolve (.num 100)],
    .combinatorCall kind [.promise 0, .promise 1],
    .runJob, .runJob, .runJob, .runJob, .runJob, .abort 2 (.str "I abort it"),
    .resolve 0 (.num 500), .runJob, .runJob, .runJob, .runJob]

/-- Tests `Promise.any` and `Promise.race`, second half: two pending
`AbortablePromise`s; the result is aborted before their timers fire. -/
def groupAbortedPending (kind : Combinator) : List Event :=
  [.construct [] none, .construct [] none,
    .combinatorCall kind [.promise 0, .promise 1],
    .runJob, .runJob, .abort 2 (.str "I abort it"),
    .resolve 0 (.num 500), .reject 1 (.num 500), .runJob, .runJob, .runJob, .runJob]

/-! ## Provenance of abort listeners, and heaps after a creation -/

/-- Every rejecting listener on the signal of controller `c` belongs to an
allocated resolver pair whose promise is `P` or a later one. -/
def Fenced (P c : Nat) (s : State) : Prop :=
  P ≤ s.nextPromise ∧ ∀ k, Listener.reject k ∈ (s.ctrls c).listeners →
    k < s.nextResolver ∧ P ≤ (s.resolvers k).promise

/-- The heap after a derivation call on promise `f` in heap `s`, followed by a
history of events. The derived promise is `s.nextPromise`. -/
def afterDerive (s : State) (f : Nat) (dv : Derivation) (events : List Event) : State :=
  run (derive s f dv).1 events

/-- The heap after a combinator call in heap `s`, followed by a history of
events. The result of the call is the promise `s.nextPromise`. -/
def afterCombinator (kind : Combinator) (s : State) (inputs : List Val)
    (events : List Event) : State :=
  run (combinator kind s inputs).1 events

/-- A history after `d = f.finally(...)` on promise 0 of `fresh`: a handler is
registered on `d`, the executor's `resolve` is called with 1, and a microtask
runs. -/
def derivedHistory : List Event := [.onabort 1 7, .resolve 0 (.num 1), .runJob]

/-- The heap after `w = AbortablePromise.from(p)` in heap `s`; for a plain
promise `p` the wrapper `w` is the promise `s.nextPromise`. -/
def afterFrom (s : State) (p : Nat) : State := (AbortablePromise.fromValue s (.promise p)).1

/-- A later history for the wrapper 1 of the plain promise 0: the plain promise
is fulfilled with 5 by its executor's timer and two microtasks run. -/
def lateSettlement : List Event := [.resolve 0 (.num 5), .runJob, .runJob]

/-! ## Calls, construction order and shared controllers -/

/-- The call `p.abort(reason)` as an expression. The body of the method is the
single expression statement `this.#controller.abort(reason ?? 'aborted')`, with
no `return`: the call evaluates to `undefined`. -/
def AbortablePromise.abortCall (s : State) (p : Nat) (reason : Val) : State × Val :=
  (AbortablePromise.abort s p reason, .undefined)

/-- The heap in which the constructor invokes the executor: the controller is
chosen (the argument, or a new one), `super(...)` has allocated the promise and
its resolving functions, and the abort listener is registered on the signal. -/
def AbortablePromise.executorEntry (s : State) (controller : Option Nat) : State :=
  let a := match controller with
    | some c => (s, c)
    | none => newController s
  addEventListener (newPromise a.1).1 a.2 (.reject (newPromise a.1).2.2)

/-- The executor `(resolve, reject) => { controller.abort('stop'); resolve(1) }`
for controller 0. -/
def abortThenResolve : List ExecAct := [.abort 0 (.str "stop"), .resolve (.num 1)]

/-- The heap after two constructor calls with the same injected controller `c`:
`p = new AbortablePromise(executor1, c)` in heap `s`, a history, then
`q = new AbortablePromise(executor2, c)`, and a further history. The promise `p`
is `s.nextPromise`; the promise `q` is the next promise of the heap in which it
is built. -/
def afterTwo (s : State) (c : Nat) (acts1 : List ExecAct) (events1 : List Event)
    (acts2 : List ExecAct) (events2 : List Event) : State :=
  afterConstruct (afterConstruct s acts1 (some c) events1) acts2 (some c) events2

/-- The heap after `c = new AbortController()` (controller 0),
`inner = new Promise(() => {})` (promise 0),
`p = new AbortablePromise(resolve => resolve(inner), c)` (promise 1) and
`q = new AbortablePromise(() => {}, c)` (promise 2). -/
def sharedLockedIn : State :=
  run oneController [.constructPlain [], .construct [.resolve (.promise 0)] (some 0),
    .construct [] (some 0)]

/-- A history between and after two constructor calls: a handler is registered
on promise 0 and a microtask runs. -/
def quietHistory : List Event := [.onabort 0 7, .runJob]

/-- What the holders of an `AbortablePromise` and of its executor's resolving
functions can call: `resolve` or `reject`, `abort(reason)` on the promise,
`abort(reason)` on its controller, and `onabort(handler)`. -/
inductive Call where
  | settle (call : Settle)
  | abort (reason : Val)
  | controllerAbort (reason : Val)
  | onabort (h : Nat)

/-- The effect of one call, for the promise `p` with resolver pair `k` and
controller `c`. -/
def applyCall (p k c : Nat) (s : State) : Call → State
  | .settle call => applySettle k s call
  | .abort reason => AbortablePromise.abort s p reason
  | .controllerAbort reason => signalAbort s c reason
  | .onabort h => AbortablePromise.onabort s p h

/-- A sequence of calls, in order. -/
def applyCalls (p k c : Nat) (s : State) (calls : List Call) : State :=
  calls.foldl (applyCall p k c) s

/-- The calls of `resolve` and `reject` among a sequence of calls. -/
def settlesOf : List Call → List Settle
  | [] => []
  | .settle call :: rest => call :: settlesOf rest
  | _ :: rest => settlesOf rest

/-- The heap after `c = new AbortController()` and `c.abort('early')`:
controller 0 is aborted. -/
def abortedController : State := signalAbort oneController 0 (.str "early")

/-- A sequence of calls on a promise: a handler is registered, the promise is
aborted, the executor's timer calls `resolve(1)`, and the controller is aborted. -/
def sampleCalls : List Call :=
  [.onabort 7, .abort (.str "x"), .settle (.resolve (.num 1)), .controllerAbort .undefined]

/-- The heap after `p = new AbortablePromise(executor, c)` in heap `s`, for an
executor with the actions `acts`, followed by a sequence of calls on `p`, on its
controller and of its resolving functions. -/
def afterCalls (s : State) (acts : List ExecAct) (c : Nat) (calls : List Call) : State :=
  applyCalls s.nextPromise s.nextResolver c
    (AbortablePromise.constructCap s (runScript acts) (some c)).1 calls

/-- The heap after `c = new AbortController()`, `c.abort('early')` and
`p = new AbortablePromise(() => {}, c)`: promise 0 has the controller 0, whose
signal was aborted before `p` was built. -/
def preAborted : State :=
  (AbortablePromise.construct abortedController (runScript []) (some 0)).1

/-- The heap after `f = new AbortablePromise(() => {})` (promise 0),
`d = f.then(x => x)` (promise 1, controller 1), the call of the executor's
`resolve` with `d`, and one microtask: `f` is locked in to `d`. -/
def followsDerived : State :=
  runJob (resolveFn (thenOp fresh 0 (.user fun x => .ok x) .none).1 0 (.promise 1))

/-! ## Scopes: what the microtasks of a phase may touch -/

/-- What the microtasks of a phase may touch. `K` are the protected resolver
pairs and `X` the protected promises; `S` are the reactions, stored on protected
promises or queued as the microtasks `T` once their promise settles, that may
hold a protected pair; `capOf a` is the capability of aggregate `a`. -/
structure Scope where
  capOf : Nat → Nat
  K : Nat → Prop
  X : Nat → Prop
  S : Nat → Reaction → Prop
  T : Job → Prop

/-- Resolver pair `k` may be called in a heap with `n` allocated pairs: it is
allocated and not protected. -/
def Scope.free (σ : Scope) (n k : Nat) : Prop := k < n ∧ ¬ σ.K k

/-- Every resolver pair that a stored function value can call is free. -/
def Cb.within (σ : Scope) (n : Nat) : Cb → Prop
  | .resolveFn k => σ.free n k
  | .rejectFn k => σ.free n k
  | .allResolve a _ => σ.free n (σ.capOf a)
  | .settledResolve a _ => σ.free n (σ.capOf a)
  | .settledReject a _ => σ.free n (σ.capOf a)
  | .anyReject a _ => σ.free n (σ.capOf a)
  | _ => True

/-- The capability and both handlers of a reaction call free pairs only. -/
def Reaction.within (σ : Scope) (n : Nat) (ρ : Reaction) : Prop :=
  σ.free n ρ.cap ∧ ρ.onFulfilled.within σ n ∧ ρ.onRejected.within σ n

/-- A microtask calls free pairs only, and does not adopt a promise into a
protected one; `np` is the number of allocated promises. -/
def Job.within (σ : Scope) (n np : Nat) : Job → Prop
  | .reaction ρ _ _ => ρ.within σ n
  | .thenable p _ => ¬ σ.X p ∧ p < np

/-- The heap respects a scope: every stored reaction calls free pairs only (or
is exempt), every unprotected pair of a protected promise is spent, what is
protected is allocated, and no unspent pair belongs to a promise that is not
allocated yet. -/
structure Guard (σ : Scope) (s : State) : Prop where
  stored : ∀ y ρ, ρ ∈ (s.promises y).reactions → ρ.within σ s.nextResolver ∨ σ.S y ρ
  live : ∀ j, ¬ σ.K j → σ.X (s.resolvers j).promise → (s.resolvers j).alreadyResolved = true
  allocK : ∀ k, σ.K k → k < s.nextResolver
  allocX : ∀ x, σ.X x → x < s.nextPromise
  fresh : ∀ j, s.nextPromise ≤ (s.resolvers j).promise → (s.resolvers j).alreadyResolved = true
  caps : ∀ a, (s.aggs a).cap = σ.capOf a
  exempt : ∀ y ρ, σ.S y ρ → σ.X y ∨ ∀ b arg, σ.T (.reaction ρ b arg)

/-- Heap `t` comes after heap `s` by steps that respect a scope: `t` respects
it, the protected promises have kept their state and their reactions, the
protected pairs and the controllers of `s` are as before, and the microtasks
added to the queue call free pairs only or are exempt. -/
structure Keeps (σ : Scope) (s t : State) : Prop where
  guard : Guard σ t
  resolverCount : s.nextResolver ≤ t.nextResolver
  promiseCount : s.nextPromise ≤ t.nextPromise
  ctrlCount : s.nextCtrl ≤ t.nextCtrl
  states : ∀ x, σ.X x → (t.promises x).state = (s.promises x).state
  reactions : ∀ x, σ.X x → ∀ ρ, ρ ∈ (s.promises x).reactions → ρ ∈ (t.promises x).reactions
  resolvers : ∀ k, σ.K k → t.resolvers k = s.resolvers k
  ctrls : ∀ c, c < s.nextCtrl → t.ctrls c = s.ctrls c
  jobs : ∃ ex, t.jobs = s.jobs ++ ex ∧ ∀ J ∈ ex, J.within σ t.nextResolver t.nextPromise ∨ σ.T J

/-- Heap `t` comes after heap `s` with every controller of `s` as it was. -/
def CtrlsKept (s t : State) : Prop :=
  s.nextCtrl ≤ t.nextCtrl ∧ ∀ c, c < s.nextCtrl → t.ctrls c = s.ctrls c

/-- The scope that protects the capability `kd` of promise `d` while the
reaction `ρ` that holds it is stored on the source `f`, in the heap `t`. -/
def chainScope (t : State) (f d kd : Nat) (ρ : Reaction) : Scope where
  capOf := fun a => (t.aggs a).cap
  K := fun k => k = kd
  X := fun x => x = d
  S := fun y r => y = f ∧ r = ρ
  T := fun J => ∃ b arg, J = .reaction ρ b arg

/-- Promise `d` (capability `kd`, controller `cd`) was derived from promise `f`
(controller `cf`) by the reaction `ρ` and still waits for `f`: the reaction is
stored on `f`, `d` is allocated, pending, not yet resolved and its signal is not
aborted. The heap is well formed around it: the capability `kd` is held by that
reaction only (no other stored reaction, no queued microtask, no aggregate and
no listener on the signal of `f` holds it), every other pair of resolving
functions of `d` is spent, and stored callbacks call allocated resolving
functions only. -/
structure Chained (t : State) (f cf d kd cd : Nat) (ρ : Reaction) : Prop where
  registered : ρ ∈ (t.promises f).reactions
  cap : ρ.cap = kd
  resolver : t.resolvers kd = ⟨d, false⟩
  pending : (t.promises d).state = .pending
  ctrl : (t.promises d).ctrl = some cd
  own : cd ≠ cf ∧ cd < t.nextCtrl
  notAborted : (t.ctrls cd).aborted = false
  guard : Guard (chainScope t f d kd ρ) t
  queue : ∀ J ∈ t.jobs, J.within (chainScope t f d kd ρ) t.nextResolver t.nextPromise
  signal : ∀ j, Listener.reject j ∈ (t.ctrls cf).listeners → j ≠ kd

/-- The scope that protects the pair `k` of the relay promise `x` while the
promise `d`, which follows `x`, has no unspent pair. -/
def relayScope (capOf : Nat → Nat) (k x d : Nat) : Scope where
  capOf := capOf
  K := fun j => j = k
  X := fun y => y = x ∨ y = d
  S := fun _ _ => False
  T := fun _ => False

/-- The scope in which the promise `d` has no unspent pair at all. -/
def lockScope (capOf : Nat → Nat) (d : Nat) : Scope where
  capOf := capOf
  K := fun _ => False
  X := fun y => y = d
  S := fun _ _ => False
  T := fun _ => False

/-- The scope without protected pairs or promises, for the heap `s`. -/
def plainScope (s : State) : Scope where
  capOf := fun a => (s.aggs a).cap
  K := fun _ => False
  X := fun _ => False
  S := fun _ _ => False
  T := fun _ => False

/-- The heap is well formed: every stored reaction, every queued microtask and
every abort listener refers to allocated resolving functions only, a queued
adoption targets an allocated promise, and no unspent pair of resolving
functions belongs to a promise that is not allocated yet. -/
structure WellFormed (s : State) : Prop where
  guard : Guard (plainScope s) s
  queue : ∀ J ∈ s.jobs, J.within (plainScope s) s.nextResolver s.nextPromise
  listeners : ∀ c j, Listener.reject j ∈ (s.ctrls c).listeners → j < s.nextResolver

/-- The reaction that a derivation call stores on an `AbortablePromise`, for the
capability `k` of the derived promise. -/
def Derivation.reaction (k : Nat) : Derivation → Reaction
  | .thenCall onF onR => ⟨k, onF, onR⟩
  | .catchCall onR => ⟨k, .none, onR⟩
  | .finallyCall none => ⟨k, .none, .none⟩
  | .finallyCall (some g) => ⟨k, .thenFinally g true, .catchFinally g true⟩

/-- The heap after `f = new AbortablePromise(() => {})` (promise 0) and
`f.catch(() => 'bad')` (promise 1): a reaction is stored on `f`. -/
def awaited : State := (derive fresh 0 (.catchCall (.user returnsBad))).1

/-- The scope of a wrapper built by `from` whose source `p` has settled: the
wrapper `w` (pair `kw`) and the relay promise `a = p.then(resolve)` (pair `ka`)
are protected; the reaction of `a.catch(reject)`, stored on `a`, holds the
`reject` of `w`. -/
def wrapScope (t : State) (w kw a ka kb : Nat) : Scope where
  capOf := fun i => (t.aggs i).cap
  K := fun k => k = kw ∨ k = ka
  X := fun x => x = w ∨ x = a
  S := fun y ρ => y = a ∧ ρ = ⟨kb, .none, .rejectFn kw⟩
  T := fun _ => False

/-- The scope of a wrapper built by `from` that waits for its source `p`: as
`wrapScope`, and the reaction of `p.then(resolve)`, stored on `p`, holds the
`resolve` of `w` and the capability of `a`. -/
def waitScope (t : State) (p w kw a ka kb : Nat) : Scope where
  capOf := fun i => (t.aggs i).cap
  K := fun k => k = kw ∨ k = ka
  X := fun x => x = w ∨ x = a
  S := fun y ρ => (y = p ∧ ρ = ⟨ka, .resolveFn kw, .none⟩)
    ∨ (y = a ∧ ρ = ⟨kb, .none, .rejectFn kw⟩)
  T := fun J => ∃ b arg, J = .reaction ⟨ka, .resolveFn kw, .none⟩ b arg

/-- The wrapper `w = AbortablePromise.from(p)` waits for the plain promise `p`:
the reaction of `p.then(resolve)` is stored on `p`, once, with the relay promise
`a` as its derived promise, and the reaction of `a.catch(reject)` is stored on `a`;
`p` is allocated and pending, `w` and `a` are pending and not yet resolved. The heap is well formed around
them: the resolving functions of `w` and the capability of `a` are held by
these two reactions only, every other pair of `w` and of `a` is spent, and
stored callbacks call allocated resolving functions only. -/
structure Wrapped (t : State) (p w kw a ka kb : Nat) : Prop where
  source : (t.promises p).state = .pending ∧ p < t.nextPromise
  first : ∃ R1 R2, (t.promises p).reactions = R1 ++ ⟨ka, .resolveFn kw, .none⟩ :: R2
    ∧ ∀ ρ, ρ ∈ R1 ++ R2 → ρ.within (waitScope t p w kw a ka kb) t.nextResolver
  second : ⟨kb, .none, .rejectFn kw⟩ ∈ (t.promises a).reactions
  relay : t.resolvers ka = ⟨a, false⟩ ∧ (t.promises a).state = .pending
  wrapper : t.resolvers kw = ⟨w, false⟩ ∧ (t.promises w).state = .pending
  distinct : a ≠ w ∧ p ≠ w ∧ p ≠ a
  guard : Guard (waitScope t p w kw a ka kb) t
  queue : ∀ J ∈ t.jobs, J.within (waitScope t p w kw a ka kb) t.nextResolver t.nextPromise

/-- The settlement of the source of `w = AbortablePromise.from(p)` is on its way
to the wrapper: the microtask of the reaction of `p.then(resolve)` is queued,
fulfilled with `arg` when `ful` holds and rejected with `arg` otherwise; the
rest is as in `Wrapped`. -/
structure Relayed (u : State) (w kw a ka kb : Nat) (ful : Bool) (arg : Val) : Prop where
  second : ⟨kb, .none, .rejectFn kw⟩ ∈ (u.promises a).reactions
  relay : u.resolvers ka = ⟨a, false⟩ ∧ (u.promises a).state = .pending
  wrapper : u.resolvers kw = ⟨w, false⟩ ∧ (u.promises w).state = .pending
  distinct : a ≠ w
  guard : Guard (wrapScope u w kw a ka kb) u
  queue : ∃ A B, u.jobs = A ++ Job.reaction ⟨ka, .resolveFn kw, .none⟩ ful arg :: B
    ∧ ∀ J, J ∈ A ++ B → J.within (wrapScope u w kw a ka kb) u.nextResolver u.nextPromise

/-- The heap after `p = new Promise(() => {})` (promise 0) and
`p.then(() => 'bad')` (promise 1): a reaction is stored on the pending plain
promise `p`. -/
def plainAwaited : State := (thenOp plainPending 0 (.user returnsBad) .none).1

/-- A history after `w = AbortablePromise.from(p)` in `plainAwaited` (the wrapper
is promise 2): `p.catch(() => 'bad')`, `w.then()`, `w.onabort(h)` and a
microtask, while `p` stays pending. -/
def waitingHistory : List Event :=
  [.thenCall 0 .none (.user returnsBad), .thenCall 2 .none .none, .onabort 2 7, .runJob]

set_option linter.unnecessarySeqFocus false

/-! # Lemmas and theorems -/

/-! ## Frame lemmas of the host primitives -/

@[simp] theorem set_apply {α : Type} (m : Nat → α) (i j : Nat) (a : α) :
    set m i a j = if j = i then a else m j := rfl

@[simp] theorem markResolved_promises (s : State) (k : Nat) :
    (markResolved s k).promises = s.promises := rfl
@[simp] theorem markResolved_ctrls (s : State) (k : Nat) :
    (markResolved s k).ctrls = s.ctrls := rfl
@[simp] theorem markResolved_jobs (s : State) (k : Nat) :
    (markResolved s k).jobs = s.jobs := rfl
@[simp] theorem markResolved_log (s : State) (k : Nat) :
    (markResolved s k).log = s.log := rfl

@[simp] theorem rejectPromise_ctrls (s : State) (p : Nat) (e : Val) :
    (rejectPromise s p e).ctrls = s.ctrls := by
  unfold rejectPromise; split <;> rfl
@[simp] theorem rejectPromise_resolvers (s : State) (p : Nat) (e : Val) :
    (rejectPromise s p e).resolvers = s.resolvers := by
  unfold rejectPromise; split <;> rfl
@[simp] theorem rejectPromise_log (s : State) (p : Nat) (e : Val) :
    (rejectPromise s p e).log = s.log := by
  unfold rejectPromise; split <;> rfl
@[simp] theorem fulfillPromise_ctrls (s : State) (p : Nat) (e : Val) :
    (fulfillPromise s p e).ctrls = s.ctrls := by
  unfold fulfillPromise; split <;> rfl
@[simp] theorem fulfillPromise_resolvers (s : State) (p : Nat) (e : Val) :
    (fulfillPromise s p e).resolvers = s.resolvers := by
  unfold fulfillPromise; split <;> rfl
@[simp] theorem fulfillPromise_log (s : State) (p : Nat) (e : Val) :
    (fulfillPromise s p e).log = s.log := by
  unfold fulfillPromise; split <;> rfl

@[simp] theorem rejectFn_ctrls (s : State) (k : Nat) (e : Val) :
    (rejectFn s k e).ctrls = s.ctrls := by
  unfold rejectFn; split <;> simp
@[simp] theorem rejectFn_log (s : State) (k : Nat) (e : Val) :
    (rejectFn s k e).log = s.log := by
  unfold rejectFn; split <;> simp
@[simp] theorem resolveFn_ctrls (s : State) (k : Nat) (v : Val) :
    (resolveFn s k v).ctrls = s.ctrls := by
  unfold resolveFn; split
  · rfl
  · cases v <;> simp only [] <;> (try split_ifs) <;> simp
@[simp] theorem resolveFn_log (s : State) (k : Nat) (v : Val) :
    (resolveFn s k v).log = s.log := by
  unfold resolveFn; split
  · rfl
  · cases v <;> simp only [] <;> (try split_ifs) <;> simp

@[simp] theorem runListener_ctrls (c : Nat) (s : State) (l : Listener) :
    (runListener c s l).ctrls = s.ctrls := by
  cases l <;> simp [runListener]

@[simp] theorem foldl_runListener_ctrls (c : Nat) (ls : List Listener) (s : State) :
    (ls.foldl (runListener c) s).ctrls = s.ctrls := by
  induction ls generalizing s with
  | nil => rfl
  | cons l ls ih => simp [List.foldl, ih]

theorem rejectFn_state_of_settled (s : State) (k p : Nat) (e : Val)
    (h : (s.promises p).state ≠ .pending) :
    (rejectFn s k e).promises p = s.promises p := by
  unfold rejectFn; split
  · rfl
  · unfold rejectPromise
    split
    · next hp =>
      simp only [markResolved_promises] at hp
      simp only [set_apply, markResolved_promises]
      split
      · next heq => subst heq; exact absurd hp h
      · rfl
    · rfl

theorem runListener_done (c p : Nat) (s : State) (l : Listener) (h : AbortDone c p s) :
    AbortDone c p (runListener c s l) := by
  unfold AbortDone at *
  cases l with
  | user h' => simpa [runListener] using h
  | reject k =>
    simp only [runListener, rejectFn_ctrls]
    rw [rejectFn_state_of_settled _ _ _ _ (by rw [h]; simp)]
    exact h

theorem rejectPromise_promises_ne (s : State) (p q : Nat) (e : Val) (h : p ≠ q) :
    (rejectPromise s q e).promises p = s.promises p := by
  unfold rejectPromise; split <;> simp [h]

theorem rejectPromise_state_pending (s : State) (p : Nat) (e : Val)
    (h : (s.promises p).state = .pending) :
    ((rejectPromise s p e).promises p).state = .rejected e := by
  unfold rejectPromise; rw [h]; simp

theorem fulfillPromise_promises_ne (s : State) (p q : Nat) (e : Val) (h : p ≠ q) :
    (fulfillPromise s q e).promises p = s.promises p := by
  unfold fulfillPromise; split <;> simp [h]

theorem fulfillPromise_state_pending (s : State) (p : Nat) (e : Val)
    (h : (s.promises p).state = .pending) :
    ((fulfillPromise s p e).promises p).state = .fulfilled e := by
  unfold fulfillPromise; rw [h]; simp

theorem rejectFn_unused (s : State) (k : Nat) (e : Val)
    (h : (s.resolvers k).alreadyResolved = false) :
    rejectFn s k e = rejectPromise (markResolved s k) (s.resolvers k).promise e := by
  simp [rejectFn, h]

theorem rejectFn_used (s : State) (k : Nat) (e : Val)
    (h : (s.resolvers k).alreadyResolved = true) : rejectFn s k e = s := by
  simp [rejectFn, h]

theorem markResolved_resolvers_ne (s : State) (k j : Nat) (h : j ≠ k) :
    (markResolved s k).resolvers j = s.resolvers j := by
  simp [markResolved, h]

theorem runListener_ready (c p k : Nat) (s : State) (l : Listener)
    (h : AbortDone c p s ∨ AbortReady p k s) :
    AbortDone c p (runListener c s l) ∨ AbortReady p k (runListener c s l) := by
  rcases h with h | h
  · exact Or.inl (runListener_done c p s l h)
  · obtain ⟨hp, hu, hk⟩ := h
    cases l with
    | user h' => exact Or.inr ⟨hp, hu, hk⟩
    | reject k' =>
      cases hused : (s.resolvers k').alreadyResolved with
      | true =>
        right
        simp only [runListener, rejectFn_used _ _ _ hused]
        exact ⟨hp, hu, hk⟩
      | false =>
        simp only [runListener, AbortDone, AbortReady, rejectFn_unused _ _ _ hused,
          rejectPromise_ctrls, rejectPromise_resolvers, markResolved_ctrls]
        by_cases hsame : (s.resolvers k').promise = p
        · left
          rw [hsame]
          exact rejectPromise_state_pending _ _ _ hp
        · right
          have hkk : k ≠ k' := by
            intro heq; subst heq; exact hsame hk
          have hne : p ≠ (s.resolvers k').promise := fun h' => hsame h'.symm
          rw [rejectPromise_promises_ne _ _ _ _ hne, markResolved_resolvers_ne _ _ _ hkk]
          exact ⟨hp, hu, hk⟩

theorem runListener_own (c p k : Nat) (s : State) (h : AbortReady p k s) :
    AbortDone c p (runListener c s (.reject k)) := by
  obtain ⟨hp, hu, hk⟩ := h
  simp only [runListener, AbortDone, rejectFn_unused _ _ _ hu, rejectPromise_ctrls,
    markResolved_ctrls, hk]
  exact rejectPromise_state_pending _ _ _ hp

theorem foldl_runListener_done (c p : Nat) (ls : List Listener) (s : State)
    (h : AbortDone c p s) : AbortDone c p (ls.foldl (runListener c) s) := by
  induction ls generalizing s with
  | nil => exact h
  | cons l ls ih => exact ih _ (runListener_done c p s l h)

theorem foldl_runListener_rejects (c p k : Nat) (ls : List Listener) (s : State)
    (h : AbortDone c p s ∨ AbortReady p k s) (hmem : Listener.reject k ∈ ls) :
    AbortDone c p (ls.foldl (runListener c) s) := by
  induction ls generalizing s with
  | nil => simp at hmem
  | cons l ls ih =>
    simp only [List.foldl]
    rcases h with h | h
    · exact foldl_runListener_done c p ls _ (runListener_done c p s l h)
    · by_cases hl : l = .reject k
      · subst hl
        exact foldl_runListener_done c p ls _ (runListener_own c p k s h)
      · have hmem' : Listener.reject k ∈ ls := by
          rcases List.mem_cons.mp hmem with h' | h'
          · exact absurd h'.symm hl
          · exact h'
        exact ih _ (runListener_ready c p k s l (Or.inr h)) hmem'

theorem abortReason_nullish (r : Val) :
    abortReason (nullish r (.str "aborted")) = nullish r (.str "aborted") := by
  cases r <;> rfl

theorem abortReason_of_ne (r : Val) (h : r ≠ .undefined) : abortReason r = r := by
  cases r <;> first | rfl | exact absurd rfl h

theorem signalAbort_rejects (s : State) (p c k : Nat) (r : Val)
    (hr : r ≠ .undefined)
    (hlis : Listener.reject k ∈ (s.ctrls c).listeners)
    (hk : (s.resolvers k).promise = p)
    (hun : (s.resolvers k).alreadyResolved = false)
    (hpend : (s.promises p).state = .pending)
    (hnot : (s.ctrls c).aborted = false) :
    ((signalAbort s c r).promises p).state = .rejected (.abortError r c)
      ∧ ((signalAbort s c r).ctrls c).aborted = true
      ∧ ((signalAbort s c r).ctrls c).reason = r := by
  simp only [signalAbort, hnot, abortReason_of_ne r hr]
  have := foldl_runListener_rejects c p k (s.ctrls c).listeners
    { s with ctrls := set s.ctrls c { (s.ctrls c) with aborted := true, reason := r } }
    (Or.inr ⟨hpend, hun, hk⟩) hlis
  simp only [AbortDone, foldl_runListener_ctrls] at this
  simp at this
  simp [this]

/-! ## The abort path -/

theorem abort_rejects (s : State) (p c k : Nat) (r : Val)
    (hw : Wired s p c k) (hu : Unresolved s p k) (hnot : (s.ctrls c).aborted = false) :
    ((AbortablePromise.abort s p r).promises p).state
        = .rejected (.abortError (nullish r (.str "aborted")) c)
      ∧ ((AbortablePromise.abort s p r).ctrls c).aborted = true
      ∧ ((AbortablePromise.abort s p r).ctrls c).reason = nullish r (.str "aborted") := by
  obtain ⟨hc, hl, hk⟩ := hw
  simp only [AbortablePromise.abort, hc]
  exact signalAbort_rejects s p c k _ (by cases r <;> simp [nullish]) hl hk hu.2 hu.1 hnot

/-! ## Settled promises are left alone -/

theorem resolveFn_state_of_settled (s : State) (k p : Nat) (v : Val)
    (h : (s.promises p).state ≠ .pending) :
    (resolveFn s k v).promises p = s.promises p := by
  unfold resolveFn; split
  · rfl
  · have hr : ∀ e, (rejectPromise (markResolved s k) (s.resolvers k).promise e).promises p
        = s.promises p := by
      intro e
      by_cases hp : p = (s.resolvers k).promise
      · subst hp
        unfold rejectPromise; split
        · next hpe => exact absurd hpe h
        · rfl
      · rw [rejectPromise_promises_ne _ _ _ _ hp]; rfl
    have hf : ∀ e, (fulfillPromise (markResolved s k) (s.resolvers k).promise e).promises p
        = s.promises p := by
      intro e
      by_cases hp : p = (s.resolvers k).promise
      · subst hp
        unfold fulfillPromise; split
        · next hpe => exact absurd hpe h
        · rfl
      · rw [fulfillPromise_promises_ne _ _ _ _ hp]; rfl
    cases v <;> simp only [] <;> (try split_ifs) <;> first | exact hf _ | exact hr _ | rfl

theorem runListener_settled (c p : Nat) (s : State) (l : Listener)
    (h : (s.promises p).state ≠ .pending) :
    (runListener c s l).promises p = s.promises p := by
  cases l with
  | user h' => rfl
  | reject k => exact rejectFn_state_of_settled s k p _ h

theorem foldl_runListener_settled (c p : Nat) (ls : List Listener) (s : State)
    (h : (s.promises p).state ≠ .pending) :
    (ls.foldl (runListener c) s).promises p = s.promises p := by
  induction ls generalizing s with
  | nil => rfl
  | cons l ls ih =>
    simp only [List.foldl]
    have h1 := runListener_settled c p s l h
    rw [ih _ (by rw [h1]; exact h), h1]

theorem signalAbort_settled (s : State) (c p : Nat) (r : Val)
    (h : (s.promises p).state ≠ .pending) :
    (signalAbort s c r).promises p = s.promises p := by
  unfold signalAbort; split
  · rfl
  · exact foldl_runListener_settled c p _ _ h

theorem abort_settled (s : State) (p q : Nat) (r : Val)
    (h : (s.promises p).state ≠ .pending) :
    (AbortablePromise.abort s q r).promises p = s.promises p := by
  unfold AbortablePromise.abort; split
  · exact signalAbort_settled s _ p _ h
  · rfl

/-! ## Abort listeners -/

theorem runListener_log (c : Nat) (s : State) (l : Listener) :
    (runListener c s l).log = s.log ++ userHandlers [l] := by
  cases l <;> simp [runListener, userHandlers]

theorem userHandlers_cons (l : Listener) (ls : List Listener) :
    userHandlers (l :: ls) = userHandlers [l] ++ userHandlers ls := by
  cases l <;> simp [userHandlers]

theorem userHandlers_append (xs ys : List Listener) :
    userHandlers (xs ++ ys) = userHandlers xs ++ userHandlers ys := by
  simp [userHandlers]

theorem userHandlers_map_user (hs : List Nat) :
    userHandlers (hs.map Listener.user) = hs := by
  induction hs with
  | nil => rfl
  | cons h hs ih => rw [List.map_cons, userHandlers_cons, ih]; rfl

theorem foldl_runListener_log (c : Nat) (ls : List Listener) (s : State) :
    (ls.foldl (runListener c) s).log = s.log ++ userHandlers ls := by
  induction ls generalizing s with
  | nil => simp [userHandlers]
  | cons l ls ih =>
    rw [List.foldl, ih, runListener_log, userHandlers_cons l ls, List.append_assoc]

theorem signalAbort_log (s : State) (c : Nat) (r : Val) (h : (s.ctrls c).aborted = false) :
    (signalAbort s c r).log = s.log ++ userHandlers (s.ctrls c).listeners := by
  simp only [signalAbort, h]
  exact foldl_runListener_log c _ _

theorem signalAbort_of_aborted (s : State) (c : Nat) (r : Val)
    (h : (s.ctrls c).aborted = true) : signalAbort s c r = s := by
  simp [signalAbort, h]

theorem signalAbort_aborted (s : State) (c : Nat) (r : Val) :
    ((signalAbort s c r).ctrls c).aborted = true := by
  cases h : (s.ctrls c).aborted with
  | true => rw [signalAbort_of_aborted s c r h]; exact h
  | false => simp [signalAbort, h]

theorem rejectPromise_ctrl_field (s : State) (p q : Nat) (e : Val) :
    ((rejectPromise s q e).promises p).ctrl = (s.promises p).ctrl := by
  unfold rejectPromise; split
  · simp only [set_apply]; split
    · next h => subst h; rfl
    · rfl
  · rfl

theorem fulfillPromise_ctrl_field (s : State) (p q : Nat) (e : Val) :
    ((fulfillPromise s q e).promises p).ctrl = (s.promises p).ctrl := by
  unfold fulfillPromise; split
  · simp only [set_apply]; split
    · next h => subst h; rfl
    · rfl
  · rfl

theorem rejectFn_ctrl_field (s : State) (k p : Nat) (e : Val) :
    ((rejectFn s k e).promises p).ctrl = (s.promises p).ctrl := by
  unfold rejectFn; split
  · rfl
  · rw [rejectPromise_ctrl_field]; rfl

theorem resolveFn_ctrl_field (s : State) (k p : Nat) (v : Val) :
    ((resolveFn s k v).promises p).ctrl = (s.promises p).ctrl := by
  unfold resolveFn; split
  · rfl
  · cases v <;> simp only [] <;> (try split_ifs) <;>
      first | (rw [fulfillPromise_ctrl_field]; rfl) | (rw [rejectPromise_ctrl_field]; rfl) | rfl

theorem runListener_ctrl_field (c p : Nat) (s : State) (l : Listener) :
    ((runListener c s l).promises p).ctrl = (s.promises p).ctrl := by
  cases l with
  | user h => rfl
  | reject k => exact rejectFn_ctrl_field s k p _

theorem foldl_runListener_ctrl_field (c p : Nat) (ls : List Listener) (s : State) :
    ((ls.foldl (runListener c) s).promises p).ctrl = (s.promises p).ctrl := by
  induction ls generalizing s with
  | nil => rfl
  | cons l ls ih => rw [List.foldl, ih, runListener_ctrl_field]

theorem signalAbort_ctrl_field (s : State) (c p : Nat) (r : Val) :
    ((signalAbort s c r).promises p).ctrl = (s.promises p).ctrl := by
  unfold signalAbort; split
  · rfl
  · exact foldl_runListener_ctrl_field c p _ _

theorem abort_ctrl_field (s : State) (p q : Nat) (r : Val) :
    ((AbortablePromise.abort s q r).promises p).ctrl = (s.promises p).ctrl := by
  unfold AbortablePromise.abort; split
  · exact signalAbort_ctrl_field s _ p _
  · rfl

theorem abort_of_aborted (s : State) (p c : Nat) (r : Val)
    (hc : (s.promises p).ctrl = some c) (h : (s.ctrls c).aborted = true) :
    AbortablePromise.abort s p r = s := by
  simp only [AbortablePromise.abort, hc]
  exact signalAbort_of_aborted s c _ h

theorem abortAll_of_aborted (s : State) (p c : Nat) (rs : List Val)
    (hc : (s.promises p).ctrl = some c) (h : (s.ctrls c).aborted = true) :
    abortAll s p rs = s := by
  induction rs with
  | nil => rfl
  | cons r rs ih =>
    simp only [abortAll, List.foldl] at ih ⊢
    rw [abort_of_aborted s p c r hc h]
    exact ih

theorem addEventListener_promises (s : State) (c : Nat) (l : Listener) :
    (addEventListener s c l).promises = s.promises := by
  unfold addEventListener; split <;> rfl

theorem addEventListener_log (s : State) (c : Nat) (l : Listener) :
    (addEventListener s c l).log = s.log := by
  unfold addEventListener; split <;> rfl

theorem addEventListener_aborted (s : State) (c c' : Nat) (l : Listener) :
    ((addEventListener s c l).ctrls c').aborted = (s.ctrls c').aborted := by
  unfold addEventListener; split
  · rfl
  · simp only [set_apply]; split
    · next h => subst h; rfl
    · rfl

theorem addEventListener_new (s : State) (c : Nat) (l : Listener)
    (h : l ∉ (s.ctrls c).listeners) :
    ((addEventListener s c l).ctrls c).listeners = (s.ctrls c).listeners ++ [l] := by
  simp [addEventListener, h]

theorem onabortAll_spec (s : State) (p c : Nat) (hs : List Nat)
    (hc : (s.promises p).ctrl = some c) (hnd : hs.Nodup)
    (hnew : ∀ h ∈ hs, Listener.user h ∉ (s.ctrls c).listeners) :
    ((onabortAll s p hs).ctrls c).listeners = (s.ctrls c).listeners ++ hs.map Listener.user
      ∧ ((onabortAll s p hs).ctrls c).aborted = (s.ctrls c).aborted
      ∧ (onabortAll s p hs).promises = s.promises
      ∧ (onabortAll s p hs).log = s.log := by
  induction hs generalizing s with
  | nil => simp [onabortAll]
  | cons h hs ih =>
    have hh : Listener.user h ∉ (s.ctrls c).listeners := hnew h (List.mem_cons_self _ _)
    have hstep : AbortablePromise.onabort s p h = addEventListener s c (.user h) := by
      simp [AbortablePromise.onabort, hc]
    have hl := addEventListener_new s c (.user h) hh
    have hnd' := (List.nodup_cons.mp hnd)
    have := ih (addEventListener s c (.user h))
      (by rw [addEventListener_promises]; exact hc) hnd'.2
      (by
        intro h' hmem
        rw [hl]
        simp only [List.mem_append, List.mem_singleton, not_or]
        refine ⟨hnew h' (List.mem_cons_of_mem _ hmem), ?_⟩
        intro heq
        injection heq with heq
        subst heq
        exact hnd'.1 hmem)
    simp only [onabortAll, List.foldl, hstep] at this ⊢
    obtain ⟨h1, h2, h3, h4⟩ := this
    refine ⟨?_, ?_, ?_, ?_⟩
    · rw [h1, hl]; simp
    · rw [h2, addEventListener_aborted]
    · rw [h3, addEventListener_promises]
    · rw [h4, addEventListener_log]

/-! ## The static method `from` -/

theorem constructCap_ctrl_field (s : State) (executor : Exec) (controller : Option Nat) :
    (((AbortablePromise.constructCap s executor controller).1.promises
        (AbortablePromise.constructCap s executor controller).2.1).ctrl).isSome = true := by
  simp [AbortablePromise.constructCap]

theorem fromValue_instance (s : State) (x : Val) :
    thenTruthy (AbortablePromise.fromValue s x).2 = true
      ∧ instanceOfAbortable (AbortablePromise.fromValue s x).1
          (AbortablePromise.fromValue s x).2 = true := by
  unfold AbortablePromise.fromValue
  split
  · next h =>
    simp only [Bool.and_eq_true] at h
    exact h
  · refine ⟨rfl, ?_⟩
    simp only [instanceOfAbortable, AbortablePromise.construct]
    exact constructCap_ctrl_field s _ none

/-! ## The abort-state invariant -/

theorem signalAbort_rejects_any (s : State) (p c k : Nat) (r : Val)
    (hlis : Listener.reject k ∈ (s.ctrls c).listeners)
    (hk : (s.resolvers k).promise = p)
    (hun : (s.resolvers k).alreadyResolved = false)
    (hpend : (s.promises p).state = .pending)
    (hnot : (s.ctrls c).aborted = false) :
    ((signalAbort s c r).promises p).state
      = .rejected (.abortError ((signalAbort s c r).ctrls c).reason c) := by
  simp only [signalAbort, hnot]
  exact foldl_runListener_rejects c p k (s.ctrls c).listeners _ (Or.inr ⟨hpend, hun, hk⟩) hlis

/-! ## Refinement of the plain `Promise` -/

theorem settleOutcome_append (p : Nat) (cs : List Settle) (c : Settle) (h : cs ≠ []) :
    settleOutcome p (cs ++ [c]) = settleOutcome p cs := by
  cases cs with
  | nil => exact absurd rfl h
  | cons d ds =>
    cases d with
    | resolve v => cases v <;> rfl
    | reject e => rfl

theorem cell_first (s : State) (p k : Nat) (c : Settle) (h : Cell s p k []) :
    Cell (applySettle k s c) p k [c] := by
  obtain ⟨hk, hp, hf⟩ := h
  simp only [settleOutcome] at hp
  simp only [List.isEmpty, Bool.not_true] at hf
  cases c with
  | reject e =>
    simp only [applySettle, rejectFn_unused s k e hf, Cell, hk, rejectPromise_resolvers,
      settleOutcome]
    refine ⟨by simp [markResolved, hk], rejectPromise_state_pending _ _ _ hp,
      by simp [markResolved]⟩
  | resolve v =>
    have hmk : ((markResolved s k).resolvers k).promise = p := by simp [markResolved, hk]
    have hmf : ((markResolved s k).resolvers k).alreadyResolved = true := by
      simp [markResolved]
    have hmp : ((markResolved s k).promises p).state = .pending := hp
    have hful : ∀ w, settleOutcome p [.resolve w] = .fulfilled w →
        Cell (fulfillPromise (markResolved s k) p w) p k [.resolve w] := fun w hw =>
      ⟨by rw [fulfillPromise_resolvers]; exact hmk,
        by rw [hw]; exact fulfillPromise_state_pending _ _ _ hmp,
        by rw [fulfillPromise_resolvers]; exact hmf⟩
    cases v with
    | promise y =>
      simp only [applySettle, resolveFn, hf, hk, Bool.false_eq_true, if_false]
      by_cases hy : y = p
      · simp only [hy, if_true]
        exact ⟨by rw [rejectPromise_resolvers]; exact hmk,
          by simpa [settleOutcome] using rejectPromise_state_pending _ _ _ hmp,
          by rw [rejectPromise_resolvers]; exact hmf⟩
      · simp only [hy, if_false]
        exact ⟨hmk, by simpa [settleOutcome, hy] using hmp, hmf⟩
    | _ =>
      simp only [applySettle, resolveFn, hf, hk, Bool.false_eq_true, if_false]
      exact hful _ rfl

theorem applySettle_used (s : State) (k : Nat) (c : Settle)
    (h : (s.resolvers k).alreadyResolved = true) : applySettle k s c = s := by
  cases c <;> simp [applySettle, resolveFn, rejectFn, h]

theorem cell_step (s : State) (p k : Nat) (cs : List Settle) (c : Settle)
    (h : Cell s p k cs) : Cell (applySettle k s c) p k (cs ++ [c]) := by
  cases cs with
  | nil => exact cell_first s p k c h
  | cons d ds =>
    obtain ⟨hk, hp, hf⟩ := h
    have hf' : (s.resolvers k).alreadyResolved = true := by simpa using hf
    rw [applySettle_used s k c hf']
    exact ⟨hk, by rw [settleOutcome_append p (d :: ds) c (by simp)]; exact hp, by simp [hf']⟩

theorem cell_steps (s : State) (p k : Nat) (cs more : List Settle) (h : Cell s p k cs) :
    Cell (applySettles k s more) p k (cs ++ more) := by
  induction more generalizing s cs with
  | nil => simpa [applySettles] using h
  | cons c more ih =>
    have := ih (applySettle k s c) (cs ++ [c]) (cell_step s p k cs c h)
    simpa [applySettles] using this

theorem finishExecutor_runScript (acts : List ExecAct) (k : Nat) (s : State)
    (hno : ∀ a ∈ acts, a.isAbort = false) :
    finishExecutor k (runScript acts k s) = applySettles k s (settleCalls acts) := by
  induction acts generalizing s with
  | nil => rfl
  | cons a acts ih =>
    have hrest : ∀ b ∈ acts, b.isAbort = false := fun b hb => hno b (List.mem_cons_of_mem _ hb)
    cases a with
    | resolve v => simpa [runScript, settleCalls, applySettles, applySettle] using ih _ hrest
    | reject e => simpa [runScript, settleCalls, applySettles, applySettle] using ih _ hrest
    | abort c r => simpa [ExecAct.isAbort] using hno (.abort c r) (List.mem_cons_self _ _)
    | throw e => simp [runScript, settleCalls, applySettles, applySettle, finishExecutor]

theorem settleOutcome_plain (p : Nat) (cs : List Settle)
    (h : ∀ v, Settle.resolve v ∈ cs → v.isPromise = false) :
    settleOutcome p cs = firstSettlement cs := by
  cases cs with
  | nil => rfl
  | cons c cs =>
    cases c with
    | reject e => rfl
    | resolve v =>
      have := h v (List.mem_cons_self _ _)
      cases v <;> first | rfl | simp [Val.isPromise] at this

theorem promise_constructCap_cell (s : State) (acts : List ExecAct)
    (hno : ∀ a ∈ acts, a.isAbort = false) :
    Cell (Promise.constructCap s (runScript acts)).1 s.nextPromise s.nextResolver
      (settleCalls acts) := by
  simp only [Promise.constructCap, newPromise, finishExecutor_runScript acts _ _ hno]
  exact cell_steps _ s.nextPromise s.nextResolver [] (settleCalls acts)
    (by simp [Cell, settleOutcome])

theorem addEventListener_resolvers (s : State) (c : Nat) (l : Listener) :
    (addEventListener s c l).resolvers = s.resolvers := by
  unfold addEventListener; split <;> rfl

theorem abortable_constructCap_cell (s : State) (acts : List ExecAct)
    (controller : Option Nat) (hno : ∀ a ∈ acts, a.isAbort = false) :
    Cell (AbortablePromise.constructCap s (runScript acts) controller).1 s.nextPromise
      s.nextResolver (settleCalls acts) := by
  have hids : ∀ t : State, t.nextPromise = s.nextPromise → t.nextResolver = s.nextResolver →
      ∀ c x, Cell
        ({ applySettles t.nextResolver (addEventListener (newPromise t).1 c
              (.reject t.nextResolver)) (settleCalls acts) with
            promises := set (applySettles t.nextResolver (addEventListener (newPromise t).1 c
              (.reject t.nextResolver)) (settleCalls acts)).promises t.nextPromise
              { ((applySettles t.nextResolver (addEventListener (newPromise t).1 c
                  (.reject t.nextResolver)) (settleCalls acts)).promises t.nextPromise) with
                ctrl := x } })
        s.nextPromise s.nextResolver (settleCalls acts) := by
    intro t h1 h2 c x
    have := cell_steps (addEventListener (newPromise t).1 c (.reject t.nextResolver))
      t.nextPromise t.nextResolver [] (settleCalls acts)
      (by simp [Cell, settleOutcome, addEventListener_resolvers, addEventListener_promises,
            newPromise])
    rw [← h1, ← h2]
    obtain ⟨a1, a2, a3⟩ := this
    exact ⟨a1, by simpa using a2, a3⟩
  cases controller with
  | some c =>
    simp only [AbortablePromise.constructCap, finishExecutor_runScript acts _ _ hno]
    exact hids s rfl rfl c _
  | none =>
    simp only [AbortablePromise.constructCap, finishExecutor_runScript acts _ _ hno]
    exact hids (newController s).1 rfl rfl _ _

theorem abortable_constructCap_ids (s : State) (executor : Exec) (controller : Option Nat) :
    (AbortablePromise.constructCap s executor controller).2 = (s.nextPromise, s.nextResolver) := by
  cases controller <;> rfl

theorem sampleActs_plain :
    ∀ v, Settle.resolve v ∈ settleCalls sampleActs ++ [.resolve (.num 3)] →
      v.isPromise = false := by
  intro v hv
  simp only [sampleActs, settleCalls, List.cons_append, List.nil_append, List.mem_cons,
    Settle.resolve.injEq, List.mem_singleton, List.not_mem_nil, or_false] at hv
  rcases hv with h | h | h
  · cases h
  · subst h; rfl
  · subst h; rfl

/-! ## Closed forms of allocation, derivation and abort -/

theorem set_set {α : Type} (m : Nat → α) (i : Nat) (a b : α) :
    set (set m i a) i b = set m i b := by
  funext j; simp only [set_apply]; split <;> rfl

theorem newCapability_abortable (s : State) :
    newCapability s true = (capState s, s.nextPromise, s.nextResolver) := by
  simp [newCapability, AbortablePromise.constructCap, newController, newPromise,
    addEventListener, capabilityExecutor, finishExecutor, capState, set_set]

theorem thenOp_abortable (s : State) (f cf : Nat) (onF onR : Cb)
    (hf : (s.promises f).ctrl = some cf) :
    thenOp s f onF onR
      = (attachReaction (capState s) f ⟨s.nextResolver, onF, onR⟩, s.nextPromise) := by
  simp only [thenOp, hf, Option.isSome_some, newCapability_abortable, attachReaction]
  split <;> rfl

theorem derive_eq_thenOp (s : State) (f : Nat) (dv : Derivation) :
    ∃ onF onR, derive s f dv = thenOp s f onF onR := by
  cases dv with
  | thenCall a b => exact ⟨a, b, rfl⟩
  | catchCall b => exact ⟨.none, b, rfl⟩
  | finallyCall g =>
    cases g with
    | none => exact ⟨.none, .none, rfl⟩
    | some fn => exact ⟨_, _, rfl⟩

theorem attachReaction_ctrls (s : State) (f : Nat) (r : Reaction) :
    (attachReaction s f r).ctrls = s.ctrls := by
  unfold attachReaction; split <;> rfl

theorem attachReaction_resolvers (s : State) (f : Nat) (r : Reaction) :
    (attachReaction s f r).resolvers = s.resolvers := by
  unfold attachReaction; split <;> rfl

theorem attachReaction_promises_ne (s : State) (f x : Nat) (r : Reaction) (h : x ≠ f) :
    (attachReaction s f r).promises x = s.promises x := by
  unfold attachReaction; split <;> simp [h]

theorem attachReaction_state (s : State) (f x : Nat) (r : Reaction) :
    ((attachReaction s f r).promises x).state = (s.promises x).state := by
  unfold attachReaction
  split <;> simp only [set_apply] <;> (try split) <;> simp_all

theorem attachReaction_ctrl_field (s : State) (f x : Nat) (r : Reaction) :
    ((attachReaction s f r).promises x).ctrl = (s.promises x).ctrl := by
  unfold attachReaction
  split <;> simp only [set_apply] <;> (try split) <;> simp_all

theorem foldl_runListener_spent (c k : Nat) (ls : List Listener) (s : State)
    (hall : ∀ j, Listener.reject j ∈ ls → j = k)
    (hk : (s.resolvers k).alreadyResolved = true) :
    ls.foldl (runListener c) s = { s with log := s.log ++ userHandlers ls } := by
  induction ls generalizing s with
  | nil => simp [userHandlers]
  | cons l ls ih =>
    have hall' : ∀ j, Listener.reject j ∈ ls → j = k :=
      fun j hj => hall j (List.mem_cons_of_mem _ hj)
    cases l with
    | user h =>
      rw [List.foldl, ih _ hall' (by simpa [runListener] using hk), userHandlers_cons]
      simp [runListener, userHandlers]
    | reject j =>
      have hj : j = k := hall j (List.mem_cons_self _ _)
      subst hj
      rw [List.foldl, show runListener c s (.reject j) = s from rejectFn_used s j _ hk,
        ih _ hall' hk, userHandlers_cons]
      simp [userHandlers]

theorem foldl_runListener_own (c p k : Nat) (ls : List Listener) (s : State)
    (hall : ∀ j, Listener.reject j ∈ ls → j = k) (hmem : Listener.reject k ∈ ls)
    (hk : s.resolvers k = ⟨p, false⟩) (hp : (s.promises p).state = .pending) :
    ls.foldl (runListener c) s =
      { s with
        resolvers := set s.resolvers k ⟨p, true⟩
        promises := set s.promises p
          { (s.promises p) with
            state := .rejected (.abortError (s.ctrls c).reason c), reactions := [] }
        jobs := s.jobs ++ reactionJobs (s.promises p).reactions false
          (.abortError (s.ctrls c).reason c)
        log := s.log ++ userHandlers ls } := by
  induction ls generalizing s with
  | nil => simp at hmem
  | cons l ls ih =>
    have hall' : ∀ j, Listener.reject j ∈ ls → j = k :=
      fun j hj => hall j (List.mem_cons_of_mem _ hj)
    cases l with
    | user h =>
      have hmem' : Listener.reject k ∈ ls := by simpa using hmem
      rw [List.foldl, ih _ hall' hmem' (by simpa [runListener] using hk)
        (by simpa [runListener] using hp), userHandlers_cons]
      simp [runListener, userHandlers]
    | reject j =>
      have hj : j = k := hall j (List.mem_cons_self _ _)
      subst hj
      have hstep : runListener c s (.reject j) =
          { s with
            resolvers := set s.resolvers j ⟨p, true⟩
            promises := set s.promises p
              { (s.promises p) with
                state := .rejected (.abortError (s.ctrls c).reason c), reactions := [] }
            jobs := s.jobs ++ reactionJobs (s.promises p).reactions false
              (.abortError (s.ctrls c).reason c) } := by
        simp [runListener, rejectFn, hk, markResolved, rejectPromise, hp]
      rw [List.foldl, hstep, foldl_runListener_spent c j ls _ hall' (by simp),
        userHandlers_cons]
      simp [userHandlers]

theorem abort_own_listener (s : State) (p c k : Nat) (r : Val)
    (hc : (s.promises p).ctrl = some c) (hnot : (s.ctrls c).aborted = false)
    (hall : ∀ j, Listener.reject j ∈ (s.ctrls c).listeners → j = k)
    (hmem : Listener.reject k ∈ (s.ctrls c).listeners)
    (hk : s.resolvers k = ⟨p, false⟩) (hp : (s.promises p).state = .pending) :
    AbortablePromise.abort s p r = abortedState s p c k (nullish r (.str "aborted")) := by
  simp only [AbortablePromise.abort, hc, signalAbort, hnot, abortReason_nullish,
    Bool.false_eq_true, if_false]
  rw [foldl_runListener_own c p k (s.ctrls c).listeners
    { s with ctrls := set s.ctrls c ⟨true, nullish r (.str "aborted"), (s.ctrls c).listeners⟩ }
    hall hmem hk hp]
  simp [abortedState]
/-! ## Derived promises have their own controller -/

theorem derived_facts (s : State) (f : Nat) (r0 : Reaction)
    (hfa : f < s.nextPromise) :
    (attachReaction (capState s) f r0).promises s.nextPromise
        = ⟨.pending, [], some s.nextCtrl⟩
      ∧ (attachReaction (capState s) f r0).ctrls s.nextCtrl
        = ⟨false, .undefined, [.reject s.nextResolver]⟩
      ∧ (attachReaction (capState s) f r0).resolvers s.nextResolver
        = ⟨s.nextPromise, false⟩ := by
  refine ⟨?_, ?_, ?_⟩
  · rw [attachReaction_promises_ne _ _ _ _ (Nat.ne_of_gt hfa)]
    simp [capState]
  · rw [attachReaction_ctrls]; simp [capState]
  · rw [attachReaction_resolvers]; simp [capState]

theorem abort_derived (s : State) (f : Nat) (r0 : Reaction) (r : Val)
    (hfa : f < s.nextPromise) :
    AbortablePromise.abort (attachReaction (capState s) f r0) s.nextPromise r
      = abortedState (attachReaction (capState s) f r0) s.nextPromise s.nextCtrl
          s.nextResolver (nullish r (.str "aborted")) := by
  obtain ⟨h1, h2, h3⟩ := derived_facts s f r0 hfa
  exact abort_own_listener _ _ _ _ r (by rw [h1]) (by rw [h2]) (by rw [h2]; simp)
    (by rw [h2]; simp) h3 (by rw [h1])

/-! ## Propagation of an abort down a chain -/

theorem thenOp_abortable_pending (s : State) (f cf : Nat) (onF onR : Cb)
    (hf : (s.promises f).ctrl = some cf) (hfa : f < s.nextPromise)
    (hp : (s.promises f).state = .pending) :
    thenOp s f onF onR =
      ({ capState s with
          promises := set (capState s).promises f
            { (s.promises f) with
              reactions := (s.promises f).reactions ++ [⟨s.nextResolver, onF, onR⟩] } },
        s.nextPromise) := by
  have hne : f ≠ s.nextPromise := Nat.ne_of_lt hfa
  simp [thenOp, hf, newCapability_abortable, capState, hne, hp]

theorem resolveFn_plain (s : State) (k : Nat) (w : Val) (hw : w.isPromise = false) :
    resolveFn s k w
      = if (s.resolvers k).alreadyResolved then s
        else fulfillPromise (markResolved s k) (s.resolvers k).promise w := by
  cases w with
  | promise y => simp [Val.isPromise] at hw
  | _ => rfl

theorem resolveFn_promise (s : State) (k y : Nat) :
    resolveFn s k (.promise y)
      = if (s.resolvers k).alreadyResolved then s
        else if y = (s.resolvers k).promise then
          rejectPromise (markResolved s k) (s.resolvers k).promise .typeError
        else { markResolved s k with
               jobs := (markResolved s k).jobs ++ [Job.thenable (s.resolvers k).promise y] } := rfl

theorem promiseResolve_plain (s : State) (w : Val) (hw : w.isPromise = false) :
    promiseResolve s true w = (resolveFn (capState s) s.nextResolver w, s.nextPromise) := by
  cases w with
  | promise y => simp [Val.isPromise] at hw
  | _ => simp [promiseResolve, newCapability_abortable]

theorem fresh_listeners : (fresh.ctrls 0).listeners = [.reject 0] := rfl

/-! ## Wrapping a plain promise with `from` -/

theorem newCapability_plain (s : State) :
    newCapability s false
      = ({ s with
           promises := set s.promises s.nextPromise ⟨.pending, [], none⟩
           nextPromise := s.nextPromise + 1
           resolvers := set s.resolvers s.nextResolver ⟨s.nextPromise, false⟩
           nextResolver := s.nextResolver + 1 }, s.nextPromise, s.nextResolver) := by
  simp [newCapability, Promise.constructCap, newPromise, capabilityExecutor, finishExecutor]

/-! ## Group combinators -/

theorem Extends.same (s : State) (g kg : Nat) : Extends s s g kg :=
  ⟨Nat.le_refl _, Nat.le_refl _, Nat.le_refl _, rfl, rfl, fun _ _ => rfl⟩

theorem Extends.chain {s t u : State} {g kg : Nat} (h1 : Extends s t g kg)
    (h2 : Extends t u g kg) : Extends s u g kg := by
  obtain ⟨a1, a2, a3, a4, a5, a6⟩ := h1
  obtain ⟨b1, b2, b3, b4, b5, b6⟩ := h2
  exact ⟨Nat.le_trans a1 b1, Nat.le_trans a2 b2, Nat.le_trans a3 b3, b4.trans a4, b5.trans a5,
    fun c hc => (b6 c (Nat.lt_of_lt_of_le hc a3)).trans (a6 c hc)⟩

theorem thenOp_eq (s : State) (p : Nat) (onF onR : Cb) :
    thenOp s p onF onR
      = (attachReaction (newCapability s (s.promises p).ctrl.isSome).1 p
          ⟨(newCapability s (s.promises p).ctrl.isSome).2.2, onF, onR⟩,
        (newCapability s (s.promises p).ctrl.isSome).2.1) := by
  simp only [thenOp, attachReaction]
  split <;> rfl

theorem newCapability_ids (s : State) (ab : Bool) :
    (newCapability s ab).2 = (s.nextPromise, s.nextResolver) := by
  cases ab
  · rw [newCapability_plain]
  · rw [newCapability_abortable]

theorem newCapability_extends (s : State) (ab : Bool) (g kg : Nat)
    (hg : g < s.nextPromise) (hk : kg < s.nextResolver) :
    Extends s (newCapability s ab).1 g kg := by
  have h1 : g ≠ s.nextPromise := Nat.ne_of_lt hg
  have h2 : kg ≠ s.nextResolver := Nat.ne_of_lt hk
  cases ab
  · rw [newCapability_plain]
    exact ⟨by simp, by simp, by simp, by simp [h1], by simp [h2], fun c _ => rfl⟩
  · rw [newCapability_abortable]
    refine ⟨by simp [capState], by simp [capState], by simp [capState], by simp [capState, h1],
      by simp [capState, h2], fun c hc => ?_⟩
    have : c ≠ s.nextCtrl := Nat.ne_of_lt hc
    simp [capState, this]

theorem newCapability_counters (s : State) (ab : Bool) :
    (newCapability s ab).1.nextPromise = s.nextPromise + 1
      ∧ (newCapability s ab).1.nextResolver = s.nextResolver + 1 := by
  cases ab
  · rw [newCapability_plain]; exact ⟨rfl, rfl⟩
  · rw [newCapability_abortable]; exact ⟨rfl, rfl⟩

theorem newCapability_resolver (s : State) (ab : Bool) :
    (newCapability s ab).1.resolvers s.nextResolver = ⟨s.nextPromise, false⟩ := by
  cases ab
  · rw [newCapability_plain]; simp
  · rw [newCapability_abortable]; simp [capState]

theorem attachReaction_extends (s : State) (f : Nat) (r : Reaction) (g kg : Nat)
    (h : g ≠ f) : Extends s (attachReaction s f r) g kg := by
  refine ⟨?_, ?_, ?_, attachReaction_promises_ne s f g r h, ?_, fun c _ => ?_⟩
  · unfold attachReaction; split <;> exact Nat.le_refl _
  · unfold attachReaction; split <;> exact Nat.le_refl _
  · unfold attachReaction; split <;> exact Nat.le_refl _
  · rw [attachReaction_resolvers]
  · rw [attachReaction_ctrls]

theorem resolveFn_counters (s : State) (k : Nat) (v : Val) :
    (resolveFn s k v).nextPromise = s.nextPromise
      ∧ (resolveFn s k v).nextResolver = s.nextResolver
      ∧ (resolveFn s k v).nextCtrl = s.nextCtrl := by
  unfold resolveFn; split
  · exact ⟨rfl, rfl, rfl⟩
  · cases v <;> simp only [] <;> (try split_ifs) <;>
      simp [fulfillPromise, rejectPromise, markResolved] <;> (split <;> simp)

theorem resolveFn_extends (s : State) (k : Nat) (v : Val) (g kg : Nat)
    (hk : kg ≠ k) (hp : g ≠ (s.resolvers k).promise) :
    Extends s (resolveFn s k v) g kg := by
  obtain ⟨c1, c2, c3⟩ := resolveFn_counters s k v
  refine ⟨by rw [c1], by rw [c2], by rw [c3], ?_, ?_, fun c _ => by rw [resolveFn_ctrls]⟩
  · unfold resolveFn; split
    · rfl
    · cases v <;> simp only [] <;> (try split_ifs) <;>
        first
        | (rw [fulfillPromise_promises_ne _ _ _ _ hp]; rfl)
        | (rw [rejectPromise_promises_ne _ _ _ _ hp]; rfl)
        | rfl
  · unfold resolveFn; split
    · rfl
    · cases v <;> simp only [] <;> (try split_ifs) <;>
        simp [fulfillPromise_resolvers, rejectPromise_resolvers, markResolved, hk]

theorem openSlot_extends (kind : Combinator) (a : Nat) (s : State) (g kg : Nat) :
    Extends s (openSlot kind a s) g kg := by
  cases kind <;> exact ⟨Nat.le_refl _, Nat.le_refl _, Nat.le_refl _, rfl, rfl, fun _ _ => rfl⟩

theorem countUp_extends (kind : Combinator) (a : Nat) (s : State) (g kg : Nat) :
    Extends s (countUp kind a s) g kg := by
  cases kind <;> exact ⟨Nat.le_refl _, Nat.le_refl _, Nat.le_refl _, rfl, rfl, fun _ _ => rfl⟩

theorem promiseResolve_extends (s : State) (x : Val) (g kg : Nat)
    (hg : g < s.nextPromise) (hk : kg < s.nextResolver)
    (hx : ∀ y, x = .promise y → y ≠ g) :
    Extends s (promiseResolve s true x).1 g kg ∧ (promiseResolve s true x).2 ≠ g := by
  have hnew : Extends s (resolveFn (newCapability s true).1 (newCapability s true).2.2 x) g kg
      ∧ (newCapability s true).2.1 ≠ g := by
    rw [newCapability_ids]
    refine ⟨(newCapability_extends s true g kg hg hk).chain
      (resolveFn_extends _ _ _ g kg (Nat.ne_of_lt hk) ?_), Nat.ne_of_gt hg⟩
    rw [newCapability_resolver]
    exact Nat.ne_of_lt hg
  unfold promiseResolve
  cases x with
  | promise y =>
    simp only []
    split
    · exact ⟨Extends.same s g kg, hx y rfl⟩
    · exact hnew
  | _ => exact hnew

theorem thenOp_extends (s : State) (p : Nat) (onF onR : Cb) (g kg : Nat)
    (hg : g < s.nextPromise) (hk : kg < s.nextResolver) (hp : g ≠ p) :
    Extends s (thenOp s p onF onR).1 g kg := by
  rw [thenOp_eq]
  exact (newCapability_extends s _ g kg hg hk).chain (attachReaction_extends _ p _ g kg hp)

theorem combinatorStep_extends (kind : Combinator) (a kg0 : Nat) (acc : State × Nat) (x : Val)
    (g kg : Nat) (hg : g < acc.1.nextPromise) (hk : kg < acc.1.nextResolver)
    (hx : ∀ y, x = .promise y → y ≠ g) :
    Extends acc.1 (combinatorStep kind a kg0 acc x).1 g kg := by
  unfold combinatorStep
  have h0 := openSlot_extends kind a acc.1 g kg
  obtain ⟨h1, hne⟩ := promiseResolve_extends (openSlot kind a acc.1) x g kg
    (Nat.lt_of_lt_of_le hg h0.1) (Nat.lt_of_lt_of_le hk h0.2.1) hx
  have h01 := h0.chain h1
  have h2 := countUp_extends kind a (promiseResolve (openSlot kind a acc.1) true x).1 g kg
  have h012 := h01.chain h2
  exact h012.chain (thenOp_extends _ _ _ _ g kg (Nat.lt_of_lt_of_le hg h012.1)
    (Nat.lt_of_lt_of_le hk h012.2.1) (Ne.symm hne))

theorem foldl_combinatorStep_extends (kind : Combinator) (a kg0 : Nat) (inputs : List Val)
    (acc : State × Nat) (g kg : Nat) (hg : g < acc.1.nextPromise)
    (hk : kg < acc.1.nextResolver) (hx : ∀ y, Val.promise y ∈ inputs → y ≠ g) :
    Extends acc.1 (inputs.foldl (combinatorStep kind a kg0) acc).1 g kg := by
  induction inputs generalizing acc with
  | nil => exact Extends.same _ g kg
  | cons x xs ih =>
    have h1 := combinatorStep_extends kind a kg0 acc x g kg hg hk
      (fun y hy => hx y (by rw [hy]; exact List.mem_cons_self _ _))
    have h2 := ih (combinatorStep kind a kg0 acc x) (Nat.lt_of_lt_of_le hg h1.1)
      (Nat.lt_of_lt_of_le hk h1.2.1) (fun y hy => hx y (List.mem_cons_of_mem _ hy))
    exact h1.chain h2

theorem ofList_not_promise (vs : List Val) : (Val.ofList vs).isPromise = false := by
  cases vs <;> rfl

theorem resolveFn_settles (s : State) (k g : Nat) (v : Val) (hv : v.isPromise = false)
    (hk : s.resolvers k = ⟨g, false⟩) (hp : (s.promises g).state = .pending) :
    ((resolveFn s k v).promises g).state = .fulfilled v := by
  rw [resolveFn_plain s k v hv]
  simp only [hk, Bool.false_eq_true, if_false]
  exact fulfillPromise_state_pending _ _ _ hp

theorem rejectFn_settles (s : State) (k g : Nat) (e : Val)
    (hk : s.resolvers k = ⟨g, false⟩) (hp : (s.promises g).state = .pending) :
    ((rejectFn s k e).promises g).state = .rejected e := by
  rw [rejectFn_unused s k e (by rw [hk])]
  simp only [hk]
  exact rejectPromise_state_pending _ _ _ hp

/-- The end of the loop either settles the result or leaves the heap of
promises, resolvers and controllers as it is. -/
theorem combinatorFinish_cases (kind : Combinator) (a kg g : Nat) (s : State)
    (hk : s.resolvers kg = ⟨g, false⟩) (hp : (s.promises g).state = .pending) :
    ((combinatorFinish kind a kg s).promises g).state ≠ .pending
      ∨ ((combinatorFinish kind a kg s).promises = s.promises
        ∧ (combinatorFinish kind a kg s).resolvers = s.resolvers
        ∧ (combinatorFinish kind a kg s).ctrls = s.ctrls) := by
  cases kind
  · simp only [combinatorFinish]
    split
    · left
      refine ne_of_eq_of_ne (resolveFn_settles _ kg g _ (ofList_not_promise _) ?_ ?_) (by simp)
      · exact hk
      · exact hp
    · right; exact ⟨rfl, rfl, rfl⟩
  · simp only [combinatorFinish]
    split
    · left
      refine ne_of_eq_of_ne (resolveFn_settles _ kg g _ (ofList_not_promise _) ?_ ?_) (by simp)
      · exact hk
      · exact hp
    · right; exact ⟨rfl, rfl, rfl⟩
  · simp only [combinatorFinish]
    split
    · left
      refine ne_of_eq_of_ne (rejectFn_settles _ kg g _ ?_ ?_) (by simp)
      · exact hk
      · exact hp
    · right; exact ⟨rfl, rfl, rfl⟩
  · exact Or.inr ⟨rfl, rfl, rfl⟩

theorem openAggregate_fields (kind : Combinator) (kg : Nat) (s : State) :
    (openAggregate kind kg s).promises = s.promises
      ∧ (openAggregate kind kg s).resolvers = s.resolvers
      ∧ (openAggregate kind kg s).ctrls = s.ctrls
      ∧ (openAggregate kind kg s).nextPromise = s.nextPromise
      ∧ (openAggregate kind kg s).nextResolver = s.nextResolver
      ∧ (openAggregate kind kg s).nextCtrl = s.nextCtrl := by
  cases kind <;> exact ⟨rfl, rfl, rfl, rfl, rfl, rfl⟩

/-- The state of the result of a combinator call in which the aggregate has not
settled: the promise, its resolver pair and its controller are as the
constructor left them, and the controllers that existed before are untouched. -/
theorem combinator_pending_facts (kind : Combinator) (s : State) (inputs : List Val)
    (hin : ∀ y, Val.promise y ∈ inputs → y < s.nextPromise)
    (hpend : ((combinator kind s inputs).1.promises (combinator kind s inputs).2).state
      = .pending) :
    (combinator kind s inputs).2 = s.nextPromise
      ∧ (combinator kind s inputs).1.promises s.nextPromise = ⟨.pending, [], some s.nextCtrl⟩
      ∧ (combinator kind s inputs).1.resolvers s.nextResolver = ⟨s.nextPromise, false⟩
      ∧ (combinator kind s inputs).1.ctrls s.nextCtrl
          = ⟨false, .undefined, [.reject s.nextResolver]⟩
      ∧ ∀ c, c < s.nextCtrl → (combinator kind s inputs).1.ctrls c = s.ctrls c := by
  simp only [combinator, newCapability_abortable] at hpend ⊢
  obtain ⟨o1, o2, o3, o4, o5, o6⟩ := openAggregate_fields kind s.nextResolver (capState s)
  have hext := foldl_combinatorStep_extends kind (capState s).nextAgg s.nextResolver inputs
    (openAggregate kind s.nextResolver (capState s), 0) s.nextPromise s.nextResolver
    (by rw [o4]; simp [capState]) (by rw [o5]; simp [capState])
    (fun y hy => Nat.ne_of_lt (hin y hy))
  obtain ⟨e1, e2, e3, e4, e5, e6⟩ := hext
  simp only [o1, o2, o3, o6] at e4 e5 e6
  have hg : (List.foldl (combinatorStep kind (capState s).nextAgg s.nextResolver)
      (openAggregate kind s.nextResolver (capState s), 0) inputs).1.promises s.nextPromise
      = ⟨.pending, [], some s.nextCtrl⟩ := by rw [e4]; simp [capState]
  have hk : (List.foldl (combinatorStep kind (capState s).nextAgg s.nextResolver)
      (openAggregate kind s.nextResolver (capState s), 0) inputs).1.resolvers s.nextResolver
      = ⟨s.nextPromise, false⟩ := by rw [e5]; simp [capState]
  have hc : ∀ c, c < s.nextCtrl + 1 →
      (List.foldl (combinatorStep kind (capState s).nextAgg s.nextResolver)
        (openAggregate kind s.nextResolver (capState s), 0) inputs).1.ctrls c
      = (capState s).ctrls c := fun c h => e6 c (by simpa [capState] using h)
  rcases combinatorFinish_cases kind (capState s).nextAgg s.nextResolver s.nextPromise _ hk
    (by rw [hg]) with hset | ⟨f1, f2, f3⟩
  · exact absurd hpend hset
  · refine ⟨trivial, by rw [f1, hg], by rw [f2, hk], ?_, fun c h => ?_⟩
    · rw [f3, hc _ (Nat.lt_succ_self _)]; simp [capState]
    · rw [f3, hc c (Nat.lt_succ_of_lt h)]
      have : c ≠ s.nextCtrl := Nat.ne_of_lt h
      simp [capState, this]

theorem twoInputs_valid :
    ∀ y, Val.promise y ∈ [Val.promise 0, Val.promise 1] → y < twoInputs.nextPromise := by
  intro y hy
  simp only [List.mem_cons, Val.promise.injEq, List.mem_singleton, List.not_mem_nil,
    or_false] at hy
  rcases hy with h | h <;> subst h <;> decide

/-! ## What no operation undoes -/

theorem Steady.still (s : State) : Steady s s :=
  ⟨rfl, rfl, rfl, fun _ => rfl, fun _ => rfl, fun _ _ h => h, fun _ _ => rfl, fun _ h => h,
    fun _ h => ⟨h, rfl⟩⟩

theorem Steady.andThen {s t u : State} (h1 : Steady s t) (h2 : Steady t u) : Steady s u where
  promiseCount := h2.promiseCount.trans h1.promiseCount
  resolverCount := h2.resolverCount.trans h1.resolverCount
  ctrlCount := h2.ctrlCount.trans h1.ctrlCount
  ctrlField p := (h2.ctrlField p).trans (h1.ctrlField p)
  resolverPromise k := (h2.resolverPromise k).trans (h1.resolverPromise k)
  listeners c l h := h2.listeners c l (h1.listeners c l h)
  settled p h := by
    have a := h1.settled p h
    rw [h2.settled p (by rw [a]; exact h), a]
  spent k h := h2.spent k (h1.spent k h)
  aborted c h := by
    obtain ⟨a, b⟩ := h1.aborted c h
    obtain ⟨a', b'⟩ := h2.aborted c a
    exact ⟨a', b'.trans b⟩

theorem Steady.grows {s t : State} (h : Steady s t) : Grows s t where
  promiseCount := Nat.le_of_eq h.promiseCount.symm
  resolverCount := Nat.le_of_eq h.resolverCount.symm
  ctrlCount := Nat.le_of_eq h.ctrlCount.symm
  ctrlField p _ := h.ctrlField p
  resolverPromise k _ := h.resolverPromise k
  listeners c _ l hl := h.listeners c l hl
  settled p _ hp := h.settled p hp
  spent k _ hk := h.spent k hk
  aborted c _ hc := h.aborted c hc

theorem Grows.self (s : State) : Grows s s := (Steady.still s).grows

theorem Grows.followedBy {s t u : State} (h1 : Grows s t) (h2 : Grows t u) : Grows s u where
  promiseCount := Nat.le_trans h1.promiseCount h2.promiseCount
  resolverCount := Nat.le_trans h1.resolverCount h2.resolverCount
  ctrlCount := Nat.le_trans h1.ctrlCount h2.ctrlCount
  ctrlField p hp :=
    (h2.ctrlField p (Nat.lt_of_lt_of_le hp h1.promiseCount)).trans (h1.ctrlField p hp)
  resolverPromise k hk :=
    (h2.resolverPromise k (Nat.lt_of_lt_of_le hk h1.resolverCount)).trans
      (h1.resolverPromise k hk)
  listeners c hc l hl :=
    h2.listeners c (Nat.lt_of_lt_of_le hc h1.ctrlCount) l (h1.listeners c hc l hl)
  settled p hp h := by
    have a := h1.settled p hp h
    rw [h2.settled p (Nat.lt_of_lt_of_le hp h1.promiseCount) (by rw [a]; exact h), a]
  spent k hk h := h2.spent k (Nat.lt_of_lt_of_le hk h1.resolverCount) (h1.spent k hk h)
  aborted c hc h := by
    obtain ⟨a, b⟩ := h1.aborted c hc h
    obtain ⟨a', b'⟩ := h2.aborted c (Nat.lt_of_lt_of_le hc h1.ctrlCount) a
    exact ⟨a', b'.trans b⟩

theorem rejectPromise_steady (s : State) (p : Nat) (e : Val) : Steady s (rejectPromise s p e) := by
  unfold rejectPromise
  split
  · next hp =>
    refine ⟨rfl, rfl, rfl, fun q => ?_, fun _ => rfl, fun _ _ h => h, fun q hq => ?_,
      fun _ h => h, fun _ h => ⟨h, rfl⟩⟩
    · simp only [set_apply]; split
      · next h => subst h; rfl
      · rfl
    · simp only [set_apply]; split
      · next h => subst h; exact absurd hp hq
      · rfl
  · exact Steady.still s

theorem fulfillPromise_steady (s : State) (p : Nat) (v : Val) :
    Steady s (fulfillPromise s p v) := by
  unfold fulfillPromise
  split
  · next hp =>
    refine ⟨rfl, rfl, rfl, fun q => ?_, fun _ => rfl, fun _ _ h => h, fun q hq => ?_,
      fun _ h => h, fun _ h => ⟨h, rfl⟩⟩
    · simp only [set_apply]; split
      · next h => subst h; rfl
      · rfl
    · simp only [set_apply]; split
      · next h => subst h; exact absurd hp hq
      · rfl
  · exact Steady.still s

theorem markResolved_steady (s : State) (k : Nat) : Steady s (markResolved s k) := by
  refine ⟨rfl, rfl, rfl, fun _ => rfl, fun j => ?_, fun _ _ h => h, fun _ _ => rfl,
    fun j hj => ?_, fun _ h => ⟨h, rfl⟩⟩
  · simp only [markResolved, set_apply]; split
    · next h => subst h; rfl
    · rfl
  · simp only [markResolved, set_apply]; split
    · rfl
    · exact hj

theorem rejectFn_steady (s : State) (k : Nat) (e : Val) : Steady s (rejectFn s k e) := by
  unfold rejectFn
  split
  · exact Steady.still s
  · exact (markResolved_steady s k).andThen (rejectPromise_steady _ _ _)

theorem resolveFn_steady (s : State) (k : Nat) (v : Val) : Steady s (resolveFn s k v) := by
  unfold resolveFn
  split
  · exact Steady.still s
  · have hjob : ∀ j : Job, Steady s
        { markResolved s k with jobs := (markResolved s k).jobs ++ [j] } := fun j =>
      (markResolved_steady s k).andThen
        ⟨rfl, rfl, rfl, fun _ => rfl, fun _ => rfl, fun _ _ h => h, fun _ _ => rfl,
          fun _ h => h, fun _ h => ⟨h, rfl⟩⟩
    cases v <;> simp only [] <;> (try split_ifs) <;>
      first
      | exact (markResolved_steady s k).andThen (fulfillPromise_steady _ _ _)
      | exact (markResolved_steady s k).andThen (rejectPromise_steady _ _ _)
      | exact hjob _

theorem addEventListener_steady (s : State) (c : Nat) (l : Listener) :
    Steady s (addEventListener s c l) := by
  unfold addEventListener
  split
  · exact Steady.still s
  · refine ⟨rfl, rfl, rfl, fun _ => rfl, fun _ => rfl, fun c' l' h => ?_, fun _ _ => rfl,
      fun _ h => h, fun c' h => ?_⟩
    · simp only [set_apply]; split
      · next hc => subst hc; exact List.mem_append_left _ h
      · exact h
    · simp only [set_apply]; split
      · next hc => subst hc; exact ⟨h, rfl⟩
      · exact ⟨h, rfl⟩

theorem runListener_steady (c : Nat) (s : State) (l : Listener) :
    Steady s (runListener c s l) := by
  cases l with
  | user h =>
    exact ⟨rfl, rfl, rfl, fun _ => rfl, fun _ => rfl, fun _ _ h => h, fun _ _ => rfl,
      fun _ h => h, fun _ h => ⟨h, rfl⟩⟩
  | reject k => exact rejectFn_steady s k _

theorem foldl_runListener_steady (c : Nat) (ls : List Listener) (s : State) :
    Steady s (ls.foldl (runListener c) s) := by
  induction ls generalizing s with
  | nil => exact Steady.still s
  | cons l ls ih => exact (runListener_steady c s l).andThen (ih _)

theorem signalAbort_steady (s : State) (c : Nat) (r : Val) : Steady s (signalAbort s c r) := by
  unfold signalAbort
  split
  · exact Steady.still s
  · next hnot =>
    refine Steady.andThen ?_ (foldl_runListener_steady c _ _)
    refine ⟨rfl, rfl, rfl, fun _ => rfl, fun _ => rfl, fun c' l' h => ?_, fun _ _ => rfl,
      fun _ h => h, fun c' h => ?_⟩
    · simp only [set_apply]; split
      · next hc => subst hc; exact h
      · exact h
    · simp only [set_apply]; split
      · next hc => subst hc; exact absurd h hnot
      · exact ⟨h, rfl⟩

theorem abort_steady (s : State) (p : Nat) (r : Val) :
    Steady s (AbortablePromise.abort s p r) := by
  unfold AbortablePromise.abort
  split
  · exact signalAbort_steady s _ _
  · exact Steady.still s

theorem onabort_steady (s : State) (p h : Nat) : Steady s (AbortablePromise.onabort s p h) := by
  unfold AbortablePromise.onabort
  split
  · exact addEventListener_steady s _ _
  · exact Steady.still s

theorem attachReaction_steady (s : State) (f : Nat) (r : Reaction) :
    Steady s (attachReaction s f r) := by
  refine ⟨?_, ?_, ?_, fun p => attachReaction_ctrl_field s f p r,
    fun k => by rw [attachReaction_resolvers], fun c l h => by rw [attachReaction_ctrls]; exact h,
    fun p _ => attachReaction_state s f p r,
    fun k h => by rw [attachReaction_resolvers]; exact h,
    fun c h => by rw [attachReaction_ctrls]; exact ⟨h, rfl⟩⟩ <;>
  (unfold attachReaction; split <;> rfl)

theorem recordElement_steady (s : State) (a i : Nat) (v : Val) :
    Steady s (recordElement s a i v).1 := by
  unfold recordElement
  split
  · exact Steady.still s
  · exact ⟨rfl, rfl, rfl, fun _ => rfl, fun _ => rfl, fun _ _ h => h, fun _ _ => rfl,
      fun _ h => h, fun _ h => ⟨h, rfl⟩⟩

theorem runScript_steady (acts : List ExecAct) (k : Nat) (s : State) :
    Steady s (runScript acts k s).1 := by
  induction acts generalizing s with
  | nil => exact Steady.still s
  | cons a acts ih =>
    cases a with
    | resolve v => exact (resolveFn_steady s k v).andThen (ih _)
    | reject e => exact (rejectFn_steady s k e).andThen (ih _)
    | abort c r => exact (signalAbort_steady s c r).andThen (ih _)
    | throw e => exact Steady.still s

theorem finishExecutor_steady (k : Nat) (r : State × Option Val) :
    Steady r.1 (finishExecutor k r) := by
  unfold finishExecutor
  split
  · exact Steady.still _
  · exact rejectFn_steady _ _ _

theorem newController_grows (s : State) : Grows s (newController s).1 := by
  refine ⟨Nat.le_refl _, Nat.le_refl _, Nat.le_succ _, fun _ _ => rfl, fun _ _ => rfl,
    fun c hc l h => ?_, fun _ _ _ => rfl, fun _ _ h => h, fun c hc h => ?_⟩
  · have : c ≠ s.nextCtrl := Nat.ne_of_lt hc
    simpa [newController, this] using h
  · have : c ≠ s.nextCtrl := Nat.ne_of_lt hc
    simpa [newController, this] using h

theorem newPromise_grows (s : State) : Grows s (newPromise s).1 := by
  refine ⟨Nat.le_succ _, Nat.le_succ _, Nat.le_refl _, fun p hp => ?_, fun k hk => ?_,
    fun _ _ _ h => h, fun p hp _ => ?_, fun k hk h => ?_, fun _ _ h => ⟨h, rfl⟩⟩
  · have : p ≠ s.nextPromise := Nat.ne_of_lt hp
    simp [newPromise, this]
  · have : k ≠ s.nextResolver := Nat.ne_of_lt hk
    simp [newPromise, this]
  · have : p ≠ s.nextPromise := Nat.ne_of_lt hp
    simp [newPromise, this]
  · have : k ≠ s.nextResolver := Nat.ne_of_lt hk
    simpa [newPromise, this] using h

theorem grows_setCtrl {s t : State} (p : Nat) (x : Option Nat) (h : Grows s t)
    (hp : s.nextPromise ≤ p) :
    Grows s { t with promises := set t.promises p { (t.promises p) with ctrl := x } } := by
  refine ⟨h.promiseCount, h.resolverCount, h.ctrlCount, fun q hq => ?_, h.resolverPromise,
    h.listeners, fun q hq hs => ?_, h.spent, h.aborted⟩
  · have : q ≠ p := Nat.ne_of_lt (Nat.lt_of_lt_of_le hq hp)
    simpa [this] using h.ctrlField q hq
  · have : q ≠ p := Nat.ne_of_lt (Nat.lt_of_lt_of_le hq hp)
    simpa [this] using h.settled q hq hs

theorem abortable_constructCap_grows (s : State) (executor : Exec) (controller : Option Nat)
    (hexec : ∀ k t, Grows t (executor k t).1) :
    Grows s (AbortablePromise.constructCap s executor controller).1 := by
  have hbody : ∀ (a : State × Nat), Grows s a.1 →
      Grows s (finishExecutor (newPromise a.1).2.2
        (executor (newPromise a.1).2.2
          (addEventListener (newPromise a.1).1 a.2 (.reject (newPromise a.1).2.2)))) :=
    fun a ha => ha.followedBy ((newPromise_grows a.1).followedBy
      ((addEventListener_steady _ _ _).grows.followedBy
        ((hexec _ _).followedBy (finishExecutor_steady _ _).grows)))
  cases controller with
  | some c =>
    exact grows_setCtrl (newPromise s).2.1 (some c) (hbody (s, c) (Grows.self s))
      (Nat.le_of_eq rfl)
  | none =>
    exact grows_setCtrl (newPromise (newController s).1).2.1 (some (newController s).2)
      (hbody (newController s) (newController_grows s)) (Nat.le_of_eq rfl)

theorem promise_constructCap_grows (s : State) (executor : Exec)
    (hexec : ∀ k t, Grows t (executor k t).1) :
    Grows s (Promise.constructCap s executor).1 :=
  (newPromise_grows s).followedBy ((hexec _ _).followedBy (finishExecutor_steady _ _).grows)

theorem newCapability_grows (s : State) (ab : Bool) : Grows s (newCapability s ab).1 := by
  unfold newCapability
  split
  · exact abortable_constructCap_grows s _ none (fun _ t => Grows.self t)
  · exact promise_constructCap_grows s _ (fun _ t => Grows.self t)

theorem thenOp_grows (s : State) (p : Nat) (onF onR : Cb) : Grows s (thenOp s p onF onR).1 := by
  rw [thenOp_eq]
  exact (newCapability_grows s _).followedBy (attachReaction_steady _ _ _).grows

theorem finallyOp_grows (s : State) (p : Nat) (g : Option Fn) : Grows s (finallyOp s p g).1 := by
  cases g <;> exact thenOp_grows s p _ _

theorem promiseResolve_grows (s : State) (ab : Bool) (x : Val) :
    Grows s (promiseResolve s ab x).1 := by
  have hnew : Grows s (resolveFn (newCapability s ab).1 (newCapability s ab).2.2 x) :=
    (newCapability_grows s ab).followedBy (resolveFn_steady _ _ _).grows
  unfold promiseResolve
  cases x with
  | promise y =>
    simp only []
    split
    · exact Grows.self s
    · exact hnew
  | _ => exact hnew

theorem invoke_grows (s : State) (cb : Cb) (ful : Bool) (arg : Val) :
    Grows s (invoke s cb ful arg).1 := by
  have hfin : ∀ (ab : Bool) (r : Val) (inner : Cb),
      Grows s (thenOp (promiseResolve s ab r).1 (promiseResolve s ab r).2 inner .none).1 :=
    fun ab r inner => (promiseResolve_grows s ab r).followedBy (thenOp_grows _ _ _ _)
  have hrec : ∀ (a i : Nat) (v w : Val),
      Grows s (if (recordElement s a i v).2 then
          (resolveFn (recordElement s a i v).1 (s.aggs a).cap w, Except.ok (ε := Val) Val.undefined)
        else ((recordElement s a i v).1, Except.ok Val.undefined)).1 := by
    intro a i v w
    split
    · exact ((recordElement_steady s a i v).andThen (resolveFn_steady _ _ _)).grows
    · exact (recordElement_steady s a i v).grows
  cases cb with
  | none => exact Grows.self s
  | user f => exact Grows.self s
  | resolveFn k => exact (resolveFn_steady s k arg).grows
  | rejectFn k => exact (rejectFn_steady s k arg).grows
  | valueThunk v => exact Grows.self s
  | thrower e => exact Grows.self s
  | thenFinally f ab =>
    simp only [invoke]
    split
    · exact Grows.self s
    · exact hfin _ _ _
  | catchFinally f ab =>
    simp only [invoke]
    split
    · exact Grows.self s
    · exact hfin _ _ _
  | allResolve a i => exact hrec a i _ _
  | settledResolve a i => exact hrec a i _ _
  | settledReject a i => exact hrec a i _ _
  | anyReject a i =>
    simp only [invoke]
    split
    · exact ((recordElement_steady s a i arg).andThen (rejectFn_steady _ _ _)).grows
    · exact (recordElement_steady s a i arg).grows

theorem settleCapability_steady (cap : Nat) (r : State × Except Val Val) :
    Steady r.1 (settleCapability cap r) := by
  unfold settleCapability
  split
  · exact resolveFn_steady _ _ _
  · exact rejectFn_steady _ _ _

theorem runJob_grows (s : State) : Grows s (runJob s) := by
  unfold runJob
  split
  · exact Grows.self s
  · next r ful arg rest hj =>
    have h0 : Grows s { s with jobs := rest } :=
      ⟨Nat.le_refl _, Nat.le_refl _, Nat.le_refl _, fun _ _ => rfl, fun _ _ => rfl,
        fun _ _ _ h => h, fun _ _ _ => rfl, fun _ _ h => h, fun _ _ h => ⟨h, rfl⟩⟩
    exact h0.followedBy ((invoke_grows _ _ _ _).followedBy (settleCapability_steady _ _).grows)
  · next p y rest hj =>
    refine Grows.followedBy ?_ (thenOp_grows _ _ _ _)
    refine ⟨Nat.le_refl _, Nat.le_succ _, Nat.le_refl _, fun _ _ => rfl, fun k hk => ?_,
      fun _ _ _ h => h, fun _ _ _ => rfl, fun k hk h => ?_, fun _ _ h => ⟨h, rfl⟩⟩
    · have : k ≠ s.nextResolver := Nat.ne_of_lt hk
      simp [this]
    · have : k ≠ s.nextResolver := Nat.ne_of_lt hk
      simpa [this] using h

theorem runJobs_grows (n : Nat) (s : State) : Grows s (runJobs n s) := by
  induction n generalizing s with
  | zero => exact Grows.self s
  | succ n ih => exact (runJob_grows s).followedBy (ih _)

theorem openSlot_steady (kind : Combinator) (a : Nat) (s : State) :
    Steady s (openSlot kind a s) := by
  cases kind <;>
    exact ⟨rfl, rfl, rfl, fun _ => rfl, fun _ => rfl, fun _ _ h => h, fun _ _ => rfl,
      fun _ h => h, fun _ h => ⟨h, rfl⟩⟩

theorem countUp_steady (kind : Combinator) (a : Nat) (s : State) :
    Steady s (countUp kind a s) := by
  cases kind <;>
    exact ⟨rfl, rfl, rfl, fun _ => rfl, fun _ => rfl, fun _ _ h => h, fun _ _ => rfl,
      fun _ h => h, fun _ h => ⟨h, rfl⟩⟩

theorem openAggregate_steady (kind : Combinator) (kg : Nat) (s : State) :
    Steady s (openAggregate kind kg s) := by
  cases kind <;>
    exact ⟨rfl, rfl, rfl, fun _ => rfl, fun _ => rfl, fun _ _ h => h, fun _ _ => rfl,
      fun _ h => h, fun _ h => ⟨h, rfl⟩⟩

theorem combinatorFinish_steady (kind : Combinator) (a kg : Nat) (s : State) :
    Steady s (combinatorFinish kind a kg s) := by
  have h0 : ∀ g : Agg, Steady s { s with aggs := set s.aggs a g } := fun _ =>
    ⟨rfl, rfl, rfl, fun _ => rfl, fun _ => rfl, fun _ _ h => h, fun _ _ => rfl,
      fun _ h => h, fun _ h => ⟨h, rfl⟩⟩
  cases kind
  · simp only [combinatorFinish]
    split
    · exact (h0 _).andThen (resolveFn_steady _ _ _)
    · exact h0 _
  · simp only [combinatorFinish]
    split
    · exact (h0 _).andThen (resolveFn_steady _ _ _)
    · exact h0 _
  · simp only [combinatorFinish]
    split
    · exact (h0 _).andThen (rejectFn_steady _ _ _)
    · exact h0 _
  · exact Steady.still s

theorem combinatorStep_grows (kind : Combinator) (a kg : Nat) (acc : State × Nat) (x : Val) :
    Grows acc.1 (combinatorStep kind a kg acc x).1 :=
  (openSlot_steady kind a acc.1).grows.followedBy ((promiseResolve_grows _ _ _).followedBy
    ((countUp_steady kind a _).grows.followedBy (thenOp_grows _ _ _ _)))

theorem foldl_combinatorStep_grows (kind : Combinator) (a kg : Nat) (inputs : List Val)
    (acc : State × Nat) : Grows acc.1 (inputs.foldl (combinatorStep kind a kg) acc).1 := by
  induction inputs generalizing acc with
  | nil => exact Grows.self _
  | cons x xs ih => exact (combinatorStep_grows kind a kg acc x).followedBy (ih _)

theorem combinator_grows (kind : Combinator) (s : State) (inputs : List Val) :
    Grows s (combinator kind s inputs).1 := by
  unfold combinator
  exact (newCapability_grows s true).followedBy
    ((openAggregate_steady kind (newCapability s true).2.2 (newCapability s true).1).grows.followedBy
      ((foldl_combinatorStep_grows kind (newCapability s true).1.nextAgg
          (newCapability s true).2.2 inputs
          (openAggregate kind (newCapability s true).2.2 (newCapability s true).1, 0)).followedBy
        (combinatorFinish_steady kind _ _ _).grows))

theorem fromExecutor_grows (x : Val) (k : Nat) (t : State) :
    Grows t (AbortablePromise.fromExecutor x k t).1 := by
  cases x with
  | promise y => exact (thenOp_grows t y _ _).followedBy (thenOp_grows _ _ _ _)
  | _ => exact Grows.self t

theorem fromValue_grows (s : State) (x : Val) : Grows s (AbortablePromise.fromValue s x).1 := by
  unfold AbortablePromise.fromValue
  split
  · exact Grows.self s
  · exact abortable_constructCap_grows s _ none (fromExecutor_grows x)

/-- No event undoes what the heap has fixed. -/
theorem step_grows (s : State) (e : Event) : Grows s (step s e) := by
  cases e with
  | construct acts controller =>
    exact abortable_constructCap_grows s _ controller
      (fun k t => (runScript_steady acts k t).grows)
  | constructPlain acts =>
    exact promise_constructCap_grows s _ (fun k t => (runScript_steady acts k t).grows)
  | newController => exact newController_grows s
  | resolve k v => exact (resolveFn_steady s k v).grows
  | reject k e => exact (rejectFn_steady s k e).grows
  | abort p r => exact (abort_steady s p r).grows
  | controllerAbort c r => exact (signalAbort_steady s c r).grows
  | onabort p h => exact (onabort_steady s p h).grows
  | thenCall p a b => exact thenOp_grows s p a b
  | finallyCall p g => exact finallyOp_grows s p g
  | fromCall x => exact fromValue_grows s x
  | combinatorCall kind inputs => exact combinator_grows kind s inputs
  | runJob => exact runJob_grows s

/-- No history undoes what the heap has fixed. -/
theorem run_grows (s : State) (events : List Event) : Grows s (run s events) := by
  induction events generalizing s with
  | nil => exact Grows.self s
  | cons e es ih => exact (step_grows s e).followedBy (ih _)

/-! ## Every constructed `AbortablePromise` stays wired to its controller -/

theorem addEventListener_mem (s : State) (c : Nat) (l : Listener) :
    l ∈ ((addEventListener s c l).ctrls c).listeners := by
  unfold addEventListener
  split
  · next h => exact h
  · simp

theorem constructCap_wired (s : State) (acts : List ExecAct) (controller : Option Nat)
    (hctl : ∀ c, controller = some c → c < s.nextCtrl) :
    Wired (AbortablePromise.constructCap s (runScript acts) controller).1 s.nextPromise
        (controllerOf s controller) s.nextResolver
      ∧ s.nextPromise < (AbortablePromise.constructCap s (runScript acts) controller).1.nextPromise
      ∧ s.nextResolver
          < (AbortablePromise.constructCap s (runScript acts) controller).1.nextResolver
      ∧ controllerOf s controller
          < (AbortablePromise.constructCap s (runScript acts) controller).1.nextCtrl := by
  have hbody : ∀ (a : State × Nat), a.1.nextPromise = s.nextPromise →
      a.1.nextResolver = s.nextResolver → a.2 < a.1.nextCtrl →
      let t := finishExecutor (newPromise a.1).2.2
        (runScript acts (newPromise a.1).2.2
          (addEventListener (newPromise a.1).1 a.2 (.reject (newPromise a.1).2.2)))
      Listener.reject s.nextResolver ∈ (t.ctrls a.2).listeners
        ∧ (t.resolvers s.nextResolver).promise = s.nextPromise
        ∧ t.nextPromise = s.nextPromise + 1 ∧ t.nextResolver = s.nextResolver + 1
        ∧ t.nextCtrl = a.1.nextCtrl := by
    intro a h1 h2 h3
    have hst := (runScript_steady acts (newPromise a.1).2.2
      (addEventListener (newPromise a.1).1 a.2 (.reject (newPromise a.1).2.2))).andThen
      (finishExecutor_steady (newPromise a.1).2.2 _)
    have hadd := addEventListener_steady (newPromise a.1).1 a.2 (.reject (newPromise a.1).2.2)
    have hk : (newPromise a.1).2.2 = s.nextResolver := h2
    refine ⟨?_, ?_, ?_, ?_, ?_⟩
    · rw [← hk]
      exact hst.listeners _ _ (addEventListener_mem _ _ _)
    · rw [hst.resolverPromise, hadd.resolverPromise]
      simp [newPromise, h1, h2]
    · rw [hst.promiseCount, hadd.promiseCount]; simp [newPromise, h1]
    · rw [hst.resolverCount, hadd.resolverCount]; simp [newPromise, h2]
    · rw [hst.ctrlCount, hadd.ctrlCount]; rfl
  cases controller with
  | some c =>
    obtain ⟨b1, b2, b3, b4, b5⟩ := hbody (s, c) rfl rfl (hctl c rfl)
    refine ⟨⟨?_, b1, b2⟩, ?_, ?_, ?_⟩
    · simp [AbortablePromise.constructCap, newPromise, controllerOf]
    · exact Nat.lt_of_lt_of_eq (Nat.lt_succ_self _) b3.symm
    · exact Nat.lt_of_lt_of_eq (Nat.lt_succ_self _) b4.symm
    · exact Nat.lt_of_lt_of_eq (hctl c rfl) b5.symm
  | none =>
    obtain ⟨b1, b2, b3, b4, b5⟩ := hbody (newController s) rfl rfl (Nat.lt_succ_self _)
    refine ⟨⟨?_, b1, b2⟩, ?_, ?_, ?_⟩
    · simp [AbortablePromise.constructCap, newPromise, newController, controllerOf]
    · exact Nat.lt_of_lt_of_eq (Nat.lt_succ_self _) b3.symm
    · exact Nat.lt_of_lt_of_eq (Nat.lt_succ_self _) b4.symm
    · exact Nat.lt_of_lt_of_eq (Nat.lt_succ_self s.nextCtrl) b5.symm

theorem wired_grows {s t : State} {p c k : Nat} (h : Wired s p c k) (hg : Grows s t)
    (hp : p < s.nextPromise) (hk : k < s.nextResolver) (hc : c < s.nextCtrl) :
    Wired t p c k :=
  ⟨(hg.ctrlField p hp).trans h.1, hg.listeners c hc _ h.2.1,
    (hg.resolverPromise k hk).trans h.2.2⟩

/-- An `AbortablePromise` built by the constructor is wired to its controller
in every later heap. -/
theorem afterConstruct_wired (s : State) (acts : List ExecAct) (controller : Option Nat)
    (events : List Event) (hctl : ∀ c, controller = some c → c < s.nextCtrl) :
    Wired (afterConstruct s acts controller events) s.nextPromise (controllerOf s controller)
        s.nextResolver
      ∧ s.nextPromise < (afterConstruct s acts controller events).nextPromise
      ∧ controllerOf s controller < (afterConstruct s acts controller events).nextCtrl := by
  obtain ⟨hw, h1, h2, h3⟩ := constructCap_wired s acts controller hctl
  have hg := run_grows (AbortablePromise.constructCap s (runScript acts) controller).1 events
  exact ⟨wired_grows hw hg h1 h2 h3, Nat.lt_of_lt_of_le h1 hg.promiseCount,
    Nat.lt_of_lt_of_le h3 hg.ctrlCount⟩

theorem oneController_exists : ∀ c, some 0 = some c → c < oneController.nextCtrl := by
  intro c h
  injection h with h
  subst h
  decide

/-! ## Whose listeners a signal carries -/

theorem Fenced.carry {P c : Nat} {s t : State} (h : Fenced P c s) (hg : Grows s t)
    (hl : ∀ k, Listener.reject k ∈ (t.ctrls c).listeners →
      Listener.reject k ∈ (s.ctrls c).listeners) : Fenced P c t := by
  refine ⟨Nat.le_trans h.1 hg.promiseCount, fun k hk => ?_⟩
  obtain ⟨a, b⟩ := h.2 k (hl k hk)
  exact ⟨Nat.lt_of_lt_of_le a hg.resolverCount, by rw [hg.resolverPromise k a]; exact b⟩

theorem Fenced.steady {P c : Nat} {s t : State} (h : Fenced P c s) (hs : Steady s t)
    (hc : t.ctrls = s.ctrls) : Fenced P c t :=
  h.carry hs.grows (fun k hk => by rw [hc] at hk; exact hk)

theorem resolveFn_fenced {P c : Nat} {s : State} (k : Nat) (v : Val) (h : Fenced P c s) :
    Fenced P c (resolveFn s k v) :=
  h.steady (resolveFn_steady s k v) (resolveFn_ctrls s k v)

theorem rejectFn_fenced {P c : Nat} {s : State} (k : Nat) (e : Val) (h : Fenced P c s) :
    Fenced P c (rejectFn s k e) :=
  h.steady (rejectFn_steady s k e) (rejectFn_ctrls s k e)

theorem signalAbort_listeners (s : State) (c c' : Nat) (r : Val) :
    ((signalAbort s c r).ctrls c').listeners = (s.ctrls c').listeners := by
  unfold signalAbort
  split
  · rfl
  · simp only [foldl_runListener_ctrls, set_apply]
    split
    · next h => subst h; rfl
    · rfl

theorem signalAbort_fenced {P c : Nat} {s : State} (c' : Nat) (r : Val) (h : Fenced P c s) :
    Fenced P c (signalAbort s c' r) :=
  h.carry (signalAbort_steady s c' r).grows
    (fun k hk => by rw [signalAbort_listeners] at hk; exact hk)

theorem abort_fenced {P c : Nat} {s : State} (p : Nat) (r : Val) (h : Fenced P c s) :
    Fenced P c (AbortablePromise.abort s p r) := by
  unfold AbortablePromise.abort
  split
  · exact signalAbort_fenced _ _ h
  · exact h

theorem addEventListener_fenced {P c : Nat} {s : State} (c' : Nat) (l : Listener)
    (h : Fenced P c s)
    (hl : ∀ k, l = .reject k → k < s.nextResolver ∧ P ≤ (s.resolvers k).promise) :
    Fenced P c (addEventListener s c' l) := by
  unfold addEventListener
  split
  · exact h
  · refine ⟨h.1, fun k hk => ?_⟩
    simp only [set_apply] at hk
    split at hk
    · next hc =>
      subst hc
      rcases List.mem_append.mp hk with hk | hk
      · exact h.2 k hk
      · exact hl k (List.mem_singleton.mp hk).symm
    · exact h.2 k hk

theorem onabort_fenced {P c : Nat} {s : State} (p x : Nat) (h : Fenced P c s) :
    Fenced P c (AbortablePromise.onabort s p x) := by
  unfold AbortablePromise.onabort
  split
  · exact addEventListener_fenced _ _ h (fun _ hk => nomatch hk)
  · exact h

theorem attachReaction_fenced {P c : Nat} {s : State} (f : Nat) (r : Reaction)
    (h : Fenced P c s) : Fenced P c (attachReaction s f r) :=
  h.steady (attachReaction_steady s f r) (attachReaction_ctrls s f r)

theorem recordElement_fenced {P c : Nat} {s : State} (a i : Nat) (v : Val)
    (h : Fenced P c s) : Fenced P c (recordElement s a i v).1 :=
  h.steady (recordElement_steady s a i v) (by unfold recordElement; split <;> rfl)

theorem runScript_fenced {P c : Nat} (acts : List ExecAct) (k : Nat) (s : State)
    (h : Fenced P c s) : Fenced P c (runScript acts k s).1 := by
  induction acts generalizing s with
  | nil => exact h
  | cons a acts ih =>
    cases a with
    | resolve v => exact ih _ (resolveFn_fenced k v h)
    | reject e => exact ih _ (rejectFn_fenced k e h)
    | abort c' r => exact ih _ (signalAbort_fenced c' r h)
    | throw e => exact h

theorem finishExecutor_fenced {P c : Nat} (k : Nat) (r : State × Option Val)
    (h : Fenced P c r.1) : Fenced P c (finishExecutor k r) := by
  unfold finishExecutor
  split
  · exact h
  · exact rejectFn_fenced _ _ h

theorem newController_fenced {P c : Nat} {s : State} (h : Fenced P c s) :
    Fenced P c (newController s).1 := by
  refine ⟨h.1, fun k hk => ?_⟩
  simp only [newController, set_apply] at hk
  split at hk
  · simp at hk
  · exact h.2 k hk

theorem newPromise_fenced {P c : Nat} {s : State} (h : Fenced P c s) :
    Fenced P c (newPromise s).1 :=
  h.carry (newPromise_grows s) (fun _ hk => hk)

theorem abortable_constructCap_fenced {P c : Nat} {s : State} (executor : Exec)
    (controller : Option Nat) (h : Fenced P c s)
    (hexec : ∀ k t, Fenced P c t → Fenced P c (executor k t).1) :
    Fenced P c (AbortablePromise.constructCap s executor controller).1 := by
  have hbody : ∀ (a : State × Nat), Fenced P c a.1 →
      Fenced P c (finishExecutor (newPromise a.1).2.2
        (executor (newPromise a.1).2.2
          (addEventListener (newPromise a.1).1 a.2 (.reject (newPromise a.1).2.2)))) := by
    intro a ha
    refine finishExecutor_fenced _ _ (hexec _ _ (addEventListener_fenced _ _
      (newPromise_fenced ha) (fun k hk => ?_)))
    injection hk with hk
    subst hk
    exact ⟨Nat.lt_succ_self _, by simpa [newPromise] using ha.1⟩
  cases controller with
  | some c' => exact ⟨(hbody (s, c') h).1, (hbody (s, c') h).2⟩
  | none =>
    exact ⟨(hbody (newController s) (newController_fenced h)).1,
      (hbody (newController s) (newController_fenced h)).2⟩

theorem promise_constructCap_fenced {P c : Nat} {s : State} (executor : Exec)
    (h : Fenced P c s) (hexec : ∀ k t, Fenced P c t → Fenced P c (executor k t).1) :
    Fenced P c (Promise.constructCap s executor).1 :=
  finishExecutor_fenced _ _ (hexec _ _ (newPromise_fenced h))

theorem newCapability_fenced {P c : Nat} {s : State} (ab : Bool) (h : Fenced P c s) :
    Fenced P c (newCapability s ab).1 := by
  unfold newCapability
  split
  · exact abortable_constructCap_fenced _ none h (fun _ _ ht => ht)
  · exact promise_constructCap_fenced _ h (fun _ _ ht => ht)

theorem thenOp_fenced {P c : Nat} {s : State} (p : Nat) (onF onR : Cb) (h : Fenced P c s) :
    Fenced P c (thenOp s p onF onR).1 := by
  rw [thenOp_eq]
  exact attachReaction_fenced _ _ (newCapability_fenced _ h)

theorem finallyOp_fenced {P c : Nat} {s : State} (p : Nat) (g : Option Fn)
    (h : Fenced P c s) : Fenced P c (finallyOp s p g).1 := by
  cases g <;> exact thenOp_fenced p _ _ h

theorem promiseResolve_fenced {P c : Nat} {s : State} (ab : Bool) (x : Val)
    (h : Fenced P c s) : Fenced P c (promiseResolve s ab x).1 := by
  have hnew : Fenced P c (resolveFn (newCapability s ab).1 (newCapability s ab).2.2 x) :=
    resolveFn_fenced _ _ (newCapability_fenced ab h)
  unfold promiseResolve
  cases x with
  | promise y =>
    simp only []
    split
    · exact h
    · exact hnew
  | _ => exact hnew

theorem invoke_fenced {P c : Nat} {s : State} (cb : Cb) (ful : Bool) (arg : Val)
    (h : Fenced P c s) : Fenced P c (invoke s cb ful arg).1 := by
  have hfin : ∀ (ab : Bool) (r : Val) (inner : Cb),
      Fenced P c (thenOp (promiseResolve s ab r).1 (promiseResolve s ab r).2 inner .none).1 :=
    fun ab r inner => thenOp_fenced _ _ _ (promiseResolve_fenced ab r h)
  have hrec : ∀ (a i : Nat) (v w : Val),
      Fenced P c (if (recordElement s a i v).2 then
          (resolveFn (recordElement s a i v).1 (s.aggs a).cap w, Except.ok (ε := Val) Val.undefined)
        else ((recordElement s a i v).1, Except.ok Val.undefined)).1 := by
    intro a i v w
    split
    · exact resolveFn_fenced _ _ (recordElement_fenced a i v h)
    · exact recordElement_fenced a i v h
  cases cb with
  | none => exact h
  | user f => exact h
  | resolveFn k => exact resolveFn_fenced k arg h
  | rejectFn k => exact rejectFn_fenced k arg h
  | valueThunk v => exact h
  | thrower e => exact h
  | thenFinally f ab =>
    simp only [invoke]
    split
    · exact h
    · exact hfin _ _ _
  | catchFinally f ab =>
    simp only [invoke]
    split
    · exact h
    · exact hfin _ _ _
  | allResolve a i => exact hrec a i _ _
  | settledResolve a i => exact hrec a i _ _
  | settledReject a i => exact hrec a i _ _
  | anyReject a i =>
    simp only [invoke]
    split
    · exact rejectFn_fenced _ _ (recordElement_fenced a i arg h)
    · exact recordElement_fenced a i arg h

theorem settleCapability_fenced {P c : Nat} (cap : Nat) (r : State × Except Val Val)
    (h : Fenced P c r.1) : Fenced P c (settleCapability cap r) := by
  unfold settleCapability
  split
  · exact resolveFn_fenced _ _ h
  · exact rejectFn_fenced _ _ h

theorem runJob_fenced {P c : Nat} {s : State} (h : Fenced P c s) : Fenced P c (runJob s) := by
  unfold runJob
  split
  · exact h
  · next r ful arg rest hj =>
    have h0 : Fenced P c { s with jobs := rest } := ⟨h.1, h.2⟩
    exact settleCapability_fenced _ _ (invoke_fenced _ _ _ h0)
  · next p y rest hj =>
    refine thenOp_fenced _ _ _ ⟨h.1, fun k hk => ?_⟩
    obtain ⟨a, b⟩ := h.2 k hk
    have : k ≠ s.nextResolver := Nat.ne_of_lt a
    exact ⟨Nat.lt_succ_of_lt a, by simpa [this] using b⟩

theorem combinatorStep_fenced {P c : Nat} (kind : Combinator) (a kg : Nat) (acc : State × Nat)
    (x : Val) (h : Fenced P c acc.1) : Fenced P c (combinatorStep kind a kg acc x).1 := by
  have h1 : Fenced P c (openSlot kind a acc.1) :=
    h.steady (openSlot_steady kind a acc.1) (by cases kind <;> rfl)
  have h2 := promiseResolve_fenced true x h1
  have h3 : Fenced P c (countUp kind a (promiseResolve (openSlot kind a acc.1) true x).1) :=
    h2.steady (countUp_steady kind a _) (by cases kind <;> rfl)
  exact thenOp_fenced _ _ _ h3

theorem foldl_combinatorStep_fenced {P c : Nat} (kind : Combinator) (a kg : Nat)
    (inputs : List Val) (acc : State × Nat) (h : Fenced P c acc.1) :
    Fenced P c (inputs.foldl (combinatorStep kind a kg) acc).1 := by
  induction inputs generalizing acc with
  | nil => exact h
  | cons x xs ih => exact ih _ (combinatorStep_fenced kind a kg acc x h)

theorem combinatorFinish_ctrls (kind : Combinator) (a kg : Nat) (s : State) :
    (combinatorFinish kind a kg s).ctrls = s.ctrls := by
  cases kind <;> simp only [combinatorFinish] <;> (try split) <;> simp

theorem combinator_tail_fenced {P c : Nat} (kind : Combinator) (kg : Nat) (inputs : List Val)
    (t : State) (h : Fenced P c t) :
    Fenced P c (combinatorFinish kind t.nextAgg kg
      (inputs.foldl (combinatorStep kind t.nextAgg kg) (openAggregate kind kg t, 0)).1) := by
  have h1 : Fenced P c (openAggregate kind kg t) :=
    h.steady (openAggregate_steady kind kg t) (by cases kind <;> rfl)
  have h2 := foldl_combinatorStep_fenced kind t.nextAgg kg inputs (openAggregate kind kg t, 0) h1
  exact h2.steady (combinatorFinish_steady kind _ _ _) (combinatorFinish_ctrls kind _ _ _)

theorem combinator_fenced {P c : Nat} {s : State} (kind : Combinator) (inputs : List Val)
    (h : Fenced P c s) : Fenced P c (combinator kind s inputs).1 := by
  unfold combinator
  exact combinator_tail_fenced kind _ inputs _ (newCapability_fenced true h)

theorem fromExecutor_fenced {P c : Nat} (x : Val) (k : Nat) (t : State) (h : Fenced P c t) :
    Fenced P c (AbortablePromise.fromExecutor x k t).1 := by
  cases x with
  | promise y => exact thenOp_fenced _ _ _ (thenOp_fenced _ _ _ h)
  | _ => exact h

theorem fromValue_fenced {P c : Nat} {s : State} (x : Val) (h : Fenced P c s) :
    Fenced P c (AbortablePromise.fromValue s x).1 := by
  unfold AbortablePromise.fromValue
  split
  · exact h
  · exact abortable_constructCap_fenced _ none h (fromExecutor_fenced x)

theorem step_fenced {P c : Nat} {s : State} (e : Event) (h : Fenced P c s) :
    Fenced P c (step s e) := by
  cases e with
  | construct acts controller =>
    exact abortable_constructCap_fenced _ controller h (fun k t => runScript_fenced acts k t)
  | constructPlain acts =>
    exact promise_constructCap_fenced _ h (fun k t => runScript_fenced acts k t)
  | newController => exact newController_fenced h
  | resolve k v => exact resolveFn_fenced k v h
  | reject k e => exact rejectFn_fenced k e h
  | abort p r => exact abort_fenced p r h
  | controllerAbort c' r => exact signalAbort_fenced c' r h
  | onabort p x => exact onabort_fenced p x h
  | thenCall p a b => exact thenOp_fenced p a b h
  | finallyCall p g => exact finallyOp_fenced p g h
  | fromCall x => exact fromValue_fenced x h
  | combinatorCall kind inputs => exact combinator_fenced kind inputs h
  | runJob => exact runJob_fenced h

theorem run_fenced {P c : Nat} (events : List Event) (s : State) (h : Fenced P c s) :
    Fenced P c (run s events) := by
  induction events generalizing s with
  | nil => exact h
  | cons e es ih => exact ih _ (step_fenced e h)

theorem rejectFn_promises_ne (s : State) (k x : Nat) (e : Val)
    (h : (s.resolvers k).promise ≠ x) : (rejectFn s k e).promises x = s.promises x := by
  unfold rejectFn
  split
  · rfl
  · rw [rejectPromise_promises_ne _ _ _ _ (Ne.symm h)]
    rfl

theorem rejectFn_resolvers_ne (s : State) (k j : Nat) (e : Val) (h : j ≠ k) :
    (rejectFn s k e).resolvers j = s.resolvers j := by
  unfold rejectFn
  split
  · rfl
  · rw [rejectPromise_resolvers, markResolved_resolvers_ne _ _ _ h]

theorem foldl_runListener_promises_frame (c x : Nat) (ls : List Listener) (s : State)
    (h : ∀ k, Listener.reject k ∈ ls → (s.resolvers k).promise ≠ x) :
    (ls.foldl (runListener c) s).promises x = s.promises x := by
  induction ls generalizing s with
  | nil => rfl
  | cons l ls ih =>
    simp only [List.foldl]
    have h1 : (runListener c s l).promises x = s.promises x := by
      cases l with
      | user a => rfl
      | reject k => exact rejectFn_promises_ne s k x _ (h k (List.mem_cons_self _ _))
    rw [ih _ (fun k hk => ?_), h1]
    rw [(runListener_steady c s l).resolverPromise k]
    exact h k (List.mem_cons_of_mem _ hk)

theorem foldl_runListener_resolvers_frame (c j : Nat) (ls : List Listener) (s : State)
    (h : Listener.reject j ∉ ls) :
    (ls.foldl (runListener c) s).resolvers j = s.resolvers j := by
  induction ls generalizing s with
  | nil => rfl
  | cons l ls ih =>
    simp only [List.foldl]
    have h1 : (runListener c s l).resolvers j = s.resolvers j := by
      cases l with
      | user a => rfl
      | reject k =>
        refine rejectFn_resolvers_ne s k j _ (fun hjk => h ?_)
        subst hjk
        exact List.mem_cons_self _ _
    rw [ih _ (fun hk => h (List.mem_cons_of_mem _ hk)), h1]

theorem signalAbort_ctrls_ne (s : State) (c c' : Nat) (r : Val) (h : c' ≠ c) :
    (signalAbort s c r).ctrls c' = s.ctrls c' := by
  unfold signalAbort
  split
  · rfl
  · simp [h]

/-- An abort of the controller `c` of promise `d` reaches only what the
listeners on its signal hold: no other controller, no promise older than the
fence, and no resolver pair of such a promise. -/
theorem abort_fenced_frame {P c : Nat} {t : State} (d : Nat) (r : Val)
    (hc : (t.promises d).ctrl = some c) (h : Fenced P c t) :
    (∀ c', c' ≠ c → (AbortablePromise.abort t d r).ctrls c' = t.ctrls c')
      ∧ (∀ x, x < P → (AbortablePromise.abort t d r).promises x = t.promises x)
      ∧ (∀ j, (t.resolvers j).promise < P →
          (AbortablePromise.abort t d r).resolvers j = t.resolvers j) := by
  simp only [AbortablePromise.abort, hc]
  refine ⟨fun c' hc' => signalAbort_ctrls_ne t c c' _ hc', fun x hx => ?_, fun j hj => ?_⟩
  · unfold signalAbort
    split
    · rfl
    · exact foldl_runListener_promises_frame c x _ _
        (fun k hk => Nat.ne_of_gt (Nat.lt_of_lt_of_le hx (h.2 k hk).2))
  · unfold signalAbort
    split
    · rfl
    · exact foldl_runListener_resolvers_frame c j _ _
        (fun hk => Nat.lt_irrefl _ (Nat.lt_of_lt_of_le hj (h.2 j hk).2))

theorem capState_fenced (s : State) : Fenced s.nextPromise s.nextCtrl (capState s) := by
  refine ⟨Nat.le_succ _, fun k hk => ?_⟩
  simp only [capState, set_apply, if_true, List.mem_singleton, Listener.reject.injEq] at hk
  subst hk
  simp [capState]

theorem capState_wired (s : State) :
    Wired (capState s) s.nextPromise s.nextCtrl s.nextResolver := by
  simp [Wired, capState]

theorem capState_counters (s : State) :
    s.nextPromise < (capState s).nextPromise ∧ s.nextResolver < (capState s).nextResolver
      ∧ s.nextCtrl < (capState s).nextCtrl :=
  ⟨Nat.lt_succ_self _, Nat.lt_succ_self _, Nat.lt_succ_self _⟩

theorem combinator_eq (kind : Combinator) (s : State) (inputs : List Val) :
    combinator kind s inputs
      = (combinatorFinish kind (capState s).nextAgg s.nextResolver
          (inputs.foldl (combinatorStep kind (capState s).nextAgg s.nextResolver)
            (openAggregate kind s.nextResolver (capState s), 0)).1, s.nextPromise) := by
  simp only [combinator, newCapability_abortable]

theorem combinator_tail_grows (kind : Combinator) (s : State) (inputs : List Val) :
    Grows (capState s) (combinator kind s inputs).1 := by
  rw [combinator_eq]
  exact (openAggregate_steady kind s.nextResolver (capState s)).grows.followedBy
    ((foldl_combinatorStep_grows kind (capState s).nextAgg s.nextResolver inputs
        (openAggregate kind s.nextResolver (capState s), 0)).followedBy
      (combinatorFinish_steady kind _ _ _).grows)

/-- The result of a combinator call, in every later heap: it is wired to the
controller created for it, and the signal of that controller carries only
listeners of promises created by the call or later. -/
theorem afterCombinator_facts (kind : Combinator) (s : State) (inputs : List Val)
    (events : List Event) :
    Wired (run (combinator kind s inputs).1 events) s.nextPromise s.nextCtrl s.nextResolver
      ∧ Fenced s.nextPromise s.nextCtrl (run (combinator kind s inputs).1 events) := by
  obtain ⟨c1, c2, c3⟩ := capState_counters s
  have hg := combinator_tail_grows kind s inputs
  have hw := wired_grows (capState_wired s) hg c1 c2 c3
  have hr := run_grows (combinator kind s inputs).1 events
  refine ⟨wired_grows hw hr (Nat.lt_of_lt_of_le c1 hg.promiseCount)
    (Nat.lt_of_lt_of_le c2 hg.resolverCount) (Nat.lt_of_lt_of_le c3 hg.ctrlCount), ?_⟩
  refine run_fenced events _ ?_
  rw [combinator_eq]
  exact combinator_tail_fenced kind s.nextResolver inputs (capState s) (capState_fenced s)

/-- A promise derived from an `AbortablePromise`, in every later heap. -/
theorem afterDerive_facts (s : State) (f cf : Nat) (dv : Derivation) (events : List Event)
    (hf : (s.promises f).ctrl = some cf) :
    (derive s f dv).2 = s.nextPromise
      ∧ Wired (run (derive s f dv).1 events) s.nextPromise s.nextCtrl s.nextResolver
      ∧ Fenced s.nextPromise s.nextCtrl (run (derive s f dv).1 events)
      ∧ Grows s (run (derive s f dv).1 events) := by
  obtain ⟨onF, onR, hd⟩ := derive_eq_thenOp s f dv
  have hs : Grows s (derive s f dv).1 := by rw [hd]; exact thenOp_grows s f onF onR
  rw [hd, thenOp_abortable s f cf onF onR hf] at *
  obtain ⟨c1, c2, c3⟩ := capState_counters s
  have hg := (attachReaction_steady (capState s) f ⟨s.nextResolver, onF, onR⟩).grows
  have hw := wired_grows (capState_wired s) hg c1 c2 c3
  have hr := run_grows (attachReaction (capState s) f ⟨s.nextResolver, onF, onR⟩) events
  exact ⟨rfl, wired_grows hw hr (Nat.lt_of_lt_of_le c1 hg.promiseCount)
      (Nat.lt_of_lt_of_le c2 hg.resolverCount) (Nat.lt_of_lt_of_le c3 hg.ctrlCount),
    run_fenced events _ (attachReaction_fenced _ _ (capState_fenced s)), hs.followedBy hr⟩

theorem combinator_ctrls_before (kind : Combinator) (s : State) (inputs : List Val)
    (hin : ∀ y, Val.promise y ∈ inputs → y < s.nextPromise) :
    ∀ c, c < s.nextCtrl → (combinator kind s inputs).1.ctrls c = s.ctrls c := by
  intro c hc
  rw [combinator_eq]
  obtain ⟨o1, o2, o3, o4, o5, o6⟩ := openAggregate_fields kind s.nextResolver (capState s)
  have hext := foldl_combinatorStep_extends kind (capState s).nextAgg s.nextResolver inputs
    (openAggregate kind s.nextResolver (capState s), 0) s.nextPromise s.nextResolver
    (by rw [o4]; simp [capState]) (by rw [o5]; simp [capState])
    (fun y hy => Nat.ne_of_lt (hin y hy))
  obtain ⟨_, _, _, _, _, e6⟩ := hext
  simp only [o3, o6] at e6
  rw [combinatorFinish_ctrls, e6 c (by simp only [capState]; exact Nat.lt_succ_of_lt hc)]
  have : c ≠ s.nextCtrl := Nat.ne_of_lt hc
  simp [capState, this]

/-! ## The wrapper built by `from` -/

/-- The heap in the constructor right before the executor runs, for an omitted
controller argument: the controller, the promise with its resolver pair, and
the abort listener are in place. -/
theorem constructCap_entry (s : State) :
    (addEventListener (newPromise (newController s).1).1 s.nextCtrl
        (.reject s.nextResolver))
      = { s with
          promises := set s.promises s.nextPromise ⟨.pending, [], none⟩
          nextPromise := s.nextPromise + 1
          resolvers := set s.resolvers s.nextResolver ⟨s.nextPromise, false⟩
          nextResolver := s.nextResolver + 1
          ctrls := set s.ctrls s.nextCtrl ⟨false, .undefined, [.reject s.nextResolver]⟩
          nextCtrl := s.nextCtrl + 1 } := by
  simp [newController, newPromise, addEventListener, set_set]

/-- The wrapper that `from` builds around a plain promise `p`: it is wired to
the controller just created, pending, not yet resolved, and its signal is not
aborted. -/
theorem fromValue_plain_facts (s : State) (p : Nat) (hplain : (s.promises p).ctrl = none)
    (hpa : p < s.nextPromise) :
    (AbortablePromise.fromValue s (.promise p)).2 = .promise s.nextPromise
      ∧ Wired (AbortablePromise.fromValue s (.promise p)).1 s.nextPromise s.nextCtrl
          s.nextResolver
      ∧ Unresolved (AbortablePromise.fromValue s (.promise p)).1 s.nextPromise s.nextResolver
      ∧ ((AbortablePromise.fromValue s (.promise p)).1.ctrls s.nextCtrl).aborted = false
      ∧ s.nextPromise < (AbortablePromise.fromValue s (.promise p)).1.nextPromise := by
  have hval : AbortablePromise.fromValue s (.promise p)
      = ((AbortablePromise.constructCap s (AbortablePromise.fromExecutor (.promise p)) none).1,
          .promise s.nextPromise) := by
    simp [AbortablePromise.fromValue, thenTruthy, instanceOfAbortable, hplain,
      AbortablePromise.construct, AbortablePromise.constructCap, newController, newPromise]
  rw [hval]
  simp only [AbortablePromise.constructCap, finishExecutor, AbortablePromise.fromExecutor, catchOp]
  have hk : (newPromise (newController s).1).2.2 = s.nextResolver := rfl
  have hw : (newPromise (newController s).1).2.1 = s.nextPromise := rfl
  have hc : (newController s).2 = s.nextCtrl := rfl
  simp only [hk, hw, hc, constructCap_entry]
  generalize hs2 : ({ s with
          promises := set s.promises s.nextPromise ⟨.pending, [], none⟩
          nextPromise := s.nextPromise + 1
          resolvers := set s.resolvers s.nextResolver ⟨s.nextPromise, false⟩
          nextResolver := s.nextResolver + 1
          ctrls := set s.ctrls s.nextCtrl ⟨false, .undefined, [.reject s.nextResolver]⟩
          nextCtrl := s.nextCtrl + 1 } : State) = s2
  have e1 : s2.nextPromise = s.nextPromise + 1 := by rw [← hs2]
  have e2 : s2.nextResolver = s.nextResolver + 1 := by rw [← hs2]
  have e3 : s2.nextCtrl = s.nextCtrl + 1 := by rw [← hs2]
  have e4 : s2.promises s.nextPromise = ⟨.pending, [], none⟩ := by rw [← hs2]; simp
  have e5 : s2.resolvers s.nextResolver = ⟨s.nextPromise, false⟩ := by rw [← hs2]; simp
  have e6 : s2.ctrls s.nextCtrl = ⟨false, .undefined, [.reject s.nextResolver]⟩ := by
    rw [← hs2]; simp
  have x1 := thenOp_extends s2 p (.resolveFn s.nextResolver) .none s.nextPromise s.nextResolver
    (by rw [e1]; exact Nat.lt_succ_self _) (by rw [e2]; exact Nat.lt_succ_self _)
    (Nat.ne_of_gt hpa)
  have hid : (thenOp s2 p (.resolveFn s.nextResolver) .none).2 = s2.nextPromise := by
    rw [thenOp_eq]; simp only []; rw [newCapability_ids]
  have x2 := thenOp_extends (thenOp s2 p (.resolveFn s.nextResolver) .none).1
    (thenOp s2 p (.resolveFn s.nextResolver) .none).2 .none (.rejectFn s.nextResolver)
    s.nextPromise s.nextResolver
    (Nat.lt_of_lt_of_le (by rw [e1]; exact Nat.lt_succ_self _) x1.1)
    (Nat.lt_of_lt_of_le (by rw [e2]; exact Nat.lt_succ_self _) x1.2.1)
    (by rw [hid, e1]; exact Nat.ne_of_lt (Nat.lt_succ_self _))
  obtain ⟨y1, y2, y3, y4, y5, y6⟩ := x1.chain x2
  have hcc := y6 s.nextCtrl (by rw [e3]; exact Nat.lt_succ_self _)
  refine ⟨trivial, ⟨by simp, ?_, ?_⟩, ⟨?_, ?_⟩, ?_, ?_⟩
  · simp only [hcc, e6]; simp
  · simp only [y5, e5]
  · simp [y4, e4]
  · simp only [y5, e5]
  · simp only [hcc, e6]
  · exact Nat.lt_of_lt_of_le (by rw [e1]; exact Nat.lt_succ_self _) y1


/-! ## Reasons, construction order, shared and aborted controllers -/

theorem signalAbort_reason (s : State) (c : Nat) (r : Val)
    (hnot : (s.ctrls c).aborted = false) :
    ((signalAbort s c r).ctrls c).reason = abortReason r := by
  simp [signalAbort, hnot]

theorem nullish_of_supplied (r d : Val) (hnull : r ≠ .null) (hundef : r ≠ .undefined) :
    nullish r d = r := by
  cases r <;> first | rfl | exact absurd rfl hnull | exact absurd rfl hundef

theorem applySettle_steady (k : Nat) (s : State) (c : Settle) : Steady s (applySettle k s c) := by
  cases c with
  | resolve v => exact resolveFn_steady s k v
  | reject e => exact rejectFn_steady s k e

theorem applySettles_steady (k : Nat) (calls : List Settle) (s : State) :
    Steady s (applySettles k s calls) := by
  induction calls generalizing s with
  | nil => exact Steady.still s
  | cons c cs ih => exact (applySettle_steady k s c).andThen (ih _)

theorem executorEntry_facts (s : State) (controller : Option Nat) :
    Listener.reject s.nextResolver
        ∈ ((AbortablePromise.executorEntry s controller).ctrls
            (controllerOf s controller)).listeners
      ∧ (AbortablePromise.executorEntry s controller).resolvers s.nextResolver
          = ⟨s.nextPromise, false⟩
      ∧ (AbortablePromise.executorEntry s controller).promises s.nextPromise
          = ⟨.pending, [], none⟩ := by
  cases controller with
  | some c =>
    refine ⟨addEventListener_mem _ _ _, ?_, ?_⟩
    · simp [AbortablePromise.executorEntry, addEventListener_resolvers, newPromise]
    · simp [AbortablePromise.executorEntry, addEventListener_promises, newPromise]
  | none =>
    refine ⟨addEventListener_mem _ _ _, ?_, ?_⟩
    · simp [AbortablePromise.executorEntry, addEventListener_resolvers, newPromise, newController]
    · simp [AbortablePromise.executorEntry, addEventListener_promises, newPromise, newController]

theorem constructCap_by_entry (s : State) (executor : Exec) (controller : Option Nat) :
    AbortablePromise.constructCap s executor controller
      = ({ finishExecutor s.nextResolver
              (executor s.nextResolver (AbortablePromise.executorEntry s controller)) with
            promises := set (finishExecutor s.nextResolver
                (executor s.nextResolver (AbortablePromise.executorEntry s controller))).promises
              s.nextPromise
              { ((finishExecutor s.nextResolver
                  (executor s.nextResolver
                    (AbortablePromise.executorEntry s controller))).promises s.nextPromise) with
                ctrl := some (controllerOf s controller) } },
          s.nextPromise, s.nextResolver) := by
  cases controller <;> rfl

/-- An executor that aborts the injected, not yet aborted controller before
anything else leaves the promise rejected by the abort, whatever it does
afterwards. -/
theorem construct_abort_first (s : State) (c : Nat) (r : Val) (post : List ExecAct)
    (later : List Settle) (hnot : (s.ctrls c).aborted = false) :
    ((applySettles s.nextResolver
        (AbortablePromise.constructCap s (runScript (.abort c r :: post)) (some c)).1
        later).promises s.nextPromise).state = .rejected (.abortError (abortReason r) c) := by
  obtain ⟨f1, f2, f3⟩ := executorEntry_facts s (some c)
  have hnot' : ((AbortablePromise.executorEntry s (some c)).ctrls c).aborted = false := by
    simp only [AbortablePromise.executorEntry, addEventListener_aborted]
    exact hnot
  have h1 := signalAbort_rejects_any (AbortablePromise.executorEntry s (some c)) s.nextPromise c
    s.nextResolver r f1 (by rw [f2]) (by rw [f2]) (by rw [f3]) hnot'
  rw [signalAbort_reason _ c r hnot'] at h1
  have hst := (runScript_steady post s.nextResolver
      (signalAbort (AbortablePromise.executorEntry s (some c)) c r)).andThen
    (finishExecutor_steady s.nextResolver _)
  have h2 := hst.settled s.nextPromise (by rw [h1]; simp)
  rw [h1] at h2
  have h3 : ((AbortablePromise.constructCap s (runScript (.abort c r :: post))
      (some c)).1.promises s.nextPromise).state = .rejected (.abortError (abortReason r) c) := by
    rw [constructCap_by_entry]
    simp only [set_apply, if_true, runScript]
    exact h2
  rw [(applySettles_steady s.nextResolver later _).settled s.nextPromise (by rw [h3]; simp), h3]

theorem afterTwo_wired (s : State) (c : Nat) (acts1 : List ExecAct) (events1 : List Event)
    (acts2 : List ExecAct) (events2 : List Event) (hc : c < s.nextCtrl) :
    Wired (afterTwo s c acts1 events1 acts2 events2) s.nextPromise c s.nextResolver
      ∧ Wired (afterTwo s c acts1 events1 acts2 events2)
          (afterConstruct s acts1 (some c) events1).nextPromise c
          (afterConstruct s acts1 (some c) events1).nextResolver
      ∧ s.nextPromise < (afterConstruct s acts1 (some c) events1).nextPromise := by
  have hctl : ∀ x, some c = some x → x < s.nextCtrl := by
    intro x hx
    injection hx with hx
    subst hx
    exact hc
  obtain ⟨hw, h1, h2, h3⟩ := constructCap_wired s acts1 (some c) hctl
  have g1 := run_grows (AbortablePromise.constructCap s (runScript acts1) (some c)).1 events1
  have g2 := abortable_constructCap_grows (afterConstruct s acts1 (some c) events1)
    (runScript acts2) (some c) (fun k t => (runScript_steady acts2 k t).grows)
  have g3 := run_grows (AbortablePromise.constructCap (afterConstruct s acts1 (some c) events1)
    (runScript acts2) (some c)).1 events2
  have g := g1.followedBy (g2.followedBy g3)
  have hc2 : c < (afterConstruct s acts1 (some c) events1).nextCtrl :=
    Nat.lt_of_lt_of_le h3 g1.ctrlCount
  have hctl2 : ∀ x, some c = some x → x < (afterConstruct s acts1 (some c) events1).nextCtrl := by
    intro x hx
    injection hx with hx
    subst hx
    exact hc2
  refine ⟨wired_grows hw g h1 h2 h3, ?_, Nat.lt_of_lt_of_le h1 g1.promiseCount⟩
  exact (afterConstruct_wired (afterConstruct s acts1 (some c) events1) acts2 (some c) events2
    hctl2).1

/-- An abort made through any promise that holds controller `c` rejects every
unresolved promise wired to `c`. -/
theorem abort_through (t : State) (x y c k : Nat) (r : Val) (hw : Wired t x c k)
    (hu : Unresolved t x k) (hnot : (t.ctrls c).aborted = false)
    (hy : (t.promises y).ctrl = some c) :
    ((AbortablePromise.abort t y r).promises x).state
      = .rejected (.abortError (nullish r (.str "aborted")) c) := by
  simp only [AbortablePromise.abort, hy]
  exact (signalAbort_rejects t x c k _ (by cases r <;> simp [nullish]) hw.2.1 hw.2.2 hu.2 hu.1
    hnot).1

theorem runScript_log (acts : List ExecAct) (k : Nat) (s : State)
    (hno : ∀ a ∈ acts, a.isAbort = false) : (runScript acts k s).1.log = s.log := by
  induction acts generalizing s with
  | nil => rfl
  | cons a acts ih =>
    have hrest : ∀ b ∈ acts, b.isAbort = false := fun b hb => hno b (List.mem_cons_of_mem _ hb)
    cases a with
    | resolve v => simp only [runScript]; rw [ih _ hrest, resolveFn_log]
    | reject e => simp only [runScript]; rw [ih _ hrest, rejectFn_log]
    | abort c r => exact absurd (hno _ (List.mem_cons_self _ _)) (by simp [ExecAct.isAbort])
    | throw e => rfl

theorem finishExecutor_log (k : Nat) (r : State × Option Val) :
    (finishExecutor k r).log = r.1.log := by
  unfold finishExecutor
  split
  · rfl
  · exact rejectFn_log _ _ _

theorem constructCap_log (s : State) (acts : List ExecAct) (c : Nat)
    (hno : ∀ a ∈ acts, a.isAbort = false) :
    (AbortablePromise.constructCap s (runScript acts) (some c)).1.log = s.log := by
  simp only [AbortablePromise.constructCap]
  rw [finishExecutor_log, runScript_log acts _ _ hno, addEventListener_log]
  rfl

/-- With an already aborted controller, calls of `abort` and `onabort` leave
the promise to the resolving functions alone, and no handler runs. -/
theorem applyCalls_aborted (p k c : Nat) (calls : List Call) (s : State) (cs : List Settle)
    (hcell : Cell s p k cs) (hctrl : (s.promises p).ctrl = some c)
    (hab : (s.ctrls c).aborted = true) :
    Cell (applyCalls p k c s calls) p k (cs ++ settlesOf calls)
      ∧ (applyCalls p k c s calls).log = s.log
      ∧ ((applyCalls p k c s calls).ctrls c).aborted = true := by
  induction calls generalizing s cs with
  | nil => simpa [applyCalls, settlesOf] using ⟨hcell, hab⟩
  | cons call rest ih =>
    simp only [applyCalls, List.foldl] at ih ⊢
    cases call with
    | settle x =>
      have h1 := cell_step s p k cs x hcell
      have h2 : ((applySettle k s x).promises p).ctrl = some c := by
        cases x with
        | resolve v => simp only [applySettle]; rw [resolveFn_ctrl_field]; exact hctrl
        | reject e => simp only [applySettle]; rw [rejectFn_ctrl_field]; exact hctrl
      have h3 : (applySettle k s x).ctrls = s.ctrls := by
        cases x <;> simp [applySettle]
      have h4 : (applySettle k s x).log = s.log := by
        cases x <;> simp [applySettle]
      obtain ⟨a, b, d⟩ := ih (applySettle k s x) (cs ++ [x]) h1 h2 (by rw [h3]; exact hab)
      refine ⟨?_, b.trans h4, d⟩
      simpa [applyCall, settlesOf, List.append_assoc] using a
    | abort r =>
      simp only [applyCall, abort_of_aborted s p c r hctrl hab, settlesOf]
      exact ih s cs hcell hctrl hab
    | controllerAbort r =>
      simp only [applyCall, signalAbort_of_aborted s c r hab, settlesOf]
      exact ih s cs hcell hctrl hab
    | onabort h =>
      have e1 : (AbortablePromise.onabort s p h) = addEventListener s c (.user h) := by
        simp [AbortablePromise.onabort, hctrl]
      have h1 : Cell (addEventListener s c (.user h)) p k cs := by
        obtain ⟨x1, x2, x3⟩ := hcell
        exact ⟨by rw [addEventListener_resolvers]; exact x1,
          by rw [addEventListener_promises]; exact x2,
          by rw [addEventListener_resolvers]; exact x3⟩
      obtain ⟨a, b, d⟩ := ih (addEventListener s c (.user h)) cs h1
        (by rw [addEventListener_promises]; exact hctrl)
        (by rw [addEventListener_aborted]; exact hab)
      simp only [applyCall, e1, settlesOf]
      exact ⟨a, b.trans (addEventListener_log s c _), d⟩

theorem sampleCalls_plain :
    ∀ v, Settle.resolve v ∈ settleCalls [] ++ settlesOf sampleCalls → v.isPromise = false := by
  intro v hv
  simp only [sampleCalls, settleCalls, settlesOf, List.nil_append, List.mem_singleton,
    Settle.resolve.injEq] at hv
  subst hv
  rfl

theorem fromExecutor_throws (x : Val) (hx : x.isPromise = false) (k : Nat) (t : State) :
    AbortablePromise.fromExecutor x k t = (t, some .typeError) := by
  cases x <;> first | rfl | simp [Val.isPromise] at hx

theorem fromValue_non_thenable (s : State) (x : Val) (hx : x.isPromise = false) :
    AbortablePromise.fromValue s x
      = ((AbortablePromise.constructCap s (AbortablePromise.fromExecutor x) none).1,
          .promise s.nextPromise) := by
  have h : instanceOfAbortable s x = false := by
    cases x <;> first | rfl | simp [Val.isPromise] at hx
  simp [AbortablePromise.fromValue, h, AbortablePromise.construct, abortable_constructCap_ids]

theorem fromValue_non_thenable_state (s : State) (x : Val) (hx : x.isPromise = false) :
    (AbortablePromise.fromValue s x).1.promises s.nextPromise
        = ⟨.rejected .typeError, [], some s.nextCtrl⟩
      ∧ s.nextPromise < (AbortablePromise.fromValue s x).1.nextPromise := by
  rw [fromValue_non_thenable s x hx]
  simp only [AbortablePromise.constructCap, fromExecutor_throws x hx, finishExecutor]
  have hk : (newPromise (newController s).1).2.2 = s.nextResolver := rfl
  have hw : (newPromise (newController s).1).2.1 = s.nextPromise := rfl
  have hc : (newController s).2 = s.nextCtrl := rfl
  simp only [hk, hw, hc, constructCap_entry]
  simp [rejectFn, rejectPromise, markResolved]

/-! ## Microtasks that respect a scope -/

theorem free_mono (σ : Scope) {n m k : Nat} (h : n ≤ m) (hk : σ.free n k) :
    σ.free m k := ⟨Nat.lt_of_lt_of_le hk.1 h, hk.2⟩

theorem cb_within_mono (σ : Scope) {n m : Nat} (h : n ≤ m) (cb : Cb)
    (hc : cb.within σ n) : cb.within σ m := by
  cases cb <;> first | exact free_mono σ h hc | trivial

theorem reaction_within_mono (σ : Scope) {n m : Nat} (h : n ≤ m) (ρ : Reaction)
    (hc : ρ.within σ n) : ρ.within σ m :=
  ⟨free_mono σ h hc.1, cb_within_mono σ h _ hc.2.1, cb_within_mono σ h _ hc.2.2⟩

theorem job_within_mono (σ : Scope) {n m np mp : Nat} (h : n ≤ m) (hp : np ≤ mp) (J : Job)
    (hc : J.within σ n np) : J.within σ m mp := by
  cases J with
  | reaction ρ b arg => exact reaction_within_mono σ h ρ hc
  | thenable p y => exact ⟨hc.1, Nat.lt_of_lt_of_le hc.2 hp⟩

theorem Keeps.idle (σ : Scope) (s : State) (h : Guard σ s) : Keeps σ s s :=
  ⟨h, Nat.le_refl _, Nat.le_refl _, Nat.le_refl _, fun _ _ => rfl, fun _ _ _ hm => hm,
    fun _ _ => rfl, fun _ _ => rfl, ⟨[], by simp, fun _ hJ => nomatch hJ⟩⟩

theorem Keeps.next {σ : Scope} {s m t : State} (h1 : Keeps σ s m) (h2 : Keeps σ m t) :
    Keeps σ s t := by
  obtain ⟨ex1, e1, w1⟩ := h1.jobs
  obtain ⟨ex2, e2, w2⟩ := h2.jobs
  refine ⟨h2.guard, Nat.le_trans h1.resolverCount h2.resolverCount,
    Nat.le_trans h1.promiseCount h2.promiseCount, Nat.le_trans h1.ctrlCount h2.ctrlCount,
    fun x hx => (h2.states x hx).trans (h1.states x hx),
    fun x hx ρ hm => h2.reactions x hx ρ (h1.reactions x hx ρ hm),
    fun k hk => (h2.resolvers k hk).trans (h1.resolvers k hk),
    fun c hc => (h2.ctrls c (Nat.lt_of_lt_of_le hc h1.ctrlCount)).trans (h1.ctrls c hc),
    ⟨ex1 ++ ex2, by rw [e2, e1, List.append_assoc], fun J hJ => ?_⟩⟩
  rcases List.mem_append.mp hJ with hJ | hJ
  · exact (w1 J hJ).imp (job_within_mono σ h2.resolverCount h2.promiseCount J) id
  · exact w2 J hJ

/-- A heap that differs only in its microtask queue respects the same scope. -/
theorem Guard.ofJobs {σ : Scope} {s : State} (h : Guard σ s) (js : List Job) :
    Guard σ { s with jobs := js } :=
  ⟨h.stored, h.live, h.allocK, h.allocX, h.fresh, h.caps, h.exempt⟩

theorem markResolved_keeps (σ : Scope) (s : State) (j : Nat) (h : Guard σ s)
    (hj : ¬ σ.K j) : Keeps σ s (markResolved s j) := by
  refine ⟨⟨h.stored, fun i hi hx => ?_, h.allocK, h.allocX, fun i hx => ?_, h.caps, h.exempt⟩,
    Nat.le_refl _, Nat.le_refl _, Nat.le_refl _, fun _ _ => rfl, fun _ _ _ hm => hm,
    fun k hk => ?_, fun _ _ => rfl, ⟨[], by simp, fun _ hJ => nomatch hJ⟩⟩
  · by_cases hij : i = j
    · subst hij; simp [markResolved]
    · rw [markResolved_resolvers_ne _ _ _ hij] at hx ⊢
      exact h.live i hi hx
  · by_cases hij : i = j
    · subst hij; simp [markResolved]
    · rw [markResolved_resolvers_ne _ _ _ hij] at hx ⊢
      exact h.fresh i hx
  · have : k ≠ j := fun e => hj (e ▸ hk)
    exact markResolved_resolvers_ne _ _ _ this

theorem rejectPromise_keeps (σ : Scope) (s : State) (y : Nat) (e : Val) (h : Guard σ s)
    (hy : ¬ σ.X y) : Keeps σ s (rejectPromise s y e) := by
  unfold rejectPromise
  split
  · refine ⟨⟨fun z ρ hm => ?_, h.live, h.allocK, h.allocX, h.fresh, h.caps, h.exempt⟩,
      Nat.le_refl _, Nat.le_refl _, Nat.le_refl _, fun x hx => ?_, fun x hx ρ hm => ?_,
      fun _ _ => rfl, fun _ _ => rfl,
      ⟨reactionJobs (s.promises y).reactions false e, rfl, fun J hJ => ?_⟩⟩
    · simp only [set_apply] at hm
      split at hm
      · simp at hm
      · exact h.stored z ρ hm
    · have : x ≠ y := fun e' => hy (e' ▸ hx)
      simp [this]
    · have : x ≠ y := fun e' => hy (e' ▸ hx)
      simpa [this] using hm
    · simp only [reactionJobs, List.mem_map] at hJ
      obtain ⟨ρ, hρ, rfl⟩ := hJ
      rcases h.stored y ρ hρ with hw | hS
      · exact Or.inl hw
      · exact (h.exempt y ρ hS).elim (fun hx => absurd hx hy) (fun hT => Or.inr (hT _ _))
  · exact Keeps.idle σ s h

theorem fulfillPromise_keeps (σ : Scope) (s : State) (y : Nat) (v : Val) (h : Guard σ s)
    (hy : ¬ σ.X y) : Keeps σ s (fulfillPromise s y v) := by
  unfold fulfillPromise
  split
  · refine ⟨⟨fun z ρ hm => ?_, h.live, h.allocK, h.allocX, h.fresh, h.caps, h.exempt⟩,
      Nat.le_refl _, Nat.le_refl _, Nat.le_refl _, fun x hx => ?_, fun x hx ρ hm => ?_,
      fun _ _ => rfl, fun _ _ => rfl,
      ⟨reactionJobs (s.promises y).reactions true v, rfl, fun J hJ => ?_⟩⟩
    · simp only [set_apply] at hm
      split at hm
      · simp at hm
      · exact h.stored z ρ hm
    · have : x ≠ y := fun e' => hy (e' ▸ hx)
      simp [this]
    · have : x ≠ y := fun e' => hy (e' ▸ hx)
      simpa [this] using hm
    · simp only [reactionJobs, List.mem_map] at hJ
      obtain ⟨ρ, hρ, rfl⟩ := hJ
      rcases h.stored y ρ hρ with hw | hS
      · exact Or.inl hw
      · exact (h.exempt y ρ hS).elim (fun hx => absurd hx hy) (fun hT => Or.inr (hT _ _))
  · exact Keeps.idle σ s h

/-- The promise of a free, unspent resolver pair is not protected. -/
theorem Guard.target {σ : Scope} {s : State} (h : Guard σ s) (j : Nat) (hj : ¬ σ.K j)
    (hu : (s.resolvers j).alreadyResolved = false) : ¬ σ.X (s.resolvers j).promise := by
  intro hx
  rw [h.live j hj hx] at hu
  cases hu

theorem rejectFn_keeps (σ : Scope) (s : State) (j : Nat) (e : Val) (h : Guard σ s)
    (hj : ¬ σ.K j) : Keeps σ s (rejectFn s j e) := by
  cases hu : (s.resolvers j).alreadyResolved with
  | true => rw [rejectFn_used _ _ _ hu]; exact Keeps.idle σ s h
  | false =>
    rw [rejectFn_unused _ _ _ hu]
    have h1 := markResolved_keeps σ s j h hj
    exact h1.next (rejectPromise_keeps σ _ _ e h1.guard (h.target j hj hu))

theorem resolveFn_keeps (σ : Scope) (s : State) (j : Nat) (v : Val) (h : Guard σ s)
    (hj : ¬ σ.K j) : Keeps σ s (resolveFn s j v) := by
  cases hu : (s.resolvers j).alreadyResolved with
  | true => simp only [resolveFn, hu, if_true]; exact Keeps.idle σ s h
  | false =>
    have h1 := markResolved_keeps σ s j h hj
    have ht := h.target j hj hu
    cases v with
    | promise y =>
      rw [resolveFn_promise]
      simp only [hu, Bool.false_eq_true, if_false]
      split
      · exact h1.next (rejectPromise_keeps σ _ _ _ h1.guard ht)
      · refine h1.next ⟨Guard.ofJobs h1.guard _, Nat.le_refl _, Nat.le_refl _, Nat.le_refl _,
          fun _ _ => rfl, fun _ _ _ hm => hm, fun _ _ => rfl, fun _ _ => rfl,
          ⟨[Job.thenable (s.resolvers j).promise y], rfl, fun J hJ => ?_⟩⟩
        rw [List.mem_singleton.mp hJ]
        refine Or.inl ⟨ht, Nat.lt_of_not_le (fun hle => ?_)⟩
        rw [h.fresh j hle] at hu
        cases hu
    | _ =>
      simp only [resolveFn, hu, Bool.false_eq_true, if_false]
      exact h1.next (fulfillPromise_keeps σ _ _ _ h1.guard ht)

theorem newCapability_keeps (σ : Scope) (s : State) (ab : Bool) (h : Guard σ s) :
    Keeps σ s (newCapability s ab).1 := by
  have hK : ∀ k, σ.K k → k ≠ s.nextResolver := fun k hk => Nat.ne_of_lt (h.allocK k hk)
  have hX : ∀ x, σ.X x → x ≠ s.nextPromise := fun x hx => Nat.ne_of_lt (h.allocX x hx)
  have hst : ∀ (t : State), t.nextResolver = s.nextResolver + 1 →
      t.promises = set s.promises s.nextPromise
        ⟨.pending, [], (t.promises s.nextPromise).ctrl⟩ →
      t.resolvers = set s.resolvers s.nextResolver ⟨s.nextPromise, false⟩ →
      t.nextPromise = s.nextPromise + 1 → t.aggs = s.aggs → Guard σ t := by
    intro t e1 e2 e3 e4 e5
    refine ⟨fun y ρ hm => ?_, fun j hj hx => ?_, fun k hk => ?_, fun x hx => ?_,
      fun j hx => ?_, fun a => ?_, h.exempt⟩
    · rw [e2] at hm
      simp only [set_apply] at hm
      split at hm
      · simp at hm
      · rcases h.stored y ρ hm with hw | hS
        · exact Or.inl (reaction_within_mono σ (by rw [e1]; exact Nat.le_succ _) ρ hw)
        · exact Or.inr hS
    · rw [e3] at hx ⊢
      simp only [set_apply] at hx ⊢
      split
      · next hjk =>
        rw [if_pos hjk] at hx
        exact absurd rfl (hX _ hx)
      · next hjk =>
        rw [if_neg hjk] at hx
        exact h.live j hj hx
    · rw [e1]; exact Nat.lt_succ_of_lt (h.allocK k hk)
    · rw [e4]; exact Nat.lt_succ_of_lt (h.allocX x hx)
    · rw [e3, e4] at hx
      rw [e3]
      simp only [set_apply] at hx ⊢
      split
      · next hjk =>
        rw [if_pos hjk] at hx
        exact absurd hx (Nat.not_succ_le_self _)
      · next hjk =>
        rw [if_neg hjk] at hx
        exact h.fresh j (Nat.le_of_succ_le hx)
    · rw [e5]; exact h.caps a
  cases ab
  · rw [newCapability_plain]
    refine ⟨hst _ rfl (by simp) rfl rfl rfl, Nat.le_succ _, Nat.le_succ _, Nat.le_refl _,
      fun x hx => ?_,
      fun x hx ρ hm => ?_, fun k hk => ?_, fun _ _ => rfl,
      ⟨[], by simp, fun _ hJ => nomatch hJ⟩⟩
    · simp [hX x hx]
    · simpa [hX x hx] using hm
    · simp [hK k hk]
  · rw [newCapability_abortable]
    refine ⟨hst _ rfl (by simp [capState]) rfl rfl rfl, Nat.le_succ _, Nat.le_succ _,
      Nat.le_succ _, fun x hx => ?_, fun x hx ρ hm => ?_, fun k hk => ?_, fun c hc => ?_,
      ⟨[], by simp [capState], fun _ hJ => nomatch hJ⟩⟩
    · simp [capState, hX x hx]
    · simpa [capState, hX x hx] using hm
    · simp [capState, hK k hk]
    · simp [capState, Nat.ne_of_lt hc]

theorem attachReaction_keeps (σ : Scope) (s : State) (y : Nat) (r : Reaction)
    (h : Guard σ s) (hr : r.within σ s.nextResolver) : Keeps σ s (attachReaction s y r) := by
  unfold attachReaction
  split
  · refine ⟨⟨fun z ρ hm => ?_, h.live, h.allocK, h.allocX, h.fresh, h.caps, h.exempt⟩,
      Nat.le_refl _, Nat.le_refl _, Nat.le_refl _, fun x hx => ?_, fun x hx ρ hm => ?_,
      fun _ _ => rfl, fun _ _ => rfl, ⟨[], by simp, fun _ hJ => nomatch hJ⟩⟩
    · simp only [set_apply] at hm
      split at hm
      · next hzy =>
        subst hzy
        rcases List.mem_append.mp hm with hm | hm
        · exact h.stored z ρ hm
        · rw [List.mem_singleton.mp hm]; exact Or.inl hr
      · exact h.stored z ρ hm
    · simp only [set_apply]
      split
      · next hxy => subst hxy; rfl
      · rfl
    · simp only [set_apply]
      split
      · next hxy => subst hxy; exact List.mem_append_left _ hm
      · exact hm
  · next v _ =>
    exact ⟨Guard.ofJobs h _, Nat.le_refl _, Nat.le_refl _, Nat.le_refl _, fun _ _ => rfl,
      fun _ _ _ hm => hm, fun _ _ => rfl, fun _ _ => rfl,
      ⟨[Job.reaction r true v], rfl, fun J hJ => by rw [List.mem_singleton.mp hJ]; exact Or.inl hr⟩⟩
  · next e _ =>
    exact ⟨Guard.ofJobs h _, Nat.le_refl _, Nat.le_refl _, Nat.le_refl _, fun _ _ => rfl,
      fun _ _ _ hm => hm, fun _ _ => rfl, fun _ _ => rfl,
      ⟨[Job.reaction r false e], rfl, fun J hJ => by rw [List.mem_singleton.mp hJ]; exact Or.inl hr⟩⟩

theorem thenOp_keeps (σ : Scope) (s : State) (p : Nat) (onF onR : Cb) (h : Guard σ s)
    (hF : onF.within σ s.nextResolver) (hR : onR.within σ s.nextResolver) :
    Keeps σ s (thenOp s p onF onR).1 := by
  rw [thenOp_eq]
  have h1 := newCapability_keeps σ s (s.promises p).ctrl.isSome h
  have hn := (newCapability_counters s (s.promises p).ctrl.isSome).2
  refine h1.next (attachReaction_keeps σ _ p _ h1.guard ⟨⟨?_, ?_⟩, ?_, ?_⟩)
  · rw [newCapability_ids, hn]; exact Nat.lt_succ_self _
  · rw [newCapability_ids]
    exact fun hk => Nat.lt_irrefl _ (h.allocK _ hk)
  · exact cb_within_mono σ h1.resolverCount _ hF
  · exact cb_within_mono σ h1.resolverCount _ hR

theorem promiseResolve_keeps (σ : Scope) (s : State) (ab : Bool) (x : Val) (h : Guard σ s) :
    Keeps σ s (promiseResolve s ab x).1 := by
  have h1 := newCapability_keeps σ s ab h
  have hnew : Keeps σ s (resolveFn (newCapability s ab).1 (newCapability s ab).2.2 x) := by
    refine h1.next (resolveFn_keeps σ _ _ x h1.guard ?_)
    rw [newCapability_ids]
    exact fun hk => Nat.lt_irrefl _ (h.allocK _ hk)
  unfold promiseResolve
  cases x with
  | promise y =>
    simp only []
    split
    · exact Keeps.idle σ s h
    · exact hnew
  | _ => exact hnew

theorem recordElement_keeps (σ : Scope) (s : State) (a i : Nat) (v : Val) (h : Guard σ s) :
    Keeps σ s (recordElement s a i v).1 := by
  unfold recordElement
  split
  · exact Keeps.idle σ s h
  · refine ⟨⟨h.stored, h.live, h.allocK, h.allocX, h.fresh, fun b => ?_, h.exempt⟩,
      Nat.le_refl _, Nat.le_refl _, Nat.le_refl _, fun _ _ => rfl, fun _ _ _ hm => hm,
      fun _ _ => rfl, fun _ _ => rfl, ⟨[], by simp, fun _ hJ => nomatch hJ⟩⟩
    simp only [set_apply]
    split
    · next hb => subst hb; exact h.caps b
    · exact h.caps b

theorem invoke_keeps (σ : Scope) (s : State) (cb : Cb) (ful : Bool) (arg : Val)
    (h : Guard σ s) (hcb : cb.within σ s.nextResolver) : Keeps σ s (invoke s cb ful arg).1 := by
  have hfin : ∀ (ab : Bool) (r : Val) (inner : Cb), inner.within σ s.nextResolver →
      Keeps σ s (thenOp (promiseResolve s ab r).1 (promiseResolve s ab r).2 inner .none).1 := by
    intro ab r inner hin
    have h1 := promiseResolve_keeps σ s ab r h
    exact h1.next (thenOp_keeps σ _ _ _ _ h1.guard
      (cb_within_mono σ h1.resolverCount _ hin) trivial)
  have hrec : ∀ (a i : Nat) (v w : Val), σ.free s.nextResolver (σ.capOf a) →
      Keeps σ s (if (recordElement s a i v).2 then
          (resolveFn (recordElement s a i v).1 (s.aggs a).cap w, Except.ok (ε := Val) Val.undefined)
        else ((recordElement s a i v).1, Except.ok Val.undefined)).1 := by
    intro a i v w hf
    have h1 := recordElement_keeps σ s a i v h
    split
    · exact h1.next (resolveFn_keeps σ _ _ _ h1.guard (by rw [h.caps a]; exact hf.2))
    · exact h1
  cases cb with
  | none => exact Keeps.idle σ s h
  | user f => exact Keeps.idle σ s h
  | resolveFn k => exact resolveFn_keeps σ s k arg h hcb.2
  | rejectFn k => exact rejectFn_keeps σ s k arg h hcb.2
  | valueThunk v => exact Keeps.idle σ s h
  | thrower e => exact Keeps.idle σ s h
  | thenFinally f ab =>
    simp only [invoke]
    split
    · exact Keeps.idle σ s h
    · exact hfin _ _ _ trivial
  | catchFinally f ab =>
    simp only [invoke]
    split
    · exact Keeps.idle σ s h
    · exact hfin _ _ _ trivial
  | allResolve a i => exact hrec a i _ _ hcb
  | settledResolve a i => exact hrec a i _ _ hcb
  | settledReject a i => exact hrec a i _ _ hcb
  | anyReject a i =>
    simp only [invoke]
    have h1 := recordElement_keeps σ s a i arg h
    split
    · exact h1.next (rejectFn_keeps σ _ _ _ h1.guard (by rw [h.caps a]; exact hcb.2))
    · exact h1

theorem settleCapability_keeps (σ : Scope) (cap : Nat) (r : State × Except Val Val)
    (h : Guard σ r.1) (hcap : ¬ σ.K cap) : Keeps σ r.1 (settleCapability cap r) := by
  unfold settleCapability
  split
  · exact resolveFn_keeps σ _ _ _ h hcap
  · exact rejectFn_keeps σ _ _ _ h hcap

/-- A microtask that calls free pairs only respects the scope: the heap after
it comes after the heap without the microtask. -/
theorem runJob_keeps (σ : Scope) (s : State) (J : Job) (rest : List Job)
    (hj : s.jobs = J :: rest) (h : Guard σ s) (hJ : J.within σ s.nextResolver s.nextPromise) :
    Keeps σ { s with jobs := rest } (runJob s) := by
  have h0 : Guard σ { s with jobs := rest } := Guard.ofJobs h rest
  unfold runJob
  cases J with
  | reaction r ful arg =>
    simp only [hj]
    have hcb : (if ful then r.onFulfilled else r.onRejected).within σ s.nextResolver := by
      cases ful
      · exact hJ.2.2
      · exact hJ.2.1
    have h1 := invoke_keeps σ { s with jobs := rest }
      (if ful then r.onFulfilled else r.onRejected) ful arg h0 hcb
    exact h1.next (settleCapability_keeps σ r.cap _ h1.guard hJ.1.2)
  | thenable p y =>
    simp only [hj]
    have hK : ∀ k, σ.K k → k ≠ s.nextResolver := fun k hk => Nat.ne_of_lt (h.allocK k hk)
    have h1 : Keeps σ { s with jobs := rest }
        { s with
          jobs := rest
          resolvers := set s.resolvers s.nextResolver ⟨p, false⟩
          nextResolver := s.nextResolver + 1 } := by
      refine ⟨⟨fun z ρ hm => ?_, fun j hj' hx => ?_, fun k hk => Nat.lt_succ_of_lt (h.allocK k hk),
        h.allocX, fun j hx => ?_, h.caps, h.exempt⟩, Nat.le_succ _, Nat.le_refl _, Nat.le_refl _,
        fun _ _ => rfl, fun _ _ _ hm => hm, fun k hk => ?_, fun _ _ => rfl,
        ⟨[], by simp, fun _ hJ' => nomatch hJ'⟩⟩
      · rcases h.stored z ρ hm with hw | hS
        · exact Or.inl (reaction_within_mono σ (Nat.le_succ _) ρ hw)
        · exact Or.inr hS
      · simp only [set_apply] at hx ⊢
        split
        · next hjk =>
          rw [if_pos hjk] at hx
          exact absurd hx hJ.1
        · next hjk =>
          rw [if_neg hjk] at hx
          exact h.live j hj' hx
      · simp only [set_apply] at hx ⊢
        split
        · next hjk =>
          rw [if_pos hjk] at hx
          exact absurd hJ.2 (Nat.not_lt_of_le hx)
        · next hjk =>
          rw [if_neg hjk] at hx
          exact h.fresh j hx
      · simp [hK k hk]
    refine h1.next (thenOp_keeps σ _ y _ _ h1.guard ⟨Nat.lt_succ_self _, ?_⟩
      ⟨Nat.lt_succ_self _, ?_⟩)
    · exact fun hk => Nat.lt_irrefl _ (h.allocK _ hk)
    · exact fun hk => Nat.lt_irrefl _ (h.allocK _ hk)

/-- First in, first out: when the microtasks `A` at the head of the queue call
free pairs only, running them leaves the rest of the queue at the head, and the
heap after them respects the scope. -/
theorem runJobs_prefix (σ : Scope) (A : List Job) : ∀ (s : State) (rest : List Job),
    s.jobs = A ++ rest → Guard σ s → (∀ J ∈ A, J.within σ s.nextResolver s.nextPromise) →
    Keeps σ { s with jobs := rest } (runJobs A.length s) := by
  induction A with
  | nil =>
    intro s rest hj h _
    have : ({ s with jobs := rest } : State) = s := by
      cases s; simp_all
    simp only [List.length_nil, runJobs]
    rw [this]
    exact Keeps.idle σ s h
  | cons J A ih =>
    intro s rest hj h hA
    have K1 := runJob_keeps σ s J (A ++ rest) hj h (hA J (List.mem_cons_self _ _))
    obtain ⟨ex1, e1, w1⟩ := K1.jobs
    have K2 := ih (runJob s) (rest ++ ex1) (by rw [e1, List.append_assoc]) K1.guard
      (fun J' hJ' => job_within_mono σ K1.resolverCount K1.promiseCount J'
        (hA J' (List.mem_cons_of_mem _ hJ')))
    obtain ⟨ex2, e2, w2⟩ := K2.jobs
    simp only [List.length_cons, runJobs]
    refine ⟨K2.guard, Nat.le_trans K1.resolverCount K2.resolverCount,
      Nat.le_trans K1.promiseCount K2.promiseCount, Nat.le_trans K1.ctrlCount K2.ctrlCount,
      fun x hx => (K2.states x hx).trans (K1.states x hx),
      fun x hx ρ hm => K2.reactions x hx ρ (K1.reactions x hx ρ hm),
      fun k hk => (K2.resolvers k hk).trans (K1.resolvers k hk),
      fun c hc => (K2.ctrls c (Nat.lt_of_lt_of_le hc K1.ctrlCount)).trans (K1.ctrls c hc),
      ⟨ex1 ++ ex2, by rw [e2]; simp [List.append_assoc], fun J' hJ' => ?_⟩⟩
    rcases List.mem_append.mp hJ' with hJ' | hJ'
    · exact (w1 J' hJ').imp (job_within_mono σ K2.resolverCount K2.promiseCount J') id
    · exact w2 J' hJ'

theorem runJobs_add (n m : Nat) (s : State) : runJobs (n + m) s = runJobs m (runJobs n s) := by
  induction n generalizing s with
  | zero => simp [runJobs]
  | succ n ih => rw [Nat.succ_add]; simp only [runJobs]; exact ih _

/-- A settled promise keeps its state while microtasks run. -/
theorem runJobs_settled (n : Nat) (s : State) (p : Nat) (hp : p < s.nextPromise)
    (h : (s.promises p).state ≠ .pending) :
    ((runJobs n s).promises p).state = (s.promises p).state :=
  (runJobs_grows n s).settled p hp h

theorem CtrlsKept.unchanged (s : State) : CtrlsKept s s := ⟨Nat.le_refl _, fun _ _ => rfl⟩

theorem CtrlsKept.after {s m t : State} (h1 : CtrlsKept s m) (h2 : CtrlsKept m t) :
    CtrlsKept s t :=
  ⟨Nat.le_trans h1.1 h2.1, fun c hc => (h2.2 c (Nat.lt_of_lt_of_le hc h1.1)).trans (h1.2 c hc)⟩

theorem CtrlsKept.ofSteady {s t : State} (h : Steady s t) (hc : t.ctrls = s.ctrls) :
    CtrlsKept s t := ⟨Nat.le_of_eq h.ctrlCount.symm, fun c _ => by rw [hc]⟩

theorem newCapability_ctrlsKept (s : State) (ab : Bool) : CtrlsKept s (newCapability s ab).1 := by
  cases ab
  · rw [newCapability_plain]; exact ⟨Nat.le_refl _, fun _ _ => rfl⟩
  · rw [newCapability_abortable]
    exact ⟨Nat.le_succ _, fun c hc => by simp [capState, Nat.ne_of_lt hc]⟩

theorem thenOp_ctrlsKept (s : State) (p : Nat) (onF onR : Cb) :
    CtrlsKept s (thenOp s p onF onR).1 := by
  rw [thenOp_eq]
  exact (newCapability_ctrlsKept s _).after
    (CtrlsKept.ofSteady (attachReaction_steady _ _ _) (attachReaction_ctrls _ _ _))

theorem promiseResolve_ctrlsKept (s : State) (ab : Bool) (x : Val) :
    CtrlsKept s (promiseResolve s ab x).1 := by
  have hnew : CtrlsKept s (resolveFn (newCapability s ab).1 (newCapability s ab).2.2 x) :=
    (newCapability_ctrlsKept s ab).after
      (CtrlsKept.ofSteady (resolveFn_steady _ _ _) (resolveFn_ctrls _ _ _))
  unfold promiseResolve
  cases x with
  | promise y =>
    simp only []
    split
    · exact CtrlsKept.unchanged s
    · exact hnew
  | _ => exact hnew

theorem recordElement_ctrls (s : State) (a i : Nat) (v : Val) :
    (recordElement s a i v).1.ctrls = s.ctrls := by
  unfold recordElement; split <;> rfl

theorem invoke_ctrlsKept (s : State) (cb : Cb) (ful : Bool) (arg : Val) :
    CtrlsKept s (invoke s cb ful arg).1 := by
  have hfin : ∀ (ab : Bool) (r : Val) (inner : Cb),
      CtrlsKept s (thenOp (promiseResolve s ab r).1 (promiseResolve s ab r).2 inner .none).1 :=
    fun ab r inner => (promiseResolve_ctrlsKept s ab r).after (thenOp_ctrlsKept _ _ _ _)
  have hrec : ∀ (a i : Nat) (v w : Val),
      CtrlsKept s (if (recordElement s a i v).2 then
          (resolveFn (recordElement s a i v).1 (s.aggs a).cap w, Except.ok (ε := Val) Val.undefined)
        else ((recordElement s a i v).1, Except.ok Val.undefined)).1 := by
    intro a i v w
    split
    · exact CtrlsKept.ofSteady ((recordElement_steady s a i v).andThen (resolveFn_steady _ _ _))
        (by simp [recordElement_ctrls])
    · exact CtrlsKept.ofSteady (recordElement_steady s a i v) (recordElement_ctrls _ _ _ _)
  cases cb with
  | none => exact CtrlsKept.unchanged s
  | user f => exact CtrlsKept.unchanged s
  | resolveFn k => exact CtrlsKept.ofSteady (resolveFn_steady s k arg) (resolveFn_ctrls _ _ _)
  | rejectFn k => exact CtrlsKept.ofSteady (rejectFn_steady s k arg) (rejectFn_ctrls _ _ _)
  | valueThunk v => exact CtrlsKept.unchanged s
  | thrower e => exact CtrlsKept.unchanged s
  | thenFinally f ab =>
    simp only [invoke]
    split
    · exact CtrlsKept.unchanged s
    · exact hfin _ _ _
  | catchFinally f ab =>
    simp only [invoke]
    split
    · exact CtrlsKept.unchanged s
    · exact hfin _ _ _
  | allResolve a i => exact hrec a i _ _
  | settledResolve a i => exact hrec a i _ _
  | settledReject a i => exact hrec a i _ _
  | anyReject a i =>
    simp only [invoke]
    split
    · exact CtrlsKept.ofSteady ((recordElement_steady s a i arg).andThen (rejectFn_steady _ _ _))
        (by simp [recordElement_ctrls])
    · exact CtrlsKept.ofSteady (recordElement_steady s a i arg) (recordElement_ctrls _ _ _ _)

theorem settleCapability_ctrls (cap : Nat) (r : State × Except Val Val) :
    (settleCapability cap r).ctrls = r.1.ctrls := by
  unfold settleCapability; split <;> simp

/-- Microtasks leave every existing controller as it is. -/
theorem runJob_ctrlsKept (s : State) : CtrlsKept s (runJob s) := by
  unfold runJob
  split
  · exact CtrlsKept.unchanged s
  · next r ful arg rest hj =>
    have h0 : CtrlsKept s { s with jobs := rest } := ⟨Nat.le_refl _, fun _ _ => rfl⟩
    exact h0.after ((invoke_ctrlsKept _ _ _ _).after
      (CtrlsKept.ofSteady (settleCapability_steady _ _) (settleCapability_ctrls _ _)))
  · next p y rest hj =>
    have h0 : CtrlsKept s { s with
        jobs := rest
        resolvers := set s.resolvers s.nextResolver ⟨p, false⟩
        nextResolver := s.nextResolver + 1 } := ⟨Nat.le_refl _, fun _ _ => rfl⟩
    exact h0.after (thenOp_ctrlsKept _ _ _ _)

theorem runJobs_ctrlsKept (n : Nat) (s : State) : CtrlsKept s (runJobs n s) := by
  induction n generalizing s with
  | zero => exact CtrlsKept.unchanged s
  | succ n ih => exact (runJob_ctrlsKept s).after (ih _)

/-! ## What an abort queues, and the delivery of a rejection -/

theorem runListener_keeps (σ : Scope) (c : Nat) (s : State) (l : Listener) (h : Guard σ s)
    (hl : ∀ j, l = .reject j → ¬ σ.K j) : Keeps σ s (runListener c s l) := by
  cases l with
  | user u =>
    exact ⟨⟨h.stored, h.live, h.allocK, h.allocX, h.fresh, h.caps, h.exempt⟩, Nat.le_refl _,
      Nat.le_refl _, Nat.le_refl _, fun _ _ => rfl, fun _ _ _ hm => hm, fun _ _ => rfl,
      fun _ _ => rfl, ⟨[], by simp [runListener], fun _ hJ => nomatch hJ⟩⟩
  | reject j => exact rejectFn_keeps σ s j _ h (hl j rfl)

theorem foldl_runListener_keeps (σ : Scope) (c : Nat) (ls : List Listener) :
    ∀ (s : State), Guard σ s → (∀ j, Listener.reject j ∈ ls → ¬ σ.K j) →
      Keeps σ s (ls.foldl (runListener c) s) := by
  induction ls with
  | nil => exact fun s h _ => Keeps.idle σ s h
  | cons l ls ih =>
    intro s h hl
    have h1 := runListener_keeps σ c s l h (fun j e => hl j (e ▸ List.mem_cons_self _ _))
    exact h1.next (ih _ h1.guard (fun j hj => hl j (List.mem_cons_of_mem _ hj)))

theorem rejectFn_jobs (s : State) (k : Nat) (e : Val) :
    ∃ ex, (rejectFn s k e).jobs = s.jobs ++ ex ∧ ∀ J ∈ ex, ∃ ρ, J = Job.reaction ρ false e := by
  unfold rejectFn
  split
  · exact ⟨[], by simp, fun _ hJ => nomatch hJ⟩
  · unfold rejectPromise
    split
    · refine ⟨reactionJobs ((markResolved s k).promises (s.resolvers k).promise).reactions false e,
        rfl, fun J hJ => ?_⟩
      simp only [reactionJobs, List.mem_map] at hJ
      obtain ⟨ρ, _, rfl⟩ := hJ
      exact ⟨ρ, rfl⟩
    · exact ⟨[], by simp, fun _ hJ => nomatch hJ⟩

/-- Every microtask that an abort queues is a rejection reaction with the
`AbortError` of the signal. -/
theorem foldl_runListener_jobs (c : Nat) (ls : List Listener) :
    ∀ (s : State), ∃ ex, (ls.foldl (runListener c) s).jobs = s.jobs ++ ex
      ∧ ∀ J ∈ ex, ∃ ρ, J = Job.reaction ρ false (.abortError (s.ctrls c).reason c) := by
  induction ls with
  | nil => exact fun s => ⟨[], by simp, fun _ hJ => nomatch hJ⟩
  | cons l ls ih =>
    intro s
    obtain ⟨ex2, e2, w2⟩ := ih (runListener c s l)
    rw [runListener_ctrls] at w2
    cases l with
    | user u =>
      refine ⟨ex2, ?_, w2⟩
      simp only [List.foldl] at e2 ⊢
      rw [e2]; rfl
    | reject j =>
      obtain ⟨ex1, e1, w1⟩ := rejectFn_jobs s j (.abortError (s.ctrls c).reason c)
      refine ⟨ex1 ++ ex2, ?_, fun J hJ => ?_⟩
      · simp only [List.foldl] at e2 ⊢
        rw [e2]
        simp only [runListener]
        rw [e1, List.append_assoc]
      · rcases List.mem_append.mp hJ with hJ | hJ
        · exact w1 J hJ
        · exact w2 J hJ

theorem rejectFn_queues (s : State) (k f : Nat) (e : Val) (ρ : Reaction)
    (hρ : ρ ∈ (s.promises f).reactions) :
    (rejectFn s k e).promises f = s.promises f
      ∨ Job.reaction ρ false e ∈ (rejectFn s k e).jobs := by
  unfold rejectFn
  split
  · exact Or.inl rfl
  · by_cases hf : (s.resolvers k).promise = f
    · rw [hf]
      unfold rejectPromise
      split
      · right
        simp only [markResolved_jobs, markResolved_promises]
        exact List.mem_append_right _ (List.mem_map.mpr ⟨ρ, hρ, rfl⟩)
      · exact Or.inl rfl
    · left
      rw [rejectPromise_promises_ne _ _ _ _ (fun h => hf h.symm)]
      rfl

/-- When an abort rejects the pending promise `f`, each reaction stored on `f`
is queued as a rejection reaction with the `AbortError` of the signal. -/
theorem foldl_runListener_queues (c f : Nat) (R : PromiseRec) (ρ : Reaction) (e : Val)
    (hρ : ρ ∈ R.reactions) (ls : List Listener) :
    ∀ (s : State), e = .abortError (s.ctrls c).reason c →
      (s.promises f = R ∨ Job.reaction ρ false e ∈ s.jobs) →
      ((ls.foldl (runListener c) s).promises f = R
        ∨ Job.reaction ρ false e ∈ (ls.foldl (runListener c) s).jobs) := by
  induction ls with
  | nil => exact fun s _ h => h
  | cons l ls ih =>
    intro s he h
    simp only [List.foldl]
    refine ih _ (by rw [runListener_ctrls]; exact he) ?_
    cases l with
    | user u => simpa [runListener] using h
    | reject j =>
      simp only [runListener]
      rw [← he]
      rcases h with h | h
      · rcases rejectFn_queues s j f e ρ (by rw [h]; exact hρ) with h' | h'
        · exact Or.inl (h'.trans h)
        · exact Or.inr h'
      · obtain ⟨ex, e1, _⟩ := rejectFn_jobs s j e
        right
        rw [e1]
        exact List.mem_append_left _ h

theorem exists_first_split {α : Type} (P : α → Prop) (l : List α) (h : ∃ x ∈ l, P x) :
    ∃ A x B, l = A ++ x :: B ∧ P x ∧ ∀ y ∈ A, ¬ P y := by
  induction l with
  | nil => obtain ⟨x, hx, _⟩ := h; cases hx
  | cons a l ih =>
    by_cases ha : P a
    · exact ⟨[], a, l, rfl, ha, fun _ hy => nomatch hy⟩
    · obtain ⟨x, hx, hP⟩ := h
      rcases List.mem_cons.mp hx with hx | hx
      · exact absurd (hx ▸ hP) ha
      · obtain ⟨A, y, B, e, hy, hA⟩ := ih ⟨x, hx, hP⟩
        refine ⟨a :: A, y, B, by rw [e]; rfl, hy, fun z hz => ?_⟩
        rcases List.mem_cons.mp hz with hz | hz
        · rw [hz]; exact ha
        · exact hA z hz

/-- Delivery of a rejection to a derived promise without rejection handler. -/
theorem runJob_passes_rejection (u : State) (kd d : Nat) (onF : Cb) (e : Val) (rest : List Job)
    (hj : u.jobs = Job.reaction ⟨kd, onF, .none⟩ false e :: rest)
    (hk : u.resolvers kd = ⟨d, false⟩) (hp : (u.promises d).state = .pending) :
    ((runJob u).promises d).state = .rejected e := by
  simp only [runJob, hj, invoke, settleCapability, Bool.false_eq_true, if_false]
  rw [rejectFn_unused _ _ _ (by simp [hk])]
  simp only [hk]
  exact rejectPromise_state_pending _ _ _ (by simpa using hp)

/-- Delivery of a rejection to a rejection handler that returns a value. -/
theorem runJob_catches_rejection (u : State) (kd d : Nat) (onF : Cb) (hd : Fn) (e w : Val)
    (rest : List Job)
    (hj : u.jobs = Job.reaction ⟨kd, onF, .user hd⟩ false e :: rest)
    (hk : u.resolvers kd = ⟨d, false⟩) (hp : (u.promises d).state = .pending)
    (hh : hd e = .ok w) (hw : w.isPromise = false) :
    ((runJob u).promises d).state = .fulfilled w := by
  simp only [runJob, hj, invoke, settleCapability, Bool.false_eq_true, if_false, hh]
  rw [resolveFn_plain _ _ _ hw]
  simp only [hk, Bool.false_eq_true, if_false]
  exact fulfillPromise_state_pending _ _ _ (by simpa using hp)

/-- The microtask that delivers the rejection of `f` through the reaction `ρ`
is reached after finitely many microtasks that call free pairs only. -/
theorem runJobs_reach (σ : Scope) (u : State) (J0 : Job) (h : Guard σ u)
    (hq : ∀ J ∈ u.jobs, J.within σ u.nextResolver u.nextPromise ∨ J = J0) (hin : J0 ∈ u.jobs) :
    ∃ n rest, Keeps σ { u with jobs := J0 :: rest } (runJobs n u) := by
  obtain ⟨A, x, B, e, hx, hA⟩ := exists_first_split (fun J => J = J0) u.jobs ⟨J0, hin, rfl⟩
  subst hx
  refine ⟨A.length, B, runJobs_prefix σ A u (x :: B) e h (fun J hJ => ?_)⟩
  rcases hq J (by rw [e]; exact List.mem_append_left _ hJ) with hw | hw
  · exact hw
  · exact absurd hw (hA J hJ)

/-- The heap after `f.abort(r)` when `d` is chained to `f` by the reaction `ρ`:
`f` is rejected with the `AbortError`, the reaction is queued with that error,
every other microtask calls free pairs only, and `d` is as before. -/
theorem abort_chained (t : State) (f cf kf d kd cd : Nat) (ρ : Reaction) (r : Val)
    (hc : Chained t f cf d kd cd ρ) (hw : Wired t f cf kf) (hu : Unresolved t f kf)
    (hnot : (t.ctrls cf).aborted = false) :
    ((AbortablePromise.abort t f r).promises f).state
        = .rejected (.abortError (nullish r (.str "aborted")) cf)
      ∧ Guard (chainScope t f d kd ρ) (AbortablePromise.abort t f r)
      ∧ (AbortablePromise.abort t f r).resolvers kd = ⟨d, false⟩
      ∧ ((AbortablePromise.abort t f r).promises d).state = .pending
      ∧ (∀ J ∈ (AbortablePromise.abort t f r).jobs,
          J.within (chainScope t f d kd ρ) (AbortablePromise.abort t f r).nextResolver
              (AbortablePromise.abort t f r).nextPromise
            ∨ J = Job.reaction ρ false (.abortError (nullish r (.str "aborted")) cf))
      ∧ Job.reaction ρ false (.abortError (nullish r (.str "aborted")) cf)
          ∈ (AbortablePromise.abort t f r).jobs
      ∧ (AbortablePromise.abort t f r).ctrls cd = t.ctrls cd
      ∧ (AbortablePromise.abort t f r).nextCtrl = t.nextCtrl := by
  have hrej := (abort_rejects t f cf kf r hw hu hnot).1
  have hst := abort_steady t f r
  have hE : abortReason (nullish r (.str "aborted")) = nullish r (.str "aborted") :=
    abortReason_nullish r
  have habort : AbortablePromise.abort t f r
      = (t.ctrls cf).listeners.foldl (runListener cf)
          { t with
            ctrls := set t.ctrls cf ⟨true, nullish r (.str "aborted"), (t.ctrls cf).listeners⟩ } := by
    simp only [AbortablePromise.abort, hw.1, signalAbort, hnot, hE, Bool.false_eq_true, if_false]
  have hcd : (AbortablePromise.abort t f r).ctrls cd = t.ctrls cd := by
    simp only [AbortablePromise.abort, hw.1]
    exact signalAbort_ctrls_ne t cf cd _ hc.own.1
  rw [habort] at hrej hst hcd ⊢
  generalize hs1 : ({ t with
      ctrls := set t.ctrls cf ⟨true, nullish r (.str "aborted"), (t.ctrls cf).listeners⟩ } : State)
    = s1 at hrej hst hcd ⊢
  have hg1 : Guard (chainScope t f d kd ρ) s1 := by
    subst hs1
    exact ⟨hc.guard.stored, hc.guard.live, hc.guard.allocK, hc.guard.allocX, hc.guard.fresh,
      hc.guard.caps, hc.guard.exempt⟩
  have hreason : (s1.ctrls cf).reason = nullish r (.str "aborted") := by
    subst hs1; simp
  have hjobs1 : s1.jobs = t.jobs := by subst hs1; rfl
  have hprom1 : s1.promises = t.promises := by subst hs1; rfl
  have hres1 : s1.resolvers = t.resolvers := by subst hs1; rfl
  have hnr1 : s1.nextResolver = t.nextResolver := by subst hs1; rfl
  have hnp1 : s1.nextPromise = t.nextPromise := by subst hs1; rfl
  have K1 := foldl_runListener_keeps (chainScope t f d kd ρ) cf (t.ctrls cf).listeners s1 hg1
    (fun j hj => hc.signal j hj)
  obtain ⟨ex, e1, w1⟩ := K1.jobs
  obtain ⟨ex', e2, w2⟩ := foldl_runListener_jobs cf (t.ctrls cf).listeners s1
  have hex : ex' = ex := List.append_cancel_left (e2.symm.trans e1)
  subst hex
  rw [hreason] at w2
  have hq := foldl_runListener_queues cf f (t.promises f) ρ
    (.abortError (nullish r (.str "aborted")) cf) hc.registered (t.ctrls cf).listeners s1
    (by rw [hreason]) (Or.inl (by rw [hprom1]))
  refine ⟨hrej, K1.guard, ?_, ?_, fun J hJ => ?_, ?_, hcd, hst.ctrlCount⟩
  · rw [K1.resolvers kd rfl, hres1]; exact hc.resolver
  · rw [K1.states d rfl, hprom1]; exact hc.pending
  · rw [e1, hjobs1] at hJ
    rcases List.mem_append.mp hJ with hJ | hJ
    · left
      exact job_within_mono _ (by rw [← hnr1]; exact K1.resolverCount)
        (by rw [← hnp1]; exact K1.promiseCount) J (hc.queue J hJ)
    · rcases w1 J hJ with hw' | ⟨b, arg, hT⟩
      · exact Or.inl hw'
      · obtain ⟨ρ', hρ'⟩ := w2 J hJ
        right
        rw [hT] at hρ' ⊢
        injection hρ' with a1 a2 a3
        rw [a2, a3]
  · rcases hq with hq | hq
    · rw [hq] at hrej
      rw [hu.1] at hrej
      cases hrej
    · exact hq

/-- Once a promise is settled after `n` microtasks, it has the same state after
any larger number of microtasks. -/
theorem runJobs_settled_from (u : State) (n p : Nat) (st : PState)
    (h : ((runJobs n u).promises p).state = st) (hst : st ≠ .pending)
    (hp : p < (runJobs n u).nextPromise) :
    ∀ m, n ≤ m → ((runJobs m u).promises p).state = st := by
  intro m hm
  obtain ⟨j, rfl⟩ := Nat.exists_eq_add_of_le hm
  rw [runJobs_add, runJobs_settled j _ p hp (by rw [h]; exact hst)]
  exact h

/-- After `f.abort(r)`, the microtask of the reaction `ρ` reaches the head of the
queue after finitely many microtasks, with `d` still pending and not resolved. -/
theorem chained_reaches (t : State) (f cf kf d kd cd : Nat) (ρ : Reaction) (r : Val)
    (hc : Chained t f cf d kd cd ρ) (hw : Wired t f cf kf) (hu : Unresolved t f kf)
    (hnot : (t.ctrls cf).aborted = false) :
    ∃ n rest,
      (runJobs n (AbortablePromise.abort t f r)).jobs
          = Job.reaction ρ false (.abortError (nullish r (.str "aborted")) cf) :: rest
        ∧ (runJobs n (AbortablePromise.abort t f r)).resolvers kd = ⟨d, false⟩
        ∧ ((runJobs n (AbortablePromise.abort t f r)).promises d).state = .pending
        ∧ Guard (chainScope t f d kd ρ) (runJobs n (AbortablePromise.abort t f r))
        ∧ (∀ J ∈ rest, J.within (chainScope t f d kd ρ)
              (runJobs n (AbortablePromise.abort t f r)).nextResolver
              (runJobs n (AbortablePromise.abort t f r)).nextPromise
            ∨ (chainScope t f d kd ρ).T J) := by
  obtain ⟨_, hg, hk, hp, hq, hin, _, _⟩ := abort_chained t f cf kf d kd cd ρ r hc hw hu hnot
  obtain ⟨A, x, B, e, hx, hA⟩ := exists_first_split
    (fun J => J = Job.reaction ρ false (.abortError (nullish r (.str "aborted")) cf))
    (AbortablePromise.abort t f r).jobs ⟨_, hin, rfl⟩
  subst hx
  have K := runJobs_prefix (chainScope t f d kd ρ) A (AbortablePromise.abort t f r)
    (Job.reaction ρ false (.abortError (nullish r (.str "aborted")) cf) :: B) e hg
    (fun J hJ => (hq J (by rw [e]; exact List.mem_append_left _ hJ)).elim id
      (fun h => absurd h (hA J hJ)))
  obtain ⟨ex, e1, w1⟩ := K.jobs
  refine ⟨A.length, B ++ ex, by rw [e1]; rfl, ?_, ?_, K.guard, fun J hJ => ?_⟩
  · rw [K.resolvers kd rfl]; exact hk
  · rw [K.states d rfl]; exact hp
  · rcases List.mem_append.mp hJ with hJ | hJ
    · rcases hq J (by rw [e]; exact List.mem_append_right _ (List.mem_cons_of_mem _ hJ))
        with h | h
      · exact Or.inl (job_within_mono _ K.resolverCount K.promiseCount J h)
      · exact Or.inr ⟨false, _, h⟩
    · exact w1 J hJ

/-- The controller of the derived promise is not touched by the abort of the
source nor by any microtask. -/
theorem chained_signal_kept (t : State) (f cf kf d kd cd : Nat) (ρ : Reaction) (r : Val)
    (hc : Chained t f cf d kd cd ρ) (hw : Wired t f cf kf) (hu : Unresolved t f kf)
    (hnot : (t.ctrls cf).aborted = false) (m : Nat) :
    (runJobs m (AbortablePromise.abort t f r)).ctrls cd = t.ctrls cd := by
  obtain ⟨_, _, _, _, _, _, h7, h8⟩ := abort_chained t f cf kf d kd cd ρ r hc hw hu hnot
  rw [(runJobs_ctrlsKept m _).2 cd (by rw [h8]; exact hc.own.2), h7]

/-- After `f.abort(r)`, a promise derived by `then(onFulfilled)` is rejected
with the `AbortError` of `f` after finitely many microtasks, and stays so. -/
theorem chained_then_rejects (t : State) (f cf kf d kd cd : Nat) (onF : Cb) (r : Val)
    (hc : Chained t f cf d kd cd ⟨kd, onF, .none⟩) (hw : Wired t f cf kf)
    (hu : Unresolved t f kf) (hnot : (t.ctrls cf).aborted = false) :
    ∃ n, ∀ m, n ≤ m →
      ((runJobs m (AbortablePromise.abort t f r)).promises d).state
        = .rejected (.abortError (nullish r (.str "aborted")) cf) := by
  obtain ⟨n, rest, hj, hk, hp, hg, _⟩ := chained_reaches t f cf kf d kd cd _ r hc hw hu hnot
  have h1 := runJob_passes_rejection _ kd d onF _ rest hj hk hp
  refine ⟨n + 1, runJobs_settled_from _ (n + 1) d _ ?_ (by simp) ?_⟩
  · rw [runJobs_add]; exact h1
  · rw [runJobs_add]
    exact Nat.lt_of_lt_of_le (hg.allocX d rfl) (runJob_grows _).promiseCount

/-- After `f.abort(r)`, the handler of `f.catch(h)` is called with the
`AbortError` of `f`, and the value it returns fulfils the derived promise. -/
theorem chained_catch_fulfils (t : State) (f cf kf d kd cd : Nat) (onF : Cb) (hd : Fn)
    (r w : Val)
    (hc : Chained t f cf d kd cd ⟨kd, onF, .user hd⟩) (hw : Wired t f cf kf)
    (hu : Unresolved t f kf) (hnot : (t.ctrls cf).aborted = false)
    (hh : hd (.abortError (nullish r (.str "aborted")) cf) = .ok w)
    (hplain : w.isPromise = false) :
    ∃ n, ∀ m, n ≤ m →
      ((runJobs m (AbortablePromise.abort t f r)).promises d).state = .fulfilled w := by
  obtain ⟨n, rest, hj, hk, hp, hg, _⟩ := chained_reaches t f cf kf d kd cd _ r hc hw hu hnot
  have h1 := runJob_catches_rejection _ kd d onF hd _ w rest hj hk hp hh hplain
  refine ⟨n + 1, runJobs_settled_from _ (n + 1) d _ ?_ (by simp) ?_⟩
  · rw [runJobs_add]; exact h1
  · rw [runJobs_add]
    exact Nat.lt_of_lt_of_le (hg.allocX d rfl) (runJob_grows _).promiseCount

/-! ## The relay of `finally` -/

/-- The microtask of `finally` for a rejection `e`, when the handler returns a
value `v` that is not a promise: `AbortablePromise.resolve(v)` builds a promise
fulfilled with `v`, its `then(thrower)` builds the promise next to it and queues
the thrower, and the derived promise `d` is resolved with that last promise. -/
theorem runJob_catchFinally (u : State) (kd d : Nat) (onF : Cb) (g : Fn) (e v : Val)
    (rest : List Job)
    (hj : u.jobs = Job.reaction ⟨kd, onF, .catchFinally g true⟩ false e :: rest)
    (hg : g .undefined = .ok v) (hv : v.isPromise = false)
    (hk : u.resolvers kd = ⟨d, false⟩) (hkd : kd < u.nextResolver) (hd : d < u.nextPromise) :
    runJob u = { u with
      promises := set (set u.promises u.nextPromise ⟨.fulfilled v, [], some u.nextCtrl⟩)
        (u.nextPromise + 1) ⟨.pending, [], some (u.nextCtrl + 1)⟩
      nextPromise := u.nextPromise + 2
      resolvers := set (set (set u.resolvers u.nextResolver ⟨u.nextPromise, true⟩)
        (u.nextResolver + 1) ⟨u.nextPromise + 1, false⟩) kd ⟨d, true⟩
      nextResolver := u.nextResolver + 2
      ctrls := set (set u.ctrls u.nextCtrl ⟨false, .undefined, [.reject u.nextResolver]⟩)
        (u.nextCtrl + 1) ⟨false, .undefined, [.reject (u.nextResolver + 1)]⟩
      nextCtrl := u.nextCtrl + 2
      jobs := rest ++ [Job.reaction ⟨u.nextResolver + 1, .thrower e, .none⟩ true v,
        Job.thenable d (u.nextPromise + 1)] } := by
  have a0 : kd ≠ u.nextResolver := by omega
  have a1 : kd ≠ u.nextResolver + 1 := by omega
  have b0 : d ≠ u.nextPromise := by omega
  have b1 : d ≠ u.nextPromise + 1 := by omega
  have b2 : u.nextPromise + 1 ≠ d := by omega
  simp [runJob, hj, invoke, settleCapability, hg, promiseResolve_plain _ v hv, capState,
    resolveFn_plain _ _ v hv, resolveFn_promise, fulfillPromise, markResolved, thenOp,
    newCapability_abortable, reactionJobs, hk, a0, a1, b0, b1, b2, set_set]

theorem cb_within_transfer (σ σ' : Scope) (n n' : Nat)
    (hfree : ∀ k, σ.free n k → σ'.free n' k) (hcap : ∀ a, σ'.capOf a = σ.capOf a) (cb : Cb)
    (h : cb.within σ n) : cb.within σ' n' := by
  cases cb <;> simp only [Cb.within] at h ⊢ <;>
    first
    | exact hfree _ h
    | (rw [hcap]; exact hfree _ h)

theorem reaction_within_transfer (σ σ' : Scope) (n n' : Nat)
    (hfree : ∀ k, σ.free n k → σ'.free n' k) (hcap : ∀ a, σ'.capOf a = σ.capOf a)
    (ρ : Reaction) (h : ρ.within σ n) : ρ.within σ' n' :=
  ⟨hfree _ h.1, cb_within_transfer σ σ' n n' hfree hcap _ h.2.1,
    cb_within_transfer σ σ' n n' hfree hcap _ h.2.2⟩

theorem job_within_transfer (σ σ' : Scope) (n n' np np' : Nat)
    (hfree : ∀ k, σ.free n k → σ'.free n' k) (hcap : ∀ a, σ'.capOf a = σ.capOf a)
    (hX : ∀ p, ¬ σ.X p → p < np → ¬ σ'.X p ∧ p < np') (J : Job) (h : J.within σ n np) :
    J.within σ' n' np' := by
  cases J with
  | reaction ρ b arg => exact reaction_within_transfer σ σ' n n' hfree hcap ρ h
  | thenable p y => exact hX p h.1 h.2

theorem newCapability_jobs (s : State) (ab : Bool) : (newCapability s ab).1.jobs = s.jobs := by
  cases ab
  · rw [newCapability_plain]
  · rw [newCapability_abortable]; rfl

/-- The first phase of `finally`: after the microtask of the reaction, the
derived promise `d` follows the relay promise, whose pair is protected. -/
theorem finally_relay (t : State) (f d kd : Nat) (g : Fn) (e v : Val) (u : State)
    (rest : List Job)
    (hg : g .undefined = .ok v) (hv : v.isPromise = false)
    (hG : Guard (chainScope t f d kd ⟨kd, .thenFinally g true, .catchFinally g true⟩) u)
    (hj : u.jobs
      = Job.reaction ⟨kd, .thenFinally g true, .catchFinally g true⟩ false e :: rest)
    (hk : u.resolvers kd = ⟨d, false⟩) (hp : (u.promises d).state = .pending)
    (hrest : ∀ J ∈ rest,
      J.within (chainScope t f d kd ⟨kd, .thenFinally g true, .catchFinally g true⟩)
          u.nextResolver u.nextPromise
        ∨ (chainScope t f d kd ⟨kd, .thenFinally g true, .catchFinally g true⟩).T J) :
    Guard (relayScope (fun a => (t.aggs a).cap) (u.nextResolver + 1) (u.nextPromise + 1) d)
        (runJob u)
      ∧ (runJob u).jobs = rest ++ [Job.reaction ⟨u.nextResolver + 1, .thrower e, .none⟩ true v,
          Job.thenable d (u.nextPromise + 1)]
      ∧ (∀ J ∈ rest, J.within
          (relayScope (fun a => (t.aggs a).cap) (u.nextResolver + 1) (u.nextPromise + 1) d)
          (runJob u).nextResolver (runJob u).nextPromise)
      ∧ (runJob u).resolvers (u.nextResolver + 1) = ⟨u.nextPromise + 1, false⟩
      ∧ ((runJob u).promises (u.nextPromise + 1)).state = .pending
      ∧ ((runJob u).promises d).state = .pending
      ∧ (runJob u).nextPromise = u.nextPromise + 2 := by
  have hkd : kd < u.nextResolver := hG.allocK kd rfl
  have hd : d < u.nextPromise := hG.allocX d rfl
  have a0 : kd ≠ u.nextResolver := by omega
  have a1 : kd ≠ u.nextResolver + 1 := by omega
  have b0 : d ≠ u.nextPromise := by omega
  have b1 : d ≠ u.nextPromise + 1 := by omega
  have hfree : ∀ k, (chainScope t f d kd ⟨kd, .thenFinally g true, .catchFinally g true⟩).free
        u.nextResolver k →
      (relayScope (fun a => (t.aggs a).cap) (u.nextResolver + 1) (u.nextPromise + 1) d).free
        (u.nextResolver + 2) k := by
    intro k hk'
    exact ⟨by have := hk'.1; omega, fun h => by
      have := hk'.1
      simp only [relayScope] at h
      omega⟩
  have hρ : Reaction.within
      (relayScope (fun a => (t.aggs a).cap) (u.nextResolver + 1) (u.nextPromise + 1) d)
      (u.nextResolver + 2) ⟨kd, .thenFinally g true, .catchFinally g true⟩ :=
    ⟨⟨by simp only []; omega, fun h => by simp only [relayScope] at h; omega⟩, trivial, trivial⟩
  rw [runJob_catchFinally u kd d _ g e v rest hj hg hv hk hkd hd]
  refine ⟨⟨fun y ρ hm => ?_, fun j hj' hx => ?_, fun k hk' => ?_, fun x hx => ?_,
    fun j hx => ?_, hG.caps, fun _ _ h => h.elim⟩, rfl, fun J hJ => ?_, ?_, ?_, ?_, rfl⟩
  · simp only [set_apply] at hm
    split at hm
    · simp at hm
    · split at hm
      · simp at hm
      · rcases hG.stored y ρ hm with hw | hS
        · exact Or.inl (reaction_within_transfer _ _ _ _ hfree (fun _ => rfl) ρ hw)
        · rw [hS.2]; exact Or.inl hρ
  · simp only [set_apply] at hx ⊢
    by_cases h1 : j = kd
    · simp [h1]
    · simp only [h1, if_false] at hx ⊢
      by_cases h2 : j = u.nextResolver + 1
      · exact absurd h2 hj'
      · simp only [h2, if_false] at hx ⊢
        by_cases h3 : j = u.nextResolver
        · simp [h3]
        · simp only [h3, if_false] at hx ⊢
          rcases hx with hx | hx
          · exact hG.fresh j (by rw [hx]; exact Nat.le_succ _)
          · exact hG.live j h1 hx
  · simp only [relayScope] at hk'
    simp only []
    omega
  · simp only [relayScope] at hx
    simp only []
    omega
  · simp only [set_apply] at hx ⊢
    by_cases h1 : j = kd
    · simp [h1]
    · simp only [h1, if_false] at hx ⊢
      by_cases h2 : j = u.nextResolver + 1
      · simp only [h2, if_true] at hx
        omega
      · simp only [h2, if_false] at hx ⊢
        by_cases h3 : j = u.nextResolver
        · simp [h3]
        · simp only [h3, if_false] at hx ⊢
          exact hG.fresh j (by omega)
  · rcases hrest J hJ with hw | ⟨b, arg, hT⟩
    · refine job_within_transfer _ _ _ _ _ _ hfree (fun _ => rfl) (fun p hp' hlt => ?_) J hw
      refine ⟨fun h => ?_, by simp only []; omega⟩
      simp only [relayScope] at h
      rcases h with h | h
      · omega
      · exact hp' h
    · rw [hT]; exact hρ
  · simp [a1.symm]
  · simp
  · simp [b0, b1, hp]

/-- Delivery of a fulfilment to a thrower: the capability is rejected with the
thrown value. -/
theorem runJob_throws (u : State) (k p : Nat) (onR : Cb) (e v : Val) (rest : List Job)
    (hj : u.jobs = Job.reaction ⟨k, .thrower e, onR⟩ true v :: rest)
    (hk : u.resolvers k = ⟨p, false⟩) (hp : (u.promises p).state = .pending) :
    ((runJob u).promises p).state = .rejected e := by
  simp only [runJob, hj, invoke, settleCapability, if_true]
  rw [rejectFn_unused _ _ _ (by simp [hk])]
  simp only [hk]
  exact rejectPromise_state_pending _ _ _ (by simpa using hp)

/-- The second phase of `finally`: the microtasks queued before the thrower
leave the relay promise alone, and the thrower rejects it with the error. -/
theorem relay_rejects (capOf : Nat → Nat) (k x d : Nat) (e v : Val) (u : State)
    (rest : List Job) (hxd : x ≠ d)
    (hG : Guard (relayScope capOf k x d) u)
    (hj : u.jobs = rest ++ [Job.reaction ⟨k, .thrower e, .none⟩ true v, Job.thenable d x])
    (hrest : ∀ J ∈ rest, J.within (relayScope capOf k x d) u.nextResolver u.nextPromise)
    (hk : u.resolvers k = ⟨x, false⟩) (hx : (u.promises x).state = .pending)
    (hd : (u.promises d).state = .pending) :
    ∃ n rest4,
      Guard (lockScope capOf d) (runJobs n u)
        ∧ (runJobs n u).jobs = Job.thenable d x :: rest4
        ∧ (∀ J ∈ rest4, J.within (lockScope capOf d) (runJobs n u).nextResolver
            (runJobs n u).nextPromise)
        ∧ ((runJobs n u).promises x).state = .rejected e
        ∧ ((runJobs n u).promises d).state = .pending
        ∧ x < (runJobs n u).nextPromise := by
  have K := runJobs_prefix (relayScope capOf k x d) rest u _ hj hG hrest
  obtain ⟨ex2, e2, w2⟩ := K.jobs
  have hfree : ∀ (n j : Nat), (relayScope capOf k x d).free n j → (lockScope capOf d).free n j :=
    fun n j h => ⟨h.1, fun h' => h'⟩
  have hk3 : (runJobs rest.length u).resolvers k = ⟨x, false⟩ := by
    rw [K.resolvers k rfl]; exact hk
  have hGd : Guard (lockScope capOf d) (runJobs rest.length u) := by
    refine ⟨fun y ρ hm => ?_, fun j _ hx' => ?_, fun _ h => h.elim, fun y hy => ?_,
      K.guard.fresh, K.guard.caps, fun _ _ h => h.elim⟩
    · rcases K.guard.stored y ρ hm with hw | hS
      · exact Or.inl (reaction_within_transfer _ _ _ _ (hfree _) (fun _ => rfl) ρ hw)
      · exact hS.elim
    · by_cases hjk : j = k
      · rw [hjk, hk3] at hx'
        exact absurd hx' hxd
      · exact K.guard.live j hjk (Or.inr hx')
    · exact K.guard.allocX y (Or.inr hy)
  have hj3 : (runJobs rest.length u).jobs
      = Job.reaction ⟨k, .thrower e, .none⟩ true v :: (Job.thenable d x :: ex2) := by
    rw [e2]; rfl
  have K4 := runJob_keeps (lockScope capOf d) (runJobs rest.length u) _ _ hj3 hGd
    ⟨⟨K.guard.allocK k rfl, fun h => h⟩, trivial, trivial⟩
  obtain ⟨ex4, e4, w4⟩ := K4.jobs
  have hx3 : ((runJobs rest.length u).promises x).state = .pending := by
    rw [K.states x (Or.inl rfl)]; exact hx
  have hx4 := runJob_throws (runJobs rest.length u) k x .none e v _ hj3 hk3 hx3
  refine ⟨rest.length + 1, ex2 ++ ex4, ?_, ?_, fun J hJ => ?_, ?_, ?_, ?_⟩
  · rw [runJobs_add]; exact K4.guard
  · rw [runJobs_add]
    show (runJob (runJobs rest.length u)).jobs = _
    rw [e4]; rfl
  · rw [runJobs_add]
    show J.within _ (runJob (runJobs rest.length u)).nextResolver
      (runJob (runJobs rest.length u)).nextPromise
    rcases List.mem_append.mp hJ with hJ | hJ
    · rcases w2 J hJ with hw | hT
      · exact job_within_transfer _ _ _ _ _ _
          (fun j h => free_mono _ K4.resolverCount (hfree _ j h)) (fun _ => rfl)
          (fun p hp hlt => ⟨fun h => hp (Or.inr h), Nat.lt_of_lt_of_le hlt K4.promiseCount⟩)
          J hw
      · exact hT.elim
    · rcases w4 J hJ with hw | hT
      · exact hw
      · exact hT.elim
  · rw [runJobs_add]; exact hx4
  · rw [runJobs_add]
    show ((runJob (runJobs rest.length u)).promises d).state = _
    rw [K4.states d rfl, K.states d (Or.inr rfl)]; exact hd
  · rw [runJobs_add]
    exact Nat.lt_of_lt_of_le (K.guard.allocX x (Or.inl rfl)) K4.promiseCount

/-- The third phase of `finally`: the microtask that adopts the rejected relay
promise `x` into `d` creates a new pair for `d` and queues its reaction. -/
theorem relay_adopted (capOf : Nat → Nat) (x d : Nat) (e : Val) (u : State)
    (rest : List Job)
    (hG : Guard (lockScope capOf d) u)
    (hj : u.jobs = Job.thenable d x :: rest)
    (hrest : ∀ J ∈ rest, J.within (lockScope capOf d) u.nextResolver u.nextPromise)
    (hx : (u.promises x).state = .rejected e) (hxa : x < u.nextPromise)
    (hd : (u.promises d).state = .pending) :
    Guard (relayScope capOf u.nextResolver d d) (runJob u)
      ∧ (runJob u).jobs = rest ++ [Job.reaction
          ⟨u.nextResolver + 1, .resolveFn u.nextResolver, .rejectFn u.nextResolver⟩ false e]
      ∧ (∀ J ∈ rest, J.within (relayScope capOf u.nextResolver d d) (runJob u).nextResolver
          (runJob u).nextPromise)
      ∧ (runJob u).resolvers u.nextResolver = ⟨d, false⟩
      ∧ ((runJob u).promises d).state = .pending := by
  have hda : d < u.nextPromise := hG.allocX d rfl
  have hfree : ∀ j, (lockScope capOf d).free u.nextResolver j →
      (relayScope capOf u.nextResolver d d).free (u.nextResolver + 1) j :=
    fun j h => ⟨Nat.lt_succ_of_lt h.1, fun h' => Nat.lt_irrefl _ (h' ▸ h.1)⟩
  have hrun : runJob u = (thenOp
      { u with
        jobs := rest
        resolvers := set u.resolvers u.nextResolver ⟨d, false⟩
        nextResolver := u.nextResolver + 1 } x (.resolveFn u.nextResolver)
        (.rejectFn u.nextResolver)).1 := by
    simp only [runJob, hj]
  generalize hs1 : ({ u with
        jobs := rest
        resolvers := set u.resolvers u.nextResolver ⟨d, false⟩
        nextResolver := u.nextResolver + 1 } : State) = s1 at hrun
  have hG1 : Guard (relayScope capOf u.nextResolver d d) s1 := by
    subst hs1
    refine ⟨fun y ρ hm => ?_, fun j hj' hx' => ?_, fun j hj' => ?_, fun y hy => ?_,
      fun j hx' => ?_, hG.caps, fun _ _ h => h.elim⟩
    · rcases hG.stored y ρ hm with hw | hS
      · exact Or.inl (reaction_within_transfer _ _ _ _ hfree (fun _ => rfl) ρ hw)
      · exact hS.elim
    · have hne : j ≠ u.nextResolver := hj'
      simp only [set_apply, hne, if_false] at hx' ⊢
      exact hG.live j (fun h => h) (hx'.elim id id)
    · simp only [relayScope] at hj'
      simp only []
      omega
    · simp only [relayScope] at hy
      simp only []
      omega
    · simp only [set_apply] at hx' ⊢
      split
      · next hjk =>
        rw [if_pos hjk] at hx'
        exact absurd hda (Nat.not_lt_of_le hx')
      · next hjk =>
        rw [if_neg hjk] at hx'
        exact hG.fresh j hx'
  have hn1 : s1.nextResolver = u.nextResolver + 1 := by subst hs1; rfl
  have hp1 : s1.nextPromise = u.nextPromise := by subst hs1; rfl
  have hj1 : s1.jobs = rest := by subst hs1; rfl
  have hr1 : s1.resolvers u.nextResolver = ⟨d, false⟩ := by subst hs1; simp
  have hx1 : (s1.promises x).state = .rejected e := by subst hs1; exact hx
  have hd1 : (s1.promises d).state = .pending := by subst hs1; exact hd
  have Kc := newCapability_keeps (relayScope capOf u.nextResolver d d) s1
    (s1.promises x).ctrl.isSome hG1
  have hxc : ((newCapability s1 (s1.promises x).ctrl.isSome).1.promises x).state
      = .rejected e := by
    rw [(newCapability_extends s1 _ x u.nextResolver (by rw [hp1]; exact hxa)
      (by rw [hn1]; exact Nat.lt_succ_self _)).2.2.2.1]
    exact hx1
  have hcount := newCapability_counters s1 (s1.promises x).ctrl.isSome
  have hu5 : (thenOp s1 x (.resolveFn u.nextResolver) (.rejectFn u.nextResolver)).1
      = { (newCapability s1 (s1.promises x).ctrl.isSome).1 with
          jobs := rest ++ [Job.reaction
            ⟨u.nextResolver + 1, .resolveFn u.nextResolver, .rejectFn u.nextResolver⟩ false e] } := by
    rw [thenOp_eq]
    simp only [attachReaction, hxc, newCapability_ids, newCapability_jobs, hj1, hn1]
  rw [hrun, hu5]
  refine ⟨Guard.ofJobs Kc.guard _, rfl, fun J hJ => ?_, ?_, ?_⟩
  · refine job_within_transfer (lockScope capOf d) (relayScope capOf u.nextResolver d d)
      u.nextResolver _ u.nextPromise _
      (fun j h => ?_) (fun _ => rfl) (fun p hp hlt => ⟨fun h => hp (h.elim id id), ?_⟩) J
      (hrest J hJ)
    · show (relayScope capOf u.nextResolver d d).free
        (newCapability s1 (s1.promises x).ctrl.isSome).1.nextResolver j
      rw [hcount.2, hn1]
      exact free_mono _ (Nat.le_succ _) (hfree j h)
    · show p < (newCapability s1 (s1.promises x).ctrl.isSome).1.nextPromise
      rw [hcount.1, hp1]
      exact Nat.lt_succ_of_lt hlt
  · show (newCapability s1 (s1.promises x).ctrl.isSome).1.resolvers u.nextResolver = _
    rw [Kc.resolvers u.nextResolver rfl]; exact hr1
  · show ((newCapability s1 (s1.promises x).ctrl.isSome).1.promises d).state = _
    rw [Kc.states d (Or.inl rfl)]; exact hd1

/-- The last phase of `finally`: once the microtasks queued before it have run,
the reaction that holds the new pair of `d` rejects `d` with the error. -/
theorem sealed_rejects (capOf : Nat → Nat) (k c d : Nat) (e : Val) (u : State)
    (rest : List Job)
    (hG : Guard (relayScope capOf k d d) u)
    (hj : u.jobs = rest ++ [Job.reaction ⟨c, .resolveFn k, .rejectFn k⟩ false e])
    (hrest : ∀ J ∈ rest, J.within (relayScope capOf k d d) u.nextResolver u.nextPromise)
    (hk : u.resolvers k = ⟨d, false⟩) (hd : (u.promises d).state = .pending) :
    ((runJobs (rest.length + 1) u).promises d).state = .rejected e
      ∧ d < (runJobs (rest.length + 1) u).nextPromise := by
  have K := runJobs_prefix (relayScope capOf k d d) rest u _ hj hG hrest
  obtain ⟨ex, e1, _⟩ := K.jobs
  have hk6 : (runJobs rest.length u).resolvers k = ⟨d, false⟩ := by
    rw [K.resolvers k rfl]; exact hk
  have hd6 : ((runJobs rest.length u).promises d).state = .pending := by
    rw [K.states d (Or.inl rfl)]; exact hd
  have hj6 : (runJobs rest.length u).jobs
      = Job.reaction ⟨c, .resolveFn k, .rejectFn k⟩ false e :: ex := by
    rw [e1]; rfl
  rw [runJobs_add]
  refine ⟨?_, Nat.lt_of_lt_of_le (K.guard.allocX d (Or.inl rfl)) (runJob_grows _).promiseCount⟩
  show ((runJob (runJobs rest.length u)).promises d).state = _
  simp only [runJob, hj6, invoke, settleCapability, Bool.false_eq_true, if_false]
  have hrej : ((rejectFn { runJobs rest.length u with jobs := ex } k e).promises d).state
      = .rejected e := by
    rw [rejectFn_unused _ _ _ (by simp [hk6])]
    simp only [hk6]
    exact rejectPromise_state_pending _ _ _ (by simpa using hd6)
  rw [resolveFn_state_of_settled _ _ _ _ (by rw [hrej]; simp)]
  exact hrej

theorem runJobs_one (s : State) : runJobs 1 s = runJob s := rfl

/-- After `f.abort(r)`, a promise derived by `finally(g)`, with `g` returning a
value that is not a promise, is rejected with the `AbortError` of `f` after
finitely many microtasks, and stays so. -/
theorem chained_finally_rejects (t : State) (f cf kf d kd cd : Nat) (g : Fn) (r v : Val)
    (hc : Chained t f cf d kd cd ⟨kd, .thenFinally g true, .catchFinally g true⟩)
    (hw : Wired t f cf kf) (hu : Unresolved t f kf) (hnot : (t.ctrls cf).aborted = false)
    (hg : g .undefined = .ok v) (hv : v.isPromise = false) :
    ∃ n, ∀ m, n ≤ m →
      ((runJobs m (AbortablePromise.abort t f r)).promises d).state
        = .rejected (.abortError (nullish r (.str "aborted")) cf) := by
  obtain ⟨n1, rest, hj, hk, hp, hG, hrest⟩ :=
    chained_reaches t f cf kf d kd cd _ r hc hw hu hnot
  obtain ⟨G2, j2, r2, k2, x2, d2, _⟩ :=
    finally_relay t f d kd g _ v _ rest hg hv hG hj hk hp hrest
  have hda : d < (runJobs n1 (AbortablePromise.abort t f r)).nextPromise := hG.allocX d rfl
  obtain ⟨n3, rest4, Gd, j4, r4, x4, d4, xa4⟩ :=
    relay_rejects _ _ _ d _ v _ rest (by omega) G2 j2 r2 k2 x2 d2
  obtain ⟨G5, j5, r5, k5, d5⟩ := relay_adopted _ _ d _ _ rest4 Gd j4 r4 x4 xa4 d4
  obtain ⟨h7, hlt⟩ := sealed_rejects _ _ _ d _ _ rest4 G5 j5 r5 k5 d5
  refine ⟨n1 + 1 + n3 + 1 + (rest4.length + 1),
    runJobs_settled_from _ _ d _ ?_ (by simp) ?_⟩
  · simp only [runJobs_add, runJobs_one] at h7 ⊢
    exact h7
  · simp only [runJobs_add, runJobs_one] at hlt ⊢
    exact hlt

/-! ## Well-formed heaps and chained promises -/

theorem derive_reaction (s : State) (f cf : Nat) (dv : Derivation) (k : Nat)
    (hf : (s.promises f).ctrl = some cf) :
    derive s f dv
      = thenOp s f (dv.reaction k).onFulfilled (dv.reaction k).onRejected := by
  cases dv with
  | thenCall a b => rfl
  | catchCall b => rfl
  | finallyCall g =>
    cases g with
    | none => rfl
    | some fn => simp [derive, finallyOp, hf, Derivation.reaction]

/-- A derivation call on a pending `AbortablePromise` of a well-formed heap
chains the derived promise to its source. -/
theorem derive_chained (s : State) (f cf : Nat) (dv : Derivation) (hwf : WellFormed s)
    (hf : (s.promises f).ctrl = some cf) (hfa : f < s.nextPromise) (hca : cf < s.nextCtrl)
    (hp : (s.promises f).state = .pending)
    (hF : (dv.reaction s.nextResolver).onFulfilled.within (plainScope s) s.nextResolver)
    (hR : (dv.reaction s.nextResolver).onRejected.within (plainScope s) s.nextResolver) :
    Chained (derive s f dv).1 f cf s.nextPromise s.nextResolver s.nextCtrl
      (dv.reaction s.nextResolver) := by
  have hcap : (dv.reaction s.nextResolver).cap = s.nextResolver := by
    cases dv with
    | thenCall a b => rfl
    | catchCall b => rfl
    | finallyCall g => cases g <;> rfl
  have hne : f ≠ s.nextPromise := Nat.ne_of_lt hfa
  have hne' : s.nextPromise ≠ f := fun h => hne h.symm
  have hcne : cf ≠ s.nextCtrl := Nat.ne_of_lt hca
  rw [derive_reaction s f cf dv s.nextResolver hf, thenOp_abortable_pending s f cf _ _ hf hfa hp]
  have hρ : (⟨s.nextResolver, (dv.reaction s.nextResolver).onFulfilled,
      (dv.reaction s.nextResolver).onRejected⟩ : Reaction) = dv.reaction s.nextResolver := by
    cases dv with
    | thenCall a b => rfl
    | catchCall b => rfl
    | finallyCall g => cases g <;> rfl
  rw [hρ]
  generalize dv.reaction s.nextResolver = ρ at hcap hF hR
  have hfree : ∀ k, (plainScope s).free s.nextResolver k →
      (chainScope
        { capState s with
          promises := set (capState s).promises f
            { (s.promises f) with reactions := (s.promises f).reactions ++ [ρ] } }
        f s.nextPromise s.nextResolver ρ).free (s.nextResolver + 1) k :=
    fun k h => ⟨Nat.lt_succ_of_lt h.1, fun h' => Nat.lt_irrefl _ (h' ▸ h.1)⟩
  refine ⟨by simp, hcap, by simp [capState], by simp [capState, hne'], by simp [capState, hne'],
    ⟨fun h => hcne h.symm, by simp [capState]⟩, by simp [capState],
    ⟨fun y r hm => ?_, fun j hj hx => ?_, fun k hk => ?_, fun x hx => ?_, fun j hx => ?_,
      fun _ => rfl, fun y r h => Or.inr (fun b arg => ⟨b, arg, by rw [h.2]⟩)⟩,
    fun J hJ => ?_, fun j hj => ?_⟩
  · simp only [set_apply] at hm
    split at hm
    · next hyf =>
      simp only [List.mem_append, List.mem_singleton] at hm
      rcases hm with hm | hm
      · rcases hwf.guard.stored f r hm with hw | hS
        · exact Or.inl (reaction_within_transfer _ _ _ _ hfree (fun _ => rfl) r hw)
        · exact hS.elim
      · exact Or.inr ⟨hyf, hm⟩
    · simp only [capState, set_apply] at hm
      split at hm
      · simp at hm
      · rcases hwf.guard.stored y r hm with hw | hS
        · exact Or.inl (reaction_within_transfer _ _ _ _ hfree (fun _ => rfl) r hw)
        · exact hS.elim
  · have hjn : j ≠ s.nextResolver := hj
    simp only [capState, set_apply, hjn, if_false] at hx ⊢
    exact hwf.guard.fresh j (by
      have : (s.resolvers j).promise = s.nextPromise := hx
      rw [this])
  · have : k = s.nextResolver := hk
    rw [this]
    exact Nat.lt_succ_self _
  · have : x = s.nextPromise := hx
    rw [this]
    exact Nat.lt_succ_self _
  · simp only [capState, set_apply] at hx ⊢
    split
    · next hjk =>
      rw [if_pos hjk] at hx
      exact absurd hx (Nat.not_succ_le_self _)
    · next hjk =>
      rw [if_neg hjk] at hx
      exact hwf.guard.fresh j (Nat.le_of_succ_le hx)
  · refine job_within_transfer (plainScope s) _ s.nextResolver _ s.nextPromise _ hfree
      (fun _ => rfl) (fun p _ hlt => ⟨fun h => ?_, Nat.lt_succ_of_lt hlt⟩) J (hwf.queue J hJ)
    have : p = s.nextPromise := h
    omega
  · have hl : Listener.reject j ∈ (s.ctrls cf).listeners := by
      simpa [capState, hcne] using hj
    exact Nat.ne_of_lt (hwf.listeners cf j hl)

theorem newCapability_aggs (s : State) (ab : Bool) : (newCapability s ab).1.aggs = s.aggs := by
  cases ab
  · rw [newCapability_plain]
  · rw [newCapability_abortable]; rfl

theorem attachReaction_aggs (s : State) (y : Nat) (r : Reaction) :
    (attachReaction s y r).aggs = s.aggs := by
  unfold attachReaction; split <;> rfl

theorem thenOp_aggs (s : State) (p : Nat) (onF onR : Cb) :
    (thenOp s p onF onR).1.aggs = s.aggs := by
  rw [thenOp_eq, attachReaction_aggs, newCapability_aggs]

theorem newCapability_listeners (s : State) (ab : Bool) (c j : Nat)
    (h : Listener.reject j ∈ ((newCapability s ab).1.ctrls c).listeners) :
    Listener.reject j ∈ (s.ctrls c).listeners ∨ j = s.nextResolver := by
  cases ab
  · rw [newCapability_plain] at h; exact Or.inl h
  · rw [newCapability_abortable] at h
    simp only [capState, set_apply] at h
    split at h
    · right; simpa using h
    · exact Or.inl h

/-- A call of `then` with handlers that refer to allocated resolving functions
keeps the heap well formed. -/
theorem thenOp_wellFormed (s : State) (p : Nat) (onF onR : Cb) (hwf : WellFormed s)
    (hF : onF.within (plainScope s) s.nextResolver)
    (hR : onR.within (plainScope s) s.nextResolver) :
    WellFormed (thenOp s p onF onR).1 := by
  have hsc : plainScope (thenOp s p onF onR).1 = plainScope s := by
    simp only [plainScope, thenOp_aggs]
  have K := thenOp_keeps (plainScope s) s p onF onR hwf.guard hF hR
  obtain ⟨ex, e1, w1⟩ := K.jobs
  refine ⟨by rw [hsc]; exact K.guard, fun J hJ => ?_, fun c j hj => ?_⟩
  · rw [hsc]
    rw [e1] at hJ
    rcases List.mem_append.mp hJ with hJ | hJ
    · exact job_within_mono _ K.resolverCount K.promiseCount J (hwf.queue J hJ)
    · exact (w1 J hJ).elim id (fun h => h.elim)
  · rw [thenOp_eq, attachReaction_ctrls] at hj
    have hn : (thenOp s p onF onR).1.nextResolver = s.nextResolver + 1 := by
      rw [thenOp_eq, (attachReaction_steady _ _ _).resolverCount]
      exact (newCapability_counters s (s.promises p).ctrl.isSome).2
    rw [hn]
    rcases newCapability_listeners s _ c j hj with h | h
    · exact Nat.lt_succ_of_lt (hwf.listeners c j h)
    · rw [h]; exact Nat.lt_succ_self _

theorem derive_wellFormed (s : State) (f : Nat) (dv : Derivation) (hwf : WellFormed s)
    (hF : (dv.reaction s.nextResolver).onFulfilled.within (plainScope s) s.nextResolver)
    (hR : (dv.reaction s.nextResolver).onRejected.within (plainScope s) s.nextResolver) :
    WellFormed (derive s f dv).1 := by
  cases dv with
  | thenCall a b => exact thenOp_wellFormed s f a b hwf hF hR
  | catchCall b => exact thenOp_wellFormed s f .none b hwf trivial hR
  | finallyCall g =>
    cases g with
    | none => exact thenOp_wellFormed s f .none .none hwf trivial trivial
    | some fn => exact thenOp_wellFormed s f _ _ hwf trivial trivial

theorem wellFormed_fresh : WellFormed fresh := by
  have hp : ∀ y, (fresh.promises y).reactions = [] := by
    intro y
    simp only [fresh, AbortablePromise.construct, AbortablePromise.constructCap, newController,
      newPromise, addEventListener, finishExecutor, runScript, State.init, set_apply]
    split <;> simp
  refine ⟨⟨fun y ρ hm => ?_, fun _ _ h => h.elim, fun _ h => h.elim, fun _ h => h.elim,
    fun j hx => ?_, fun _ => rfl, fun _ _ h => h.elim⟩, (fun J hJ => nomatch hJ),
    fun c j hj => ?_⟩
  · rw [hp y] at hm; cases hm
  · by_cases hj : j = 0
    · subst hj
      exact absurd hx (by decide)
    · simp [fresh, AbortablePromise.construct, AbortablePromise.constructCap, newController,
        newPromise, addEventListener, finishExecutor, runScript, State.init, hj]
  · by_cases hc : c = 0
    · subst hc
      rw [fresh_listeners] at hj
      simp at hj
      rw [hj]; decide
    · simp [fresh, AbortablePromise.construct, AbortablePromise.constructCap, newController,
        newPromise, addEventListener, finishExecutor, runScript, State.init, hc] at hj

theorem wellFormed_awaited : WellFormed awaited :=
  derive_wellFormed fresh 0 _ wellFormed_fresh trivial trivial

theorem attachReaction_mem (s : State) (y x : Nat) (r ρ : Reaction)
    (h : ρ ∈ (s.promises x).reactions) : ρ ∈ ((attachReaction s y r).promises x).reactions := by
  unfold attachReaction
  split
  · simp only [set_apply]
    split
    · next hxy => subst hxy; exact List.mem_append_left _ h
    · exact h
  · exact h
  · exact h

theorem attachReaction_jobs_within (σ : Scope) (s : State) (y : Nat) (r : Reaction)
    (hr : r.within σ s.nextResolver) :
    ∃ ex, (attachReaction s y r).jobs = s.jobs ++ ex
      ∧ ∀ J ∈ ex, J.within σ s.nextResolver s.nextPromise := by
  unfold attachReaction
  split
  · exact ⟨[], by simp, fun _ hJ => nomatch hJ⟩
  · exact ⟨_, rfl, fun J hJ => by rw [List.mem_singleton.mp hJ]; exact hr⟩
  · exact ⟨_, rfl, fun J hJ => by rw [List.mem_singleton.mp hJ]; exact hr⟩

/-- A later derivation call, on any promise, with handlers that do not hold the
capability of `d`, leaves `d` chained to `f`. -/
theorem chained_derive (t : State) (f cf d kd cd : Nat) (ρ : Reaction) (g : Nat)
    (onF onR : Cb) (hc : Chained t f cf d kd cd ρ) (hfa : f < t.nextPromise)
    (hca : cf < t.nextCtrl)
    (hF : onF.within (chainScope t f d kd ρ) t.nextResolver)
    (hR : onR.within (chainScope t f d kd ρ) t.nextResolver) :
    Chained (thenOp t g onF onR).1 f cf d kd cd ρ := by
  have hsc : chainScope (thenOp t g onF onR).1 f d kd ρ = chainScope t f d kd ρ := by
    simp only [chainScope, thenOp_aggs]
  have K := thenOp_keeps (chainScope t f d kd ρ) t g onF onR hc.guard hF hR
  have hG := thenOp_grows t g onF onR
  have hda : d < t.nextPromise := hc.guard.allocX d rfl
  have hn := newCapability_counters t (t.promises g).ctrl.isSome
  have hcf : ((thenOp t g onF onR).1.ctrls cf) = t.ctrls cf := K.ctrls cf hca
  refine ⟨?_, hc.cap, ?_, ?_, ?_, ⟨hc.own.1, Nat.lt_of_lt_of_le hc.own.2 K.ctrlCount⟩, ?_,
    by rw [hsc]; exact K.guard, fun J hJ => ?_, fun j hj => ?_⟩
  · rw [thenOp_eq]
    refine attachReaction_mem _ _ _ _ _ ?_
    rw [(newCapability_extends t _ f kd hfa (hc.guard.allocK kd rfl)).2.2.2.1]
    exact hc.registered
  · rw [K.resolvers kd rfl]; exact hc.resolver
  · rw [K.states d rfl]; exact hc.pending
  · rw [hG.ctrlField d hda]; exact hc.ctrl
  · rw [K.ctrls cd hc.own.2]; exact hc.notAborted
  · rw [hsc]
    rw [thenOp_eq] at hJ ⊢
    obtain ⟨ex, e1, w1⟩ := attachReaction_jobs_within (chainScope t f d kd ρ)
      (newCapability t (t.promises g).ctrl.isSome).1 g
      ⟨(newCapability t (t.promises g).ctrl.isSome).2.2, onF, onR⟩
      ⟨⟨by rw [newCapability_ids, hn.2]; exact Nat.lt_succ_self _,
          by rw [newCapability_ids]
             exact fun h => Nat.lt_irrefl _ (h ▸ hc.guard.allocK kd rfl)⟩,
        cb_within_mono _ (by rw [hn.2]; exact Nat.le_succ _) _ hF,
        cb_within_mono _ (by rw [hn.2]; exact Nat.le_succ _) _ hR⟩
    have hnr := (attachReaction_steady (newCapability t (t.promises g).ctrl.isSome).1 g
      ⟨(newCapability t (t.promises g).ctrl.isSome).2.2, onF, onR⟩).resolverCount
    have hnp := (attachReaction_steady (newCapability t (t.promises g).ctrl.isSome).1 g
      ⟨(newCapability t (t.promises g).ctrl.isSome).2.2, onF, onR⟩).promiseCount
    rw [hnr, hnp]
    rw [e1, newCapability_jobs] at hJ
    rcases List.mem_append.mp hJ with hJ | hJ
    · exact job_within_mono _ (by rw [hn.2]; exact Nat.le_succ _)
        (by rw [hn.1]; exact Nat.le_succ _) J (hc.queue J hJ)
    · exact w1 J hJ
  · rw [hcf] at hj
    exact hc.signal j hj

/-! ## The wrapper built by `from` -/

/-- Delivery of a fulfilment through the reaction of `p.then(resolve)`: the
wrapper is fulfilled. -/
theorem runJob_resolves_wrapper (u : State) (kw w ka : Nat) (v : Val) (rest : List Job)
    (hj : u.jobs = Job.reaction ⟨ka, .resolveFn kw, .none⟩ true v :: rest)
    (hk : u.resolvers kw = ⟨w, false⟩) (hp : (u.promises w).state = .pending)
    (hv : v.isPromise = false) :
    ((runJob u).promises w).state = .fulfilled v := by
  simp only [runJob, hj, invoke, settleCapability, if_true]
  have h1 : ((resolveFn { u with jobs := rest } kw v).promises w).state = .fulfilled v := by
    rw [resolveFn_plain _ _ _ hv]
    simp only [hk, Bool.false_eq_true, if_false]
    exact fulfillPromise_state_pending _ _ _ (by simpa using hp)
  rw [resolveFn_state_of_settled _ _ _ _ (by rw [h1]; simp)]
  exact h1

/-- When the source has fulfilled, the wrapper is fulfilled with the same value
after finitely many microtasks, and stays so. -/
theorem relayed_fulfils (u : State) (w kw a ka kb : Nat) (v : Val)
    (h : Relayed u w kw a ka kb true v) (hv : v.isPromise = false) :
    ∃ n, ∀ m, n ≤ m → ((runJobs m u).promises w).state = .fulfilled v := by
  obtain ⟨A, B, hj, hAB⟩ := h.queue
  have K := runJobs_prefix (wrapScope u w kw a ka kb) A u _ hj h.guard
    (fun J hJ => hAB J (List.mem_append_left _ hJ))
  obtain ⟨ex, e1, _⟩ := K.jobs
  generalize A.length = n at K e1
  have hk : (runJobs n u).resolvers kw = ⟨w, false⟩ := by
    rw [K.resolvers kw (Or.inl rfl)]; exact h.wrapper.1
  have hp : ((runJobs n u).promises w).state = .pending := by
    rw [K.states w (Or.inl rfl)]; exact h.wrapper.2
  have h1 := runJob_resolves_wrapper (runJobs n u) kw w ka v (B ++ ex) (by rw [e1]; rfl)
    hk hp hv
  refine ⟨n + 1, runJobs_settled_from _ (n + 1) w _ ?_ (by simp) ?_⟩
  · rw [runJobs_add]; exact h1
  · rw [runJobs_add]
    exact Nat.lt_of_lt_of_le (K.guard.allocX w (Or.inl rfl)) (runJob_grows _).promiseCount


/-- Delivery of a rejection through the reaction of `a.catch(reject)`: the
wrapper is rejected. -/
theorem runJob_rejects_wrapper (u : State) (kw w kb : Nat) (e : Val) (rest : List Job)
    (hj : u.jobs = Job.reaction ⟨kb, .none, .rejectFn kw⟩ false e :: rest)
    (hk : u.resolvers kw = ⟨w, false⟩) (hp : (u.promises w).state = .pending) :
    ((runJob u).promises w).state = .rejected e := by
  simp only [runJob, hj, invoke, settleCapability, Bool.false_eq_true, if_false]
  have h1 : ((rejectFn { u with jobs := rest } kw e).promises w).state = .rejected e := by
    rw [rejectFn_unused _ _ _ (by simp [hk])]
    simp only [hk]
    exact rejectPromise_state_pending _ _ _ (by simpa using hp)
  rw [resolveFn_state_of_settled _ _ _ _ (by rw [h1]; simp)]
  exact h1

/-- When the source has rejected, the wrapper is rejected with the same value
after finitely many microtasks, and stays so: the rejection passes through the
relay promise. -/
theorem relayed_rejects (u : State) (w kw a ka kb : Nat) (e : Val)
    (h : Relayed u w kw a ka kb false e) :
    ∃ n, ∀ m, n ≤ m → ((runJobs m u).promises w).state = .rejected e := by
  obtain ⟨A, B, hj, hAB⟩ := h.queue
  have K := runJobs_prefix (wrapScope u w kw a ka kb) A u _ hj h.guard
    (fun J hJ => hAB J (List.mem_append_left _ hJ))
  obtain ⟨ex, e1, w1⟩ := K.jobs
  have hka : (runJobs A.length u).resolvers ka = ⟨a, false⟩ := by
    rw [K.resolvers ka (Or.inr rfl)]; exact h.relay.1
  have hkw : (runJobs A.length u).resolvers kw = ⟨w, false⟩ := by
    rw [K.resolvers kw (Or.inl rfl)]; exact h.wrapper.1
  have hpa : ((runJobs A.length u).promises a).state = .pending := by
    rw [K.states a (Or.inr rfl)]; exact h.relay.2
  have hpw : ((runJobs A.length u).promises w).state = .pending := by
    rw [K.states w (Or.inl rfl)]; exact h.wrapper.2
  have hρ2 := K.reactions a (Or.inr rfl) _ h.second
  have hkk : kw ≠ ka := by
    intro hk
    rw [hk, hka] at hkw
    injection hkw with h1 _
    exact h.distinct h1
  have hj1 : (runJobs A.length u).jobs
      = Job.reaction ⟨ka, .resolveFn kw, .none⟩ false e :: (B ++ ex) := by
    rw [e1]; rfl
  generalize hu1 : runJobs A.length u = u1 at K e1 w1 hka hkw hpa hpw hρ2 hj1
  have hrun : runJob u1 = { u1 with
      jobs := (B ++ ex) ++ reactionJobs (u1.promises a).reactions false e
      promises := set u1.promises a { (u1.promises a) with state := .rejected e, reactions := [] }
      resolvers := set u1.resolvers ka ⟨a, true⟩ } := by
    simp [runJob, hj1, invoke, settleCapability, rejectFn, hka, rejectPromise, markResolved,
      hpa]
  have hfree : ∀ k, (wrapScope u w kw a ka kb).free u1.nextResolver k →
      (relayScope (fun i => (u.aggs i).cap) kw w w).free u1.nextResolver k :=
    fun k hk => ⟨hk.1, fun h' => hk.2 (Or.inl h')⟩
  have hG2 : Guard (relayScope (fun i => (u.aggs i).cap) kw w w) (runJob u1) := by
    rw [hrun]
    refine ⟨fun y ρ hm => ?_, fun j hj' hx => ?_, fun k hk => ?_, fun x hx => ?_,
      fun j hx => ?_, K.guard.caps, fun _ _ h' => h'.elim⟩
    · simp only [set_apply] at hm
      split at hm
      · simp at hm
      · next hya =>
        rcases K.guard.stored y ρ hm with hw | hS
        · exact Or.inl (reaction_within_transfer _ _ _ _ hfree (fun _ => rfl) ρ hw)
        · exact absurd hS.1 hya
    · simp only [set_apply] at hx ⊢
      split
      · rfl
      · next hjk =>
        rw [if_neg hjk] at hx
        exact K.guard.live j (fun h' => h'.elim hj' hjk) (Or.inl (hx.elim id id))
    · have : k = kw := hk
      exact K.guard.allocK k (Or.inl this)
    · have : x = w := hx.elim id id
      exact K.guard.allocX x (Or.inl this)
    · simp only [set_apply] at hx ⊢
      split
      · rfl
      · next hjk =>
        rw [if_neg hjk] at hx
        exact K.guard.fresh j hx
  have hq2 : ∀ J ∈ (runJob u1).jobs,
      J.within (relayScope (fun i => (u.aggs i).cap) kw w w) (runJob u1).nextResolver
          (runJob u1).nextPromise
        ∨ J = Job.reaction ⟨kb, .none, .rejectFn kw⟩ false e := by
    rw [hrun]
    intro J hJ
    have hX : ∀ q, ¬ (wrapScope u w kw a ka kb).X q → q < u1.nextPromise →
        ¬ (relayScope (fun i => (u.aggs i).cap) kw w w).X q ∧ q < u1.nextPromise :=
      fun q hq hlt => ⟨fun h' => hq (Or.inl (h'.elim id id)), hlt⟩
    simp only [List.mem_append] at hJ
    rcases hJ with (hJ | hJ) | hJ
    · left
      exact job_within_transfer (wrapScope u w kw a ka kb) _ _ _ _ _ hfree (fun _ => rfl) hX J
        (job_within_mono _ K.resolverCount K.promiseCount J
          (hAB J (List.mem_append_right _ hJ)))
    · left
      exact job_within_transfer (wrapScope u w kw a ka kb) _ _ _ _ _ hfree (fun _ => rfl) hX J
        ((w1 J hJ).elim id (fun h' => h'.elim))
    · simp only [reactionJobs, List.mem_map] at hJ
      obtain ⟨ρ, hρ, rfl⟩ := hJ
      rcases K.guard.stored a ρ hρ with hw | hS
      · exact Or.inl (reaction_within_transfer _ _ _ _ hfree (fun _ => rfl) ρ hw)
      · right; rw [hS.2]
  have hin : Job.reaction ⟨kb, .none, .rejectFn kw⟩ false e ∈ (runJob u1).jobs := by
    rw [hrun]
    exact List.mem_append_right _ (List.mem_map.mpr ⟨_, hρ2, rfl⟩)
  obtain ⟨n2, rest2, K2⟩ := runJobs_reach _ (runJob u1) _ hG2 hq2 hin
  obtain ⟨ex2, e2, _⟩ := K2.jobs
  have hkw2 : (runJobs n2 (runJob u1)).resolvers kw = ⟨w, false⟩ := by
    rw [K2.resolvers kw rfl, hrun]
    simp [hkk, hkw]
  have hpw2 : ((runJobs n2 (runJob u1)).promises w).state = .pending := by
    rw [K2.states w (Or.inl rfl), hrun]
    simp [h.distinct.symm, hpw]
  have h3 := runJob_rejects_wrapper _ kw w kb e (rest2 ++ ex2) (by rw [e2]; rfl) hkw2 hpw2
  have hlt : w < (runJob (runJobs n2 (runJob u1))).nextPromise :=
    Nat.lt_of_lt_of_le (K2.guard.allocX w (Or.inl rfl)) (runJob_grows _).promiseCount
  refine ⟨A.length + (1 + (n2 + 1)), runJobs_settled_from _ _ w _ ?_ (by simp) ?_⟩
  · simp only [runJobs_add, runJobs_one, hu1]; exact h3
  · simp only [runJobs_add, runJobs_one, hu1]; exact hlt

/-- The settlement of the pending source of a waiting wrapper, by a call of one
of its resolving functions, puts the delivery on its way. -/
theorem wrapped_settle (t u : State) (p w kw a ka kb kp : Nat) (b : Bool) (arg : Val)
    (h : Wrapped t p w kw a ka kb) (hkp : t.resolvers kp = ⟨p, false⟩)
    (hu : u = { t with
      resolvers := set t.resolvers kp ⟨p, true⟩
      promises := set t.promises p
        { (t.promises p) with
          state := if b then .fulfilled arg else .rejected arg, reactions := [] }
      jobs := t.jobs ++ reactionJobs (t.promises p).reactions b arg }) :
    Relayed u w kw a ka kb b arg := by
  obtain ⟨R1, R2, hR, hRw⟩ := h.first
  have hap : a ≠ p := fun e => h.distinct.2.2 e.symm
  have hwp : w ≠ p := fun e => h.distinct.2.1 e.symm
  have hka : ka ≠ kp := by
    intro e
    have := h.relay.1
    rw [e, hkp] at this
    injection this with h1 _
    exact hap h1.symm
  have hkw : kw ≠ kp := by
    intro e
    have := h.wrapper.1
    rw [e, hkp] at this
    injection this with h1 _
    exact hwp h1.symm
  have hfree : ∀ k, (waitScope t p w kw a ka kb).free t.nextResolver k →
      (wrapScope u w kw a ka kb).free t.nextResolver k := fun k hk => hk
  have hcap : ∀ i, (wrapScope u w kw a ka kb).capOf i = (waitScope t p w kw a ka kb).capOf i := by
    intro i; rw [hu]; rfl
  have hnr : u.nextResolver = t.nextResolver := by rw [hu]
  have hnp : u.nextPromise = t.nextPromise := by rw [hu]
  refine ⟨?_, ⟨?_, ?_⟩, ⟨?_, ?_⟩, h.distinct.1, ⟨fun y ρ hm => ?_, fun j hj hx => ?_, ?_, ?_,
    fun j hx => ?_, fun i => ?_, fun y ρ hS => Or.inl (Or.inr hS.1)⟩, ?_⟩
  · rw [hu]; simp only [set_apply, if_neg hap]; exact h.second
  · rw [hu]; simp only [set_apply, if_neg hka]; exact h.relay.1
  · rw [hu]; simp only [set_apply, if_neg hap]; exact h.relay.2
  · rw [hu]; simp only [set_apply, if_neg hkw]; exact h.wrapper.1
  · rw [hu]; simp only [set_apply, if_neg hwp]; exact h.wrapper.2
  · rw [hnr]
    have hm' : ρ ∈ (t.promises y).reactions ∧ y ≠ p := by
      rw [hu] at hm
      simp only [set_apply] at hm
      split at hm
      · simp at hm
      · next hyp => exact ⟨hm, hyp⟩
    rcases h.guard.stored y ρ hm'.1 with hw | hS
    · exact Or.inl (reaction_within_transfer _ _ _ _ hfree hcap ρ hw)
    · rcases hS with hS | hS
      · exact absurd hS.1 hm'.2
      · exact Or.inr hS
  · rw [hu] at hx ⊢
    simp only [set_apply] at hx ⊢
    split
    · rfl
    · next hjk =>
      rw [if_neg hjk] at hx
      exact h.guard.live j hj hx
  · intro k hk; rw [hnr]; exact h.guard.allocK k hk
  · intro x hx; rw [hnp]; exact h.guard.allocX x hx
  · rw [hu] at hx ⊢
    simp only [set_apply] at hx ⊢
    split
    · rfl
    · next hjk =>
      rw [if_neg hjk] at hx
      exact h.guard.fresh j hx
  · rw [hu]; rfl
  · refine ⟨t.jobs ++ reactionJobs R1 b arg, reactionJobs R2 b arg, ?_, fun J hJ => ?_⟩
    · rw [hu]; simp [hR, reactionJobs]
    · rw [hnr, hnp]
      have hX : ∀ q, ¬ (waitScope t p w kw a ka kb).X q → q < t.nextPromise →
          ¬ (wrapScope u w kw a ka kb).X q ∧ q < t.nextPromise := fun q hq hlt => ⟨hq, hlt⟩
      simp only [List.mem_append, reactionJobs, List.mem_map] at hJ
      rcases hJ with (hJ | ⟨ρ, hρ, rfl⟩) | ⟨ρ, hρ, rfl⟩
      · exact job_within_transfer _ _ _ _ _ _ hfree hcap hX J (h.queue J hJ)
      · exact reaction_within_transfer _ _ _ _ hfree hcap ρ
          (hRw ρ (List.mem_append_left _ hρ))
      · exact reaction_within_transfer _ _ _ _ hfree hcap ρ
          (hRw ρ (List.mem_append_right _ hρ))

/-- When a resolving function of the pending source is called with a value that
is not a promise, the fulfilment is on its way to the wrapper. -/
theorem wrapped_resolve (t : State) (p w kw a ka kb kp : Nat) (v : Val)
    (h : Wrapped t p w kw a ka kb) (hkp : t.resolvers kp = ⟨p, false⟩)
    (hv : v.isPromise = false) : Relayed (resolveFn t kp v) w kw a ka kb true v := by
  refine wrapped_settle t _ p w kw a ka kb kp true v h hkp ?_
  rw [resolveFn_plain _ _ _ hv]
  simp [hkp, fulfillPromise, markResolved, h.source.1]

/-- When the `reject` of the pending source is called, the rejection is on its
way to the wrapper. -/
theorem wrapped_reject (t : State) (p w kw a ka kb kp : Nat) (e : Val)
    (h : Wrapped t p w kw a ka kb) (hkp : t.resolvers kp = ⟨p, false⟩) :
    Relayed (rejectFn t kp e) w kw a ka kb false e := by
  refine wrapped_settle t _ p w kw a ka kb kp false e h hkp ?_
  simp [rejectFn, hkp, rejectPromise, markResolved, h.source.1]

/-- The heap after `from(p)` for a pending plain promise `p`, with any reactions
already stored on `p`. -/
theorem fromValue_pending_eq (s : State) (p : Nat) (R : List Reaction)
    (hp : s.promises p = ⟨.pending, R, none⟩) (hpa : p < s.nextPromise) :
    AbortablePromise.fromValue s (.promise p) =
      ({ s with
          promises :=
            set (set (set (set s.promises s.nextPromise ⟨.pending, [], some s.nextCtrl⟩)
              (s.nextPromise + 1)
                ⟨.pending, [⟨s.nextResolver + 2, .none, .rejectFn s.nextResolver⟩], none⟩)
              (s.nextPromise + 2) ⟨.pending, [], none⟩)
              p ⟨.pending, R ++ [⟨s.nextResolver + 1, .resolveFn s.nextResolver, .none⟩], none⟩
          nextPromise := s.nextPromise + 3
          resolvers :=
            set (set (set s.resolvers s.nextResolver ⟨s.nextPromise, false⟩)
              (s.nextResolver + 1) ⟨s.nextPromise + 1, false⟩)
              (s.nextResolver + 2) ⟨s.nextPromise + 2, false⟩
          nextResolver := s.nextResolver + 3
          ctrls := set s.ctrls s.nextCtrl ⟨false, .undefined, [.reject s.nextResolver]⟩
          nextCtrl := s.nextCtrl + 1 },
        .promise s.nextPromise) := by
  have a0 : p ≠ s.nextPromise := by omega
  have a1 : p ≠ s.nextPromise + 1 := by omega
  have a2 : p ≠ s.nextPromise + 2 := by omega
  have b0 : s.nextPromise ≠ p := by omega
  have b1 : s.nextPromise + 1 ≠ p := by omega
  have b2 : s.nextPromise + 2 ≠ p := by omega
  simp only [AbortablePromise.fromValue, thenTruthy, instanceOfAbortable, hp,
    AbortablePromise.construct, AbortablePromise.constructCap,
    AbortablePromise.fromExecutor, catchOp, thenOp, newController, newPromise, addEventListener]
  simp [newCapability_plain, finishExecutor, hp, Nat.add_assoc, a0, a1, a2, b0, b1, b2]
  constructor
  · funext x
    simp only [set_apply]
    split_ifs <;> simp_all
  · exact set_set _ _ _ _

/-- The heap after `from(p)` for a plain promise `p` that is already settled:
the reaction of `p.then(resolve)` is queued at once. -/
theorem fromValue_settled_eq (s : State) (p : Nat) (R : List Reaction) (b : Bool) (arg : Val)
    (hp : s.promises p = ⟨if b then .fulfilled arg else .rejected arg, R, none⟩)
    (hpa : p < s.nextPromise) :
    AbortablePromise.fromValue s (.promise p) =
      ({ s with
          promises :=
            set (set (set s.promises s.nextPromise ⟨.pending, [], some s.nextCtrl⟩)
              (s.nextPromise + 1)
                ⟨.pending, [⟨s.nextResolver + 2, .none, .rejectFn s.nextResolver⟩], none⟩)
              (s.nextPromise + 2) ⟨.pending, [], none⟩
          nextPromise := s.nextPromise + 3
          resolvers :=
            set (set (set s.resolvers s.nextResolver ⟨s.nextPromise, false⟩)
              (s.nextResolver + 1) ⟨s.nextPromise + 1, false⟩)
              (s.nextResolver + 2) ⟨s.nextPromise + 2, false⟩
          nextResolver := s.nextResolver + 3
          ctrls := set s.ctrls s.nextCtrl ⟨false, .undefined, [.reject s.nextResolver]⟩
          nextCtrl := s.nextCtrl + 1
          jobs := s.jobs
            ++ [Job.reaction ⟨s.nextResolver + 1, .resolveFn s.nextResolver, .none⟩ b arg] },
        .promise s.nextPromise) := by
  have a0 : p ≠ s.nextPromise := by omega
  have a1 : p ≠ s.nextPromise + 1 := by omega
  have a2 : p ≠ s.nextPromise + 2 := by omega
  have b0 : s.nextPromise ≠ p := by omega
  have b1 : s.nextPromise + 1 ≠ p := by omega
  have b2 : s.nextPromise + 2 ≠ p := by omega
  cases b <;>
  · simp only [AbortablePromise.fromValue, thenTruthy, instanceOfAbortable, hp,
      AbortablePromise.construct, AbortablePromise.constructCap,
      AbortablePromise.fromExecutor, catchOp, thenOp, newController, newPromise, addEventListener]
    simp [newCapability_plain, finishExecutor, hp, Nat.add_assoc, a0, a1, a2, b0, b1, b2]
    constructor
    · funext x
      simp only [set_apply]
      split_ifs <;> simp_all
    · exact set_set _ _ _ _

/-- In a well-formed heap, `from(p)` on a pending plain promise `p` leaves the
wrapper waiting for `p`, whatever reactions, microtasks and listeners the heap
already holds. -/
theorem from_wrapped (s : State) (p : Nat) (hwf : WellFormed s)
    (hplain : (s.promises p).ctrl = none) (hpa : p < s.nextPromise)
    (hst : (s.promises p).state = .pending) :
    Wrapped (afterFrom s p) p s.nextPromise s.nextResolver (s.nextPromise + 1)
      (s.nextResolver + 1) (s.nextResolver + 2) := by
  have hp : s.promises p = ⟨.pending, (s.promises p).reactions, none⟩ := by
    rw [← hplain, ← hst]
  have a0 : p ≠ s.nextPromise := by omega
  have a1 : p ≠ s.nextPromise + 1 := by omega
  have a2 : p ≠ s.nextPromise + 2 := by omega
  simp only [afterFrom]
  rw [fromValue_pending_eq s p _ hp hpa]
  generalize (s.promises p).reactions = R at hp
  have hfree : ∀ (t : State) (k : Nat), (plainScope s).free s.nextResolver k →
      (waitScope t p s.nextPromise s.nextResolver (s.nextPromise + 1) (s.nextResolver + 1)
        (s.nextResolver + 2)).free (s.nextResolver + 3) k := by
    intro t k h
    refine ⟨by have := h.1; omega, fun h' => ?_⟩
    have h1 := h.1
    rcases h' with h' | h' <;> omega
  refine ⟨⟨by simp, by show p < s.nextPromise + 3; omega⟩, ⟨R, [], by simp, fun ρ hρ => ?_⟩, by simp [a1.symm], ⟨by simp, by simp [a1.symm]⟩,
    ⟨by simp, by simp [a0.symm]⟩, ⟨by simp, a0, a1⟩,
    ⟨fun y ρ hm => ?_, fun j hj hx => ?_, fun k hk => ?_, fun x hx => ?_, fun j hx => ?_,
      fun _ => rfl, fun y ρ hS => ?_⟩, fun J hJ => ?_⟩
  · have hm : ρ ∈ (s.promises p).reactions := by rw [hp]; simpa using hρ
    rcases hwf.guard.stored p ρ hm with hw | hS
    · exact reaction_within_transfer _ _ _ _ (hfree _) (fun _ => rfl) ρ hw
    · exact hS.elim
  · simp only [set_apply] at hm
    split_ifs at hm with h1 h2 h3 h4
    · simp only [List.mem_append, List.mem_singleton] at hm
      rcases hm with hm | hm
      · have hm' : ρ ∈ (s.promises p).reactions := by rw [hp]; exact hm
        rcases hwf.guard.stored p ρ hm' with hw | hS
        · exact Or.inl (reaction_within_transfer _ _ _ _ (hfree _) (fun _ => rfl) ρ hw)
        · exact hS.elim
      · exact Or.inr (Or.inl ⟨h1, hm⟩)
    · simp at hm
    · simp only [List.mem_singleton] at hm
      exact Or.inr (Or.inr ⟨h3, hm⟩)
    · simp at hm
    · rcases hwf.guard.stored y ρ hm with hw | hS
      · exact Or.inl (reaction_within_transfer _ _ _ _ (hfree _) (fun _ => rfl) ρ hw)
      · exact hS.elim
  · have hj0 : j ≠ s.nextResolver := fun e => hj (Or.inl e)
    have hj1 : j ≠ s.nextResolver + 1 := fun e => hj (Or.inr e)
    simp only [set_apply, hj0, hj1, if_false] at hx ⊢
    split
    · next hj2 =>
      rw [if_pos hj2] at hx
      have hx' : s.nextPromise + 2 = s.nextPromise ∨ s.nextPromise + 2 = s.nextPromise + 1 := hx
      omega
    · next hj2 =>
      rw [if_neg hj2] at hx
      have hx' : (s.resolvers j).promise = s.nextPromise
          ∨ (s.resolvers j).promise = s.nextPromise + 1 := hx
      exact hwf.guard.fresh j (by omega)
  · have hk' : k = s.nextResolver ∨ k = s.nextResolver + 1 := hk
    show k < s.nextResolver + 3
    omega
  · have hx' : x = s.nextPromise ∨ x = s.nextPromise + 1 := hx
    show x < s.nextPromise + 3
    omega
  · simp only [set_apply] at hx ⊢
    split_ifs at hx ⊢ with h1 h2 h3
    · simp at hx
    · simp at hx
    · simp at hx
    · exact hwf.guard.fresh j (by
        have : s.nextPromise + 3 ≤ (s.resolvers j).promise := hx
        omega)
  · rcases hS with hS | hS
    · exact Or.inr (fun b arg => ⟨b, arg, by rw [hS.2]⟩)
    · exact Or.inl (Or.inr hS.1)
  · refine job_within_transfer (plainScope s) _ s.nextResolver _ s.nextPromise _ (hfree _)
      (fun _ => rfl) (fun q _ hlt => ⟨fun h => ?_, by show q < s.nextPromise + 3; omega⟩) J
      (hwf.queue J hJ)
    have h' : q = s.nextPromise ∨ q = s.nextPromise + 1 := h
    omega

/-- In a well-formed heap, `from(p)` on a plain promise `p` that is already
settled puts the delivery of its settlement on its way to the wrapper. -/
theorem from_relayed (s : State) (p : Nat) (b : Bool) (arg : Val) (hwf : WellFormed s)
    (hplain : (s.promises p).ctrl = none) (hpa : p < s.nextPromise)
    (hst : (s.promises p).state = if b then .fulfilled arg else .rejected arg) :
    Relayed (afterFrom s p) s.nextPromise s.nextResolver (s.nextPromise + 1)
      (s.nextResolver + 1) (s.nextResolver + 2) b arg := by
  have hp : s.promises p
      = ⟨if b then .fulfilled arg else .rejected arg, (s.promises p).reactions, none⟩ := by
    rw [← hplain, ← hst]
  simp only [afterFrom]
  rw [fromValue_settled_eq s p _ b arg hp hpa]
  have hfree : ∀ (t : State) (k : Nat), (plainScope s).free s.nextResolver k →
      (wrapScope t s.nextPromise s.nextResolver (s.nextPromise + 1) (s.nextResolver + 1)
        (s.nextResolver + 2)).free (s.nextResolver + 3) k := by
    intro t k h
    refine ⟨by have := h.1; omega, fun h' => ?_⟩
    have h1 := h.1
    rcases h' with h' | h' <;> omega
  refine ⟨by simp, ⟨by simp, by simp⟩, ⟨by simp, by simp⟩, by simp,
    ⟨fun y ρ hm => ?_, fun j hj hx => ?_, fun k hk => ?_, fun x hx => ?_, fun j hx => ?_,
      fun _ => rfl, fun y ρ hS => Or.inl (Or.inr hS.1)⟩,
    ⟨s.jobs, [], rfl, fun J hJ => ?_⟩⟩
  · simp only [set_apply] at hm
    split_ifs at hm with h2 h3 h4
    · simp at hm
    · simp only [List.mem_singleton] at hm
      exact Or.inr ⟨h3, hm⟩
    · simp at hm
    · rcases hwf.guard.stored y ρ hm with hw | hS
      · exact Or.inl (reaction_within_transfer _ _ _ _ (hfree _) (fun _ => rfl) ρ hw)
      · exact hS.elim
  · have hj0 : j ≠ s.nextResolver := fun e => hj (Or.inl e)
    have hj1 : j ≠ s.nextResolver + 1 := fun e => hj (Or.inr e)
    simp only [set_apply, hj0, hj1, if_false] at hx ⊢
    split
    · next hj2 =>
      rw [if_pos hj2] at hx
      have hx' : s.nextPromise + 2 = s.nextPromise ∨ s.nextPromise + 2 = s.nextPromise + 1 := hx
      omega
    · next hj2 =>
      rw [if_neg hj2] at hx
      have hx' : (s.resolvers j).promise = s.nextPromise
          ∨ (s.resolvers j).promise = s.nextPromise + 1 := hx
      exact hwf.guard.fresh j (by omega)
  · have hk' : k = s.nextResolver ∨ k = s.nextResolver + 1 := hk
    show k < s.nextResolver + 3
    omega
  · have hx' : x = s.nextPromise ∨ x = s.nextPromise + 1 := hx
    show x < s.nextPromise + 3
    omega
  · simp only [set_apply] at hx ⊢
    split_ifs at hx ⊢ with h1 h2 h3
    · simp at hx
    · simp at hx
    · simp at hx
    · exact hwf.guard.fresh j (by
        have : s.nextPromise + 3 ≤ (s.resolvers j).promise := hx
        omega)
  · simp only [List.append_nil] at hJ
    refine job_within_transfer (plainScope s) _ s.nextResolver _ s.nextPromise _ (hfree _)
      (fun _ => rfl) (fun q _ hlt => ⟨fun h => ?_, by show q < s.nextPromise + 3; omega⟩) J
      (hwf.queue J hJ)
    have h' : q = s.nextPromise ∨ q = s.nextPromise + 1 := h
    omega

theorem attachReaction_reactions (s : State) (y x : Nat) (r : Reaction) :
    ((attachReaction s y r).promises x).reactions
      = if x = y ∧ (s.promises y).state = .pending then (s.promises x).reactions ++ [r]
        else (s.promises x).reactions := by
  unfold attachReaction
  split
  · next hst =>
    simp only [set_apply]
    split
    · next hxy => subst hxy; simp [hst]
    · next hxy => simp [hxy]
  · next v hst => simp [hst]
  · next e hst => simp [hst]

/-- A later call of `then`, on any promise, with handlers that do not hold the
resolving functions of the wrapper or of the relay, leaves the wrapper waiting
for its source. -/
theorem wrapped_then (t : State) (p w kw a ka kb g : Nat) (onF onR : Cb)
    (h : Wrapped t p w kw a ka kb)
    (hF : onF.within (waitScope t p w kw a ka kb) t.nextResolver)
    (hR : onR.within (waitScope t p w kw a ka kb) t.nextResolver) :
    Wrapped (thenOp t g onF onR).1 p w kw a ka kb := by
  have hsc : waitScope (thenOp t g onF onR).1 p w kw a ka kb = waitScope t p w kw a ka kb := by
    simp only [waitScope, thenOp_aggs]
  have K := thenOp_keeps (waitScope t p w kw a ka kb) t g onF onR h.guard hF hR
  have hn := newCapability_counters t (t.promises g).ctrl.isSome
  have haa : a < t.nextPromise := h.guard.allocX a (Or.inr rfl)
  have hkk : kw < t.nextResolver := h.guard.allocK kw (Or.inl rfl)
  have hnr := (attachReaction_steady (newCapability t (t.promises g).ctrl.isSome).1 g
    ⟨(newCapability t (t.promises g).ctrl.isSome).2.2, onF, onR⟩).resolverCount
  have hnp := (attachReaction_steady (newCapability t (t.promises g).ctrl.isSome).1 g
    ⟨(newCapability t (t.promises g).ctrl.isSome).2.2, onF, onR⟩).promiseCount
  have hr : Reaction.within (waitScope t p w kw a ka kb) (t.nextResolver + 1)
      ⟨(newCapability t (t.promises g).ctrl.isSome).2.2, onF, onR⟩ :=
    ⟨⟨by rw [newCapability_ids]; exact Nat.lt_succ_self _,
        by rw [newCapability_ids]
           exact fun hk => Nat.lt_irrefl _ (h.guard.allocK _ hk)⟩,
      cb_within_mono _ (Nat.le_succ _) _ hF, cb_within_mono _ (Nat.le_succ _) _ hR⟩
  have hpp := (newCapability_extends t (t.promises g).ctrl.isSome p kw h.source.2 hkk).2.2.2.1
  obtain ⟨R1, R2, hR12, hRw⟩ := h.first
  refine ⟨⟨?_, Nat.lt_of_lt_of_le h.source.2 K.promiseCount⟩, ?_, ?_, ⟨?_, ?_⟩, ⟨?_, ?_⟩,
    h.distinct, by rw [hsc]; exact K.guard, fun J hJ => ?_⟩
  · rw [thenOp_eq]
    simp only [attachReaction_state]
    rw [hpp]; exact h.source.1
  · rw [hsc, thenOp_eq]
    simp only [attachReaction_reactions, hnr, hn.2]
    rw [hpp, hR12]
    split
    · refine ⟨R1, R2 ++ [⟨(newCapability t (t.promises g).ctrl.isSome).2.2, onF, onR⟩],
        by simp, fun ρ hρ => ?_⟩
      rw [← List.append_assoc] at hρ
      rcases List.mem_append.mp hρ with hρ | hρ
      · exact reaction_within_mono _ (Nat.le_succ _) ρ (hRw ρ hρ)
      · rw [List.mem_singleton.mp hρ]; exact hr
    · exact ⟨R1, R2, rfl, fun ρ hρ => reaction_within_mono _ (Nat.le_succ _) ρ (hRw ρ hρ)⟩
  · exact K.reactions a (Or.inr rfl) _ h.second
  · rw [K.resolvers ka (Or.inr rfl)]; exact h.relay.1
  · rw [K.states a (Or.inr rfl)]; exact h.relay.2
  · rw [K.resolvers kw (Or.inl rfl)]; exact h.wrapper.1
  · rw [K.states w (Or.inl rfl)]; exact h.wrapper.2
  · rw [hsc]
    rw [thenOp_eq] at hJ ⊢
    obtain ⟨ex, e1, w1⟩ := attachReaction_jobs_within (waitScope t p w kw a ka kb)
      (newCapability t (t.promises g).ctrl.isSome).1 g
      ⟨(newCapability t (t.promises g).ctrl.isSome).2.2, onF, onR⟩ (by rw [hn.2]; exact hr)
    rw [hnr, hnp]
    rw [e1, newCapability_jobs] at hJ
    rcases List.mem_append.mp hJ with hJ | hJ
    · exact job_within_mono _ (by rw [hn.2]; exact Nat.le_succ _)
        (by rw [hn.1]; exact Nat.le_succ _) J (h.queue J hJ)
    · exact w1 J hJ

theorem fromValue_counters (s : State) (p : Nat) (hplain : (s.promises p).ctrl = none)
    (hpa : p < s.nextPromise) :
    (afterFrom s p).nextPromise = s.nextPromise + 3
      ∧ (afterFrom s p).nextResolver = s.nextResolver + 3
      ∧ (afterFrom s p).nextCtrl = s.nextCtrl + 1 := by
  simp only [afterFrom]
  rcases hst : (s.promises p).state with _ | v | e
  · rw [fromValue_pending_eq s p (s.promises p).reactions (by rw [← hplain, ← hst]) hpa]
    exact ⟨rfl, rfl, rfl⟩
  · rw [fromValue_settled_eq s p (s.promises p).reactions true v
      (by rw [← hplain]; simp [← hst]) hpa]
    exact ⟨rfl, rfl, rfl⟩
  · rw [fromValue_settled_eq s p (s.promises p).reactions false e
      (by rw [← hplain]; simp [← hst]) hpa]
    exact ⟨rfl, rfl, rfl⟩

/-- The wrapper built by `from` is wired to its controller in every later heap;
while it is not yet resolved and its signal is not aborted, an abort rejects it,
and no later history changes that. -/
theorem from_abort_rejects (s : State) (p : Nat) (events : List Event) (r : Val)
    (hplain : (s.promises p).ctrl = none) (hpa : p < s.nextPromise)
    (hu : Unresolved (run (afterFrom s p) events) s.nextPromise s.nextResolver)
    (hnot : ((run (afterFrom s p) events).ctrls s.nextCtrl).aborted = false) :
    ((AbortablePromise.abort (run (afterFrom s p) events) s.nextPromise r).promises
        s.nextPromise).state = .rejected (.abortError (nullish r (.str "aborted")) s.nextCtrl)
      ∧ ∀ later : List Event,
          ((run (AbortablePromise.abort (run (afterFrom s p) events) s.nextPromise r)
            later).promises s.nextPromise).state
            = .rejected (.abortError (nullish r (.str "aborted")) s.nextCtrl) := by
  obtain ⟨_, hw, _, _, _⟩ := fromValue_plain_facts s p hplain hpa
  obtain ⟨c1, c2, c3⟩ := fromValue_counters s p hplain hpa
  have hg := run_grows (afterFrom s p) events
  have hw2 : Wired (run (afterFrom s p) events) s.nextPromise s.nextCtrl s.nextResolver :=
    wired_grows hw hg (by simp only [afterFrom] at c1; omega)
      (by simp only [afterFrom] at c2; omega) (by simp only [afterFrom] at c3; omega)
  have hab := (abort_rejects _ _ _ _ r hw2 hu hnot).1
  refine ⟨hab, fun later => ?_⟩
  have hg2 := run_grows (AbortablePromise.abort (run (afterFrom s p) events) s.nextPromise r) later
  have hst := abort_steady (run (afterFrom s p) events) s.nextPromise r
  rw [hg2.settled s.nextPromise
    (by rw [hst.promiseCount]; exact Nat.lt_of_lt_of_le (by omega) hg.promiseCount)
    (by rw [hab]; simp)]
  exact hab

theorem wellFormed_plainPending : WellFormed plainPending := by
  have hp : ∀ y, (plainPending.promises y).reactions = [] := by
    intro y
    simp only [plainPending, Promise.construct, Promise.constructCap, newPromise,
      finishExecutor, runScript, State.init, set_apply]
    split <;> simp
  refine ⟨⟨fun y ρ hm => ?_, fun _ _ h => h.elim, fun _ h => h.elim, fun _ h => h.elim,
    fun j hx => ?_, fun _ => rfl, fun _ _ h => h.elim⟩, (fun J hJ => nomatch hJ),
    fun c j hj => ?_⟩
  · rw [hp y] at hm; cases hm
  · by_cases hj : j = 0
    · subst hj
      exact absurd hx (by decide)
    · simp [plainPending, Promise.construct, Promise.constructCap, newPromise,
        finishExecutor, runScript, State.init, hj]
  · simp [plainPending, Promise.construct, Promise.constructCap, newPromise,
      finishExecutor, runScript, State.init] at hj

theorem wellFormed_plainAwaited : WellFormed plainAwaited :=
  thenOp_wellFormed plainPending 0 _ _ wellFormed_plainPending trivial trivial

theorem wellFormed_plainFulfilled : WellFormed plainFulfilled := by
  have hp : ∀ y, (plainFulfilled.promises y).reactions = [] := by
    intro y
    simp only [plainFulfilled, Promise.construct, Promise.constructCap, newPromise,
      finishExecutor, runScript, State.init, set_apply]
    by_cases hy : y = 0
    · subst hy; rfl
    · simp [resolveFn, fulfillPromise, markResolved, hy]
  refine ⟨⟨fun y ρ hm => ?_, fun _ _ h => h.elim, fun _ h => h.elim, fun _ h => h.elim,
    fun j hx => ?_, fun _ => rfl, fun _ _ h => h.elim⟩, (fun J hJ => nomatch hJ),
    fun c j hj => ?_⟩
  · rw [hp y] at hm; cases hm
  · by_cases hj : j = 0
    · subst hj; rfl
    · simp [plainFulfilled, Promise.construct, Promise.constructCap, newPromise,
        finishExecutor, runScript, State.init, resolveFn, fulfillPromise,
        markResolved, hj]
  · simp [plainFulfilled, Promise.construct, Promise.constructCap, newPromise,
      finishExecutor, runScript, State.init, resolveFn, fulfillPromise,
      markResolved] at hj

/-! ## The tests of the repository, replayed on the model -/

theorem test_abort_with_AbortError :
    stateOf (run State.init [.construct [] none, .abort 0 (.str "aborted")]) 0
        = .rejected (.abortError (.str "aborted") 0)
      ∧ (Val.abortError (.str "aborted") 0).message = some "aborted" :=
  ⟨rfl, rfl⟩

theorem test_abort_then_value :
    stateOf (run State.init abortThenValue) 0
        = .rejected (.abortError (.str "aborted by test") 0)
      ∧ stateOf (run State.init abortThenValue) 1 = .fulfilled (.str "bad")
      ∧ stateOf (run State.init abortThenValue) 2 = .fulfilled (.str "bad")
      ∧ ((run State.init abortThenValue).ctrls 0).aborted = true :=
  ⟨rfl, rfl, rfl, rfl⟩

theorem test_handle_abort_event :
    stateOf (run State.init handleAbortEvent) 0 = .rejected (.abortError (.str "aborted") 0)
      ∧ (run State.init handleAbortEvent).log = [1, 2] :=
  ⟨rfl, rfl⟩

theorem test_from_existing_promise :
    stateOf (run State.init fromExisting) 1
        = .rejected (.abortError (.str "aborted by test") 0)
      ∧ (run State.init fromExisting).nextPromise = 4 :=
  ⟨rfl, rfl⟩

theorem test_then_chain :
    (List.range 5).map (stateOf (run State.init thenChain))
        = [.fulfilled (.num 1), .fulfilled (.num 2), .fulfilled (.num 3), .fulfilled (.num 2),
            .fulfilled (.num 3)]
      ∧ (List.range 5).map (fun p => instanceOfAbortable (run State.init thenChain) (.promise p))
        = [true, true, true, true, true] :=
  ⟨rfl, rfl⟩

theorem test_catch_chain :
    (List.range 5).map (stateOf (run State.init catchChain))
      = [.rejected (.str "throw an error"), .rejected (.num 1), .rejected (.num 1),
          .rejected (.num 2), .rejected (.num 3)] :=
  rfl

theorem test_group_settles :
    stateOf (run State.init (groupSettles .all)) 2
        = .fulfilled (Val.ofList [.num 500, .num 100])
      ∧ stateOf (run State.init (groupSettles .any)) 2 = .fulfilled (.num 100)
      ∧ stateOf (run State.init (groupSettles .race)) 2 = .fulfilled (.num 100)
      ∧ stateOf (run State.init groupAllSettled) 2
        = .fulfilled (Val.ofList [.settledFulfilled (.num 500),
            .settledRejected (.str "a reason")]) :=
  ⟨rfl, rfl, rfl, rfl⟩

theorem test_group_aborted :
    stateOf (run State.init (groupAbortedMixed .all)) 2
        = .rejected (.abortError (.str "I abort it") 1)
      ∧ stateOf (run State.init (groupAbortedMixed .allSettled)) 2
        = .rejected (.abortError (.str "I abort it") 1)
      ∧ stateOf (run State.init (groupAbortedPending .any)) 2
        = .rejected (.abortError (.str "I abort it") 2)
      ∧ stateOf (run State.init (groupAbortedPending .race)) 2
        = .rejected (.abortError (.str "I abort it") 2)
      ∧ ((run State.init (groupAbortedPending .race)).ctrls 0).aborted = false
      ∧ ((run State.init (groupAbortedPending .race)).ctrls 1).aborted = false :=
  ⟨rfl, rfl, rfl, rfl, rfl, rfl⟩

/-! # The claims -/

/-- C1, counterexample to the claim as stated. After
`inner = new Promise(() => {})` and `p = new AbortablePromise(resolve => resolve(inner))`
the promise `p` is an `AbortablePromise` that is still pending and whose
signal is not aborted; yet `p.abort('stop')` does not reject it: the listener's
`reject` is ignored because `resolve` was already called, and `p` is still
pending once the microtask queue has drained. -/
theorem c1_counterexample_locked_in :
    Wired lockedIn 1 0 1
      ∧ (lockedIn.promises 1).state = .pending
      ∧ (lockedIn.ctrls 0).aborted = false
      ∧ ((AbortablePromise.abort lockedIn 1 (.str "stop")).ctrls 0).aborted = true
      ∧ ((AbortablePromise.abort lockedIn 1 (.str "stop")).promises 1).state = .pending
      ∧ ((runJobs 1 (AbortablePromise.abort lockedIn 1 (.str "stop"))).promises 1).state
          = .pending
      ∧ (runJobs 1 (AbortablePromise.abort lockedIn 1 (.str "stop"))).jobs = [] :=
  ⟨⟨rfl, by decide, rfl⟩, rfl, rfl, rfl, rfl, rfl, rfl⟩

/-- C1, as amended. Let `p` be the `AbortablePromise` built by
`new AbortablePromise(executor, controller)` in any heap, for any executor and
any controller argument (an existing controller, or none), and take the heap
after any later history of events. If `p` is then still pending and not yet
resolved (neither of its resolving functions has taken effect) and its signal is
not aborted, then for every reason `r` that is neither `null` nor `undefined`
the call `p.abort(r)` leaves `p` rejected with the `AbortError` built from `r`,
whose message is the stringified `r`, and the call `p.abort()` leaves it
rejected with the `AbortError` built from `'aborted'`. No call of `resolve` or
`reject` by the executor is needed. -/
theorem c1_abort_rejects_unresolved (s : State) (acts : List ExecAct)
    (controller : Option Nat) (events : List Event) (r : Val)
    (hctl : ∀ c, controller = some c → c < s.nextCtrl)
    (hu : Unresolved (afterConstruct s acts controller events) s.nextPromise s.nextResolver)
    (hnot : ((afterConstruct s acts controller events).ctrls
      (controllerOf s controller)).aborted = false)
    (hnull : r ≠ .null) (hundef : r ≠ .undefined) :
    (AbortablePromise.constructCap s (runScript acts) controller).2
        = (s.nextPromise, s.nextResolver)
      ∧ AbortablePromise.signal (afterConstruct s acts controller events) s.nextPromise
          = some (controllerOf s controller)
      ∧ ((AbortablePromise.abort (afterConstruct s acts controller events) s.nextPromise
            r).promises s.nextPromise).state
          = .rejected (.abortError r (controllerOf s controller))
      ∧ (Val.abortError r (controllerOf s controller)).message = some r.toJsString
      ∧ ((AbortablePromise.abort (afterConstruct s acts controller events) s.nextPromise
            .undefined).promises s.nextPromise).state
          = .rejected (.abortError (.str "aborted") (controllerOf s controller))
      ∧ (Val.abortError (.str "aborted") (controllerOf s controller)).message
          = some "aborted" := by
  obtain ⟨hw, _, _⟩ := afterConstruct_wired s acts controller events hctl
  refine ⟨abortable_constructCap_ids s _ controller, hw.1, ?_, rfl, ?_, rfl⟩
  · rw [(abort_rejects _ _ _ _ r hw hu hnot).1]
    cases r <;> first | rfl | exact absurd rfl hnull | exact absurd rfl hundef
  · exact (abort_rejects _ _ _ _ .undefined hw hu hnot).1

/-- C1, witness: `p = new AbortablePromise(() => {})`, whose executor never
settles, then `p.onabort(h)`, `p.then()` and a microtask; `p` is aborted with
reason `'stop'` and with no reason. -/
theorem c1_abort_rejects_unresolved_witness :
    ((∀ c, (none : Option Nat) = some c → c < State.init.nextCtrl)
      ∧ Unresolved (afterConstruct State.init [] none sampleHistory) State.init.nextPromise
          State.init.nextResolver
      ∧ ((afterConstruct State.init [] none sampleHistory).ctrls
          (controllerOf State.init none)).aborted = false
      ∧ Val.str "stop" ≠ .null ∧ Val.str "stop" ≠ .undefined) ∧
    ((AbortablePromise.constructCap State.init (runScript []) none).2
        = (State.init.nextPromise, State.init.nextResolver)
      ∧ AbortablePromise.signal (afterConstruct State.init [] none sampleHistory)
          State.init.nextPromise = some (controllerOf State.init none)
      ∧ ((AbortablePromise.abort (afterConstruct State.init [] none sampleHistory)
            State.init.nextPromise (.str "stop")).promises State.init.nextPromise).state
          = .rejected (.abortError (.str "stop") (controllerOf State.init none))
      ∧ (Val.abortError (.str "stop") (controllerOf State.init none)).message
          = some (Val.str "stop").toJsString
      ∧ ((AbortablePromise.abort (afterConstruct State.init [] none sampleHistory)
            State.init.nextPromise .undefined).promises State.init.nextPromise).state
          = .rejected (.abortError (.str "aborted") (controllerOf State.init none))
      ∧ (Val.abortError (.str "aborted") (controllerOf State.init none)).message
          = some "aborted") :=
  ⟨⟨(fun _ h => nomatch h), ⟨rfl, rfl⟩, rfl, by decide, by decide⟩,
    c1_abort_rejects_unresolved State.init [] none sampleHistory (.str "stop")
      (fun _ h => nomatch h) ⟨rfl, rfl⟩ rfl (by decide) (by decide)⟩

/-- C2. Refinement of the plain `Promise`: for every executor that makes any
sequence of `resolve` and `reject` calls and may end by throwing (and aborts no
controller), for every controller argument, and for every later sequence of
calls of the same `resolve` and `reject`, `new AbortablePromise(executor, controller)`
and `new Promise(executor)` give the same promise identity and the same
settlement state. When the values passed to `resolve` are not promises, that
state is the one the spec describes: fulfilled with `v` if `resolve(v)` comes
first, rejected with the original `e` if `reject(e)` or a synchronous throw of
`e` comes first, pending if there is no call; no `AbortError` is involved. -/
theorem c2_settles_as_plain_promise (s : State) (acts : List ExecAct)
    (controller : Option Nat) (later : List Settle)
    (hno : ∀ a ∈ acts, a.isAbort = false) :
    (AbortablePromise.constructCap s (runScript acts) controller).2
        = (Promise.constructCap s (runScript acts)).2
      ∧ ((applySettles (AbortablePromise.constructCap s (runScript acts) controller).2.2
            (AbortablePromise.constructCap s (runScript acts) controller).1 later).promises
            (AbortablePromise.constructCap s (runScript acts) controller).2.1).state
        = ((applySettles (Promise.constructCap s (runScript acts)).2.2
            (Promise.constructCap s (runScript acts)).1 later).promises
            (Promise.constructCap s (runScript acts)).2.1).state
      ∧ ((∀ v, Settle.resolve v ∈ settleCalls acts ++ later → v.isPromise = false) →
          ((applySettles (AbortablePromise.constructCap s (runScript acts) controller).2.2
              (AbortablePromise.constructCap s (runScript acts) controller).1 later).promises
              (AbortablePromise.constructCap s (runScript acts) controller).2.1).state
            = firstSettlement (settleCalls acts ++ later)) := by
  have hA := cell_steps _ _ _ _ later (abortable_constructCap_cell s acts controller hno)
  have hP := cell_steps _ _ _ _ later (promise_constructCap_cell s acts hno)
  rw [abortable_constructCap_ids]
  refine ⟨rfl, ?_, fun hv => ?_⟩
  · exact hA.2.1.trans hP.2.1.symm
  · exact hA.2.1.trans (settleOutcome_plain _ _ hv)

/-- C2, witness: the executor `(resolve, reject) => { reject(2); resolve(1) }`
with the default controller, and a later call `resolve(3)`: both promises are
rejected with 2. -/
theorem c2_settles_as_plain_promise_witness :
    ((∀ a ∈ sampleActs, a.isAbort = false)
      ∧ ∀ v, Settle.resolve v ∈ settleCalls sampleActs ++ [.resolve (.num 3)] →
          v.isPromise = false) ∧
    ((AbortablePromise.constructCap State.init (runScript sampleActs) none).2
        = (Promise.constructCap State.init (runScript sampleActs)).2
      ∧ ((applySettles (AbortablePromise.constructCap State.init (runScript sampleActs) none).2.2
            (AbortablePromise.constructCap State.init (runScript sampleActs) none).1
            [.resolve (.num 3)]).promises
            (AbortablePromise.constructCap State.init (runScript sampleActs) none).2.1).state
        = ((applySettles (Promise.constructCap State.init (runScript sampleActs)).2.2
            (Promise.constructCap State.init (runScript sampleActs)).1
            [.resolve (.num 3)]).promises
            (Promise.constructCap State.init (runScript sampleActs)).2.1).state
      ∧ ((applySettles (AbortablePromise.constructCap State.init (runScript sampleActs) none).2.2
            (AbortablePromise.constructCap State.init (runScript sampleActs) none).1
            [.resolve (.num 3)]).promises
            (AbortablePromise.constructCap State.init (runScript sampleActs) none).2.1).state
        = firstSettlement (settleCalls sampleActs ++ [.resolve (.num 3)])) :=
  ⟨⟨by decide, sampleActs_plain⟩,
    (c2_settles_as_plain_promise State.init sampleActs none [.resolve (.num 3)]
      (by decide)).1,
    (c2_settles_as_plain_promise State.init sampleActs none [.resolve (.num 3)]
      (by decide)).2.1,
    (c2_settles_as_plain_promise State.init sampleActs none [.resolve (.num 3)]
      (by decide)).2.2 sampleActs_plain⟩

/-- C3. Single settlement: for every `AbortablePromise` that is already
fulfilled or rejected (also when rejected by an earlier abort), a later call
`abort(r)` leaves the promise object (its state with the value or error, its
reactions and its controller) unchanged, and the call of `reject` made by the
abort listener is a no-op on the settled promise. -/
theorem c3_abort_after_settlement (s : State) (p : Nat) (r : Val)
    (hs : (s.promises p).state ≠ .pending) :
    (AbortablePromise.abort s p r).promises p = s.promises p
      ∧ ∀ (k : Nat) (e : Val), (rejectFn s k e).promises p = s.promises p :=
  ⟨abort_settled s p p r hs, fun k e => rejectFn_state_of_settled s k p e hs⟩

/-- C3, witness: `new AbortablePromise(resolve => resolve(1))` aborted later. -/
theorem c3_abort_after_settlement_witness :
    (fulfilledOne.promises 0).state ≠ .pending
      ∧ (AbortablePromise.abort fulfilledOne 0 (.str "late")).promises 0
          = fulfilledOne.promises 0
      ∧ ∀ (k : Nat) (e : Val), (rejectFn fulfilledOne k e).promises 0 = fulfilledOne.promises 0 :=
  ⟨by decide, c3_abort_after_settlement fulfilledOne 0 (.str "late") (by decide)⟩

/-- C4, counterexample to the claim as stated. With `c = new AbortController()`
aborted before `p = new AbortablePromise(() => {}, c)` is built, the handlers 7
and 8 are registered through `p.onabort` before any call of `p.abort`; the two
calls `p.abort()` and `p.abort('again')` then invoke neither of them: the signal
was already aborted, so no abort event is dispatched. -/
theorem c4_counterexample_pre_aborted :
    (preAborted.promises 0).ctrl = some 0
      ∧ Listener.user 7 ∈ ((onabortAll preAborted 0 [7, 8]).ctrls 0).listeners
      ∧ Listener.user 8 ∈ ((onabortAll preAborted 0 [7, 8]).ctrls 0).listeners
      ∧ (onabortAll preAborted 0 [7, 8]).log = []
      ∧ (abortAll (onabortAll preAborted 0 [7, 8]) 0 [.undefined, .str "again"]).log = [] :=
  ⟨rfl, by decide, by decide, rfl, rfl⟩

/-- C4, as amended. Listener idempotence: for every `AbortablePromise` `p` (with
controller `c`) whose signal is not yet aborted when the handlers are
registered, and every list `hs` of distinct handlers registered
through `onabort` (none of them registered before), the first call `abort(r)`
invokes, synchronously and in registration order, the handlers registered
earlier on the signal and then each handler of `hs`, each exactly once; any
further calls of `abort` change nothing, so each handler has run exactly once in
total. Nothing is assumed about the settlement state of `p`. -/
theorem c4_listener_idempotence (s : State) (p c : Nat) (hs : List Nat) (r : Val)
    (rs : List Val)
    (hc : (s.promises p).ctrl = some c) (hnot : (s.ctrls c).aborted = false)
    (hnd : hs.Nodup) (hnew : ∀ h ∈ hs, Listener.user h ∉ (s.ctrls c).listeners) :
    (AbortablePromise.abort (onabortAll s p hs) p r).log
        = s.log ++ userHandlers (s.ctrls c).listeners ++ hs
      ∧ abortAll (AbortablePromise.abort (onabortAll s p hs) p r) p rs
        = AbortablePromise.abort (onabortAll s p hs) p r
      ∧ ∀ h ∈ hs, (userHandlers (s.ctrls c).listeners ++ hs).count h = 1 := by
  obtain ⟨h1, h2, h3, h4⟩ := onabortAll_spec s p c hs hc hnd hnew
  have hc' : ((onabortAll s p hs).promises p).ctrl = some c := by rw [h3]; exact hc
  refine ⟨?_, ?_, ?_⟩
  · simp only [AbortablePromise.abort, hc']
    rw [signalAbort_log _ _ _ (by rw [h2]; exact hnot), h1, h4, userHandlers_append,
      userHandlers_map_user, List.append_assoc]
  · apply abortAll_of_aborted _ p c rs
    · rw [abort_ctrl_field]; exact hc'
    · simp only [AbortablePromise.abort, hc']
      exact signalAbort_aborted _ _ _
  · intro h hmem
    rw [List.count_append, List.count_eq_one_of_mem hnd hmem]
    have : h ∉ userHandlers (s.ctrls c).listeners := by
      intro hin
      apply hnew h hmem
      simp only [userHandlers, List.mem_filterMap] at hin
      obtain ⟨l, hl, hlh⟩ := hin
      cases l with
      | user h' => simp at hlh; subst hlh; exact hl
      | reject k => simp at hlh
    rw [List.count_eq_zero_of_not_mem this]

/-- C4, witness: two handlers on the promise of `new AbortablePromise(() => {})`,
then three calls of `abort`. -/
theorem c4_listener_idempotence_witness :
    ((fresh.promises 0).ctrl = some 0 ∧ (fresh.ctrls 0).aborted = false
        ∧ [7, 8].Nodup ∧ ∀ h ∈ [7, 8], Listener.user h ∉ (fresh.ctrls 0).listeners) ∧
    ((AbortablePromise.abort (onabortAll fresh 0 [7, 8]) 0 .undefined).log
        = fresh.log ++ userHandlers (fresh.ctrls 0).listeners ++ [7, 8]
      ∧ abortAll (AbortablePromise.abort (onabortAll fresh 0 [7, 8]) 0 .undefined) 0
          [.str "again", .null]
        = AbortablePromise.abort (onabortAll fresh 0 [7, 8]) 0 .undefined
      ∧ ∀ h ∈ [7, 8], (userHandlers (fresh.ctrls 0).listeners ++ [7, 8]).count h = 1) :=
  ⟨⟨rfl, rfl, by decide, by decide⟩,
    c4_listener_idempotence fresh 0 0 [7, 8] .undefined [.str "again", .null] rfl rfl
      (by decide) (by decide)⟩

/-- C5. The identity of `from`: for every value `x` that is an instance of
`AbortablePromise`, `AbortablePromise.from(x)` returns `x` itself and leaves the
heap as it is (no new promise, no new controller); consequently, for every
input `x`, `from(from(x))` is the very object `from(x)`, again with the heap
unchanged. -/
theorem c5_from_identity (s : State) (x : Val) (hx : instanceOfAbortable s x = true) :
    AbortablePromise.fromValue s x = (s, x)
      ∧ ∀ (t : State) (y : Val),
          AbortablePromise.fromValue (AbortablePromise.fromValue t y).1
              (AbortablePromise.fromValue t y).2
            = AbortablePromise.fromValue t y := by
  have key : ∀ (t : State) (y : Val), instanceOfAbortable t y = true →
      AbortablePromise.fromValue t y = (t, y) := by
    intro t y hy
    have hthen : thenTruthy y = true := by
      cases y <;> simp [instanceOfAbortable] at hy
      rfl
    simp [AbortablePromise.fromValue, hthen, hy]
  exact ⟨key s x hx, fun t y => key _ _ (fromValue_instance t y).2⟩

/-- C5, witness: `from` applied to the promise of `new AbortablePromise(() => {})`. -/
theorem c5_from_identity_witness :
    instanceOfAbortable fresh (.promise 0) = true
      ∧ (AbortablePromise.fromValue fresh (.promise 0) = (fresh, .promise 0)
        ∧ ∀ (t : State) (y : Val),
            AbortablePromise.fromValue (AbortablePromise.fromValue t y).1
                (AbortablePromise.fromValue t y).2
              = AbortablePromise.fromValue t y) :=
  ⟨rfl, c5_from_identity fresh (.promise 0) rfl⟩

/-- C6, counterexample to the claim as stated. After
`p = new Promise(resolve => resolve(1))`, `w = AbortablePromise.from(p)` and
`w.abort('x')`, the promise `p` was fulfilled with 1 before `w` was aborted (and
even before `w` was created), yet `w` is rejected with the `AbortError` and
stays so once the microtask queue has drained: the fulfilment of `p` reaches
`w` only through a microtask, after the abort. -/
theorem c6_counterexample_fulfilled_before_abort :
    (plainFulfilled.promises 0).state = .fulfilled (.num 1)
      ∧ (AbortablePromise.fromValue plainFulfilled (.promise 0)).2 = .promise 1
      ∧ ((AbortablePromise.fromValue plainFulfilled (.promise 0)).1.promises 0).state
          = .fulfilled (.num 1)
      ∧ ((runJobs 2 (AbortablePromise.abort
            (AbortablePromise.fromValue plainFulfilled (.promise 0)).1 1 (.str "x"))).promises
            1).state = .rejected (.abortError (.str "x") 0)
      ∧ (runJobs 2 (AbortablePromise.abort
            (AbortablePromise.fromValue plainFulfilled (.promise 0)).1 1 (.str "x"))).jobs = [] :=
  ⟨rfl, rfl, rfl, rfl, rfl⟩

/-- C6, as amended. For every plain promise `p` (not an `AbortablePromise`),
`w = AbortablePromise.from(p)` is a new `AbortablePromise` with the controller
just created, pending right after the call; what decides its terminal state is
what reaches `w` first.

Abort: after any later history, if `w` is still pending and not yet resolved (as
it is while it waits for a pending `p`) and its signal is not aborted, then
`w.abort(r)` rejects `w` with the `AbortError` for `r`, and no later history
changes that: a later settlement of `p` is discarded.

Waiting: in a well-formed heap, with any reactions already stored on `p`, any
microtasks queued and any listeners registered, `from` on a pending `p` leaves
`w` waiting for `p` (`Wrapped`), and a later call of `then`, `catch` or `finally`
on any promise keeps it so.

Delivery: while `w` waits for `p`, when a resolving function of `p` is called
with a value `v` that is not a promise, or its `reject` with `e`, then after
finitely many microtasks `w` is fulfilled with `v`, or rejected with the same
`e`, for good, and a later `w.abort(r)` changes nothing. The same holds when `p`
was already fulfilled or rejected at the call of `from`. -/
theorem c6_from_wraps_plain_promise (s : State) (p : Nat)
    (hplain : (s.promises p).ctrl = none) (hpa : p < s.nextPromise) :
    (AbortablePromise.fromValue s (.promise p)).2 = .promise s.nextPromise
      ∧ AbortablePromise.signal (afterFrom s p) s.nextPromise = some s.nextCtrl
      ∧ ((afterFrom s p).promises s.nextPromise).state = .pending
      ∧ (∀ (events : List Event) (r : Val),
          Unresolved (run (afterFrom s p) events) s.nextPromise s.nextResolver →
          ((run (afterFrom s p) events).ctrls s.nextCtrl).aborted = false →
          ((AbortablePromise.abort (run (afterFrom s p) events) s.nextPromise r).promises
              s.nextPromise).state
              = .rejected (.abortError (nullish r (.str "aborted")) s.nextCtrl)
            ∧ ∀ later : List Event,
                ((run (AbortablePromise.abort (run (afterFrom s p) events) s.nextPromise r)
                  later).promises s.nextPromise).state
                  = .rejected (.abortError (nullish r (.str "aborted")) s.nextCtrl))
      ∧ (WellFormed s → (s.promises p).state = .pending →
          Wrapped (afterFrom s p) p s.nextPromise s.nextResolver (s.nextPromise + 1)
            (s.nextResolver + 1) (s.nextResolver + 2))
      ∧ (∀ (t : State) (a ka kb : Nat), Wrapped t p s.nextPromise s.nextResolver a ka kb →
          Unresolved t s.nextPromise s.nextResolver
            ∧ (∀ (g : Nat) (onF onR : Cb),
                onF.within (waitScope t p s.nextPromise s.nextResolver a ka kb) t.nextResolver →
                onR.within (waitScope t p s.nextPromise s.nextResolver a ka kb) t.nextResolver →
                Wrapped (thenOp t g onF onR).1 p s.nextPromise s.nextResolver a ka kb)
            ∧ (∀ (kp : Nat) (v r : Val), t.resolvers kp = ⟨p, false⟩ → v.isPromise = false →
                ∃ n, ∀ m, n ≤ m →
                  ((runJobs m (resolveFn t kp v)).promises s.nextPromise).state = .fulfilled v
                    ∧ ((AbortablePromise.abort (runJobs m (resolveFn t kp v)) s.nextPromise
                        r).promises s.nextPromise).state = .fulfilled v)
            ∧ (∀ (kp : Nat) (e r : Val), t.resolvers kp = ⟨p, false⟩ →
                ∃ n, ∀ m, n ≤ m →
                  ((runJobs m (rejectFn t kp e)).promises s.nextPromise).state = .rejected e
                    ∧ ((AbortablePromise.abort (runJobs m (rejectFn t kp e)) s.nextPromise
                        r).promises s.nextPromise).state = .rejected e))
      ∧ (∀ v : Val, WellFormed s → (s.promises p).state = .fulfilled v → v.isPromise = false →
          ∃ n, ∀ m, n ≤ m →
            ((runJobs m (afterFrom s p)).promises s.nextPromise).state = .fulfilled v)
      ∧ (∀ e : Val, WellFormed s → (s.promises p).state = .rejected e →
          ∃ n, ∀ m, n ≤ m →
            ((runJobs m (afterFrom s p)).promises s.nextPromise).state = .rejected e) := by
  obtain ⟨h1, hw, hu, _, _⟩ := fromValue_plain_facts s p hplain hpa
  refine ⟨h1, hw.1, hu.1, fun events r hu' hnot => from_abort_rejects s p events r hplain hpa hu' hnot,
    fun hwf hst => from_wrapped s p hwf hplain hpa hst,
    fun t a ka kb hW => ⟨⟨hW.wrapper.2, by rw [hW.wrapper.1]⟩,
      fun g onF onR hF hR => wrapped_then t p _ _ a ka kb g onF onR hW hF hR,
      fun kp v r hkp hv => ?_, fun kp e r hkp => ?_⟩,
    fun v hwf hst hv => relayed_fulfils _ _ _ _ _ _ v
      (from_relayed s p true v hwf hplain hpa (by simpa using hst)) hv,
    fun e hwf hst => relayed_rejects _ _ _ _ _ _ e
      (from_relayed s p false e hwf hplain hpa (by simpa using hst))⟩
  · obtain ⟨n, hn⟩ := relayed_fulfils _ _ _ _ _ _ v (wrapped_resolve t p _ _ a ka kb kp v hW hkp hv) hv
    refine ⟨n, fun m hm => ⟨hn m hm, ?_⟩⟩
    rw [abort_settled _ _ _ _ (by rw [hn m hm]; simp)]
    exact hn m hm
  · obtain ⟨n, hn⟩ := relayed_rejects _ _ _ _ _ _ e (wrapped_reject t p _ _ a ka kb kp e hW hkp)
    refine ⟨n, fun m hm => ⟨hn m hm, ?_⟩⟩
    rw [abort_settled _ _ _ _ (by rw [hn m hm]; simp)]
    exact hn m hm

/-- C6, witness: `p = new Promise(() => {})` with `p.then(() => 'bad')` already
attached, then `w = AbortablePromise.from(p)` (promise 2, controller 0). The
wrapper is aborted after a history in which `p` stays pending; it waits for
`p`, also after a later `p.catch(() => 'bad')`; and from there `p` is fulfilled
with 5, or rejected with `'no'`. Last, `from` on the already fulfilled promise
of `new Promise(resolve => resolve(1))`. -/
theorem c6_from_wraps_plain_promise_witness :
    ((plainAwaited.promises 0).ctrl = none ∧ 0 < plainAwaited.nextPromise
      ∧ Unresolved (run (afterFrom plainAwaited 0) waitingHistory) 2 2
      ∧ ((run (afterFrom plainAwaited 0) waitingHistory).ctrls 0).aborted = false
      ∧ WellFormed plainAwaited ∧ (plainAwaited.promises 0).state = .pending
      ∧ ((thenOp (afterFrom plainAwaited 0) 0 .none (.user returnsBad)).1.resolvers 0)
          = ⟨0, false⟩
      ∧ (plainFulfilled.promises 0).ctrl = none ∧ 0 < plainFulfilled.nextPromise
      ∧ WellFormed plainFulfilled ∧ (plainFulfilled.promises 0).state = .fulfilled (.num 1)) ∧
    ((AbortablePromise.fromValue plainAwaited (.promise 0)).2 = .promise 2
      ∧ AbortablePromise.signal (afterFrom plainAwaited 0) 2 = some 0
      ∧ ((AbortablePromise.abort (run (afterFrom plainAwaited 0) waitingHistory) 2
            (.str "x")).promises 2).state = .rejected (.abortError (.str "x") 0)
      ∧ ((run (AbortablePromise.abort (run (afterFrom plainAwaited 0) waitingHistory) 2
            (.str "x")) lateSettlement).promises 2).state
          = .rejected (.abortError (.str "x") 0)
      ∧ Wrapped (afterFrom plainAwaited 0) 0 2 2 3 3 4
      ∧ Wrapped (thenOp (afterFrom plainAwaited 0) 0 .none (.user returnsBad)).1 0 2 2 3 3 4
      ∧ (∃ n, ∀ m, n ≤ m →
          ((runJobs m (resolveFn (thenOp (afterFrom plainAwaited 0) 0 .none
              (.user returnsBad)).1 0 (.num 5))).promises 2).state = .fulfilled (.num 5)
            ∧ ((AbortablePromise.abort (runJobs m (resolveFn (thenOp (afterFrom plainAwaited 0)
                0 .none (.user returnsBad)).1 0 (.num 5))) 2 (.str "x")).promises 2).state
              = .fulfilled (.num 5))
      ∧ (∃ n, ∀ m, n ≤ m →
          ((runJobs m (rejectFn (thenOp (afterFrom plainAwaited 0) 0 .none
              (.user returnsBad)).1 0 (.str "no"))).promises 2).state = .rejected (.str "no")
            ∧ ((AbortablePromise.abort (runJobs m (rejectFn (thenOp (afterFrom plainAwaited 0)
                0 .none (.user returnsBad)).1 0 (.str "no"))) 2 (.str "x")).promises 2).state
              = .rejected (.str "no"))
      ∧ (∃ n, ∀ m, n ≤ m →
          ((runJobs m (afterFrom plainFulfilled 0)).promises 1).state = .fulfilled (.num 1))) :=
  ⟨⟨rfl, by decide, ⟨rfl, rfl⟩, rfl, wellFormed_plainAwaited, rfl, rfl, rfl, by decide,
      wellFormed_plainFulfilled, rfl⟩,
    (c6_from_wraps_plain_promise plainAwaited 0 rfl (by decide)).1,
    (c6_from_wraps_plain_promise plainAwaited 0 rfl (by decide)).2.1,
    ((c6_from_wraps_plain_promise plainAwaited 0 rfl (by decide)).2.2.2.1 waitingHistory
      (.str "x") ⟨rfl, rfl⟩ rfl).1,
    ((c6_from_wraps_plain_promise plainAwaited 0 rfl (by decide)).2.2.2.1 waitingHistory
      (.str "x") ⟨rfl, rfl⟩ rfl).2 lateSettlement,
    (c6_from_wraps_plain_promise plainAwaited 0 rfl (by decide)).2.2.2.2.1
      wellFormed_plainAwaited rfl,
    ((c6_from_wraps_plain_promise plainAwaited 0 rfl (by decide)).2.2.2.2.2.1 _ 3 3 4
      ((c6_from_wraps_plain_promise plainAwaited 0 rfl (by decide)).2.2.2.2.1
        wellFormed_plainAwaited rfl)).2.1 0 .none (.user returnsBad) trivial trivial,
    ((c6_from_wraps_plain_promise plainAwaited 0 rfl (by decide)).2.2.2.2.2.1 _ 3 3 4
      (((c6_from_wraps_plain_promise plainAwaited 0 rfl (by decide)).2.2.2.2.2.1 _ 3 3 4
        ((c6_from_wraps_plain_promise plainAwaited 0 rfl (by decide)).2.2.2.2.1
          wellFormed_plainAwaited rfl)).2.1 0 .none (.user returnsBad) trivial trivial)).2.2.1
      0 (.num 5) (.str "x") rfl rfl,
    ((c6_from_wraps_plain_promise plainAwaited 0 rfl (by decide)).2.2.2.2.2.1 _ 3 3 4
      (((c6_from_wraps_plain_promise plainAwaited 0 rfl (by decide)).2.2.2.2.2.1 _ 3 3 4
        ((c6_from_wraps_plain_promise plainAwaited 0 rfl (by decide)).2.2.2.2.1
          wellFormed_plainAwaited rfl)).2.1 0 .none (.user returnsBad) trivial trivial)).2.2.2
      0 (.str "no") (.str "x") rfl,
    (c6_from_wraps_plain_promise plainFulfilled 0 rfl (by decide)).2.2.2.2.2.2.1 (.num 1)
      wellFormed_plainFulfilled rfl rfl⟩

/-- C7, counterexample to the claim as stated. With
`f = new AbortablePromise(() => {})` and `d = f.then(x => x)`, the executor's
`resolve` is called with `d` and one microtask runs, so that `f` follows `d`.
Without an abort no microtask is left and `f` stays pending. After
`d.abort('x')` the signal of `f` is still not aborted and `f` is still pending
at the call, but one microtask later `f` is rejected with the `AbortError` of
`d`: the abort of `d` has changed the eventual settlement of `f`. -/
theorem c7_counterexample_source_follows_derived :
    (thenOp fresh 0 (.user fun x => .ok x) .none).2 = 1
      ∧ (followsDerived.promises 1).ctrl = some 1
      ∧ (followsDerived.promises 0).state = .pending
      ∧ followsDerived.jobs.length = 0
      ∧ ((AbortablePromise.abort followsDerived 1 (.str "x")).ctrls 0).aborted = false
      ∧ ((AbortablePromise.abort followsDerived 1 (.str "x")).promises 0).state = .pending
      ∧ ((runJob (AbortablePromise.abort followsDerived 1 (.str "x"))).promises 0).state
          = .rejected (.abortError (.str "x") 1) :=
  ⟨rfl, rfl, rfl, rfl, rfl, rfl, rfl⟩

/-- C7. Chaining keeps the class and gives an independent scope: for every
`AbortablePromise` `f` (controller `cf`), each of `f.then(...)`, `f.catch(...)`
and `f.finally(...)` returns a new promise `d` that is an `AbortablePromise`
whose controller is the one just created by `new AbortController()`, so that
`d.signal` is not `f.signal`. After any later history, calling `d.abort(r)`
leaves the controller of `f` as it is (so `f.signal.aborted` is not changed) and
leaves the promise `f` as it is; indeed it changes no controller other than
that of `d`, no promise that existed before the derivation, and no resolver
pair of such a promise. When `d` is aborted right after the derivation, no
microtask is queued either. -/
theorem c7_chain_independent_scope (s : State) (f cf : Nat) (dv : Derivation)
    (events : List Event) (r : Val)
    (hf : (s.promises f).ctrl = some cf) (hfa : f < s.nextPromise)
    (hca : cf < s.nextCtrl) :
    (derive s f dv).2 = s.nextPromise
      ∧ AbortablePromise.signal (afterDerive s f dv events) s.nextPromise = some s.nextCtrl
      ∧ AbortablePromise.signal (afterDerive s f dv events) s.nextPromise
          ≠ AbortablePromise.signal (afterDerive s f dv events) f
      ∧ (AbortablePromise.abort (afterDerive s f dv events) s.nextPromise r).ctrls cf
          = (afterDerive s f dv events).ctrls cf
      ∧ (AbortablePromise.abort (afterDerive s f dv events) s.nextPromise r).promises f
          = (afterDerive s f dv events).promises f
      ∧ (∀ c, c ≠ s.nextCtrl →
          (AbortablePromise.abort (afterDerive s f dv events) s.nextPromise r).ctrls c
            = (afterDerive s f dv events).ctrls c)
      ∧ (∀ x, x < s.nextPromise →
          (AbortablePromise.abort (afterDerive s f dv events) s.nextPromise r).promises x
            = (afterDerive s f dv events).promises x)
      ∧ (∀ k, ((afterDerive s f dv events).resolvers k).promise < s.nextPromise →
          (AbortablePromise.abort (afterDerive s f dv events) s.nextPromise r).resolvers k
            = (afterDerive s f dv events).resolvers k)
      ∧ (AbortablePromise.abort (derive s f dv).1 (derive s f dv).2 r).jobs
          = (derive s f dv).1.jobs := by
  obtain ⟨hd, hw, hfen, hg⟩ := afterDerive_facts s f cf dv events hf
  obtain ⟨a1, a2, a3⟩ := abort_fenced_frame s.nextPromise r hw.1 hfen
  have hcne : cf ≠ s.nextCtrl := Nat.ne_of_lt hca
  refine ⟨hd, hw.1, ?_, a1 cf hcne, a2 f hfa, a1, a2, a3, ?_⟩
  · simp only [AbortablePromise.signal, afterDerive]
    rw [hw.1, hg.ctrlField f hfa, hf]
    intro h
    injection h with h
    exact hcne h.symm
  · obtain ⟨onF, onR, hd'⟩ := derive_eq_thenOp s f dv
    rw [hd', thenOp_abortable s f cf onF onR hf]
    simp only []
    obtain ⟨h1, _, _⟩ := derived_facts s f ⟨s.nextResolver, onF, onR⟩ hfa
    rw [abort_derived s f _ r hfa]
    simp [abortedState, h1, reactionJobs]

/-- C7, witness: `d = f.finally(() => {})` on the promise of
`new AbortablePromise(() => {})`; a handler is registered on `d`, `f` is fulfilled
and a microtask runs; then `d.abort('x')`. -/
theorem c7_chain_independent_scope_witness :
    ((fresh.promises 0).ctrl = some 0 ∧ 0 < fresh.nextPromise ∧ 0 < fresh.nextCtrl) ∧
    ((derive fresh 0 sampleFinally).2 = fresh.nextPromise
      ∧ AbortablePromise.signal (afterDerive fresh 0 sampleFinally derivedHistory)
          fresh.nextPromise = some fresh.nextCtrl
      ∧ AbortablePromise.signal (afterDerive fresh 0 sampleFinally derivedHistory)
          fresh.nextPromise
          ≠ AbortablePromise.signal (afterDerive fresh 0 sampleFinally derivedHistory) 0
      ∧ (AbortablePromise.abort (afterDerive fresh 0 sampleFinally derivedHistory)
            fresh.nextPromise (.str "x")).ctrls 0
          = (afterDerive fresh 0 sampleFinally derivedHistory).ctrls 0
      ∧ (AbortablePromise.abort (afterDerive fresh 0 sampleFinally derivedHistory)
            fresh.nextPromise (.str "x")).promises 0
          = (afterDerive fresh 0 sampleFinally derivedHistory).promises 0
      ∧ (∀ c, c ≠ fresh.nextCtrl →
          (AbortablePromise.abort (afterDerive fresh 0 sampleFinally derivedHistory)
              fresh.nextPromise (.str "x")).ctrls c
            = (afterDerive fresh 0 sampleFinally derivedHistory).ctrls c)
      ∧ (∀ x, x < fresh.nextPromise →
          (AbortablePromise.abort (afterDerive fresh 0 sampleFinally derivedHistory)
              fresh.nextPromise (.str "x")).promises x
            = (afterDerive fresh 0 sampleFinally derivedHistory).promises x)
      ∧ (∀ k, ((afterDerive fresh 0 sampleFinally derivedHistory).resolvers k).promise
            < fresh.nextPromise →
          (AbortablePromise.abort (afterDerive fresh 0 sampleFinally derivedHistory)
              fresh.nextPromise (.str "x")).resolvers k
            = (afterDerive fresh 0 sampleFinally derivedHistory).resolvers k)
      ∧ (AbortablePromise.abort (derive fresh 0 sampleFinally).1 (derive fresh 0 sampleFinally).2
            (.str "x")).jobs
          = (derive fresh 0 sampleFinally).1.jobs) :=
  ⟨⟨rfl, by decide, by decide⟩,
    c7_chain_independent_scope fresh 0 0 sampleFinally derivedHistory (.str "x") rfl (by decide) (by decide)⟩

/-- C8, counterexample to the claim as stated. With
`inner = new Promise(() => {})`, `f = new AbortablePromise(resolve => resolve(inner))`
and `d = f.then(x => x)`, the promise `f` is pending with a signal that is not
aborted; after `f.abort('stop')` and the draining of the microtask queue the
signal is aborted, yet `f` is not rejected and `d` is still pending. What the
other conditions of the amended claim exclude is refuted as well, with
`f = new AbortablePromise(() => {})`: after `d = f.then(x => x)`, `d.abort('mine')`
and `f.abort('stop')`, the promise `d` is rejected with its own `AbortError`,
not with that of `f`; after `d = f.finally(() => { throw 'boom' })` and
`f.abort('stop')`, `d` is rejected with `'boom'`; after
`d = f.catch(() => f)` and `f.abort('stop')`, the handler has returned a
promise and `d` is rejected, not fulfilled with the return value; and for an
`f` built on a controller that was aborted before, `d = f.then(x => x)` stays
pending after `f.abort('stop')`. -/
theorem c8_counterexample_locked_in_source :
    ((lockedIn.promises 1).state = .pending
      ∧ (lockedIn.ctrls 0).aborted = false
      ∧ (thenOp lockedIn 1 (.user fun x => .ok x) .none).2 = 2
      ∧ ((runJobs 2 (AbortablePromise.abort
            (thenOp lockedIn 1 (.user fun x => .ok x) .none).1 1 (.str "stop"))).ctrls 0).aborted
          = true
      ∧ ((runJobs 2 (AbortablePromise.abort
            (thenOp lockedIn 1 (.user fun x => .ok x) .none).1 1 (.str "stop"))).promises 1).state
          = .pending
      ∧ ((runJobs 2 (AbortablePromise.abort
            (thenOp lockedIn 1 (.user fun x => .ok x) .none).1 1 (.str "stop"))).promises 2).state
          = .pending
      ∧ (runJobs 2 (AbortablePromise.abort
            (thenOp lockedIn 1 (.user fun x => .ok x) .none).1 1 (.str "stop"))).jobs.length = 0)
    ∧ (((runJobs 2 (AbortablePromise.abort (AbortablePromise.abort
            (thenOp fresh 0 (.user fun x => .ok x) .none).1 1 (.str "mine")) 0
            (.str "stop"))).promises 1).state = .rejected (.abortError (.str "mine") 1)
      ∧ (runJobs 2 (AbortablePromise.abort (AbortablePromise.abort
            (thenOp fresh 0 (.user fun x => .ok x) .none).1 1 (.str "mine")) 0
            (.str "stop"))).jobs.length = 0)
    ∧ (((runJobs 2 (AbortablePromise.abort
            (finallyOp fresh 0 (some fun _ => .error (.str "boom"))).1 0
            (.str "stop"))).promises 1).state = .rejected (.str "boom")
      ∧ (runJobs 2 (AbortablePromise.abort
            (finallyOp fresh 0 (some fun _ => .error (.str "boom"))).1 0
            (.str "stop"))).jobs.length = 0)
    ∧ (((runJobs 3 (AbortablePromise.abort
            (catchOp fresh 0 (.user fun _ => .ok (.promise 0))).1 0
            (.str "stop"))).promises 1).state
          = .rejected (.abortError (.str "stop") 0)
      ∧ (runJobs 3 (AbortablePromise.abort
            (catchOp fresh 0 (.user fun _ => .ok (.promise 0))).1 0
            (.str "stop"))).jobs.length = 0)
    ∧ ((preAborted.promises 0).state = .pending
      ∧ ((runJobs 2 (AbortablePromise.abort
            (thenOp preAborted 0 (.user fun x => .ok x) .none).1 0 (.str "stop"))).promises 0).state
          = .pending
      ∧ ((runJobs 2 (AbortablePromise.abort
            (thenOp preAborted 0 (.user fun x => .ok x) .none).1 0 (.str "stop"))).promises 1).state
          = .pending) :=
  ⟨⟨rfl, rfl, rfl, rfl, rfl, rfl, rfl⟩, ⟨rfl, rfl⟩, ⟨rfl, rfl⟩, ⟨rfl, rfl⟩, ⟨rfl, rfl, rfl⟩⟩

/-- C8, as amended. Let `f` be an `AbortablePromise` (controller `cf`) that is
pending and not yet resolved, with a signal that is not yet aborted. Then
`f.abort(r)` rejects `f` with an `AbortError` (name `'AbortError'`, message the
stringified `r`, or `'aborted'`), and that rejection flows down as an ordinary
rejection to every promise `d` (capability `kd`, controller `cd`) that is
chained to `f`, that is derived from `f`, not yet resolved and not aborted, in
a well-formed heap, whatever else is stored on `f`, queued or registered on the
signal. After finitely many microtasks and from then on: a `d` derived by
`then(onFulfilled)` without rejection handler is rejected with the same error;
a `d` derived by `finally(g)`, with `g` returning a value that is not a promise,
is rejected with the same error; in both cases the signal of `d` is never
aborted; and a handler `h` given to `f.catch(h)` is called with that error, its
return value `w` (not a promise) fulfilling the derived promise. Every
derivation call on a pending `AbortablePromise` of a well-formed heap chains the
derived promise to it, and later derivation calls keep it chained. -/
theorem c8_abort_propagates_down_chain (t : State) (f cf kf : Nat) (r : Val)
    (hw : Wired t f cf kf) (hu : Unresolved t f kf) (hnot : (t.ctrls cf).aborted = false) :
    ((AbortablePromise.abort t f r).promises f).state
        = .rejected (.abortError (nullish r (.str "aborted")) cf)
      ∧ (∀ (d kd cd : Nat) (onF : Cb), Chained t f cf d kd cd ⟨kd, onF, .none⟩ →
          ∃ n, ∀ m, n ≤ m →
            ((runJobs m (AbortablePromise.abort t f r)).promises d).state
                = .rejected (.abortError (nullish r (.str "aborted")) cf)
              ∧ ((runJobs m (AbortablePromise.abort t f r)).ctrls cd).aborted = false)
      ∧ (∀ (d kd cd : Nat) (g : Fn) (v : Val),
          Chained t f cf d kd cd ⟨kd, .thenFinally g true, .catchFinally g true⟩ →
          g .undefined = .ok v → v.isPromise = false →
          ∃ n, ∀ m, n ≤ m →
            ((runJobs m (AbortablePromise.abort t f r)).promises d).state
                = .rejected (.abortError (nullish r (.str "aborted")) cf)
              ∧ ((runJobs m (AbortablePromise.abort t f r)).ctrls cd).aborted = false)
      ∧ (∀ (d kd cd : Nat) (onF : Cb) (h : Fn) (w : Val),
          Chained t f cf d kd cd ⟨kd, onF, .user h⟩ →
          h (.abortError (nullish r (.str "aborted")) cf) = .ok w → w.isPromise = false →
          ∃ n, ∀ m, n ≤ m →
            ((runJobs m (AbortablePromise.abort t f r)).promises d).state = .fulfilled w)
      ∧ (∀ (s : State) (dv : Derivation), WellFormed s → (s.promises f).ctrl = some cf →
          f < s.nextPromise → cf < s.nextCtrl → (s.promises f).state = .pending →
          (dv.reaction s.nextResolver).onFulfilled.within (plainScope s) s.nextResolver →
          (dv.reaction s.nextResolver).onRejected.within (plainScope s) s.nextResolver →
          (derive s f dv).2 = s.nextPromise
            ∧ Chained (derive s f dv).1 f cf s.nextPromise s.nextResolver s.nextCtrl
                (dv.reaction s.nextResolver))
      ∧ (∀ (d kd cd : Nat) (ρ : Reaction) (g : Nat) (dv : Derivation),
          Chained t f cf d kd cd ρ → f < t.nextPromise → cf < t.nextCtrl →
          (t.promises g).ctrl.isSome = true →
          (dv.reaction t.nextResolver).onFulfilled.within (chainScope t f d kd ρ)
            t.nextResolver →
          (dv.reaction t.nextResolver).onRejected.within (chainScope t f d kd ρ)
            t.nextResolver →
          Chained (derive t g dv).1 f cf d kd cd ρ)
      ∧ AbortError.name = "AbortError"
      ∧ (Val.abortError (nullish r (.str "aborted")) cf).message
          = some (nullish r (.str "aborted")).toJsString := by
  refine ⟨(abort_rejects t f cf kf r hw hu hnot).1, fun d kd cd onF hc => ?_,
    fun d kd cd g v hc hg hv => ?_, fun d kd cd onF h w hc hh hplain =>
      chained_catch_fulfils t f cf kf d kd cd onF h r w hc hw hu hnot hh hplain,
    fun s dv hwf hf hfa hca hp hF hR => ⟨?_, derive_chained s f cf dv hwf hf hfa hca hp hF hR⟩,
    fun d kd cd ρ g dv hc hfa hca hg hF hR => ?_, rfl, rfl⟩
  · obtain ⟨n, hn⟩ := chained_then_rejects t f cf kf d kd cd onF r hc hw hu hnot
    refine ⟨n, fun m hm => ⟨hn m hm, ?_⟩⟩
    rw [chained_signal_kept t f cf kf d kd cd _ r hc hw hu hnot m]
    exact hc.notAborted
  · obtain ⟨n, hn⟩ := chained_finally_rejects t f cf kf d kd cd g r v hc hw hu hnot hg hv
    refine ⟨n, fun m hm => ⟨hn m hm, ?_⟩⟩
    rw [chained_signal_kept t f cf kf d kd cd _ r hc hw hu hnot m]
    exact hc.notAborted
  · obtain ⟨onF, onR, hd⟩ := derive_eq_thenOp s f dv
    rw [hd, thenOp_eq]
    exact (congrArg Prod.fst (newCapability_ids s _))
  · obtain ⟨cg, hcg⟩ := Option.isSome_iff_exists.mp hg
    rw [derive_reaction t g cg dv t.nextResolver hcg]
    exact chained_derive t f cf d kd cd ρ g _ _ hc hfa hca hF hR

/-- C8, witness: on `f = new AbortablePromise(() => {})`, which already carries
the reaction of `f.catch(() => 'bad')`, a second promise is derived by
`then(x => x)`, by `finally(() => {})` or by `catch(() => 'bad')`; then
`f.abort('stop')` is called and the microtasks run. -/
theorem c8_abort_propagates_down_chain_witness :
    (Wired (derive awaited 0 (.thenCall (.user fun x => .ok x) .none)).1 0 0 0
      ∧ Unresolved (derive awaited 0 (.thenCall (.user fun x => .ok x) .none)).1 0 0
      ∧ ((derive awaited 0 (.thenCall (.user fun x => .ok x) .none)).1.ctrls 0).aborted = false
      ∧ Chained (derive awaited 0 (.thenCall (.user fun x => .ok x) .none)).1 0 0 2 2 2
          ⟨2, .user fun x => .ok x, .none⟩
      ∧ Chained (derive awaited 0 (.thenCall (.user fun x => .ok x) .none)).1 0 0 1 1 1
          ⟨1, .none, .user returnsBad⟩) ∧
    (((AbortablePromise.abort (derive awaited 0 (.thenCall (.user fun x => .ok x) .none)).1 0
          (.str "stop")).promises 0).state
        = .rejected (.abortError (nullish (.str "stop") (.str "aborted")) 0)
      ∧ (∃ n, ∀ m, n ≤ m →
          ((runJobs m (AbortablePromise.abort
              (derive awaited 0 (.thenCall (.user fun x => .ok x) .none)).1 0
              (.str "stop"))).promises 2).state
              = .rejected (.abortError (nullish (.str "stop") (.str "aborted")) 0)
            ∧ ((runJobs m (AbortablePromise.abort
              (derive awaited 0 (.thenCall (.user fun x => .ok x) .none)).1 0
              (.str "stop"))).ctrls 2).aborted = false)
      ∧ (∃ n, ∀ m, n ≤ m →
          ((runJobs m (AbortablePromise.abort
              (derive awaited 0 (.thenCall (.user fun x => .ok x) .none)).1 0
              (.str "stop"))).promises 1).state = .fulfilled (.str "bad"))
      ∧ (∃ n, ∀ m, n ≤ m →
          ((runJobs m (AbortablePromise.abort (derive awaited 0 sampleFinally).1 0
              (.str "stop"))).promises 2).state
              = .rejected (.abortError (nullish (.str "stop") (.str "aborted")) 0)
            ∧ ((runJobs m (AbortablePromise.abort (derive awaited 0 sampleFinally).1 0
              (.str "stop"))).ctrls 2).aborted = false)) :=
  ⟨⟨⟨rfl, by decide, rfl⟩, ⟨rfl, rfl⟩, rfl,
      derive_chained awaited 0 0 (.thenCall (.user fun x => .ok x) .none) wellFormed_awaited rfl
        (by decide) (by decide) rfl trivial trivial,
      chained_derive awaited 0 0 1 1 1 ⟨1, .none, .user returnsBad⟩ 0 (.user fun x => .ok x)
        .none (derive_chained fresh 0 0 (.catchCall (.user returnsBad)) wellFormed_fresh rfl
          (by decide) (by decide) rfl trivial trivial) (by decide) (by decide) trivial trivial⟩,
    (c8_abort_propagates_down_chain
      (derive awaited 0 (.thenCall (.user fun x => .ok x) .none)).1 0 0 0 (.str "stop")
      ⟨rfl, by decide, rfl⟩ ⟨rfl, rfl⟩ rfl).1,
    (c8_abort_propagates_down_chain
      (derive awaited 0 (.thenCall (.user fun x => .ok x) .none)).1 0 0 0 (.str "stop")
      ⟨rfl, by decide, rfl⟩ ⟨rfl, rfl⟩ rfl).2.1 2 2 2 (.user fun x => .ok x)
      (derive_chained awaited 0 0 (.thenCall (.user fun x => .ok x) .none) wellFormed_awaited rfl
        (by decide) (by decide) rfl trivial trivial),
    (c8_abort_propagates_down_chain
      (derive awaited 0 (.thenCall (.user fun x => .ok x) .none)).1 0 0 0 (.str "stop")
      ⟨rfl, by decide, rfl⟩ ⟨rfl, rfl⟩ rfl).2.2.2.1 1 1 1 .none returnsBad (.str "bad")
      (chained_derive awaited 0 0 1 1 1 ⟨1, .none, .user returnsBad⟩ 0 (.user fun x => .ok x)
        .none (derive_chained fresh 0 0 (.catchCall (.user returnsBad)) wellFormed_fresh rfl
          (by decide) (by decide) rfl trivial trivial) (by decide) (by decide) trivial trivial)
      rfl rfl,
    (c8_abort_propagates_down_chain (derive awaited 0 sampleFinally).1 0 0 0 (.str "stop")
      ⟨rfl, by decide, rfl⟩ ⟨rfl, rfl⟩ rfl).2.2.1 2 2 2 (fun _ => .ok .undefined) .undefined
      (derive_chained awaited 0 0 sampleFinally wellFormed_awaited rfl
        (by decide) (by decide) rfl trivial trivial) rfl rfl⟩

/-- C9. Combinator abort isolation: for each of `all`, `allSettled`, `any` and
`race` called on `AbortablePromise` with any inputs (promises that exist before
the call, plain or abortable, and other values), the result `g` is a new
`AbortablePromise` with the controller just created, and the call leaves every
earlier controller as it was. While the result is pending right after the call,
its resolving functions have not been called and its signal is not aborted. After
any later history in which the aggregate has not settled (the resolving
functions of `g` have not been called, `g` is pending) and the signal of `g` is
not aborted, `g.abort(r)` rejects `g` with the `AbortError` for `r`; it changes
no controller other than that of `g` (so the signal of every input keeps its
`aborted` flag), and it changes no promise that existed before the call (so no
input is settled by this abort). -/
theorem c9_combinator_abort_isolation (kind : Combinator) (s : State) (inputs : List Val)
    (events : List Event) (r : Val)
    (hin : ∀ y, Val.promise y ∈ inputs → y < s.nextPromise)
    (hu : Unresolved (afterCombinator kind s inputs events) s.nextPromise s.nextResolver)
    (hnot : ((afterCombinator kind s inputs events).ctrls s.nextCtrl).aborted = false) :
    (combinator kind s inputs).2 = s.nextPromise
      ∧ (∀ c, c < s.nextCtrl → (combinator kind s inputs).1.ctrls c = s.ctrls c)
      ∧ (((combinator kind s inputs).1.promises s.nextPromise).state = .pending →
          Unresolved (combinator kind s inputs).1 s.nextPromise s.nextResolver
            ∧ ((combinator kind s inputs).1.ctrls s.nextCtrl).aborted = false)
      ∧ AbortablePromise.signal (afterCombinator kind s inputs events) s.nextPromise
          = some s.nextCtrl
      ∧ ((AbortablePromise.abort (afterCombinator kind s inputs events) s.nextPromise
            r).promises s.nextPromise).state
          = .rejected (.abortError (nullish r (.str "aborted")) s.nextCtrl)
      ∧ (∀ c, c ≠ s.nextCtrl →
          (AbortablePromise.abort (afterCombinator kind s inputs events) s.nextPromise r).ctrls c
            = (afterCombinator kind s inputs events).ctrls c)
      ∧ (∀ x, x < s.nextPromise →
          (AbortablePromise.abort (afterCombinator kind s inputs events) s.nextPromise
            r).promises x = (afterCombinator kind s inputs events).promises x) := by
  obtain ⟨hw, hfen⟩ := afterCombinator_facts kind s inputs events
  obtain ⟨a1, a2, _⟩ := abort_fenced_frame s.nextPromise r hw.1 hfen
  refine ⟨by rw [combinator_eq], combinator_ctrls_before kind s inputs hin, fun hp => ?_, hw.1,
    (abort_rejects _ _ _ _ r hw hu hnot).1, a1, a2⟩
  have hid : (combinator kind s inputs).2 = s.nextPromise := by rw [combinator_eq]
  obtain ⟨_, h2, h3, h4, _⟩ := combinator_pending_facts kind s inputs hin (by rw [hid]; exact hp)
  exact ⟨⟨by rw [h2], by rw [h3]⟩, by rw [h4]⟩

/-- C9, witness: `AbortablePromise.all([a, b])` for a pending `AbortablePromise`
`a` and an already fulfilled plain promise `b`; two microtasks run, then the
result is aborted with `'I abort it'`. -/
theorem c9_combinator_abort_isolation_witness :
    ((∀ y, Val.promise y ∈ [Val.promise 0, Val.promise 1] → y < twoInputs.nextPromise)
      ∧ Unresolved (afterCombinator .all twoInputs [.promise 0, .promise 1] [.runJob, .runJob])
          twoInputs.nextPromise twoInputs.nextResolver
      ∧ ((afterCombinator .all twoInputs [.promise 0, .promise 1] [.runJob, .runJob]).ctrls
          twoInputs.nextCtrl).aborted = false) ∧
    ((combinator .all twoInputs [.promise 0, .promise 1]).2 = twoInputs.nextPromise
      ∧ (∀ c, c < twoInputs.nextCtrl →
          (combinator .all twoInputs [.promise 0, .promise 1]).1.ctrls c = twoInputs.ctrls c)
      ∧ (((combinator .all twoInputs [.promise 0, .promise 1]).1.promises
            twoInputs.nextPromise).state = .pending →
          Unresolved (combinator .all twoInputs [.promise 0, .promise 1]).1
              twoInputs.nextPromise twoInputs.nextResolver
            ∧ ((combinator .all twoInputs [.promise 0, .promise 1]).1.ctrls
                twoInputs.nextCtrl).aborted = false)
      ∧ AbortablePromise.signal
          (afterCombinator .all twoInputs [.promise 0, .promise 1] [.runJob, .runJob])
          twoInputs.nextPromise = some twoInputs.nextCtrl
      ∧ ((AbortablePromise.abort
            (afterCombinator .all twoInputs [.promise 0, .promise 1] [.runJob, .runJob])
            twoInputs.nextPromise (.str "I abort it")).promises twoInputs.nextPromise).state
          = .rejected (.abortError (nullish (.str "I abort it") (.str "aborted"))
              twoInputs.nextCtrl)
      ∧ (∀ c, c ≠ twoInputs.nextCtrl →
          (AbortablePromise.abort
            (afterCombinator .all twoInputs [.promise 0, .promise 1] [.runJob, .runJob])
            twoInputs.nextPromise (.str "I abort it")).ctrls c
            = (afterCombinator .all twoInputs [.promise 0, .promise 1]
                [.runJob, .runJob]).ctrls c)
      ∧ (∀ x, x < twoInputs.nextPromise →
          (AbortablePromise.abort
            (afterCombinator .all twoInputs [.promise 0, .promise 1] [.runJob, .runJob])
            twoInputs.nextPromise (.str "I abort it")).promises x
            = (afterCombinator .all twoInputs [.promise 0, .promise 1]
                [.runJob, .runJob]).promises x)) :=
  ⟨⟨twoInputs_valid, ⟨rfl, rfl⟩, rfl⟩,
    c9_combinator_abort_isolation .all twoInputs [.promise 0, .promise 1] [.runJob, .runJob] (.str "I abort it")
      twoInputs_valid ⟨rfl, rfl⟩ rfl⟩

/-- C10, counterexample to the claim as stated. After
`p = new AbortablePromise(resolve => resolve(1))` and `p.abort('late')` the
signal of `p` is aborted with reason `'late'`, and `p` is fulfilled with 1, not
rejected with an `AbortError`. -/
theorem c10_counterexample_settled_then_aborted :
    Wired fulfilledOne 0 0 0
      ∧ ((AbortablePromise.abort fulfilledOne 0 (.str "late")).ctrls 0).aborted = true
      ∧ ((AbortablePromise.abort fulfilledOne 0 (.str "late")).ctrls 0).reason = .str "late"
      ∧ ((AbortablePromise.abort fulfilledOne 0 (.str "late")).promises 0).state
          = .fulfilled (.num 1) :=
  ⟨⟨rfl, by decide, rfl⟩, rfl, rfl, rfl⟩

/-- C10, as amended. Let `p` be the `AbortablePromise` built by
`new AbortablePromise(executor, controller)` in any heap, and take the heap
after any later history in which `p` is still pending and not yet resolved and
its signal is not aborted. When the signal becomes aborted, by `p.abort(r)` or
by `abort(r)` on the controller, `p` is rejected with the `AbortError` built
from `signal.reason`, whose message is the stringified `signal.reason`; after
`p.abort(r)` that reason is `r`, or `'aborted'` when `r` is `null` or omitted.
The state is terminal: after any further history the signal is still aborted
with the same reason and `p` is still rejected with the same error. -/
theorem c10_abort_state_invariant (s : State) (acts : List ExecAct)
    (controller : Option Nat) (events later : List Event) (r : Val)
    (hctl : ∀ c, controller = some c → c < s.nextCtrl)
    (hu : Unresolved (afterConstruct s acts controller events) s.nextPromise s.nextResolver)
    (hnot : ((afterConstruct s acts controller events).ctrls
      (controllerOf s controller)).aborted = false) :
    (((AbortablePromise.abort (afterConstruct s acts controller events) s.nextPromise
          r).ctrls (controllerOf s controller)).aborted = true
        ∧ ((AbortablePromise.abort (afterConstruct s acts controller events) s.nextPromise
            r).ctrls (controllerOf s controller)).reason = nullish r (.str "aborted")
        ∧ ((AbortablePromise.abort (afterConstruct s acts controller events) s.nextPromise
            r).promises s.nextPromise).state
          = .rejected (.abortError (nullish r (.str "aborted")) (controllerOf s controller))
        ∧ (Val.abortError (nullish r (.str "aborted")) (controllerOf s controller)).message
          = some (nullish r (.str "aborted")).toJsString)
      ∧ (((signalAbort (afterConstruct s acts controller events) (controllerOf s controller)
            r).ctrls (controllerOf s controller)).aborted = true
        ∧ ((signalAbort (afterConstruct s acts controller events) (controllerOf s controller)
            r).promises s.nextPromise).state
          = .rejected (.abortError
              ((signalAbort (afterConstruct s acts controller events)
                (controllerOf s controller) r).ctrls (controllerOf s controller)).reason
              (controllerOf s controller)))
      ∧ (((run (AbortablePromise.abort (afterConstruct s acts controller events)
            s.nextPromise r) later).ctrls (controllerOf s controller)).aborted = true
        ∧ ((run (AbortablePromise.abort (afterConstruct s acts controller events)
            s.nextPromise r) later).ctrls (controllerOf s controller)).reason
          = nullish r (.str "aborted")
        ∧ ((run (AbortablePromise.abort (afterConstruct s acts controller events)
            s.nextPromise r) later).promises s.nextPromise).state
          = .rejected (.abortError (nullish r (.str "aborted"))
              (controllerOf s controller))) := by
  obtain ⟨hw, hp, hc⟩ := afterConstruct_wired s acts controller events hctl
  obtain ⟨h1, h2, h3⟩ := abort_rejects _ _ _ _ r hw hu hnot
  have hst := abort_steady (afterConstruct s acts controller events) s.nextPromise r
  have hg := run_grows (AbortablePromise.abort (afterConstruct s acts controller events)
    s.nextPromise r) later
  have hab := hg.aborted (controllerOf s controller) (by rw [hst.ctrlCount]; exact hc) h2
  refine ⟨⟨h2, h3, h1, rfl⟩, ⟨signalAbort_aborted _ _ r, ?_⟩, hab.1, hab.2.trans h3, ?_⟩
  · exact signalAbort_rejects_any _ _ _ _ r hw.2.1 hw.2.2 hu.2 hu.1 hnot
  · rw [hg.settled s.nextPromise (by rw [hst.promiseCount]; exact hp) (by rw [h1]; simp), h1]

/-- C10, witness: a controller is created, `p = new AbortablePromise(() => {}, controller)`
is built with it, a handler is registered and `p.then()` is called; then
`p.abort(5)`, and later a second abort and a call of `resolve`. -/
theorem c10_abort_state_invariant_witness :
    ((∀ c, some 0 = some c → c < oneController.nextCtrl)
      ∧ Unresolved (afterConstruct oneController [] (some 0) sampleHistory)
          oneController.nextPromise oneController.nextResolver
      ∧ ((afterConstruct oneController [] (some 0) sampleHistory).ctrls
          (controllerOf oneController (some 0))).aborted = false) ∧
    ((((AbortablePromise.abort (afterConstruct oneController [] (some 0) sampleHistory)
          oneController.nextPromise (.num 5)).ctrls
          (controllerOf oneController (some 0))).aborted = true
        ∧ ((AbortablePromise.abort (afterConstruct oneController [] (some 0) sampleHistory)
            oneController.nextPromise (.num 5)).ctrls
            (controllerOf oneController (some 0))).reason = nullish (.num 5) (.str "aborted")
        ∧ ((AbortablePromise.abort (afterConstruct oneController [] (some 0) sampleHistory)
            oneController.nextPromise (.num 5)).promises oneController.nextPromise).state
          = .rejected (.abortError (nullish (.num 5) (.str "aborted"))
              (controllerOf oneController (some 0)))
        ∧ (Val.abortError (nullish (.num 5) (.str "aborted"))
            (controllerOf oneController (some 0))).message
          = some (nullish (.num 5) (.str "aborted")).toJsString)
      ∧ (((signalAbort (afterConstruct oneController [] (some 0) sampleHistory)
            (controllerOf oneController (some 0)) (.num 5)).ctrls
            (controllerOf oneController (some 0))).aborted = true
        ∧ ((signalAbort (afterConstruct oneController [] (some 0) sampleHistory)
            (controllerOf oneController (some 0)) (.num 5)).promises
            oneController.nextPromise).state
          = .rejected (.abortError
              ((signalAbort (afterConstruct oneController [] (some 0) sampleHistory)
                (controllerOf oneController (some 0)) (.num 5)).ctrls
                (controllerOf oneController (some 0))).reason
              (controllerOf oneController (some 0))))
      ∧ (((run (AbortablePromise.abort (afterConstruct oneController [] (some 0) sampleHistory)
            oneController.nextPromise (.num 5)) laterHistory).ctrls
            (controllerOf oneController (some 0))).aborted = true
        ∧ ((run (AbortablePromise.abort (afterConstruct oneController [] (some 0) sampleHistory)
            oneController.nextPromise (.num 5)) laterHistory).ctrls
            (controllerOf oneController (some 0))).reason = nullish (.num 5) (.str "aborted")
        ∧ ((run (AbortablePromise.abort (afterConstruct oneController [] (some 0) sampleHistory)
            oneController.nextPromise (.num 5)) laterHistory).promises
            oneController.nextPromise).state
          = .rejected (.abortError (nullish (.num 5) (.str "aborted"))
              (controllerOf oneController (some 0))))) :=
  ⟨⟨oneController_exists, ⟨rfl, rfl⟩, rfl⟩,
    c10_abort_state_invariant oneController [] (some 0) sampleHistory laterHistory (.num 5)
      oneController_exists ⟨rfl, rfl⟩ rfl⟩

/-- C11, counterexample to the claim as stated. On the promise of
`new AbortablePromise(() => {})`, whose signal is not aborted, the call
`abort(null)` supplies the reason `null`, which is not `undefined`; yet the
reason of the signal is `'aborted'` afterwards, not `null`. -/
theorem c11_counterexample_null_reason :
    (fresh.promises 0).ctrl = some 0
      ∧ (fresh.ctrls 0).aborted = false
      ∧ Val.null ≠ Val.undefined
      ∧ ((AbortablePromise.abortCall fresh 0 .null).1.ctrls 0).aborted = true
      ∧ ((AbortablePromise.abortCall fresh 0 .null).1.ctrls 0).reason = .str "aborted"
      ∧ ((AbortablePromise.abortCall fresh 0 .null).1.ctrls 0).reason ≠ .null :=
  ⟨rfl, rfl, by decide, rfl, rfl, by decide⟩

/-- C11, as amended. For every `AbortablePromise` whose signal is not yet
aborted, `abort(r)` delegates to the controller with the reason `r ?? 'aborted'`:
after the call the signal is aborted; for every supplied reason `r` other than
`undefined` and `null` (the falsy values `0`, `''` and `false` included) the
reason of the signal is exactly `r`; when the reason is omitted (`undefined`) or
is `null`, the reason of the signal is `'aborted'`. The call returns no value
(`undefined`). -/
theorem c11_abort_reason_nullish (s : State) (p c : Nat) (r : Val)
    (hc : (s.promises p).ctrl = some c) (hnot : (s.ctrls c).aborted = false) :
    ((AbortablePromise.abortCall s p r).1.ctrls c).aborted = true
      ∧ ((AbortablePromise.abortCall s p r).1.ctrls c).reason = nullish r (.str "aborted")
      ∧ (r ≠ .undefined → r ≠ .null →
          ((AbortablePromise.abortCall s p r).1.ctrls c).reason = r)
      ∧ (r = .undefined ∨ r = .null →
          ((AbortablePromise.abortCall s p r).1.ctrls c).reason = .str "aborted")
      ∧ ((AbortablePromise.abortCall s p (.num 0)).1.ctrls c).reason = .num 0
      ∧ ((AbortablePromise.abortCall s p (.str "")).1.ctrls c).reason = .str ""
      ∧ ((AbortablePromise.abortCall s p (.bool false)).1.ctrls c).reason = .bool false
      ∧ (AbortablePromise.abortCall s p r).2 = .undefined := by
  have key : ∀ x : Val, ((AbortablePromise.abortCall s p x).1.ctrls c).reason
      = nullish x (.str "aborted") := by
    intro x
    simp only [AbortablePromise.abortCall, AbortablePromise.abort, hc]
    rw [signalAbort_reason s c _ hnot, abortReason_nullish]
  refine ⟨?_, key r, fun h1 h2 => ?_, fun h => ?_, key _, key _, key _, rfl⟩
  · simp only [AbortablePromise.abortCall, AbortablePromise.abort, hc]
    exact signalAbort_aborted s c _
  · rw [key r, nullish_of_supplied r _ h2 h1]
  · rw [key r]
    rcases h with h | h <;> subst h <;> rfl

/-- C11, witness: the promise of `new AbortablePromise(() => {})` aborted with
the reason `0`. -/
theorem c11_abort_reason_nullish_witness :
    ((fresh.promises 0).ctrl = some 0 ∧ (fresh.ctrls 0).aborted = false) ∧
    (((AbortablePromise.abortCall fresh 0 (.num 0)).1.ctrls 0).aborted = true
      ∧ ((AbortablePromise.abortCall fresh 0 (.num 0)).1.ctrls 0).reason
          = nullish (.num 0) (.str "aborted")
      ∧ (Val.num 0 ≠ .undefined → Val.num 0 ≠ .null →
          ((AbortablePromise.abortCall fresh 0 (.num 0)).1.ctrls 0).reason = .num 0)
      ∧ (Val.num 0 = .undefined ∨ Val.num 0 = .null →
          ((AbortablePromise.abortCall fresh 0 (.num 0)).1.ctrls 0).reason = .str "aborted")
      ∧ ((AbortablePromise.abortCall fresh 0 (.num 0)).1.ctrls 0).reason = .num 0
      ∧ ((AbortablePromise.abortCall fresh 0 (.str "")).1.ctrls 0).reason = .str ""
      ∧ ((AbortablePromise.abortCall fresh 0 (.bool false)).1.ctrls 0).reason = .bool false
      ∧ (AbortablePromise.abortCall fresh 0 (.num 0)).2 = .undefined) :=
  ⟨⟨rfl, rfl⟩, c11_abort_reason_nullish fresh 0 0 (.num 0) rfl rfl⟩

/-- C12. Construction order: for every executor and every controller argument,
the constructor registers its rejecting abort listener on the signal before it
invokes the executor, and it invokes the executor exactly once, synchronously,
with the resolving functions of the new promise: the heap the constructor
returns is the completion of that one call (a throw turned into `reject`), in
the heap where the listener is already registered and the promise is pending.
Consequently, for an injected controller `c` that is not yet aborted, an
executor that aborts `c` with reason `r` and afterwards calls `resolve(v)` (or
anything else) yields a promise that is rejected with the `AbortError` for `r`,
not fulfilled with `v`, and later calls of `resolve` and `reject` do not change
that. -/
theorem c12_construction_order (s : State) (c : Nat) (r v : Val) (post : List ExecAct)
    (later : List Settle) (hnot : (s.ctrls c).aborted = false) (hr : r ≠ .undefined) :
    (∀ (executor : Exec) (controller : Option Nat),
        (AbortablePromise.constructCap s executor controller).1
          = { finishExecutor s.nextResolver
                (executor s.nextResolver (AbortablePromise.executorEntry s controller)) with
              promises := set (finishExecutor s.nextResolver
                  (executor s.nextResolver
                    (AbortablePromise.executorEntry s controller))).promises
                s.nextPromise
                { ((finishExecutor s.nextResolver
                    (executor s.nextResolver
                      (AbortablePromise.executorEntry s controller))).promises
                      s.nextPromise) with
                  ctrl := some (controllerOf s controller) } })
      ∧ (∀ controller : Option Nat,
          Listener.reject s.nextResolver
              ∈ ((AbortablePromise.executorEntry s controller).ctrls
                  (controllerOf s controller)).listeners
            ∧ (AbortablePromise.executorEntry s controller).resolvers s.nextResolver
                = ⟨s.nextPromise, false⟩
            ∧ (AbortablePromise.executorEntry s controller).promises s.nextPromise
                = ⟨.pending, [], none⟩)
      ∧ ((AbortablePromise.constructCap s (runScript [.abort c r, .resolve v])
            (some c)).1.promises s.nextPromise).state = .rejected (.abortError r c)
      ∧ ((AbortablePromise.constructCap s (runScript [.abort c r, .resolve v])
            (some c)).1.promises s.nextPromise).state ≠ .fulfilled v
      ∧ ((applySettles s.nextResolver
            (AbortablePromise.constructCap s (runScript (.abort c r :: post)) (some c)).1
            later).promises s.nextPromise).state = .rejected (.abortError r c) := by
  have hre : abortReason r = r := abortReason_of_ne r hr
  have hgen := construct_abort_first s c r
  rw [hre] at hgen
  have h0 := hgen [.resolve v] [] hnot
  simp only [applySettles, List.foldl] at h0
  refine ⟨fun executor controller => by rw [constructCap_by_entry],
    executorEntry_facts s, h0, by rw [h0]; simp, hgen post later hnot⟩

/-- C12, witness: with the controller 0 of `new AbortController()`, the executor
`(resolve, reject) => { controller.abort('stop'); resolve(1) }`, and a later
call `resolve(3)`. -/
theorem c12_construction_order_witness :
    ((oneController.ctrls 0).aborted = false ∧ Val.str "stop" ≠ .undefined) ∧
    (((AbortablePromise.constructCap oneController (runScript abortThenResolve)
          (some 0)).1.promises oneController.nextPromise).state
        = .rejected (.abortError (.str "stop") 0)
      ∧ ((AbortablePromise.constructCap oneController (runScript abortThenResolve)
          (some 0)).1.promises oneController.nextPromise).state ≠ .fulfilled (.num 1)
      ∧ ((applySettles oneController.nextResolver
            (AbortablePromise.constructCap oneController (runScript abortThenResolve)
              (some 0)).1 [.resolve (.num 3)]).promises oneController.nextPromise).state
          = .rejected (.abortError (.str "stop") 0)) :=
  ⟨⟨rfl, by decide⟩,
    (c12_construction_order oneController 0 (.str "stop") (.num 1) [.resolve (.num 1)]
      [.resolve (.num 3)] rfl (by decide)).2.2.1,
    (c12_construction_order oneController 0 (.str "stop") (.num 1) [.resolve (.num 1)]
      [.resolve (.num 3)] rfl (by decide)).2.2.2.1,
    (c12_construction_order oneController 0 (.str "stop") (.num 1) [.resolve (.num 1)]
      [.resolve (.num 3)] rfl (by decide)).2.2.2.2⟩

/-- C13, counterexample to the claim as stated. With `c = new AbortController()`,
`inner = new Promise(() => {})`,
`p = new AbortablePromise(resolve => resolve(inner), c)` and
`q = new AbortablePromise(() => {}, c)`, both promises have the signal of `c`,
which is not aborted, and both are pending. After `c.abort('stop')` the promise
`q` is rejected with the `AbortError`, but `p` is still pending, also once the
microtask queue has drained, and also when the abort is made through `p.abort`
or `q.abort`. -/
theorem c13_counterexample_shared_locked_in :
    AbortablePromise.signal sharedLockedIn 1 = some 0
      ∧ AbortablePromise.signal sharedLockedIn 2 = some 0
      ∧ (sharedLockedIn.ctrls 0).aborted = false
      ∧ (sharedLockedIn.promises 1).state = .pending
      ∧ (sharedLockedIn.promises 2).state = .pending
      ∧ ((signalAbort sharedLockedIn 0 (.str "stop")).promises 2).state
          = .rejected (.abortError (.str "stop") 0)
      ∧ ((signalAbort sharedLockedIn 0 (.str "stop")).promises 1).state = .pending
      ∧ ((AbortablePromise.abort sharedLockedIn 1 (.str "stop")).promises 1).state = .pending
      ∧ ((AbortablePromise.abort sharedLockedIn 2 (.str "stop")).promises 1).state = .pending
      ∧ ((runJobs 2 (signalAbort sharedLockedIn 0 (.str "stop"))).promises 1).state = .pending
      ∧ (runJobs 2 (signalAbort sharedLockedIn 0 (.str "stop"))).jobs = [] :=
  ⟨rfl, rfl, rfl, rfl, rfl, rfl, rfl, rfl, rfl, rfl, rfl⟩

/-- C13, as amended. For every controller `c` and every two `AbortablePromise`s
`p` and `q` constructed with `c` (with any histories between and after the two
constructor calls), `p.signal` and `q.signal` are both the signal of `c`. While
that signal is not aborted, a single abort with a reason `r` (neither `null` nor
`undefined`), whether made through `p.abort(r)`, `q.abort(r)` or `c.abort(r)`
directly, rejects every one of `p` and `q` that is still pending and not yet
resolved with the `AbortError` for `r`. -/
theorem c13_shared_controller (s : State) (c : Nat) (acts1 : List ExecAct)
    (events1 : List Event) (acts2 : List ExecAct) (events2 : List Event) (r : Val)
    (hc : c < s.nextCtrl)
    (hnot : ((afterTwo s c acts1 events1 acts2 events2).ctrls c).aborted = false)
    (hnull : r ≠ .null) (hundef : r ≠ .undefined) :
    AbortablePromise.signal (afterTwo s c acts1 events1 acts2 events2) s.nextPromise = some c
      ∧ AbortablePromise.signal (afterTwo s c acts1 events1 acts2 events2)
          (afterConstruct s acts1 (some c) events1).nextPromise = some c
      ∧ s.nextPromise ≠ (afterConstruct s acts1 (some c) events1).nextPromise
      ∧ (Unresolved (afterTwo s c acts1 events1 acts2 events2) s.nextPromise s.nextResolver →
          ((AbortablePromise.abort (afterTwo s c acts1 events1 acts2 events2) s.nextPromise
              r).promises s.nextPromise).state = .rejected (.abortError r c)
            ∧ ((AbortablePromise.abort (afterTwo s c acts1 events1 acts2 events2)
                (afterConstruct s acts1 (some c) events1).nextPromise r).promises
                s.nextPromise).state = .rejected (.abortError r c)
            ∧ ((signalAbort (afterTwo s c acts1 events1 acts2 events2) c r).promises
                s.nextPromise).state = .rejected (.abortError r c))
      ∧ (Unresolved (afterTwo s c acts1 events1 acts2 events2)
            (afterConstruct s acts1 (some c) events1).nextPromise
            (afterConstruct s acts1 (some c) events1).nextResolver →
          ((AbortablePromise.abort (afterTwo s c acts1 events1 acts2 events2) s.nextPromise
              r).promises (afterConstruct s acts1 (some c) events1).nextPromise).state
              = .rejected (.abortError r c)
            ∧ ((AbortablePromise.abort (afterTwo s c acts1 events1 acts2 events2)
                (afterConstruct s acts1 (some c) events1).nextPromise r).promises
                (afterConstruct s acts1 (some c) events1).nextPromise).state
              = .rejected (.abortError r c)
            ∧ ((signalAbort (afterTwo s c acts1 events1 acts2 events2) c r).promises
                (afterConstruct s acts1 (some c) events1).nextPromise).state
              = .rejected (.abortError r c)) := by
  obtain ⟨hp, hq, hlt⟩ := afterTwo_wired s c acts1 events1 acts2 events2 hc
  have hn : nullish r (.str "aborted") = r := nullish_of_supplied r _ hnull hundef
  have key : ∀ x k, Wired (afterTwo s c acts1 events1 acts2 events2) x c k →
      Unresolved (afterTwo s c acts1 events1 acts2 events2) x k →
      ((AbortablePromise.abort (afterTwo s c acts1 events1 acts2 events2) s.nextPromise
          r).promises x).state = .rejected (.abortError r c)
        ∧ ((AbortablePromise.abort (afterTwo s c acts1 events1 acts2 events2)
            (afterConstruct s acts1 (some c) events1).nextPromise r).promises x).state
          = .rejected (.abortError r c)
        ∧ ((signalAbort (afterTwo s c acts1 events1 acts2 events2) c r).promises x).state
          = .rejected (.abortError r c) := by
    intro x k hw hu
    have a1 := abort_through _ x s.nextPromise c k r hw hu hnot hp.1
    have a2 := abort_through _ x (afterConstruct s acts1 (some c) events1).nextPromise c k r
      hw hu hnot hq.1
    rw [hn] at a1 a2
    exact ⟨a1, a2, (signalAbort_rejects _ x c k r hundef hw.2.1 hw.2.2 hu.2 hu.1 hnot).1⟩
  exact ⟨hp.1, hq.1, Nat.ne_of_lt hlt, key _ _ hp, key _ _ hq⟩

/-- C13, witness: after `c = new AbortController()`, the promises
`p = new AbortablePromise(() => {}, c)` and `q = new AbortablePromise(() => {}, c)`
with a history between and after; both are unresolved, and each of the three
aborts with `'stop'` rejects both. -/
theorem c13_shared_controller_witness :
    (0 < oneController.nextCtrl
      ∧ ((afterTwo oneController 0 [] quietHistory [] quietHistory).ctrls 0).aborted = false
      ∧ Val.str "stop" ≠ .null ∧ Val.str "stop" ≠ .undefined
      ∧ Unresolved (afterTwo oneController 0 [] quietHistory [] quietHistory)
          oneController.nextPromise oneController.nextResolver
      ∧ Unresolved (afterTwo oneController 0 [] quietHistory [] quietHistory)
          (afterConstruct oneController [] (some 0) quietHistory).nextPromise
          (afterConstruct oneController [] (some 0) quietHistory).nextResolver) ∧
    (AbortablePromise.signal (afterTwo oneController 0 [] quietHistory [] quietHistory)
        oneController.nextPromise = some 0
      ∧ AbortablePromise.signal (afterTwo oneController 0 [] quietHistory [] quietHistory)
          (afterConstruct oneController [] (some 0) quietHistory).nextPromise = some 0
      ∧ (((AbortablePromise.abort (afterTwo oneController 0 [] quietHistory [] quietHistory)
              oneController.nextPromise (.str "stop")).promises
              oneController.nextPromise).state = .rejected (.abortError (.str "stop") 0)
          ∧ ((AbortablePromise.abort (afterTwo oneController 0 [] quietHistory [] quietHistory)
              (afterConstruct oneController [] (some 0) quietHistory).nextPromise
              (.str "stop")).promises oneController.nextPromise).state
            = .rejected (.abortError (.str "stop") 0)
          ∧ ((signalAbort (afterTwo oneController 0 [] quietHistory [] quietHistory) 0
              (.str "stop")).promises oneController.nextPromise).state
            = .rejected (.abortError (.str "stop") 0))
      ∧ (((AbortablePromise.abort (afterTwo oneController 0 [] quietHistory [] quietHistory)
              oneController.nextPromise (.str "stop")).promises
              (afterConstruct oneController [] (some 0) quietHistory).nextPromise).state
            = .rejected (.abortError (.str "stop") 0)
          ∧ ((AbortablePromise.abort (afterTwo oneController 0 [] quietHistory [] quietHistory)
              (afterConstruct oneController [] (some 0) quietHistory).nextPromise
              (.str "stop")).promises
              (afterConstruct oneController [] (some 0) quietHistory).nextPromise).state
            = .rejected (.abortError (.str "stop") 0)
          ∧ ((signalAbort (afterTwo oneController 0 [] quietHistory [] quietHistory) 0
              (.str "stop")).promises
              (afterConstruct oneController [] (some 0) quietHistory).nextPromise).state
            = .rejected (.abortError (.str "stop") 0))) :=
  ⟨⟨by decide, rfl, by decide, by decide, ⟨rfl, rfl⟩, ⟨rfl, rfl⟩⟩,
    (c13_shared_controller oneController 0 [] quietHistory [] quietHistory (.str "stop")
      (by decide) rfl (by decide) (by decide)).1,
    (c13_shared_controller oneController 0 [] quietHistory [] quietHistory (.str "stop")
      (by decide) rfl (by decide) (by decide)).2.1,
    (c13_shared_controller oneController 0 [] quietHistory [] quietHistory (.str "stop")
      (by decide) rfl (by decide) (by decide)).2.2.2.1 ⟨rfl, rfl⟩,
    (c13_shared_controller oneController 0 [] quietHistory [] quietHistory (.str "stop")
      (by decide) rfl (by decide) (by decide)).2.2.2.2 ⟨rfl, rfl⟩⟩

/-- C14. Pre-aborted controller: for every controller `c` whose signal is
already aborted at construction time, `p = new AbortablePromise(executor, c)` is
never rejected by the abort path. In every later heap `p.signal` is the signal
of `c`, it reads `aborted` true, and `p.abort(r)` and `c.abort(r)` leave the heap
exactly as it is. Under any sequence of calls of the executor's `resolve` and
`reject`, of `abort` on the promise or on the controller, and of `onabort`, the
state of `p` is the state of the plain `new Promise(executor)` under the calls
of `resolve` and `reject` alone: the first settlement (for values that are not
promises), and pending when there is none; and no abort handler is ever
invoked: the log of invoked handlers stays as it was before the construction. -/
theorem c14_pre_aborted_controller (s : State) (c : Nat) (acts : List ExecAct)
    (events : List Event) (calls : List Call) (r : Val)
    (hc : c < s.nextCtrl) (hab : (s.ctrls c).aborted = true)
    (hno : ∀ a ∈ acts, a.isAbort = false) :
    AbortablePromise.signal (afterConstruct s acts (some c) events) s.nextPromise = some c
      ∧ ((afterConstruct s acts (some c) events).ctrls c).aborted = true
      ∧ AbortablePromise.abort (afterConstruct s acts (some c) events) s.nextPromise r
          = afterConstruct s acts (some c) events
      ∧ signalAbort (afterConstruct s acts (some c) events) c r
          = afterConstruct s acts (some c) events
      ∧ ((afterCalls s acts c calls).promises s.nextPromise).state
          = ((applySettles s.nextResolver (Promise.constructCap s (runScript acts)).1
              (settlesOf calls)).promises s.nextPromise).state
      ∧ ((∀ v, Settle.resolve v ∈ settleCalls acts ++ settlesOf calls → v.isPromise = false) →
          ((afterCalls s acts c calls).promises s.nextPromise).state
            = firstSettlement (settleCalls acts ++ settlesOf calls))
      ∧ (settleCalls acts = [] → settlesOf calls = [] →
          ((afterCalls s acts c calls).promises s.nextPromise).state = .pending)
      ∧ (afterCalls s acts c calls).log = s.log
      ∧ ((afterCalls s acts c calls).ctrls c).aborted = true := by
  have hctl : ∀ x, some c = some x → x < s.nextCtrl := by
    intro x hx
    injection hx with hx
    subst hx
    exact hc
  obtain ⟨hw, _, hcl⟩ := afterConstruct_wired s acts (some c) events hctl
  have hg := (abortable_constructCap_grows s (runScript acts) (some c)
    (fun k t => (runScript_steady acts k t).grows))
  have hab0 := (hg.aborted c hc hab).1
  have habt : ((afterConstruct s acts (some c) events).ctrls c).aborted = true :=
    ((hg.followedBy (run_grows _ events)).aborted c hc hab).1
  obtain ⟨k1, k2, k3⟩ := applyCalls_aborted s.nextPromise s.nextResolver c calls _ _
    (abortable_constructCap_cell s acts (some c) hno)
    (constructCap_wired s acts (some c) hctl).1.1 hab0
  have hP := cell_steps _ _ _ _ (settlesOf calls) (promise_constructCap_cell s acts hno)
  refine ⟨hw.1, habt, abort_of_aborted _ _ c r hw.1 habt, signalAbort_of_aborted _ c r habt,
    k1.2.1.trans hP.2.1.symm, fun hv => k1.2.1.trans (settleOutcome_plain _ _ hv),
    fun h1 h2 => ?_, k2.trans (constructCap_log s acts c hno), k3⟩
  have := k1.2.1
  rw [h1, h2] at this
  exact this

/-- C14, witness: `c = new AbortController()` is aborted, then
`p = new AbortablePromise(() => {}, c)` is built; a handler is registered, `p` is
aborted, the executor's timer calls `resolve(1)`, and `c` is aborted again: `p`
is fulfilled with 1 and no handler has run. -/
theorem c14_pre_aborted_controller_witness :
    (0 < abortedController.nextCtrl ∧ (abortedController.ctrls 0).aborted = true
      ∧ (∀ a ∈ ([] : List ExecAct), a.isAbort = false)
      ∧ ∀ v, Settle.resolve v ∈ settleCalls [] ++ settlesOf sampleCalls → v.isPromise = false) ∧
    (AbortablePromise.signal (afterConstruct abortedController [] (some 0) sampleHistory)
        abortedController.nextPromise = some 0
      ∧ ((afterConstruct abortedController [] (some 0) sampleHistory).ctrls 0).aborted = true
      ∧ AbortablePromise.abort (afterConstruct abortedController [] (some 0) sampleHistory)
          abortedController.nextPromise (.str "x")
          = afterConstruct abortedController [] (some 0) sampleHistory
      ∧ signalAbort (afterConstruct abortedController [] (some 0) sampleHistory) 0 (.str "x")
          = afterConstruct abortedController [] (some 0) sampleHistory
      ∧ ((afterCalls abortedController [] 0 sampleCalls).promises
            abortedController.nextPromise).state
          = ((applySettles abortedController.nextResolver
              (Promise.constructCap abortedController (runScript [])).1
              (settlesOf sampleCalls)).promises abortedController.nextPromise).state
      ∧ ((afterCalls abortedController [] 0 sampleCalls).promises
            abortedController.nextPromise).state
          = firstSettlement (settleCalls [] ++ settlesOf sampleCalls)
      ∧ (afterCalls abortedController [] 0 sampleCalls).log = abortedController.log
      ∧ ((afterCalls abortedController [] 0 sampleCalls).ctrls 0).aborted = true) :=
  ⟨⟨by decide, rfl, (fun _ h => nomatch h), sampleCalls_plain⟩,
    (c14_pre_aborted_controller abortedController 0 [] sampleHistory sampleCalls (.str "x")
      (by decide) rfl (fun _ h => nomatch h)).1,
    (c14_pre_aborted_controller abortedController 0 [] sampleHistory sampleCalls (.str "x")
      (by decide) rfl (fun _ h => nomatch h)).2.1,
    (c14_pre_aborted_controller abortedController 0 [] sampleHistory sampleCalls (.str "x")
      (by decide) rfl (fun _ h => nomatch h)).2.2.1,
    (c14_pre_aborted_controller abortedController 0 [] sampleHistory sampleCalls (.str "x")
      (by decide) rfl (fun _ h => nomatch h)).2.2.2.1,
    (c14_pre_aborted_controller abortedController 0 [] sampleHistory sampleCalls (.str "x")
      (by decide) rfl (fun _ h => nomatch h)).2.2.2.2.1,
    (c14_pre_aborted_controller abortedController 0 [] sampleHistory sampleCalls (.str "x")
      (by decide) rfl (fun _ h => nomatch h)).2.2.2.2.2.1 sampleCalls_plain,
    (c14_pre_aborted_controller abortedController 0 [] sampleHistory sampleCalls (.str "x")
      (by decide) rfl (fun _ h => nomatch h)).2.2.2.2.2.2.2.1,
    (c14_pre_aborted_controller abortedController 0 [] sampleHistory sampleCalls (.str "x")
      (by decide) rfl (fun _ h => nomatch h)).2.2.2.2.2.2.2.2⟩

/-- C15. `from` on a value without a callable `then`: for every value `x` that
is not a promise (`null`, `undefined`, booleans, numbers, strings, plain objects
with or without a `then` property that is not callable), the expression
`x.then(resolve)` in the executor of `from` throws a `TypeError` and leaves the
heap untouched; the throw happens inside the executor, where the host turns it
into a call of `reject`, so `AbortablePromise.from(x)` itself returns normally:
its value is a new `AbortablePromise` (with the controller just created) that is
rejected with that `TypeError`, not fulfilled with `x`, and no later history
changes that. -/
theorem c15_from_non_thenable (s : State) (x : Val) (events : List Event)
    (hx : x.isPromise = false) :
    (∀ (k : Nat) (t : State), AbortablePromise.fromExecutor x k t = (t, some .typeError))
      ∧ (AbortablePromise.fromValue s x).2 = .promise s.nextPromise
      ∧ instanceOfAbortable (AbortablePromise.fromValue s x).1
          (AbortablePromise.fromValue s x).2 = true
      ∧ AbortablePromise.signal (AbortablePromise.fromValue s x).1 s.nextPromise
          = some s.nextCtrl
      ∧ ((AbortablePromise.fromValue s x).1.promises s.nextPromise).state
          = .rejected .typeError
      ∧ ((AbortablePromise.fromValue s x).1.promises s.nextPromise).state ≠ .fulfilled x
      ∧ ((run (AbortablePromise.fromValue s x).1 events).promises s.nextPromise).state
          = .rejected .typeError := by
  obtain ⟨h1, h2⟩ := fromValue_non_thenable_state s x hx
  have hst : ((AbortablePromise.fromValue s x).1.promises s.nextPromise).state
      = .rejected .typeError := by rw [h1]
  refine ⟨fromExecutor_throws x hx, by rw [fromValue_non_thenable s x hx],
    (fromValue_instance s x).2, by simp [AbortablePromise.signal, h1], hst,
    by rw [hst]; simp, ?_⟩
  rw [(run_grows _ events).settled s.nextPromise h2 (by rw [hst]; simp), hst]

/-- C15, witness: `AbortablePromise.from(null)` in the empty heap, followed by
an abort of the result and a microtask. -/
theorem c15_from_non_thenable_witness :
    Val.null.isPromise = false ∧
    ((∀ (k : Nat) (t : State),
        AbortablePromise.fromExecutor .null k t = (t, some .typeError))
      ∧ (AbortablePromise.fromValue State.init .null).2 = .promise State.init.nextPromise
      ∧ instanceOfAbortable (AbortablePromise.fromValue State.init .null).1
          (AbortablePromise.fromValue State.init .null).2 = true
      ∧ AbortablePromise.signal (AbortablePromise.fromValue State.init .null).1
          State.init.nextPromise = some State.init.nextCtrl
      ∧ ((AbortablePromise.fromValue State.init .null).1.promises
          State.init.nextPromise).state = .rejected .typeError
      ∧ ((AbortablePromise.fromValue State.init .null).1.promises
          State.init.nextPromise).state ≠ .fulfilled .null
      ∧ ((run (AbortablePromise.fromValue State.init .null).1
            [.abort 0 (.str "x"), .runJob]).promises State.init.nextPromise).state
          = .rejected .typeError) :=
  ⟨rfl, c15_from_non_thenable State.init .null [.abort 0 (.str "x"), .runJob] rfl⟩

end JS
